import Mathlib

set_option maxRecDepth 100000

/-!
# Balance-state codec, JSONPath, transaction attributes, native contracts and code generator

The development embeds the functions of `pkg/core/state/native_state.go`,
`pkg/services/oracle/jsonpath/jsonpath.go`, `pkg/core/transaction/attribute.go`,
the test contract of `pkg/core/native_contract_test.go` and two functions of
`pkg/vm/compiler/codegen.go`, and proves the properties the specification
states about them.

The Go packages that these files import (`pkg/io`, `pkg/vm/stackitem`,
`pkg/bigint`, `pkg/crypto/keys`, and the dispatch of native contracts in
`pkg/core`) are not among the sources; they are modelled from the
specification, in the namespaces `io`, `stackitem`, `bigint`, `keys`, `interop`,
`native`, `contract` and `core`. The functions of the Go standard library that
the sources call are modelled in `strconv`, `strings`, `json`, `base64`,
`binary` and `token`.
A Go `panic` is an explicit outcome: functions that may panic return in the
monad `Go` (in `Run` for the JSONPath code), and a Go `(value, error)` result
is a pair of options.
-/

namespace NeoGo

/-- A byte. -/
abbrev Byte := Fin 256

/-- Errors carried by readers, writers and returned by decoders. -/
inductive Error
  | EOF
  | UnexpectedEOF
  | tooBig
  | unknownType (t : Byte)
  | notSerializable
  | invalidMapKey
  | invalidConversion
  | invalidKey
  | nestingLimit
  | attributeUsage (usage : Byte)
  | jsonInput
  | base64CorruptInput
  deriving DecidableEq

/-- The reasons for which the embedded Go code can panic; `fatal` stands for
`log.Fatalf`, which ends the process. -/
inductive Panic
  | typeAssertion
  | indexOutOfRange
  | nilDereference
  | integerTooBig
  | writerError (e : Error)
  | handlerError (e : Error)
  | invalidTrigger
  | sliceBounds
  | fatal
  deriving DecidableEq

/-- Go computations that either return or panic. -/
abbrev Go (α : Type) := Except Panic α

/-! ## pkg/bigint -/

namespace bigint

/-- Modelled from the spec: the byte holding the low eight bits of an integer
(two's complement), a helper of `bigint.ToBytes`. -/
def lowByte (n : Int) : Byte := ⟨(n % 256).toNat, by omega⟩

/-- Modelled from the spec: the loop of `bigint.ToBytes`, the little-endian
two's complement digits of `n` in shortest form; the first
argument bounds the number of digits. -/
def toBytesAux : Nat → Int → List Byte
  | 0, _ => []
  | fuel + 1, n =>
    if -128 ≤ n ∧ n < 128 then [lowByte n]
    else lowByte n :: toBytesAux fuel (n / 256)

/-- Modelled from the spec: `bigint.ToBytes` (pkg/bigint is not among the
sources). The length-prefixed payload of an Integer item is the shortest
little-endian two's complement form of the number; zero is the empty payload. -/
def ToBytes (n : Int) : List Byte :=
  if n = 0 then [] else toBytesAux n.natAbs n

/-- Modelled from the spec: `bigint.FromBytes`, the inverse reading of a
little-endian two's complement payload; the empty payload is zero. -/
def FromBytes : List Byte → Int
  | [] => 0
  | [b] => if b.val < 128 then (b.val : Int) else (b.val : Int) - 256
  | b :: c :: rest => (b.val : Int) + 256 * FromBytes (c :: rest)

end bigint

/-! ## pkg/io -/

namespace io

/-- Modelled from the spec: `io.MaxArraySize`, the default bound on a
length-prefixed byte payload (pkg/io is not among the sources). -/
def MaxArraySize : Nat := 0x1000000

/-- Modelled from the spec: little-endian digits of a number, exactly `k` bytes
(the fixed-width integers of pkg/io). -/
def natToLE : Nat → Nat → List Byte
  | 0, _ => []
  | k + 1, v => ⟨v % 256, Nat.mod_lt v (by decide)⟩ :: natToLE k (v / 256)

/-- Modelled from the spec: value of a little-endian byte sequence. -/
def leToNat : List Byte → Nat
  | [] => 0
  | b :: bs => b.val + 256 * leToNat bs

/-- Modelled from the spec: `io.PutVarUint`, the length prefix. Values below
0xfd take one byte; larger ones a marker byte 0xfd, 0xfe or 0xff followed by
2, 4 or 8 little-endian bytes. -/
def putVarUint (val : Nat) : List Byte :=
  if val < 0xfd then natToLE 1 val
  else if val < 0xFFFF then 0xfd :: natToLE 2 val
  else if val < 0xFFFFFFFF then 0xfe :: natToLE 4 val
  else 0xff :: natToLE 8 val

/-- Modelled from the spec: the bytes `BinWriter.WriteVarBytes` appends, the
length prefix followed by the payload. -/
def putVarBytes (b : List Byte) : List Byte := putVarUint b.length ++ b

/-- Modelled from the spec: `BinReader.ReadB` on the unread bytes: one byte, or
the end-of-input error. -/
def readB : List Byte → Except Error (Byte × List Byte)
  | [] => .error .EOF
  | b :: bs => .ok (b, bs)

/-- Modelled from the spec: `BinReader.ReadBytes` for `n` bytes; truncated
input is an error. -/
def readBytes (n : Nat) (bs : List Byte) : Except Error (List Byte × List Byte) :=
  if n ≤ bs.length then .ok (bs.take n, bs.drop n)
  else if bs = [] then .error .EOF else .error .UnexpectedEOF

/-- Modelled from the spec: `BinReader.ReadVarUint`, reading a length prefix. -/
def readVarUint (bs : List Byte) : Except Error (Nat × List Byte) :=
  match readB bs with
  | .error e => .error e
  | .ok (b, rest) =>
    let k := if b = 0xfd then 2 else if b = 0xfe then 4 else if b = 0xff then 8 else 0
    if k = 0 then .ok (b.val, rest)
    else match readBytes k rest with
      | .error e => .error e
      | .ok (d, rest) => .ok (leToNat d, rest)

/-- Modelled from the spec: `BinReader.ReadVarBytes(maxSize)`: a length prefix,
refused when above `maxSize`, then that many bytes. -/
def readVarBytes (maxSize : Nat) (bs : List Byte) : Except Error (List Byte × List Byte) :=
  match readVarUint bs with
  | .error e => .error e
  | .ok (n, rest) => if maxSize < n then .error .tooBig else readBytes n rest

/-- Modelled from the spec: `io.BinReader` over a byte buffer: the unread bytes
and the sticky error `Err` that the callers test. -/
structure BinReader where
  buf : List Byte
  Err : Option Error
  deriving DecidableEq

/-- Modelled from the spec: `io.NewBinReaderFromBuf`. -/
def NewBinReaderFromBuf (b : List Byte) : BinReader := ⟨b, none⟩

/-- Modelled from the spec: `io.BufBinWriter`: the bytes written so far and the
sticky error `Err`. -/
structure BinWriter where
  buf : List Byte
  Err : Option Error
  deriving DecidableEq

/-- Modelled from the spec: `io.NewBufBinWriter`. -/
def NewBufBinWriter : BinWriter := ⟨[], none⟩

/-- Modelled from the spec: `BufBinWriter.Bytes`. -/
def BinWriter.Bytes (w : BinWriter) : List Byte := w.buf

end io

/-! ## pkg/vm/stackitem -/

namespace stackitem

/-- Modelled from the spec: the stack item, a tagged variant over Boolean,
Integer, ByteString, Array, Struct, Map, Null and InteropHandle
(pkg/vm/stackitem is not among the sources). -/
inductive Item
  | Boolean (b : Bool)
  | BigInteger (v : Int)
  | ByteArray (b : List Byte)
  | Array (xs : List Item)
  | Struct (xs : List Item)
  | Map (kvs : List (Item × Item))
  | Null
  | Interop

/-- Modelled from the spec: tag byte of the Null item (`stackitem.AnyT`). -/
def AnyT : Byte := 0x00
/-- Modelled from the spec: tag byte of a Boolean item. -/
def BooleanT : Byte := 0x20
/-- Modelled from the spec: tag byte of an Integer item. -/
def IntegerT : Byte := 0x21
/-- Modelled from the spec: tag byte of a ByteString item. -/
def ByteArrayT : Byte := 0x28
/-- Modelled from the spec: tag byte of an Array item. -/
def ArrayT : Byte := 0x40
/-- Modelled from the spec: tag byte of a Struct item. -/
def StructT : Byte := 0x41
/-- Modelled from the spec: tag byte of a Map item. -/
def MapT : Byte := 0x48

/-- Modelled from the spec: the tag bytes the decoder knows, one for each of
Boolean, Integer, ByteString, Array, Struct, Map and Null. -/
def knownTag (t : Byte) : Bool :=
  t = AnyT || t = BooleanT || t = IntegerT || t = ByteArrayT || t = ArrayT || t = StructT
    || t = MapT

/-- Modelled from the spec: the fixed width of a stack-item integer, in bits. -/
def MaxBigIntegerSizeBits : Nat := 32 * 8

/-- Modelled from the spec: the largest ByteString payload. -/
def MaxSize : Nat := 1024 * 1024

/-- Modelled from the spec: a valid stack-item integer fits the fixed width in
two's complement: it is
at least -2^255 and below 2^255 (a non-negative `n` below the bound, or
`-(n + 1)` with `n` below the bound). -/
def validInteger : Int → Prop
  | .ofNat n => n < 2 ^ (MaxBigIntegerSizeBits - 1)
  | .negSucc n => n < 2 ^ (MaxBigIntegerSizeBits - 1)

instance (v : Int) : Decidable (validInteger v) :=
  match v with
  | .ofNat n => Nat.decLt n _
  | .negSucc n => Nat.decLt n _

/-- Modelled from the spec: `stackitem.NewBigInteger`, which panics on an
integer beyond the fixed width. -/
def NewBigInteger (v : Int) : Go Item :=
  if validInteger v then .ok (.BigInteger v) else .error .integerTooBig

/-- Modelled from the spec: `stackitem.NewByteArray`. -/
def NewByteArray (b : List Byte) : Item := .ByteArray b

/-- Modelled from the spec: `stackitem.NewStruct`. -/
def NewStruct (xs : List Item) : Item := .Struct xs

/-- Modelled from the spec: `Item.TryBytes`: the byte form of a primitive item,
an error for the other kinds. -/
def Item.TryBytes : Item → Except Error (List Byte)
  | .ByteArray b => .ok b
  | .Boolean b => .ok [if b then 1 else 0]
  | .BigInteger v => .ok (bigint.ToBytes v)
  | _ => .error .invalidConversion

/-- Modelled from the spec: only primitive items may be the key of a Map. -/
def Item.isMapKey : Item → Bool
  | .Boolean _ => true
  | .BigInteger _ => true
  | .ByteArray _ => true
  | _ => false

mutual
/-- Modelled from the spec: the canonical recursive binary tagging scheme: one
tag byte per item, then the payload (a length-prefixed byte payload for Integer
and ByteString, one byte for Boolean, nothing for Null, a count followed by the
elements for the containers). An InteropHandle cannot be encoded. -/
def encodeItem : Item → Except Error (List Byte)
  | .Boolean b => .ok [BooleanT, if b then 1 else 0]
  | .BigInteger v => .ok (IntegerT :: io.putVarBytes (bigint.ToBytes v))
  | .ByteArray b => .ok (ByteArrayT :: io.putVarBytes b)
  | .Array xs =>
    match encodeItems xs with
    | .ok bs => .ok (ArrayT :: (io.putVarUint xs.length ++ bs))
    | .error e => .error e
  | .Struct xs =>
    match encodeItems xs with
    | .ok bs => .ok (StructT :: (io.putVarUint xs.length ++ bs))
    | .error e => .error e
  | .Map kvs =>
    match encodePairs kvs with
    | .ok bs => .ok (MapT :: (io.putVarUint kvs.length ++ bs))
    | .error e => .error e
  | .Null => .ok [AnyT]
  | .Interop => .error .notSerializable
/-- Modelled from the spec: encoding of the elements of a container, in order. -/
def encodeItems : List Item → Except Error (List Byte)
  | [] => .ok []
  | x :: xs =>
    match encodeItem x, encodeItems xs with
    | .ok a, .ok b => .ok (a ++ b)
    | .error e, _ => .error e
    | _, .error e => .error e
/-- Modelled from the spec: encoding of the entries of a Map, key then value,
in order. -/
def encodePairs : List (Item × Item) → Except Error (List Byte)
  | [] => .ok []
  | (k, v) :: kvs =>
    match encodeItem k, encodeItem v, encodePairs kvs with
    | .ok a, .ok b, .ok c => .ok (a ++ b ++ c)
    | .error e, _, _ => .error e
    | _, .error e, _ => .error e
    | _, _, .error e => .error e
end

/-- Modelled from the spec: decodes `n` consecutive elements with the element
decoder `dec`. -/
def decodeItems (dec : List Byte → Except Error (Item × List Byte)) :
    Nat → List Byte → Except Error (List Item × List Byte)
  | 0, bs => .ok ([], bs)
  | n + 1, bs =>
    match dec bs with
    | .error e => .error e
    | .ok (x, rest) =>
      match decodeItems dec n rest with
      | .error e => .error e
      | .ok (xs, rest) => .ok (x :: xs, rest)

/-- Modelled from the spec: decodes `n` consecutive Map entries with the element
decoder `dec`; a key that is not primitive is an error. -/
def decodePairs (dec : List Byte → Except Error (Item × List Byte)) :
    Nat → List Byte → Except Error (List (Item × Item) × List Byte)
  | 0, bs => .ok ([], bs)
  | n + 1, bs =>
    match dec bs with
    | .error e => .error e
    | .ok (k, rest) =>
      match dec rest with
      | .error e => .error e
      | .ok (v, rest) =>
        if k.isMapKey then
          match decodePairs dec n rest with
          | .error e => .error e
          | .ok (kvs, rest) => .ok ((k, v) :: kvs, rest)
        else .error .invalidMapKey

/-- Modelled from the spec: the decoder of the tagging scheme. It fails with an
error on truncated input, on an unknown tag byte, on an integer payload beyond
the fixed width and on a ByteString beyond `MaxSize`. The first argument bounds
the nesting depth; the length of the input is always enough, since every level
of nesting consumes its tag byte. -/
def decodeItem : Nat → List Byte → Except Error (Item × List Byte)
  | _, [] => .error .EOF
  | 0, _ :: _ => .error .nestingLimit
  | fuel + 1, t :: bs =>
    if t = AnyT then .ok (.Null, bs)
    else if t = BooleanT then
      match io.readB bs with
      | .error e => .error e
      | .ok (b, rest) => .ok (.Boolean (b != 0), rest)
    else if t = IntegerT then
      match io.readVarBytes (MaxBigIntegerSizeBits / 8) bs with
      | .error e => .error e
      | .ok (d, rest) => .ok (.BigInteger (bigint.FromBytes d), rest)
    else if t = ByteArrayT then
      match io.readVarBytes MaxSize bs with
      | .error e => .error e
      | .ok (d, rest) => .ok (.ByteArray d, rest)
    else if t = ArrayT then
      match io.readVarUint bs with
      | .error e => .error e
      | .ok (n, rest) =>
        match decodeItems (decodeItem fuel) n rest with
        | .error e => .error e
        | .ok (xs, rest) => .ok (.Array xs, rest)
    else if t = StructT then
      match io.readVarUint bs with
      | .error e => .error e
      | .ok (n, rest) =>
        match decodeItems (decodeItem fuel) n rest with
        | .error e => .error e
        | .ok (xs, rest) => .ok (.Struct xs, rest)
    else if t = MapT then
      match io.readVarUint bs with
      | .error e => .error e
      | .ok (n, rest) =>
        match decodePairs (decodeItem fuel) n rest with
        | .error e => .error e
        | .ok (kvs, rest) => .ok (.Map kvs, rest)
    else .error (.unknownType t)

/-- Modelled from the spec: `stackitem.EncodeBinaryStackItem`: appends the
encoding of the item to the writer, or sets the writer's error. -/
def EncodeBinaryStackItem (item : Item) (w : io.BinWriter) : io.BinWriter :=
  if w.Err.isSome then w
  else match encodeItem item with
    | .ok bs => { w with buf := w.buf ++ bs }
    | .error e => { w with Err := some e }

/-- Modelled from the spec: `stackitem.DecodeBinaryStackItem`: reads one item
from the reader. On failure the reader's error is set and no item is returned
(Go returns an item that must not be used). -/
def DecodeBinaryStackItem (r : io.BinReader) : Option Item × io.BinReader :=
  if r.Err.isSome then (none, r)
  else match decodeItem r.buf.length r.buf with
    | .ok (item, rest) => (some item, { r with buf := rest })
    | .error e => (none, { r with Err := some e })

end stackitem

/-! ## pkg/crypto/keys -/

namespace keys

/-- Modelled from the spec: the key library (pkg/crypto/keys is not among the
sources), taken as a parameter: the type of valid public keys, their byte form
`PublicKey.Bytes`, and the parser `NewPublicKeyFromBytes`, which gives back a
valid key from its byte form. The byte form is at most 33 bytes long (the
compressed form of a point). -/
structure Scheme where
  PublicKey : Type
  Bytes : PublicKey → List Byte
  NewPublicKeyFromBytes : List Byte → Except Error PublicKey
  parse_Bytes : ∀ k, NewPublicKeyFromBytes (Bytes k) = .ok k
  Bytes_length : ∀ k, (Bytes k).length ≤ 33

/-- Modelled from the spec: the prime of the field of the curve P-256. -/
def p256P : Nat := 0xFFFFFFFF00000001000000000000000000000000FFFFFFFFFFFFFFFFFFFFFFFF

/-- Modelled from the spec: the coefficient b of the curve P-256,
y^2 = x^3 - 3x + b. -/
def p256B : Nat := 0x5AC635D8AA3A93E7B3EBBD55769886BC651D06B0CC53B0F63BCE3C3E27D2604B

/-- Modelled from the spec: a point in affine coordinates, or the point at
infinity. -/
inductive Point
  | infinity
  | affine (X Y : Nat)
  deriving DecidableEq

/-- Modelled from the spec: big-endian bytes of a number, exactly `k` bytes. -/
def beBytes (k v : Nat) : List Byte := (io.natToLE k v).reverse

/-- Modelled from the spec: value of a big-endian byte sequence. -/
def beToNat (bs : List Byte) : Nat := io.leToNat bs.reverse

/-- Modelled from the spec: the byte form of a key, the compressed point: one
byte 0x02 or 0x03 telling the parity of Y, then the 32 bytes of X; the point at
infinity is the single byte 0x00. -/
def Point.Bytes : Point → List Byte
  | .infinity => [0x00]
  | .affine x y => (if y % 2 = 0 then 0x02 else 0x03) :: beBytes 32 x

/-- Modelled from the spec: modular power by squaring (for the square root in
the field); the first argument after the modulus bounds the
number of bits of the exponent. -/
def modPow (m : Nat) : Nat → Nat → Nat → Nat
  | 0, _, _ => 1 % m
  | fuel + 1, b, e =>
    if e = 0 then 1 % m
    else if e % 2 = 1 then b * modPow m fuel (b * b % m) (e / 2) % m
    else modPow m fuel (b * b % m) (e / 2)

/-- Modelled from the spec: the right-hand side of the curve equation at `x`. -/
def curveRhs (x : Nat) : Nat := (x ^ 3 + (p256P - 3) * x + p256B) % p256P

/-- Modelled from the spec: the Y coordinate with the given parity over `x`,
when there is one. -/
def decodeCompressedY (x ylsb : Nat) : Option Nat :=
  let y := modPow p256P 256 (curveRhs x) ((p256P + 1) / 4)
  if y * y % p256P = curveRhs x then
    some (if y % 2 = ylsb then y else (p256P - y) % p256P)
  else none

/-- Modelled from the spec: the parser of the byte form of a point: compressed
(0x02, 0x03), uncompressed (0x04) or infinity (0x00); anything else, a wrong
length or a point off the curve is an error. -/
def decodePoint : List Byte → Except Error Point
  | [] => .error .EOF
  | t :: rest =>
    if t = 0x00 then (if rest = [] then .ok .infinity else .error .invalidKey)
    else if t = 0x02 ∨ t = 0x03 then
      if rest.length = 32 then
        match decodeCompressedY (beToNat rest) (t.val % 2) with
        | some y => .ok (.affine (beToNat rest) y)
        | none => .error .invalidKey
      else .error .invalidKey
    else if t = 0x04 then
      if rest.length = 64 then
        let x := beToNat (rest.take 32)
        let y := beToNat (rest.drop 32)
        if y * y % p256P = curveRhs x then .ok (.affine x y) else .error .invalidKey
      else .error .invalidKey
    else .error .invalidKey

/-- Decidable equality of results. -/
instance {ε α : Type} [DecidableEq ε] [DecidableEq α] : DecidableEq (Except ε α) := fun a b =>
  match a, b with
  | .ok x, .ok y => if h : x = y then isTrue (by rw [h]) else isFalse (fun e => h (by cases e; rfl))
  | .error x, .error y =>
    if h : x = y then isTrue (by rw [h]) else isFalse (fun e => h (by cases e; rfl))
  | .ok _, .error _ => isFalse (fun e => by cases e)
  | .error _, .ok _ => isFalse (fun e => by cases e)

/-- Modelled from the spec: the keys of the curve P-256, the values that the
parser returns: a key is a point that the parser gives back from its byte form.
The point at infinity is among them. -/
def P256 : Scheme where
  PublicKey := { k : Point // decodePoint k.Bytes = .ok k }
  Bytes := fun k => k.val.Bytes
  NewPublicKeyFromBytes := fun bs =>
    match decodePoint bs with
    | .error e => .error e
    | .ok k => if h : decodePoint k.Bytes = .ok k then .ok ⟨k, h⟩ else .error .invalidKey
  parse_Bytes := by
    intro k
    have h := k.property
    simp only [h, dite_true]
  Bytes_length := by
    rintro ⟨_ | ⟨x, y⟩, _⟩
    · exact Nat.le_of_ble_eq_true rfl
    · show ((io.natToLE 32 x).reverse.length + 1) ≤ 33
      rw [List.length_reverse]
      exact Nat.le_of_ble_eq_true rfl

/-- Modelled from the spec: the X coordinate of the base point of P-256. -/
def p256Gx : Nat := 0x6B17D1F2E12C4247F8BCE6E563A440F277037D812DEB33A0F4A13945D898C296

/-- Modelled from the spec: the Y coordinate of the base point of P-256. -/
def p256Gy : Nat := 0x4FE342E2FE1A7F9B8EE7EB4A7C0F9E162BCE33576B315ECECBB6406837BF51F5

/-- Modelled from the spec: the base point of P-256, a valid key. -/
def basePoint : P256.PublicKey := ⟨.affine p256Gx p256Gy, by decide⟩

/-- A valid public key of P-256: a point with coordinates below the prime of
the field that satisfies the equation of the curve; the point at infinity is
none. -/
def Point.onCurve : Point → Bool
  | .infinity => false
  | .affine x y => decide (x < p256P) && decide (y < p256P) && decide (y * y % p256P = curveRhs x)

/-- Modelled from the spec: the uncompressed byte form of a point, which the
parser reads as well: the byte 0x04, then the 32 bytes of X and the 32 bytes
of Y. -/
def Point.UncompressedBytes : Point → List Byte
  | .infinity => [0x00]
  | .affine x y => 0x04 :: (beBytes 32 x ++ beBytes 32 y)

end keys

/-! ## pkg/core/state/native_state.go -/

namespace state

open stackitem io

/-- Go's type assertion `item.(*stackitem.Struct)` followed by `Value()`: the
elements of a Struct, a panic for any other kind. -/
def assertStruct : Item → Go (List Item)
  | .Struct xs => .ok xs
  | _ => .error .typeAssertion

/-- Go's `item.Value().([]stackitem.Item)`: the elements of an Array or of a
Struct (both hold a slice of items), a panic for any other kind. -/
def assertItems : Item → Go (List Item)
  | .Array xs => .ok xs
  | .Struct xs => .ok xs
  | _ => .error .typeAssertion

/-- Go's `item.Value().(*big.Int)`: the number of an Integer item, a panic for
any other kind. -/
def assertBigInt : Item → Go Int
  | .BigInteger v => .ok v
  | _ => .error .typeAssertion

/-- Go's slice indexing `xs[i]`, which panics out of range. -/
def index (xs : List Item) (i : Nat) : Go Item :=
  match xs.get? i with
  | some x => .ok x
  | none => .error .indexOutOfRange

/-- Go's `(*big.Int).Int64`: the low 64 bits of the magnitude as an int64,
negated when the number is negative. -/
def Int64 (x : Int) : Int :=
  let wrap := fun (z : Int) => (z + 2 ^ 63) % 2 ^ 64 - 2 ^ 63
  let v := wrap ((x.natAbs % 2 ^ 64 : Nat) : Int)
  if x < 0 then wrap (-v) else v

/-- Go's conversion `uint32(v)` of an int64. -/
def uint32 (v : Int) : Nat := (v % 2 ^ 32).toNat

/-- Balance state of a NEP17-token. -/
structure NEP17BalanceState where
  Balance : Int
  deriving DecidableEq

/-- Balance state of a NEO-token; `BalanceHeight` is a uint32. -/
structure NEOBalanceState (K : keys.Scheme) extends NEP17BalanceState where
  BalanceHeight : Nat
  VoteTo : Option K.PublicKey

/-- The value of `new(NEP17BalanceState)`. -/
def NEP17BalanceState.new : NEP17BalanceState := { Balance := 0 }

/-- The value of `new(NEOBalanceState)`. -/
def NEOBalanceState.new (K : keys.Scheme) : NEOBalanceState K :=
  { Balance := 0, BalanceHeight := 0, VoteTo := none }

/-- Embedding of `NEP17BalanceState.toStackItem`. -/
def NEP17BalanceState.toStackItem (s : NEP17BalanceState) : Go Item := do
  let b ← NewBigInteger s.Balance
  pure (NewStruct [b])

/-- Embedding of `NEP17BalanceState.fromStackItem`. -/
def NEP17BalanceState.fromStackItem (s : NEP17BalanceState) (item : Item) :
    Go NEP17BalanceState := do
  let xs ← assertStruct item
  let x ← index xs 0
  let v ← assertBigInt x
  pure { s with Balance := v }

/-- Embedding of `NEP17BalanceState.EncodeBinary`. -/
def NEP17BalanceState.EncodeBinary (s : NEP17BalanceState) (w : BinWriter) : Go BinWriter := do
  let si ← s.toStackItem
  pure (EncodeBinaryStackItem si w)

/-- Embedding of `NEP17BalanceState.DecodeBinary`: the state and the reader
after the call. -/
def NEP17BalanceState.DecodeBinary (s : NEP17BalanceState) (r : BinReader) :
    Go (NEP17BalanceState × BinReader) :=
  match DecodeBinaryStackItem r with
  | (si, r) =>
    if r.Err.isSome then pure (s, r)
    else match si with
      | none => throw .nilDereference
      | some si => do
        let s ← s.fromStackItem si
        pure (s, r)

/-- Embedding of `NEP17BalanceStateFromBytes`: the Go result `(state, error)`. -/
def NEP17BalanceStateFromBytes (b : List Byte) :
    Go (Option NEP17BalanceState × Option Error) :=
  let balance := NEP17BalanceState.new
  if b.length = 0 then pure (some balance, none)
  else do
    let r := NewBinReaderFromBuf b
    let (balance, r) ← balance.DecodeBinary r
    if r.Err.isSome then pure (none, r.Err)
    else pure (some balance, none)

/-- Embedding of `NEP17BalanceState.Bytes`. -/
def NEP17BalanceState.Bytes (s : NEP17BalanceState) : Go (List Byte) := do
  let w := NewBufBinWriter
  let w ← s.EncodeBinary w
  match w.Err with
  | some e => throw (.writerError e)
  | none => pure w.Bytes

variable {K : keys.Scheme}

/-- Embedding of `NEOBalanceState.toStackItem`. -/
def NEOBalanceState.toStackItem (s : NEOBalanceState K) : Go Item := do
  let base ← s.toNEP17BalanceState.toStackItem
  let result ← assertStruct base
  let h ← NewBigInteger (s.BalanceHeight : Int)
  let result := result ++ [h]
  match s.VoteTo with
  | some k => pure (.Struct (result ++ [NewByteArray (K.Bytes k)]))
  | none => pure (.Struct (result ++ [Item.Null]))

/-- Embedding of `NEOBalanceState.fromStackItem`: the state after the call and
the returned error. -/
def NEOBalanceState.fromStackItem (s : NEOBalanceState K) (item : Item) :
    Go (NEOBalanceState K × Option Error) := do
  let structItem ← assertItems item
  let s := { s with Balance := ← assertBigInt (← index structItem 0) }
  let s := { s with BalanceHeight := uint32 (Int64 (← assertBigInt (← index structItem 1))) }
  match ← index structItem 2 with
  | .Null => pure ({ s with VoteTo := none }, none)
  | third =>
    match third.TryBytes with
    | .error err => pure (s, some err)
    | .ok bs =>
      match K.NewPublicKeyFromBytes bs with
      | .error err => pure (s, some err)
      | .ok pub => pure ({ s with VoteTo := some pub }, none)

/-- Embedding of `NEOBalanceState.EncodeBinary`. -/
def NEOBalanceState.EncodeBinary (s : NEOBalanceState K) (w : BinWriter) : Go BinWriter := do
  let si ← s.toStackItem
  pure (EncodeBinaryStackItem si w)

/-- Embedding of `NEOBalanceState.DecodeBinary`: the state and the reader after
the call; the error of `fromStackItem` is stored in the reader. -/
def NEOBalanceState.DecodeBinary (s : NEOBalanceState K) (r : BinReader) :
    Go (NEOBalanceState K × BinReader) :=
  match DecodeBinaryStackItem r with
  | (si, r) =>
    if r.Err.isSome then pure (s, r)
    else match si with
      | none => throw .nilDereference
      | some si => do
        let (s, err) ← s.fromStackItem si
        pure (s, { r with Err := err })

/-- Embedding of `NEOBalanceStateFromBytes`: the Go result `(state, error)`. -/
def NEOBalanceStateFromBytes (K : keys.Scheme) (b : List Byte) :
    Go (Option (NEOBalanceState K) × Option Error) :=
  let balance := NEOBalanceState.new K
  if b.length = 0 then pure (some balance, none)
  else do
    let r := NewBinReaderFromBuf b
    let (balance, r) ← balance.DecodeBinary r
    if r.Err.isSome then pure (none, r.Err)
    else pure (some balance, none)

/-- Embedding of `NEOBalanceState.Bytes`. -/
def NEOBalanceState.Bytes (s : NEOBalanceState K) : Go (List Byte) := do
  let w := NewBufBinWriter
  let w ← s.EncodeBinary w
  match w.Err with
  | some e => throw (.writerError e)
  | none => pure w.Bytes

end state


/-! ## pkg/services/oracle/jsonpath/jsonpath.go -/

namespace jsonpath

/-- The ways in which the embedded path evaluator can stop without returning: a
Go run-time panic (index out of range, slice bounds out of range, the explicit
panic of `processUnion`), or the iteration budget of a modelled loop running
out (`fuel`, which the theorems show never happens). -/
inductive Fault
  | indexOutOfRange
  | sliceBounds
  | unionToken
  | fuel
  deriving DecidableEq

/-- Computations of the path evaluator: a result or a fault. -/
abbrev Run (α : Type) := Except Fault α

/-- A Go value of type `interface{}` as produced by `json.Unmarshal`: null, a
boolean, a number, a string, `[]interface{}` or `map[string]interface{}`. The
code never looks inside a scalar. A map is given by its entries; the keys of
a Go map are distinct. -/
inductive Value
  | null
  | bool (b : Bool)
  | number (n : Int)
  | string (s : String)
  | array (xs : List Value)
  | object (kvs : List (String × Value))

/-- A Go slice `[]interface{}`: the nil slice or a slice with its elements. -/
inductive Slice
  | nil
  | of (xs : List Value)

/-- The elements of a slice; the nil slice has none. -/
def Slice.toList : Slice → List Value
  | .nil => []
  | .of xs => xs

/-- Go's `len(s)`. -/
def Slice.len (s : Slice) : Nat := s.toList.length

/-- Go's `append(s, xs...)`: appending nothing to the nil slice gives the nil
slice. -/
def Slice.append : Slice → List Value → Slice
  | .nil, [] => .nil
  | .nil, x :: xs => .of (x :: xs)
  | .of ys, xs => .of (ys ++ xs)

/-- Go's map lookup `v, ok := obj[k]`. -/
def lookup : List (String × Value) → String → Option Value
  | [], _ => none
  | (k, v) :: kvs, name => if k = name then some v else lookup kvs name

/-- Go's map index `obj[k]`, the zero value (nil) for a missing key. -/
def mapIndex (kvs : List (String × Value)) (k : String) : Value :=
  match lookup kvs k with
  | some v => v
  | none => .null

/-- Go's string comparison `a < b` on the characters of the strings, first
difference first. -/
def lessChars : List Char → List Char → Bool
  | _, [] => false
  | [], _ :: _ => true
  | a :: as, b :: bs => a.toNat < b.toNat || (a.toNat = b.toNat && lessChars as bs)

/-- Go's `a <= b` on strings. -/
def leString (a b : String) : Prop := lessChars b.data a.data = false

instance : DecidableRel leString := fun a b =>
  decEq (lessChars b.data a.data) false

/-- Go's `sort.Strings`: the keys in ascending order. -/
def sortStrings (keys : List String) : List String := keys.insertionSort leString

mutual
/-- The nesting height of a value: 1 for a scalar, one more than the highest
element for an array or a map. -/
def Value.height : Value → Nat
  | .array xs => heightList xs + 1
  | .object kvs => heightEntries kvs + 1
  | _ => 1
/-- The height of the highest value of a list. -/
def heightList : List Value → Nat
  | [] => 0
  | x :: xs => max x.height (heightList xs)
/-- The height of the highest value of the entries of a map. -/
def heightEntries : List (String × Value) → Nat
  | [] => 0
  | (_, v) :: kvs => max v.height (heightEntries kvs)
end

/-- Kinds of tokens of a path (`pathTokenType`). -/
inductive pathTokenType
  | pathRoot
  | pathDot
  | pathLeftBracket
  | pathRightBracket
  | pathAsterisk
  | pathComma
  | pathColon
  | pathIdentifier
  | pathString
  | pathNumber
  deriving DecidableEq

/-- Embedding of `pathParser`: the path (its characters) and the position to
start parsing from. -/
structure pathParser where
  s : List Char
  i : Nat
  deriving DecidableEq

/-- Go's slice expression `s[a:b]` on a string. -/
def substr (s : List Char) (a b : Nat) : List Char := (s.drop a).take (b - a)

/-- The test `'0' <= c && c <= '9'`. -/
def isDigit (c : Char) : Bool := '0'.toNat ≤ c.toNat && c.toNat ≤ '9'.toNat

/-- The test `c == '_' || ('a' <= c && c <= 'z') || ('A' <= c && c <= 'Z')`. -/
def isIdentStart (c : Char) : Bool :=
  c = '_' || ('a'.toNat ≤ c.toNat && c.toNat ≤ 'z'.toNat)
    || ('A'.toNat ≤ c.toNat && c.toNat ≤ 'Z'.toNat)

/-- The characters that continue an identifier. -/
def isIdentChar (c : Char) : Bool := isIdentStart c || isDigit c

/-- Embedding of `pathParser.parseString`: the loop stops at the first quote
after the opening one. -/
def pathParser.parseString (p : pathParser) : List Char × Nat × Bool :=
  let rest := p.s.drop (p.i + 1)
  let n := (rest.takeWhile (fun c => c != '\'')).length
  if n < rest.length then
    let end_ := p.i + 1 + n
    (substr p.s p.i (end_ + 1), end_ + 1 - p.i, true)
  else ([], 0, false)

/-- Embedding of `pathParser.parseIdent`: the loop stops at the first character
that does not continue an identifier. -/
def pathParser.parseIdent (p : pathParser) : List Char × Nat × Bool :=
  let end_ := p.i + 1 + ((p.s.drop (p.i + 1)).takeWhile isIdentChar).length
  (substr p.s p.i end_, end_ - p.i, true)

/-- Embedding of `pathParser.parseNumber`: the loop stops at the first character
that is not a digit. -/
def pathParser.parseNumber (p : pathParser) : List Char × Nat × Bool :=
  let end_ := p.i + 1 + ((p.s.drop (p.i + 1)).takeWhile isDigit).length
  (substr p.s p.i end_, end_ - p.i, true)

/-- Embedding of `pathParser.nextToken`: the token (kind, text, ok) and the
parser after the call. Reading `p.s[p.i]` past the end of the path is a
run-time panic. -/
def pathParser.nextToken (p : pathParser) :
    Run ((pathTokenType × List Char × Bool) × pathParser) :=
  match p.s.get? p.i with
  | none => .error .indexOutOfRange
  | some c =>
    let single := fun (typ : pathTokenType) =>
      (.ok ((typ, [], true), { p with i := p.i + 1 }) :
        Run ((pathTokenType × List Char × Bool) × pathParser))
    let multi := fun (typ : pathTokenType) (r : List Char × Nat × Bool) =>
      (.ok ((typ, r.1, r.2.2), { p with i := p.i + r.2.1 }) :
        Run ((pathTokenType × List Char × Bool) × pathParser))
    if c = '$' then single .pathRoot
    else if c = '.' then single .pathDot
    else if c = '[' then single .pathLeftBracket
    else if c = ']' then single .pathRightBracket
    else if c = '*' then single .pathAsterisk
    else if c = ',' then single .pathComma
    else if c = ':' then single .pathColon
    else if c = '\'' then multi .pathString p.parseString
    else if isIdentStart c then multi .pathIdentifier p.parseIdent
    else if c = '-' || isDigit c then multi .pathNumber p.parseNumber
    else .ok ((.pathRoot, [], false), p)

end jsonpath

/-! ## The Go standard library functions used by jsonpath.go -/

namespace strconv

/-- Value of a sequence of decimal digits. -/
def digitsValue (ds : List Char) : Nat :=
  ds.foldl (fun acc c => 10 * acc + (c.toNat - '0'.toNat)) 0

/-- Go's `strconv.ParseInt(s, 10, bitSize)`: an optional sign, then at least one
decimal digit and nothing else; a value outside the signed range of `bitSize`
bits is an error (`none`). -/
def ParseInt (s : List Char) (bitSize : Nat) : Option Int :=
  let neg := s.head? = some '-'
  let ds := if s.head? = some '-' ∨ s.head? = some '+' then s.tail else s
  if ds = [] ∨ ¬ ds.all jsonpath.isDigit then none
  else
    let un := digitsValue ds
    if neg then (if un ≤ 2 ^ (bitSize - 1) then some (-(un : Int)) else none)
    else (if un < 2 ^ (bitSize - 1) then some (un : Int) else none)

end strconv

namespace strings

/-- Go's `strings.Trim(s, cutset)`: all leading and trailing characters of the
cutset removed. -/
def Trim (s cutset : List Char) : List Char :=
  ((s.dropWhile (fun c => cutset.contains c)).reverse.dropWhile
    (fun c => cutset.contains c)).reverse

end strings

namespace json

/-- Value of a hexadecimal digit, if it is one. -/
def hexVal (c : Char) : Option Nat :=
  if '0'.toNat ≤ c.toNat ∧ c.toNat ≤ '9'.toNat then some (c.toNat - '0'.toNat)
  else if 'a'.toNat ≤ c.toNat ∧ c.toNat ≤ 'f'.toNat then some (c.toNat - 'a'.toNat + 10)
  else if 'A'.toNat ≤ c.toNat ∧ c.toNat ≤ 'F'.toNat then some (c.toNat - 'A'.toNat + 10)
  else none

/-- The four hexadecimal digits after a backslash-u, as a UTF-16 code unit. -/
def getu4 : List Char → Option Nat
  | a :: b :: c :: d :: _ =>
    match hexVal a, hexVal b, hexVal c, hexVal d with
    | some x, some y, some z, some w => some (((x * 16 + y) * 16 + z) * 16 + w)
    | _, _, _, _ => none
  | _ => none

/-- A unit of a JSON string literal: a character written as such (or by a
one-letter escape), or the UTF-16 code unit of a backslash-u escape. -/
inductive StrUnit
  | ch (c : Char)
  | cu (u : Nat)

/-- The body of a JSON string literal up to its closing quote: its units and
what follows the closing quote. A control character, a bad escape or a missing
closing quote is an error. -/
def scanBody : List Char → Option (List StrUnit × List Char)
  | [] => none
  | c :: rest =>
    if c = '"' then some ([], rest)
    else if c.toNat < 0x20 then none
    else if c = '\\' then
      match rest with
      | [] => none
      | e :: rest2 =>
        let simple := fun (ch : Char) =>
          match scanBody rest2 with
          | some (out, tl) => some (StrUnit.ch ch :: out, tl)
          | none => none
        if e = '"' then simple '"'
        else if e = '\\' then simple '\\'
        else if e = '/' then simple '/'
        else if e = 'b' then simple (Char.ofNat 8)
        else if e = 'f' then simple (Char.ofNat 12)
        else if e = 'n' then simple '\n'
        else if e = 'r' then simple '\r'
        else if e = 't' then simple '\t'
        else if e = 'u' then
          match rest2 with
          | a :: b :: c2 :: d :: rest3 =>
            match getu4 (a :: b :: c2 :: d :: []), scanBody rest3 with
            | some u, some (out, tl) => some (StrUnit.cu u :: out, tl)
            | _, _ => none
          | _ => none
        else none
    else
      match scanBody rest with
      | some (out, tl) => some (StrUnit.ch c :: out, tl)
      | none => none

/-- The characters of a sequence of units: a high surrogate escape directly
followed by a low surrogate escape is one character, any other surrogate is
U+FFFD. The first argument is a high surrogate waiting for its pair. -/
def combine : Option Nat → List StrUnit → List Char
  | none, [] => []
  | some _, [] => [Char.ofNat 0xFFFD]
  | none, .ch c :: rest => c :: combine none rest
  | some _, .ch c :: rest => Char.ofNat 0xFFFD :: c :: combine none rest
  | pend, .cu u :: rest =>
    let fresh := fun (tl : List Char → List Char) =>
      if 0xD800 ≤ u ∧ u < 0xDC00 then tl (combine (some u) rest)
      else if 0xDC00 ≤ u ∧ u < 0xE000 then tl (Char.ofNat 0xFFFD :: combine none rest)
      else tl (Char.ofNat u :: combine none rest)
    match pend with
    | some hi =>
      if 0xDC00 ≤ u ∧ u < 0xE000 then
        Char.ofNat (0x10000 + (hi - 0xD800) * 0x400 + (u - 0xDC00)) :: combine none rest
      else fresh (fun l => Char.ofNat 0xFFFD :: l)
    | none => fresh (fun l => l)

/-- JSON white space. -/
def isSpace (c : Char) : Bool := c = ' ' || c = '\t' || c = '\r' || c = '\n'

/-- Go's `json.Unmarshal(data, &s)` for a string target, on an input that
starts with a quote (as `jsonpath.go` builds it): the decoded string when the
input is one JSON string literal followed by white space only. -/
def UnmarshalString (data : List Char) : Option String :=
  match data with
  | c :: rest =>
    if c = '"' then
      match scanBody rest with
      | some (out, tl) => if tl.all isSpace then some (String.mk (combine none out)) else none
      | none => none
    else none
  | [] => none

end json

namespace jsonpath

/-- The body of the loop of `descent` for one selected object: an array is
flattened, a map gives its values in the order of its sorted keys, any other
value gives nothing. -/
def descentStep (values : Slice) : Value → Slice
  | .array xs => values.append xs
  | .object kvs =>
    (sortStrings (kvs.map Prod.fst)).foldl
      (fun values k => values.append [mapIndex kvs k]) values
  | _ => values

/-- Embedding of `pathParser.descent`: descends one level down. -/
def descent (objs : Slice) : Slice × Bool :=
  (objs.toList.foldl descentStep Slice.nil, true)

/-- The body of the inner loop of `descentIdent`: the value under one name is
appended when the name is a key of the map. -/
def identStep (kvs : List (String × Value)) (values : Slice) (name : String) : Slice :=
  match lookup kvs name with
  | some v => values.append [v]
  | none => values

/-- The body of the outer loop of `descentIdent` for one selected object. -/
def descentIdentStep (names : List String) (values : Slice) : Value → Slice
  | .object kvs => names.foldl (identStep kvs) values
  | _ => values

/-- Embedding of `pathParser.descentIdent`: field access by name on the maps. -/
def descentIdent (objs : Slice) (names : List String) : Slice × Bool :=
  (objs.toList.foldl (descentIdentStep names) Slice.nil, true)

/-- The inner loop of `descentIndex` over the indices, on one array. The index
expression `obj[j]` panics for a negative `j`. -/
def indexLoop (obj : List Value) : List Int → Slice → Run Slice
  | [], values => .ok values
  | j :: indices, values =>
    if j < obj.length then
      if j < 0 then .error .indexOutOfRange
      else
        match obj.get? j.toNat with
        | some v => indexLoop obj indices (values.append [v])
        | none => .error .indexOutOfRange
    else indexLoop obj indices values

/-- The outer loop of `descentIndex` over the selected objects. -/
def descentIndexLoop (indices : List Int) : List Value → Slice → Run Slice
  | [], values => .ok values
  | .array obj :: objs, values =>
    match indexLoop obj indices values with
    | .ok values => descentIndexLoop indices objs values
    | .error e => .error e
  | _ :: objs, values => descentIndexLoop indices objs values

/-- Embedding of `pathParser.descentIndex`: array access by index. -/
def descentIndex (objs : Slice) (indices : List Int) : Run (Slice × Bool) :=
  match descentIndexLoop indices objs.toList Slice.nil with
  | .ok values => .ok (values, true)
  | .error e => .error e

/-- The loop of `descentRange` over the selected objects. The slice expression
`arr[subStart:subEnd]` panics for a negative `subStart`. -/
def descentRangeLoop (start end_ : Int) : List Value → Slice → Run (Slice × Bool)
  | [], values => .ok (values, true)
  | .array arr :: objs, values =>
    let subStart := if start < 0 then start + arr.length else start
    let subEnd := if end_ ≤ 0 then end_ + arr.length else end_
    let subEnd := if subEnd > arr.length then (arr.length : Int) else subEnd
    let count := subEnd - subStart
    if count < 0 then .ok (Slice.nil, false)
    else if subStart < 0 then .error .sliceBounds
    else
      descentRangeLoop start end_ objs
        (values.append ((arr.drop subStart.toNat).take (subEnd - subStart).toNat))
  | _ :: objs, values => descentRangeLoop start end_ objs values

/-- Embedding of `pathParser.descentRange`: sub-slices of the arrays. -/
def descentRange (objs : Slice) (start end_ : Int) : Run (Slice × Bool) :=
  descentRangeLoop start end_ objs.toList Slice.nil

/-- The loop `for len(objs) > 0` of `recursiveDescent`; the first argument
bounds the number of iterations. -/
def recursiveDescentLoop (typ : pathTokenType) (val : String) :
    Nat → Slice → Slice → Run Slice
  | 0, objs, values => if objs.len > 0 then .error .fuel else .ok values
  | fuel + 1, objs, values =>
    if objs.len > 0 then
      if typ = .pathAsterisk then
        let objs := (descent objs).1
        recursiveDescentLoop typ val fuel objs (values.append objs.toList)
      else
        let newObjs := (descentIdent objs [val]).1
        let values := values.append newObjs.toList
        recursiveDescentLoop typ val fuel (descent objs).1 values
    else .ok values

/-- Embedding of `pathParser.recursiveDescent`. The loop runs at most as many
times as the selected objects are high. -/
def pathParser.recursiveDescent (p : pathParser) (objs : Slice) :
    Run ((Slice × Bool) × pathParser) :=
  match p.nextToken with
  | .error e => .error e
  | .ok ((typ, val, ok), p) =>
    if !ok then .ok ((Slice.nil, false), p)
    else if typ ≠ .pathAsterisk ∧ typ ≠ .pathIdentifier then .ok ((Slice.nil, false), p)
    else
      match recursiveDescentLoop typ (String.mk val) (heightList objs.toList)
          objs Slice.nil with
      | .ok values => .ok ((values, true), p)
      | .error e => .error e

/-- Embedding of `pathParser.processDot`. -/
def pathParser.processDot (p : pathParser) (objs : Slice) :
    Run ((Slice × Bool) × pathParser) :=
  match p.nextToken with
  | .error e => .error e
  | .ok ((typ, value, ok), p) =>
    if !ok then .ok ((Slice.nil, false), p)
    else
      match typ with
      | .pathAsterisk => .ok (descent objs, p)
      | .pathDot => p.recursiveDescent objs
      | .pathIdentifier => .ok (descentIdent objs [String.mk value], p)
      | _ => .ok ((Slice.nil, false), p)

/-- The conversion of the number tokens of a union, in order, stopping at the
first that `strconv.ParseInt` refuses. -/
def parseIndices : List (List Char) → Option (List Int)
  | [] => some []
  | item :: items =>
    match strconv.ParseInt item 32 with
    | none => none
    | some index =>
      match parseIndices items with
      | none => none
      | some values => some (index :: values)

/-- The conversion of the string tokens of a union, in order, stopping at the
first that `json.Unmarshal` refuses. -/
def parseNames : List (List Char) → Option (List String)
  | [] => some []
  | item :: items =>
    match json.UnmarshalString ('"' :: (strings.Trim item ['\''] ++ ['"'])) with
    | none => none
    | some s =>
      match parseNames items with
      | none => none
      | some names => some (s :: names)

/-- The token loop of `processUnion`: the items read, or `none` where the code
returns `nil, false`; the first argument bounds the number of iterations. -/
def unionLoop (firstTyp : pathTokenType) :
    Nat → pathParser → List (List Char) → Run (Option (List (List Char)) × pathParser)
  | 0, _, _ => .error .fuel
  | fuel + 1, p, items =>
    match p.nextToken with
    | .error e => .error e
    | .ok ((typ, val, ok), p) =>
      if !ok ∨ typ ≠ firstTyp then .ok (none, p)
      else
        let items := items ++ [val]
        match p.nextToken with
        | .error e => .error e
        | .ok ((typ, _, ok), p) =>
          if !ok then .ok (none, p)
          else if typ = .pathRightBracket then .ok (some items, p)
          else if typ ≠ .pathComma then .ok (none, p)
          else unionLoop firstTyp fuel p items

/-- Embedding of `pathParser.processUnion`. The token loop runs at most once
for every character left in the path. -/
def pathParser.processUnion (p : pathParser) (objs : Slice) (firstTyp : pathTokenType)
    (firstVal : List Char) : Run ((Slice × Bool) × pathParser) :=
  match unionLoop firstTyp (p.s.length - p.i + 1) p [firstVal] with
  | .error e => .error e
  | .ok (none, p) => .ok ((Slice.nil, false), p)
  | .ok (some items, p) =>
    match firstTyp with
    | .pathNumber =>
      match parseIndices items with
      | none => .ok ((Slice.nil, false), p)
      | some values =>
        match descentIndex objs values with
        | .ok r => .ok (r, p)
        | .error e => .error e
    | .pathString =>
      match parseNames items with
      | none => .ok ((Slice.nil, false), p)
      | some names => .ok (descentIdent objs names, p)
    | _ => .error .unionToken

/-- Embedding of `pathParser.processSlice`. -/
def pathParser.processSlice (p : pathParser) (objs : Slice) (start : Int) :
    Run ((Slice × Bool) × pathParser) :=
  match p.nextToken with
  | .error e => .error e
  | .ok ((typ, val, ok), p) =>
    if !ok then .ok ((Slice.nil, false), p)
    else
      match typ with
      | .pathNumber =>
        match p.nextToken with
        | .error e => .error e
        | .ok ((typ, _, ok), p) =>
          if !ok ∨ typ ≠ .pathRightBracket then .ok ((Slice.nil, false), p)
          else
            match strconv.ParseInt val 32 with
            | none => .ok ((Slice.nil, false), p)
            | some index =>
              match descentRange objs start index with
              | .ok r => .ok (r, p)
              | .error e => .error e
      | .pathRightBracket =>
        match descentRange objs start 0 with
        | .ok r => .ok (r, p)
        | .error e => .error e
      | _ => .ok ((Slice.nil, false), p)

/-- Embedding of `pathParser.processLeftBracket`. -/
def pathParser.processLeftBracket (p : pathParser) (objs : Slice) :
    Run ((Slice × Bool) × pathParser) :=
  match p.nextToken with
  | .error e => .error e
  | .ok ((typ, value, ok), p) =>
    if !ok then .ok ((Slice.nil, false), p)
    else
      match typ with
      | .pathAsterisk =>
        match p.nextToken with
        | .error e => .error e
        | .ok ((typ, _, ok), p) =>
          if !ok ∨ typ ≠ .pathRightBracket then .ok ((Slice.nil, false), p)
          else .ok (descent objs, p)
      | .pathColon => p.processSlice objs 0
      | .pathNumber =>
        match p.nextToken with
        | .error e => .error e
        | .ok ((subTyp, _, ok), p) =>
          if !ok then .ok ((Slice.nil, false), p)
          else
            match subTyp with
            | .pathColon =>
              match strconv.ParseInt value 32 with
              | none => .ok ((Slice.nil, false), p)
              | some index => p.processSlice objs index
            | .pathComma => p.processUnion objs .pathNumber value
            | .pathRightBracket =>
              match strconv.ParseInt value 32 with
              | none => .ok ((Slice.nil, false), p)
              | some index =>
                match descentIndex objs [index] with
                | .ok r => .ok (r, p)
                | .error e => .error e
            | _ => .ok ((Slice.nil, false), p)
      | .pathString =>
        match p.nextToken with
        | .error e => .error e
        | .ok ((subTyp, _, ok), p) =>
          if !ok then .ok ((Slice.nil, false), p)
          else
            match subTyp with
            | .pathComma => p.processUnion objs .pathString value
            | .pathRightBracket =>
              match json.UnmarshalString ('"' :: (strings.Trim value ['\''] ++ ['"'])) with
              | none => .ok ((Slice.nil, false), p)
              | some s => .ok (descentIdent objs [s], p)
            | _ => .ok ((Slice.nil, false), p)
      | _ => .ok ((Slice.nil, false), p)

/-- The loop `for p.i < len(p.s)` of `Get`; the first argument bounds the
number of iterations. -/
def getLoop : Nat → pathParser → Slice → Run (Slice × Bool)
  | 0, p, objs => if p.i < p.s.length then .error .fuel else .ok (objs, true)
  | fuel + 1, p, objs =>
    if p.i < p.s.length then
      match p.nextToken with
      | .error e => .error e
      | .ok ((typ, _, ok), p) =>
        if !ok then .ok (Slice.nil, false)
        else
          let step : Run ((Slice × Bool) × pathParser) :=
            match typ with
            | .pathDot => p.processDot objs
            | .pathLeftBracket => p.processLeftBracket objs
            | _ => .ok ((Slice.nil, false), p)
          match step with
          | .error e => .error e
          | .ok ((objs, ok), p) =>
            if !ok then .ok (Slice.nil, false)
            else getLoop fuel p objs
    else .ok (objs, true)

/-- Embedding of `Get`: the substructures of `value` selected by `path`, with
the flag `ok`. The loop runs at most once for every character of the path. -/
def Get (path : String) (value : Value) : Run (Slice × Bool) :=
  let p : pathParser := { s := path.data, i := 0 }
  match p.nextToken with
  | .error e => .error e
  | .ok ((typ, _, ok), p) =>
    if !ok then .ok (Slice.nil, false)
    else if typ ≠ .pathRoot then .ok (Slice.nil, false)
    else
      match getLoop p.s.length p (Slice.of [value]) with
      | .error e => .error e
      | .ok (objs, false) => .ok (objs, false)
      | .ok (Slice.nil, true) => .ok (Slice.of [], true)
      | .ok (objs, true) => .ok (objs, true)

end jsonpath

/-! ## The selections that the segments of a path stand for -/

namespace jsonpath

/-- Specification of the wildcard step: the values one level below a value,
the elements of an array in array order, the values of a map in ascending
order of their keys, nothing for a scalar. -/
def children : Value → List Value
  | .array xs => xs
  | .object kvs => (sortStrings (kvs.map Prod.fst)).map (mapIndex kvs)
  | _ => []

/-- Specification of field access: the values of a map under the given names,
in the order of the names, absent names left out; nothing for a value that is
not a map. -/
def fieldsOf (names : List String) : Value → List Value
  | .object kvs => names.filterMap (lookup kvs)
  | _ => []

/-- Specification of index access: the elements of an array at the given
positions, in the order of the positions, positions at or beyond the length
left out; nothing for a value that is not an array. -/
def elemsAt (indices : List Nat) : Value → List Value
  | .array xs => indices.filterMap (fun i => xs.get? i)
  | _ => []

/-- Specification of a slice: the resolved start on an array of length `n`. -/
def sliceStart (s : Int) (n : Nat) : Int := if s < 0 then s + n else s

/-- Specification of a slice: the resolved end on an array of length `n`. -/
def sliceEnd (e : Int) (n : Nat) : Int := if e ≤ 0 then e + n else min e n

/-- Specification of a slice: the elements of an array from the resolved start
up to the resolved end; nothing for a value that is not an array. -/
def sliceOf (s e : Int) : Value → List Value
  | .array xs =>
    (xs.drop (sliceStart s xs.length).toNat).take
      (sliceEnd e xs.length - sliceStart s xs.length).toNat
  | _ => []

/-- Specification of recursive descent: the `d`-fold wildcard descent of a
list of values. -/
def level : Nat → List Value → List Value
  | 0, objs => objs
  | d + 1, objs => level d (objs.flatMap children)

/-- Specification of recursive descent: what one level contributes to a recursive descent: for `..*` the values of
the next level, for `..name` the fields by that name of the values of the level. -/
def levelPart (typ : pathTokenType) (val : String) (objs : List Value) (d : Nat) : List Value :=
  if typ = .pathAsterisk then level (d + 1) objs
  else (level d objs).flatMap (fieldsOf [val])

/-- A call on the parser `p` stays within the bound of its modelled loops, and
when it returns, the parser has only moved forward on the same path. -/
def Forward {α : Type} (p : pathParser) (r : Run (α × pathParser)) : Prop :=
  r ≠ .error .fuel ∧ ∀ res q, r = .ok (res, q) → q.s = p.s ∧ p.i ≤ q.i

/-- The texts that `nextToken` reads as one number token: a minus sign or a
digit, then digits. -/
def numberText : List Char → Bool
  | [] => false
  | c :: ds => (c = '-' || isDigit c) && ds.all isDigit

/-- The texts that `nextToken` reads as one identifier token: a letter or an
underscore, then letters, digits and underscores. -/
def identText : List Char → Bool
  | [] => false
  | c :: cs => isIdentStart c && cs.all isIdentChar

/-- The characters that stand for themselves between the single quotes of a
string token: no quote of either kind, no backslash, no control character. -/
def plainChar (c : Char) : Bool :=
  c != '\'' && c != '"' && c != '\\' && decide (0x20 ≤ c.toNat)

/-- The string token for a key of plain characters: the key between single
quotes. -/
def quoted (key : List Char) : List Char := '\'' :: (key ++ ['\''])

/-- Specification of a slice: the number that the text of a bound stands for, 0
for an omitted bound, the 32-bit value of a number text. -/
def sliceBound (t : List Char) : Option Int :=
  if t = [] then some 0
  else if numberText t then strconv.ParseInt t 32
  else none

/-- The items of a union as they are written in a path, separated by commas. -/
def unionText (items : List (List Char)) : List Char := [','].intercalate items

end jsonpath

/-! ## pkg/core/transaction/attribute.go -/

namespace io

/-- Modelled from the spec: `BinWriter.WriteB`: appends one byte, unless the
writer already carries an error (pkg/io is not among the sources). -/
def BinWriter.WriteB (w : BinWriter) (b : Byte) : BinWriter :=
  if w.Err.isSome then w else { w with buf := w.buf ++ [b] }

/-- Modelled from the spec: `BinReader.ReadBytes(buf)`: fills `buf` from the
unread bytes, unless the reader already carries an error. When fewer bytes are
left than `buf` holds, what is left is copied, the input is used up and the
reader's error is set. Reading into an empty `buf` reads nothing and sets no
error. -/
def BinReader.ReadBytes (r : BinReader) (buf : List Byte) : List Byte × BinReader :=
  if r.Err.isSome then (buf, r)
  else match readBytes buf.length r.buf with
    | .ok (bs, rest) => (bs, { r with buf := rest })
    | .error e => (r.buf ++ buf.drop r.buf.length, { buf := [], Err := some e })

/-- Modelled from the spec: `BinReader.ReadB`: one byte read with `ReadBytes`,
zero when the reader carries an error afterwards. -/
def BinReader.ReadB (r : BinReader) : Byte × BinReader :=
  match r.ReadBytes [0] with
  | (u8, r) => if r.Err.isSome then (0, r) else (u8.headD 0, r)

end io

namespace base64

/-- The alphabet of Go's `base64.StdEncoding`. -/
def encodeStd : List Char :=
  "ABCDEFGHIJKLMNOPQRSTUVWXYZabcdefghijklmnopqrstuvwxyz0123456789+/".data

/-- The character for a group of six bits. -/
def enc (n : Nat) : Char := encodeStd.getD n 'A'

/-- The six bits that a character of the alphabet stands for. -/
def dec (c : Char) : Option Nat :=
  let i := encodeStd.indexOf c
  if i < 64 then some i else none

/-- The byte with the low eight bits of a number (Go's `byte(v)`). -/
def byteOf (n : Nat) : Byte := ⟨n % 256, Nat.mod_lt n (by decide)⟩

/-- Go's `base64.StdEncoding.EncodeToString`: three bytes give four characters;
a last group of one or two bytes gives two or three characters and is padded
with `=` to four. -/
def EncodeToString : List Byte → List Char
  | [] => []
  | [a] => [enc (a.val / 4), enc (a.val % 4 * 16), '=', '=']
  | [a, b] => [enc (a.val / 4), enc (a.val % 4 * 16 + b.val / 16), enc (b.val % 16 * 4), '=']
  | a :: b :: c :: rest =>
    enc (a.val / 4) :: enc (a.val % 4 * 16 + b.val / 16) ::
      enc (b.val % 16 * 4 + c.val / 64) :: enc (c.val % 64) :: EncodeToString rest

/-- The groups of four characters of a base64 text without line breaks: every
group gives three bytes, except that the last group may end in `==` (one byte)
or in `=` (two bytes). Any other text is corrupt. -/
def decodeQuanta : List Char → Except Error (List Byte)
  | [] => .ok []
  | a :: b :: c :: d :: rest =>
    match dec a, dec b with
    | some x, some y =>
      if c = '=' then
        if d = '=' ∧ rest = [] then .ok [byteOf (x * 4 + y / 16)]
        else .error .base64CorruptInput
      else
        match dec c with
        | none => .error .base64CorruptInput
        | some z =>
          if d = '=' then
            if rest = [] then .ok [byteOf (x * 4 + y / 16), byteOf (y % 16 * 16 + z / 4)]
            else .error .base64CorruptInput
          else
            match dec d with
            | none => .error .base64CorruptInput
            | some w =>
              match decodeQuanta rest with
              | .error e => .error e
              | .ok bs =>
                .ok (byteOf (x * 4 + y / 16) :: byteOf (y % 16 * 16 + z / 4) ::
                  byteOf (z % 4 * 64 + w) :: bs)
    | _, _ => .error .base64CorruptInput
  | _ => .error .base64CorruptInput

/-- Go's `base64.StdEncoding.DecodeString`: line breaks (`\r`, `\n`) are
skipped, the rest is decoded in groups of four characters; the position that
Go reports with a corrupt input is not modelled. -/
def DecodeString (s : List Char) : Except Error (List Byte) :=
  decodeQuanta (s.filter (fun c => c != '\n' && c != '\r'))

end base64

namespace json

/-- The Go struct `attrJSON`, used for JSON I/O of `Attribute`. -/
structure attrJSON where
  Usage : List Char
  Data : List Char
  deriving DecidableEq

/-- The characters that `encoding/json` writes and reads back as themselves
inside a string: printable ASCII other than the quote, the backslash and the
characters `<`, `>`, `&` that `Marshal` escapes. -/
def plainJSON (c : Char) : Bool :=
  decide (0x20 ≤ c.toNat) && decide (c.toNat < 0x7f) && c != '"' && c != '\\' &&
    c != '<' && c != '>' && c != '&'

/-- The part of Go's `encoding/json` that attribute.go uses, taken as a
parameter: `Marshal` of an `attrJSON` (the JSON text or an error) and
`Unmarshal` of a JSON text into a fresh `attrJSON`. -/
structure Codec where
  Marshal : attrJSON → Except Error (List Char)
  Unmarshal : List Char → Except Error attrJSON

/-- The property of `encoding/json` that the round trip of an attribute rests
on: `Marshal` does not fail on strings that need no escaping, and `Unmarshal`
reads back what it wrote. -/
def Codec.RoundTrips (J : Codec) : Prop :=
  ∀ v : attrJSON, (∀ c ∈ v.Usage ++ v.Data, plainJSON c = true) →
    ∃ data, J.Marshal v = .ok data ∧ J.Unmarshal data = .ok v

/-- A hexadecimal digit, in lower case. -/
def hexDigit (n : Nat) : Char := "0123456789abcdef".data.getD n '0'

/-- The form in which `Marshal` writes one character of a string: escapes for
the quote, the backslash, the control characters, for `<`, `>`, `&` and for
the line separators U+2028 and U+2029; any other character as it is. -/
def escapeChar (c : Char) : List Char :=
  if c = '"' then ['\\', '"']
  else if c = '\\' then ['\\', '\\']
  else if c = '\n' then ['\\', 'n']
  else if c = '\r' then ['\\', 'r']
  else if c = '\t' then ['\\', 't']
  else if c.toNat < 0x20 ∨ c = '<' ∨ c = '>' ∨ c = '&' then
    ['\\', 'u', '0', '0', hexDigit (c.toNat / 16), hexDigit (c.toNat % 16)]
  else if c.toNat = 0x2028 then ['\\', 'u', '2', '0', '2', '8']
  else if c.toNat = 0x2029 then ['\\', 'u', '2', '0', '2', '9']
  else [c]

/-- A string as `Marshal` writes it, between double quotes. -/
def quote (s : List Char) : List Char := '"' :: (s.flatMap escapeChar ++ ['"'])

/-- The JSON text that `Marshal` writes for an `attrJSON`: the two members in
the order of the fields. -/
def marshalAttr (v : attrJSON) : List Char :=
  "\x7b\"usage\":".data ++ quote v.Usage ++ ",\"data\":".data ++ quote v.Data ++ ['\x7d']

/-- The text after a given beginning, if the text begins so. -/
def afterBeginning (pre s : List Char) : Option (List Char) :=
  if pre.isPrefixOf s then some (s.drop pre.length) else none

/-- Reads back a text of the form `marshalAttr` writes: the member `usage`, the
member `data`, both strings. Any other text is refused here, also where
`encoding/json` accepts it (white space, members in another order, further
members). -/
def unmarshalAttr (data : List Char) : Except Error attrJSON :=
  match afterBeginning "\x7b\"usage\":\"".data data with
  | none => .error .jsonInput
  | some r1 =>
    match scanBody r1 with
    | none => .error .jsonInput
    | some (usage, r2) =>
      match afterBeginning ",\"data\":\"".data r2 with
      | none => .error .jsonInput
      | some r3 =>
        match scanBody r3 with
        | none => .error .jsonInput
        | some (dat, r4) =>
          if r4 = ['\x7d'] then .ok { Usage := combine none usage, Data := combine none dat }
          else .error .jsonInput

/-- A codec for the JSON texts of the form `Marshal` writes for an `attrJSON`,
on which the embedding can be evaluated. -/
def textCodec : Codec where
  Marshal := fun v => .ok (marshalAttr v)
  Unmarshal := unmarshalAttr

end json

namespace transaction

open io

/-- Modelled from the spec: `AttrUsage`, declared outside the sources; the code
converts it from and to a byte, so it is taken as a one-byte value. -/
abbrev AttrUsage := Byte

/-- Embedding of `Attribute`: a transaction attribute. `Data` holds the bytes
of the Go slice (a nil slice and an empty slice both hold none). -/
structure Attribute where
  Usage : AttrUsage
  Data : List Byte
  deriving DecidableEq

/-- Embedding of `Attribute.DecodeBinary`: the attribute and the reader after
the call. The switch over the usage is commented out in the source, so
`datasize` stays zero. -/
def Attribute.DecodeBinary (attr : Attribute) (br : BinReader) : Attribute × BinReader :=
  match br.ReadB with
  | (b, br) =>
    let attr := { attr with Usage := b }
    let datasize := 0
    match br.ReadBytes (List.replicate datasize 0) with
    | (data, br) => ({ attr with Data := data }, br)

/-- Embedding of `Attribute.EncodeBinary`: the writer after the call. The
switch has the default case only, which sets the error. -/
def Attribute.EncodeBinary (attr : Attribute) (bw : BinWriter) : BinWriter :=
  let bw := bw.WriteB attr.Usage
  { bw with Err := some (.attributeUsage attr.Usage) }

/-- Embedding of `Attribute.MarshalJSON`: the Go result `([]byte, error)`. -/
def Attribute.MarshalJSON (J : json.Codec) (attr : Attribute) : Except Error (List Char) :=
  J.Marshal { Usage := [], Data := base64.EncodeToString attr.Data }

/-- Embedding of `Attribute.UnmarshalJSON`: the attribute after the call and
the returned error. -/
def Attribute.UnmarshalJSON (J : json.Codec) (attr : Attribute) (data : List Char) :
    Attribute × Option Error :=
  match J.Unmarshal data with
  | .error err => (attr, some err)
  | .ok aj =>
    match base64.DecodeString aj.Data with
    | .error err => (attr, some err)
    | .ok binData => ({ attr with Data := binData }, none)

end transaction

/-! ## Native contracts: dispatch and block hooks

The registry of native contracts, the dispatch of their methods and the block
hooks live in packages that are not among the sources (pkg/core/native,
pkg/core/interop, pkg/core/blockchain.go); they are modelled from the
specification. The test contract `testNative` and `registerNative` are embedded
from `native_contract_test.go`. -/

namespace stackitem

/-- Modelled from the spec: `Item.TryInteger`: the number of an Integer item, 0
or 1 for a Boolean, the number that a ByteString of at most 32 bytes stands
for; an error for the other kinds. -/
def Item.TryInteger : Item → Except Error Int
  | .BigInteger v => .ok v
  | .Boolean b => .ok (if b then 1 else 0)
  | .ByteArray b =>
    if b.length ≤ MaxBigIntegerSizeBits / 8 then .ok (bigint.FromBytes b)
    else .error .invalidConversion
  | _ => .error .invalidConversion

end stackitem

namespace interop

open stackitem

/-- Modelled from the spec: the trigger kinds (Application, Verification,
OnPersist, PostPersist). -/
inductive Trigger
  | Application
  | Verification
  | OnPersist
  | PostPersist
  deriving DecidableEq

/-- Modelled from the spec: a script hash. -/
abbrev Uint160 := List Byte

/-- Modelled from the spec: the permission flags of a call. -/
inductive CallFlag
  | AllowStates
  | AllowModifyStates
  | AllowCall
  | AllowNotify
  deriving DecidableEq

/-- Modelled from the spec: a set of permission flags. -/
abbrev CallFlags := List CallFlag

/-- Modelled from the spec: no flag (`smartcontract.NoneFlag`). -/
def NoneFlag : CallFlags := []

/-- Modelled from the spec: every flag (`smartcontract.All`). -/
def AllFlags : CallFlags :=
  [.AllowStates, .AllowModifyStates, .AllowCall, .AllowNotify]

/-- Modelled from the spec: the flags `fs` include all the required ones. -/
def CallFlags.Has (fs required : CallFlags) : Bool := required.all (fun f => fs.contains f)

/-- Modelled from the spec: the flags a trigger kind is compatible with: a
read-only trigger such as Verification rejects any state-mutating method. -/
def Trigger.permits : Trigger → CallFlags
  | .Verification => [.AllowStates, .AllowCall, .AllowNotify]
  | _ => AllFlags

/-- Modelled from the spec: a block, of which the hooks read the index. -/
structure Block where
  Index : Nat
  deriving DecidableEq

/-- Modelled from the spec: the part of the Interop Context that a handler
reads: the trigger kind and the containing block, if there is one. -/
structure Context where
  Trigger : Trigger
  Block : Option Block
  deriving DecidableEq

/-- Modelled from the spec: the Method Descriptor: name, number of parameters,
whether the method returns nothing, handler, fixed price in gas units and
required permission flags. A handler reads the context and the arguments,
acts on the state `W` it has access to and returns one item, or panics. -/
structure MethodAndPrice (W : Type) where
  Name : List Byte
  Parameters : Nat
  Void : Bool
  Func : Context → W → List Item → Go (Item × W)
  Price : Nat
  RequiredFlags : CallFlags

/-- Modelled from the spec: a native contract: the Contract Metadata (name,
deterministic script hash, exposed methods) and the two block hooks. -/
structure Contract (W : Type) where
  Name : List Byte
  Hash : Uint160
  Methods : List (MethodAndPrice W)
  OnPersist : Context → W → List Item → Go (Item × W)
  PostPersist : Context → W → List Item → Go (Item × W)

/-- Modelled from the spec: the part of the VM that dispatch acts on: the hash
of the script of the current call frame, the permission flags of the frame,
the operand stack (top first), the gas consumed so far and the gas limit. -/
structure VM where
  scriptHash : Uint160
  callFlags : CallFlags
  estack : List Item
  gasConsumed : Nat
  GasLimit : Nat

/-- Modelled from the spec: the gas remaining to the running transaction. -/
def VM.gasLeft (v : VM) : Nat := v.GasLimit - v.gasConsumed

/-- Modelled from the spec: the Interop Context: the context that handlers
read, the VM, the registry of native contracts and the state. -/
structure Interop (W : Type) where
  ctx : Context
  vm : VM
  Natives : List (Contract W)
  world : W

/-- Modelled from the spec: the errors of a call of a native method, all of
which surface as a VM fault. -/
inductive CallError
  | NotFound
  | PermissionDenied
  | GasExhausted
  | StackMisuse
  | HandlerFault (p : Panic)
  deriving DecidableEq

/-- Modelled from the spec: the states of a single dispatch,
`Resolved → PermissionChecked → Priced → Executing → Succeeded | Faulted`. -/
inductive Stage
  | Resolved
  | PermissionChecked
  | Priced
  | Executing
  | Succeeded
  | Faulted
  deriving DecidableEq

/-- Modelled from the spec: the outcome of a dispatch: the states it went
through, and the returned item (none for a void method) with the VM and the
state after the call, or the error. -/
structure Dispatched (W : Type) where
  stages : List Stage
  result : Except CallError (Option Item × VM × W)

end interop

namespace native

open stackitem interop

/-- Modelled from the spec: `Dispatch`: resolves the Method Descriptor by name
and number of arguments; verifies that the call comes through the syscall
bridge, which runs it in the frame of the native contract itself (the hash of
the current script is the hash of the contract), and that the required flags
are among those of the frame and compatible with the trigger kind; charges the
price, which the remaining gas must cover, before execution; then runs the
handler, whose panic is a fault. -/
def Dispatch {W : Type} (ctx : Context) (vm : VM) (w : W) (c : Contract W)
    (methodName : List Byte) (args : List Item) : Dispatched W :=
  match c.Methods.find? (fun m => m.Name = methodName && m.Parameters = args.length) with
  | none => ⟨[], .error .NotFound⟩
  | some m =>
    if vm.scriptHash ≠ c.Hash then ⟨[.Resolved], .error .PermissionDenied⟩
    else if ¬ (vm.callFlags.Has m.RequiredFlags ∧ ctx.Trigger.permits.Has m.RequiredFlags) then
      ⟨[.Resolved], .error .PermissionDenied⟩
    else if vm.gasLeft < m.Price then
      ⟨[.Resolved, .PermissionChecked], .error .GasExhausted⟩
    else
      let vm := { vm with gasConsumed := vm.gasConsumed + m.Price }
      match m.Func ctx w args with
      | .error p =>
        ⟨[.Resolved, .PermissionChecked, .Priced, .Executing, .Faulted],
          .error (.HandlerFault p)⟩
      | .ok (r, w) =>
        ⟨[.Resolved, .PermissionChecked, .Priced, .Executing, .Succeeded],
          .ok (if m.Void then none else some r, vm, w)⟩

/-- Modelled from the spec: the operand stack after a call: the single return
value pushed, or nothing for a void method. -/
def pushResult (r : Option Item) (estack : List Item) : List Item :=
  match r with
  | some item => item :: estack
  | none => estack

/-- Modelled from the spec: `native.Call`, the syscall in the script of a native
contract: pops the name of the contract, the name of the method and the array
of arguments, looks the contract up by its name and dispatches in the current
frame. Called directly, from a script that is not the script of the named
contract, it fails. -/
def Call {W : Type} (ic : Interop W) : Except CallError (Interop W) :=
  match ic.vm.estack with
  | name :: operation :: args :: rest =>
    match name.TryBytes, operation.TryBytes, args with
    | .ok name, .ok operation, .Array args =>
      match ic.Natives.find? (fun c => c.Name = name) with
      | none => .error .NotFound
      | some c =>
        match (Dispatch ic.ctx { ic.vm with estack := rest } ic.world c operation args).result with
        | .error e => .error e
        | .ok (r, vm, w) =>
          .ok { ic with vm := { vm with estack := pushResult r vm.estack }, world := w }
    | _, _, _ => .error .StackMisuse
  | _ => .error .StackMisuse

end native

namespace contract

open stackitem interop

/-- Modelled from the spec: the contract-call syscall for a native target: looks
the contract up by its script hash and invokes the method synchronously in the
frame of the target, pushing its single return value (or nothing, for void
methods); afterwards the calling frame is current again. Deployed contracts are
not part of the model. -/
def Call {W : Type} (ic : Interop W) (target : Uint160) (method : List Byte)
    (args : List Item) : Dispatched W :=
  match ic.Natives.find? (fun c => c.Hash = target) with
  | none => ⟨[], .error .NotFound⟩
  | some c =>
    let d := native.Dispatch ic.ctx { ic.vm with scriptHash := c.Hash } ic.world c method args
    match d.result with
    | .error e => ⟨d.stages, .error e⟩
    | .ok (r, vm, w) =>
      let estack := native.pushResult r vm.estack
      ⟨d.stages, .ok (r, { vm with scriptHash := ic.vm.scriptHash, estack := estack }, w)⟩

end contract

namespace vm

/-- Modelled from the spec: the terminal VM states. -/
inductive State
  | Halt
  | Fault
  | Break
  deriving DecidableEq

end vm

namespace core

open stackitem interop

/-- Modelled from the spec: the execution result of a transaction: the terminal
VM state, the stack results and the state after it. -/
structure AppExecResult (W : Type) where
  VMState : vm.State
  Stack : List Item
  world : W

/-- Modelled from the spec: the execution of a script that calls one method of
a native contract through the contract-call syscall. An error is a Fault,
with no stack result and all state mutations discarded; otherwise the script
Halts with the operand stack as its result. -/
def invoke {W : Type} (ic : Interop W) (target : Uint160) (method : List Byte)
    (args : List Item) : AppExecResult W :=
  match (contract.Call ic target method args).result with
  | .error _ => ⟨.Fault, [], ic.world⟩
  | .ok (_, vm, w) => ⟨.Halt, vm.estack, w⟩

/-- Modelled from the spec: one pass over the registered native contracts in
registration order, invoking the given hook of each under the given context; a
hook that fails is fatal to the block. -/
def runHooks {W : Type} (hook : Contract W → Context → W → List Item → Go (Item × W))
    (ctx : Context) : List (Contract W) → W → Except Panic W
  | [], w => .ok w
  | c :: cs, w =>
    match hook c ctx w [] with
    | .error p => .error p
    | .ok (_, w) => runHooks hook ctx cs w

/-- Modelled from the spec: the persistence trigger orchestration for a block:
the OnPersist hooks of all registered contracts in registration order under
trigger OnPersist, then, in a second pass, their PostPersist hooks under
trigger PostPersist, each with a context bound to the block. -/
def persistHooks {W : Type} (natives : List (Contract W)) (block : Block) (w : W) :
    Except Panic W :=
  match runHooks (fun c => c.OnPersist) ⟨.OnPersist, some block⟩ natives w with
  | .error p => .error p
  | .ok w => runHooks (fun c => c.PostPersist) ⟨.PostPersist, some block⟩ natives w

/-- Modelled from the spec: the chain: its height, the registered native
contracts and the state. -/
structure Blockchain (W : Type) where
  blockHeight : Nat
  contracts : List (Contract W)
  world : W

/-- Embedding of `Blockchain.registerNative`: registers a native contract in
the blockchain. -/
def Blockchain.registerNative {W : Type} (bc : Blockchain W) (c : Contract W) :
    Blockchain W :=
  { bc with contracts := bc.contracts ++ [c] }

/-- Modelled from the spec: the chain accepts the next block (the one above its
height), runs the hooks for it and, unless a hook fails, is at the height of
the block afterwards. The transactions of the block are not part of the
model. -/
def Blockchain.AddBlock {W : Type} (bc : Blockchain W) (b : Block) :
    Except Panic (Option (Blockchain W)) :=
  if b.Index ≠ bc.blockHeight + 1 then .ok none
  else
    match persistHooks bc.contracts b bc.world with
    | .error p => .error p
    | .ok w => .ok (some { bc with blockHeight := b.Index, world := w })

/-- The price of the method `sum` of the test contract. -/
def testSumPrice : Nat := 1000000

/-- The state of a `testNative`: the values waiting in its channel `blocks`,
which has room for one. -/
structure testNative where
  blocks : List Nat
  deriving DecidableEq

/-- Embedding of `testNative.OnPersist`: panics under a trigger other than
OnPersist; sends the index of the block to the channel if there is room and
returns whether it did. -/
def testNative.OnPersist (ic : Context) (tn : testNative) (_args : List Item) :
    Go (Item × testNative) :=
  if ic.Trigger ≠ .OnPersist then .error .invalidTrigger
  else
    match ic.Block with
    | none => .error .nilDereference
    | some b =>
      if tn.blocks.length < 1 then .ok (.Boolean true, { tn with blocks := tn.blocks ++ [b.Index] })
      else .ok (.Boolean false, tn)

/-- Embedding of `testNative.sum`: the sum of its two arguments, taken as
integers; a panic when an argument is missing or is no integer. -/
def testNative.sum (_ic : Context) (tn : testNative) (args : List Item) :
    Go (Item × testNative) :=
  match args.get? 0 with
  | none => .error .indexOutOfRange
  | some a0 =>
    match a0.TryInteger with
    | .error err => .error (.handlerError err)
    | .ok s1 =>
      match args.get? 1 with
      | none => .error .indexOutOfRange
      | some a1 =>
        match a1.TryInteger with
        | .error err => .error (.handlerError err)
        | .ok s2 =>
          match NewBigInteger (s1 + s2) with
          | .error p => .error p
          | .ok r => .ok (r, tn)

/-- The bytes of a text of ASCII characters. -/
def bytesOf (s : String) : List Byte :=
  s.data.map (fun c => ⟨c.toNat % 256, Nat.mod_lt _ (by decide)⟩)

/-- Embedding of `newTestNative`: the test contract `Test.Native.Sum` with its
methods `sum` (two parameters, price `testSumPrice`, no required flag) and
`onPersist` (no parameter, no price, requires AllowModifyStates). The script
hash, computed from the name by code outside the sources, is a parameter. The
method `callOtherContractNoReturn`, which calls a deployed contract, is left
out; the contract has no PostPersist hook. -/
def newTestNative (hash : Uint160) : Contract testNative where
  Name := bytesOf "Test.Native.Sum"
  Hash := hash
  Methods :=
    [ { Name := bytesOf "sum", Parameters := 2, Void := false, Func := testNative.sum,
        Price := testSumPrice, RequiredFlags := NoneFlag },
      { Name := bytesOf "onPersist", Parameters := 0, Void := false,
        Func := testNative.OnPersist, Price := 0, RequiredFlags := [.AllowModifyStates] } ]
  OnPersist := testNative.OnPersist
  PostPersist := fun _ tn _ => .ok (.Null, tn)

end core

namespace core

open stackitem interop

/-- One invocation of a block hook, as a recording hook logs it: the position of
the contract in the registry, whether it is the PostPersist hook, and the
context the hook was invoked under. -/
structure HookCall where
  contract : Nat
  post : Bool
  ctx : Context
  deriving DecidableEq

/-- A handler on a state that carries a log of hook invocations: it acts on the
state as the given handler and leaves the log alone. -/
def liftFunc {W : Type} (f : Context → W → List Item → Go (Item × W)) :
    Context → W × List HookCall → List Item → Go (Item × (W × List HookCall)) :=
  fun ctx s args =>
    match f ctx s.1 args with
    | .error p => .error p
    | .ok (r, w) => .ok (r, (w, s.2))

/-- A recording hook: it acts on the state as the given hook and, when that
returns, writes the invocation at the end of the log. -/
def recordHook {W : Type} (i : Nat) (post : Bool)
    (hook : Context → W → List Item → Go (Item × W)) :
    Context → W × List HookCall → List Item → Go (Item × (W × List HookCall)) :=
  fun ctx s args =>
    match hook ctx s.1 args with
    | .error p => .error p
    | .ok (r, w) => .ok (r, (w, s.2 ++ [⟨i, post, ctx⟩]))

/-- The contract at position `i` of the registry with its hooks recording. -/
def recordContract {W : Type} (i : Nat) (c : Contract W) : Contract (W × List HookCall) where
  Name := c.Name
  Hash := c.Hash
  Methods := c.Methods.map (fun m =>
    { Name := m.Name, Parameters := m.Parameters, Void := m.Void, Func := liftFunc m.Func,
      Price := m.Price, RequiredFlags := m.RequiredFlags })
  OnPersist := recordHook i false c.OnPersist
  PostPersist := recordHook i true c.PostPersist

/-- The contracts of a registry, the first of which is at position `i`, with
their hooks recording. -/
def recordContracts {W : Type} (i : Nat) : List (Contract W) → List (Contract (W × List HookCall))
  | [] => []
  | c :: cs => recordContract i c :: recordContracts (i + 1) cs

/-- The chain with recording hooks and an empty log. -/
def Blockchain.recorded {W : Type} (bc : Blockchain W) : Blockchain (W × List HookCall) :=
  { blockHeight := bc.blockHeight, contracts := recordContracts 0 bc.contracts,
    world := (bc.world, []) }

/-- The log of the hooks of one kind of `n` contracts, the first of which is at
position `i`, invoked in registration order under one context. -/
def hookCalls (post : Bool) (ctx : Context) (i n : Nat) : List HookCall :=
  (List.range n).map (fun k => ⟨i + k, post, ctx⟩)

end core

/-! ## Depth of a JSON value -/

namespace jsonpath

mutual
/-- The depth of a value: 0 for a scalar and for an empty array or map, one
more than the depth of its deepest element for the others. -/
def Value.depth : Value → Nat
  | .array xs => depthBelow xs
  | .object kvs => depthBelowEntries kvs
  | _ => 0
/-- The number of levels below a list of values: none for the empty list, one
more than the depth of its deepest value for the others. -/
def depthBelow : List Value → Nat
  | [] => 0
  | x :: xs => max (x.depth + 1) (depthBelow xs)
/-- The number of levels below the entries of a map. -/
def depthBelowEntries : List (String × Value) → Nat
  | [] => 0
  | (_, v) :: kvs => max (v.depth + 1) (depthBelowEntries kvs)
end

end jsonpath

/-! ## pkg/vm/compiler/codegen.go -/

namespace token

/-- The operator tokens of Go (`go/token`). -/
inductive Token
  | ADD
  | SUB
  | MUL
  | QUO
  | REM
  | AND
  | OR
  | XOR
  | SHL
  | SHR
  | AND_NOT
  | ADD_ASSIGN
  | SUB_ASSIGN
  | MUL_ASSIGN
  | QUO_ASSIGN
  | REM_ASSIGN
  | AND_ASSIGN
  | OR_ASSIGN
  | XOR_ASSIGN
  | SHL_ASSIGN
  | SHR_ASSIGN
  | AND_NOT_ASSIGN
  | LAND
  | LOR
  | ARROW
  | INC
  | DEC
  | EQL
  | LSS
  | GTR
  | ASSIGN
  | NOT
  | NEQ
  | LEQ
  | GEQ
  | DEFINE
  deriving DecidableEq

end token

namespace vm

/-- An opcode of the VM, one byte (`vm.Opcode`). The opcodes that
`convertToken` and `writeJumps` name follow, with their values in the
instruction set of the VM (pkg/vm is not among the sources). -/
abbrev Opcode := Byte

/-- Jump if the top of the stack is true. -/
def Ojmpif : Opcode := 0x63

/-- Jump if the top of the stack is false. -/
def Ojmpifnot : Opcode := 0x64

/-- Call of a function. -/
def Ocall : Opcode := 0x65

/-- Addition. -/
def Oadd : Opcode := 0x93

/-- Subtraction. -/
def Osub : Opcode := 0x94

/-- Multiplication. -/
def Omul : Opcode := 0x95

/-- Division. -/
def Odiv : Opcode := 0x96

/-- Equality of numbers. -/
def Onumequal : Opcode := 0x9C

/-- Inequality of numbers; the code generator never emits it. -/
def Onumnotequal : Opcode := 0x9E

/-- Less than. -/
def Olt : Opcode := 0x9F

/-- Greater than. -/
def Ogt : Opcode := 0xA0

/-- Less than or equal. -/
def Olte : Opcode := 0xA1

/-- Greater than or equal. -/
def Ogte : Opcode := 0xA2

end vm

namespace binary

/-- Go's `binary.LittleEndian.Uint16` on the two bytes of a slice. -/
def Uint16 (b0 b1 : Byte) : Nat := b0.val + 256 * b1.val

/-- Go's `binary.LittleEndian.PutUint16` on the two bytes at `j` and `j + 1`. -/
def PutUint16 (b : List Byte) (j : Nat) (v : Nat) : List Byte :=
  (b.set j ⟨v % 256, Nat.mod_lt _ (by decide)⟩).set (j + 1)
    ⟨v / 256 % 256, Nat.mod_lt _ (by decide)⟩

end binary

namespace compiler

/-- The fields of `codegen` that `convertToken` and `writeJumps` use: the bytes
written to the output buffer `prog`, and the label table `l`. -/
structure codegen where
  prog : List Byte
  l : List Int
  deriving DecidableEq

/-- Embedding of `codegen.pc`: the program offset of the last instruction. -/
def codegen.pc (c : codegen) : Int := (c.prog.length : Int) - 1

/-- Embedding of `codegen.newLabel`: the new label and the generator with the
label in its table, not yet set. -/
def codegen.newLabel (c : codegen) : Int × codegen :=
  ((c.l.length : Int), { c with l := c.l ++ [-1] })

/-- Embedding of `codegen.setLabel`; `c.l[l]` panics out of range. -/
def codegen.setLabel (c : codegen) (l : Int) : Go codegen :=
  if 0 ≤ l ∧ l < c.l.length then .ok { c with l := c.l.set l.toNat (c.pc + 1) }
  else .error .indexOutOfRange

/-- Modelled from the spec: `emitOpcode` (emit.go is not among the sources)
writes the byte of the opcode to the program. -/
def emitOpcode (c : codegen) (op : vm.Opcode) : codegen :=
  { c with prog := c.prog ++ [op] }

/-- Embedding of `codegen.convertToken`; `log.Fatalf` ends the process. -/
def codegen.convertToken (c : codegen) (tok : token.Token) : Go codegen :=
  match tok with
  | .ADD_ASSIGN => .ok (emitOpcode c vm.Oadd)
  | .SUB_ASSIGN => .ok (emitOpcode c vm.Osub)
  | .MUL_ASSIGN => .ok (emitOpcode c vm.Omul)
  | .QUO_ASSIGN => .ok (emitOpcode c vm.Odiv)
  | .ADD => .ok (emitOpcode c vm.Oadd)
  | .SUB => .ok (emitOpcode c vm.Osub)
  | .MUL => .ok (emitOpcode c vm.Omul)
  | .QUO => .ok (emitOpcode c vm.Odiv)
  | .LSS => .ok (emitOpcode c vm.Olt)
  | .LEQ => .ok (emitOpcode c vm.Olte)
  | .GTR => .ok (emitOpcode c vm.Ogt)
  | .GEQ => .ok (emitOpcode c vm.Ogte)
  | .EQL | .NEQ => .ok (emitOpcode c vm.Onumequal)
  | _ => .error .fatal

/-- Go's conversion `uint16(v)` of an int. -/
def uint16 (v : Int) : Nat := (v % 65536).toNat

/-- The loop of `writeJumps` over the bytes of the buffer: `k` bytes are left to
visit, the next one at position `i`. The slice `b` shares the array of the
buffer, which reaches beyond the length of the buffer up to its capacity: `arr`
holds the whole array, so that the slice expression `b[j : j+2]` panics beyond
the capacity only. The byte at `i` is read when it is visited, after the
earlier operands have been rewritten. -/
def writeJumpsLoop (l : List Int) : Nat → Nat → List Byte → Go (List Byte)
  | 0, _, arr => .ok arr
  | k + 1, i, arr =>
    match arr.get? i with
    | none => .error .indexOutOfRange
    | some op =>
      let j := i + 1
      if op = vm.Ojmpifnot ∨ op = vm.Ojmpif ∨ op = vm.Ocall then
        match arr.get? j, arr.get? (j + 1) with
        | some b0, some b1 =>
          let index := binary.Uint16 b0 b1
          if index > l.length then writeJumpsLoop l k (i + 1) arr
          else
            match l.get? index with
            | none => .error .indexOutOfRange
            | some target =>
              let offset := uint16 (target - i)
              writeJumpsLoop l k (i + 1) (binary.PutUint16 arr j offset)
        | _, _ => .error .sliceBounds
      else writeJumpsLoop l k (i + 1) arr

/-- Embedding of `codegen.writeJumps`. The capacity of the buffer is decided by
`bytes.Buffer`: the bytes of its array beyond the length, `spare`, are a
parameter. The result is the generator with the rewritten program, and the
bytes beyond the length afterwards. -/
def codegen.writeJumps (c : codegen) (spare : List Byte) : Go (codegen × List Byte) :=
  match writeJumpsLoop c.l c.prog.length 0 (c.prog ++ spare) with
  | .error e => .error e
  | .ok arr => .ok ({ c with prog := arr.take c.prog.length }, arr.drop c.prog.length)

end compiler

/-! ## Properties of the modelled integer payload -/

namespace bigint

theorem toBytesAux_ne_nil (fuel : Nat) (n : Int) : toBytesAux (fuel + 1) n ≠ [] := by
  unfold toBytesAux; split <;> simp

theorem FromBytes_toBytesAux (fuel : Nat) : ∀ n : Int, n.natAbs ≤ fuel + 127 →
    FromBytes (toBytesAux (fuel + 1) n) = n := by
  induction fuel with
  | zero =>
    intro n hn
    have h : -128 ≤ n ∧ n < 128 := by omega
    simp only [toBytesAux, h, and_self, if_true, FromBytes, lowByte]
    split <;> omega
  | succ k ih =>
    intro n hn
    unfold toBytesAux
    split
    · simp only [FromBytes, lowByte]
      split <;> omega
    · have hk : (n / 256).natAbs ≤ k + 127 := by omega
      have hrec := ih (n / 256) hk
      obtain ⟨c, rest, hc⟩ := List.exists_cons_of_ne_nil (toBytesAux_ne_nil k (n / 256))
      rw [hc] at hrec
      rw [hc]
      simp only [FromBytes, lowByte]
      rw [hrec]
      omega

/-- Reading back the payload of an integer gives the integer. -/
theorem FromBytes_ToBytes (n : Int) : FromBytes (ToBytes n) = n := by
  unfold ToBytes
  split
  · simp [FromBytes, *]
  · obtain ⟨k, hk⟩ : ∃ k, n.natAbs = k + 1 := ⟨n.natAbs - 1, by omega⟩
    rw [hk]
    exact FromBytes_toBytesAux k n (by omega)

theorem toBytesAux_length (k : Nat) : ∀ (fuel : Nat) (n : Int),
    -(128 * 256 ^ k : Int) ≤ n → n < 128 * 256 ^ k → (toBytesAux fuel n).length ≤ k + 1 := by
  induction k with
  | zero =>
    intro fuel n h1 h2
    cases fuel with
    | zero => simp [toBytesAux]
    | succ f =>
      have h : -128 ≤ n ∧ n < 128 := by constructor <;> simpa using (by assumption)
      simp [toBytesAux, h]
  | succ k ih =>
    intro fuel n h1 h2
    cases fuel with
    | zero => simp [toBytesAux]
    | succ f =>
      unfold toBytesAux
      split
      · simp
      · have hp : (256 : Int) ^ (k + 1) = 256 * 256 ^ k := by ring
        rw [hp] at h1 h2
        have hpos : (0 : Int) < 256 ^ k := by positivity
        generalize (256 : Int) ^ k = P at h1 h2 hpos ih
        have := ih f (n / 256) (by omega) (by omega)
        simp only [List.length_cons]
        omega

/-- The range of the valid stack-item integers. -/
theorem validInteger_iff (v : Int) :
    stackitem.validInteger v ↔ -(128 * 256 ^ 31 : Int) ≤ v ∧ v < 128 * 256 ^ 31 := by
  have hP : ((2 ^ (stackitem.MaxBigIntegerSizeBits - 1) : Nat) : Int) = 128 * 256 ^ 31 := by
    norm_num [stackitem.MaxBigIntegerSizeBits]
  cases v with
  | ofNat n =>
    show n < 2 ^ (stackitem.MaxBigIntegerSizeBits - 1) ↔ _
    rw [← hP, Int.ofNat_eq_coe]
    generalize 2 ^ (stackitem.MaxBigIntegerSizeBits - 1) = P
    constructor
    · intro h; constructor <;> omega
    · rintro ⟨_, h⟩; omega
  | negSucc n =>
    show n < 2 ^ (stackitem.MaxBigIntegerSizeBits - 1) ↔ _
    rw [← hP, Int.negSucc_eq]
    generalize 2 ^ (stackitem.MaxBigIntegerSizeBits - 1) = P
    constructor
    · intro h; constructor <;> omega
    · rintro ⟨h, _⟩; omega

/-- The payload of a valid stack-item integer is at most 32 bytes long. -/
theorem ToBytes_length (n : Int) (h : stackitem.validInteger n) : (ToBytes n).length ≤ 32 := by
  unfold ToBytes
  split
  · simp
  · obtain ⟨h1, h2⟩ := (validInteger_iff n).mp h
    exact toBytesAux_length 31 _ n h1 h2

end bigint

/-! ## Properties of the modelled reader and writer -/

namespace io

theorem putVarUint_small (n : Nat) (h : n < 0xfd) :
    putVarUint n = [⟨n % 256, Nat.mod_lt n (by decide)⟩] := by
  simp [putVarUint, h, natToLE]

theorem readBytes_append (b rest : List Byte) : readBytes b.length (b ++ rest) = .ok (b, rest) := by
  simp [readBytes]

theorem readVarUint_putVarUint (n : Nat) (h : n < 0xfd) (rest : List Byte) :
    readVarUint (putVarUint n ++ rest) = .ok (n, rest) := by
  rw [putVarUint_small n h]
  generalize hb : (⟨n % 256, Nat.mod_lt n (by decide)⟩ : Byte) = b
  have hv : b.val = n := by rw [← hb]; exact Nat.mod_eq_of_lt (by omega)
  have h1 : b ≠ 0xfd := by
    intro hc; rw [hc] at hv
    have hl : ((0xfd : Byte) : Nat) = 253 := rfl
    omega
  have h2 : b ≠ 0xfe := by
    intro hc; rw [hc] at hv
    have hl : ((0xfe : Byte) : Nat) = 254 := rfl
    omega
  have h3 : b ≠ 0xff := by
    intro hc; rw [hc] at hv
    have hl : ((0xff : Byte) : Nat) = 255 := rfl
    omega
  simp [readVarUint, readB, h1, h2, h3, hv]

/-- A length-prefixed payload shorter than 0xfd bytes is read back whole. -/
theorem readVarBytes_putVarBytes (maxSize : Nat) (b rest : List Byte)
    (h1 : b.length < 0xfd) (h2 : b.length ≤ maxSize) :
    readVarBytes maxSize (putVarBytes b ++ rest) = .ok (b, rest) := by
  unfold readVarBytes putVarBytes
  rw [List.append_assoc, readVarUint_putVarUint _ h1]
  simp only [readBytes_append]
  simp [Nat.not_lt.mpr h2]

end io


/-! ## The codec on the balance structs -/

namespace stackitem

open io

theorem decodeItem_null (fuel : Nat) (rest : List Byte) :
    decodeItem (fuel + 1) (AnyT :: rest) = .ok (.Null, rest) := by
  simp [decodeItem]

theorem decodeItem_integer (fuel : Nat) (v : Int) (rest : List Byte) (h : validInteger v) :
    decodeItem (fuel + 1) (IntegerT :: (putVarBytes (bigint.ToBytes v) ++ rest))
      = .ok (.BigInteger v, rest) := by
  have hl := bigint.ToBytes_length v h
  have hr := readVarBytes_putVarBytes (MaxBigIntegerSizeBits / 8) (bigint.ToBytes v) rest
    (by omega) (by simpa [MaxBigIntegerSizeBits] using hl)
  have h1 : IntegerT ≠ AnyT := by decide
  have h2 : IntegerT ≠ BooleanT := by decide
  simp only [decodeItem, h1, h2, if_false, if_true, hr, bigint.FromBytes_ToBytes]

theorem decodeItem_byteArray (fuel : Nat) (b rest : List Byte) (h : b.length ≤ 33) :
    decodeItem (fuel + 1) (ByteArrayT :: (putVarBytes b ++ rest)) = .ok (.ByteArray b, rest) := by
  have hr := readVarBytes_putVarBytes MaxSize b rest (by omega)
    (by simp only [MaxSize]; omega)
  have h1 : ByteArrayT ≠ AnyT := by decide
  have h2 : ByteArrayT ≠ BooleanT := by decide
  have h3 : ByteArrayT ≠ IntegerT := by decide
  simp only [decodeItem, h1, h2, h3, if_false, if_true, hr]

theorem decodeItem_struct (fuel : Nat) (bs : List Byte) :
    decodeItem (fuel + 1) (StructT :: bs) =
      match readVarUint bs with
      | .error e => .error e
      | .ok (n, rest) =>
        match decodeItems (decodeItem fuel) n rest with
        | .error e => .error e
        | .ok (xs, rest) => .ok (.Struct xs, rest) := by
  have h1 : StructT ≠ AnyT := by decide
  have h2 : StructT ≠ BooleanT := by decide
  have h3 : StructT ≠ IntegerT := by decide
  have h4 : StructT ≠ ByteArrayT := by decide
  have h5 : StructT ≠ ArrayT := by decide
  simp only [decodeItem, h1, h2, h3, h4, h5, if_false, if_true]

end stackitem


/-! ## Decoding is stable under extension of the input -/

namespace io

theorem readB_extend {bs e : List Byte} {x : Byte} {r : List Byte}
    (h : readB bs = .ok (x, r)) : readB (bs ++ e) = .ok (x, r ++ e) := by
  cases bs with
  | nil => simp [readB] at h
  | cons b t =>
    simp only [readB, Except.ok.injEq, Prod.mk.injEq] at h
    obtain ⟨rfl, rfl⟩ := h
    rfl

theorem readBytes_extend {n : Nat} {bs e d r : List Byte}
    (h : readBytes n bs = .ok (d, r)) : readBytes n (bs ++ e) = .ok (d, r ++ e) := by
  unfold readBytes at h ⊢
  split at h
  · rename_i hn
    simp only [Except.ok.injEq, Prod.mk.injEq] at h
    obtain ⟨rfl, rfl⟩ := h
    have hn2 : n ≤ (bs ++ e).length := by rw [List.length_append]; omega
    rw [if_pos hn2, List.take_append_of_le_length hn, List.drop_append_of_le_length hn]
  · split at h <;> simp at h

theorem readVarUint_extend {bs e : List Byte} {n : Nat} {r : List Byte}
    (h : readVarUint bs = .ok (n, r)) : readVarUint (bs ++ e) = .ok (n, r ++ e) := by
  unfold readVarUint at h ⊢
  cases hb : readB bs with
  | error err => rw [hb] at h; simp at h
  | ok p =>
    obtain ⟨b, rest⟩ := p
    rw [hb] at h
    rw [readB_extend hb]
    dsimp only at h ⊢
    generalize (if b = 0xfd then 2 else if b = 0xfe then 4 else if b = 0xff then 8 else 0 : Nat)
      = k at h ⊢
    by_cases hk : k = 0
    · rw [if_pos hk] at h ⊢
      simp only [Except.ok.injEq, Prod.mk.injEq] at h ⊢
      obtain ⟨rfl, rfl⟩ := h
      exact ⟨rfl, rfl⟩
    · rw [if_neg hk] at h ⊢
      cases hd : readBytes k rest with
      | error err => rw [hd] at h; simp at h
      | ok q =>
        obtain ⟨d, rest2⟩ := q
        rw [hd] at h
        rw [readBytes_extend hd]
        simp only [Except.ok.injEq, Prod.mk.injEq] at h ⊢
        obtain ⟨rfl, rfl⟩ := h
        exact ⟨rfl, rfl⟩

theorem readVarBytes_extend {m : Nat} {bs e d r : List Byte}
    (h : readVarBytes m bs = .ok (d, r)) : readVarBytes m (bs ++ e) = .ok (d, r ++ e) := by
  unfold readVarBytes at h ⊢
  cases hn : readVarUint bs with
  | error err => rw [hn] at h; simp at h
  | ok p =>
    obtain ⟨n, rest⟩ := p
    rw [hn] at h
    rw [readVarUint_extend hn]
    simp only at h ⊢
    split at h
    · simp at h
    · rename_i hm
      rw [if_neg hm]
      exact readBytes_extend h

end io

namespace stackitem

open io

theorem decodeItems_extend {dec : List Byte → Except Error (Item × List Byte)}
    (hdec : ∀ bs e x r, dec bs = .ok (x, r) → dec (bs ++ e) = .ok (x, r ++ e)) :
    ∀ (n : Nat) (bs e : List Byte) (xs : List Item) (r : List Byte),
      decodeItems dec n bs = .ok (xs, r) → decodeItems dec n (bs ++ e) = .ok (xs, r ++ e) := by
  intro n
  induction n with
  | zero =>
    intro bs e xs r h
    simp only [decodeItems, Except.ok.injEq, Prod.mk.injEq] at h ⊢
    obtain ⟨rfl, rfl⟩ := h
    exact ⟨rfl, rfl⟩
  | succ n ih =>
    intro bs e xs r h
    unfold decodeItems at h ⊢
    cases h1 : dec bs with
    | error err => rw [h1] at h; simp at h
    | ok p =>
      obtain ⟨x, rest⟩ := p
      rw [h1] at h
      rw [hdec bs e x rest h1]
      simp only at h ⊢
      cases h2 : decodeItems dec n rest with
      | error err => rw [h2] at h; simp at h
      | ok q =>
        obtain ⟨ys, rest2⟩ := q
        rw [h2] at h
        rw [ih rest e ys rest2 h2]
        simp only [Except.ok.injEq, Prod.mk.injEq] at h ⊢
        obtain ⟨rfl, rfl⟩ := h
        exact ⟨rfl, rfl⟩

theorem decodePairs_extend {dec : List Byte → Except Error (Item × List Byte)}
    (hdec : ∀ bs e x r, dec bs = .ok (x, r) → dec (bs ++ e) = .ok (x, r ++ e)) :
    ∀ (n : Nat) (bs e : List Byte) (xs : List (Item × Item)) (r : List Byte),
      decodePairs dec n bs = .ok (xs, r) → decodePairs dec n (bs ++ e) = .ok (xs, r ++ e) := by
  intro n
  induction n with
  | zero =>
    intro bs e xs r h
    simp only [decodePairs, Except.ok.injEq, Prod.mk.injEq] at h ⊢
    obtain ⟨rfl, rfl⟩ := h
    exact ⟨rfl, rfl⟩
  | succ n ih =>
    intro bs e xs r h
    unfold decodePairs at h ⊢
    cases h1 : dec bs with
    | error err => rw [h1] at h; simp at h
    | ok p =>
      obtain ⟨k, rest⟩ := p
      rw [h1] at h
      rw [hdec bs e k rest h1]
      simp only at h ⊢
      cases h2 : dec rest with
      | error err => rw [h2] at h; simp at h
      | ok q =>
        obtain ⟨v, rest2⟩ := q
        rw [h2] at h
        rw [hdec rest e v rest2 h2]
        simp only at h ⊢
        split at h
        · rename_i hk
          rw [if_pos hk]
          cases h3 : decodePairs dec n rest2 with
          | error err => rw [h3] at h; simp at h
          | ok q3 =>
            obtain ⟨kvs, rest3⟩ := q3
            rw [h3] at h
            rw [ih rest2 e kvs rest3 h3]
            simp only [Except.ok.injEq, Prod.mk.injEq] at h ⊢
            obtain ⟨rfl, rfl⟩ := h
            exact ⟨rfl, rfl⟩
        · simp at h

end stackitem


namespace stackitem

open io

theorem decodeItem_extend : ∀ (fuel : Nat) (bs e : List Byte) (x : Item) (r : List Byte),
    decodeItem fuel bs = .ok (x, r) → decodeItem fuel (bs ++ e) = .ok (x, r ++ e) := by
  intro fuel
  induction fuel with
  | zero =>
    intro bs e x r h
    cases bs <;> simp [decodeItem] at h
  | succ fuel ih =>
    intro bs e x r h
    cases bs with
    | nil => simp [decodeItem] at h
    | cons t bs =>
      rw [List.cons_append]
      simp only [decodeItem] at h ⊢
      split_ifs at h ⊢
      · simp only [Except.ok.injEq, Prod.mk.injEq] at h ⊢
        obtain ⟨rfl, rfl⟩ := h
        exact ⟨rfl, rfl⟩
      · cases h1 : readB bs with
        | error err => rw [h1] at h; simp at h
        | ok p =>
          obtain ⟨b, rest⟩ := p
          rw [h1] at h
          rw [readB_extend h1]
          simp only [Except.ok.injEq, Prod.mk.injEq] at h ⊢
          obtain ⟨rfl, rfl⟩ := h
          exact ⟨rfl, rfl⟩
      · cases h1 : readVarBytes (MaxBigIntegerSizeBits / 8) bs with
        | error err => rw [h1] at h; simp at h
        | ok p =>
          obtain ⟨d, rest⟩ := p
          rw [h1] at h
          rw [readVarBytes_extend h1]
          simp only [Except.ok.injEq, Prod.mk.injEq] at h ⊢
          obtain ⟨rfl, rfl⟩ := h
          exact ⟨rfl, rfl⟩
      · cases h1 : readVarBytes MaxSize bs with
        | error err => rw [h1] at h; simp at h
        | ok p =>
          obtain ⟨d, rest⟩ := p
          rw [h1] at h
          rw [readVarBytes_extend h1]
          simp only [Except.ok.injEq, Prod.mk.injEq] at h ⊢
          obtain ⟨rfl, rfl⟩ := h
          exact ⟨rfl, rfl⟩
      · cases h1 : readVarUint bs with
        | error err => rw [h1] at h; simp at h
        | ok p =>
          obtain ⟨n, rest⟩ := p
          rw [h1] at h
          rw [readVarUint_extend h1]
          dsimp only at h ⊢
          cases h2 : decodeItems (decodeItem fuel) n rest with
          | error err => rw [h2] at h; simp at h
          | ok q =>
            obtain ⟨xs, rest2⟩ := q
            rw [h2] at h
            rw [decodeItems_extend ih n rest e xs rest2 h2]
            simp only [Except.ok.injEq, Prod.mk.injEq] at h ⊢
            obtain ⟨rfl, rfl⟩ := h
            exact ⟨rfl, rfl⟩
      · cases h1 : readVarUint bs with
        | error err => rw [h1] at h; simp at h
        | ok p =>
          obtain ⟨n, rest⟩ := p
          rw [h1] at h
          rw [readVarUint_extend h1]
          dsimp only at h ⊢
          cases h2 : decodeItems (decodeItem fuel) n rest with
          | error err => rw [h2] at h; simp at h
          | ok q =>
            obtain ⟨xs, rest2⟩ := q
            rw [h2] at h
            rw [decodeItems_extend ih n rest e xs rest2 h2]
            simp only [Except.ok.injEq, Prod.mk.injEq] at h ⊢
            obtain ⟨rfl, rfl⟩ := h
            exact ⟨rfl, rfl⟩
      · cases h1 : readVarUint bs with
        | error err => rw [h1] at h; simp at h
        | ok p =>
          obtain ⟨n, rest⟩ := p
          rw [h1] at h
          rw [readVarUint_extend h1]
          dsimp only at h ⊢
          cases h2 : decodePairs (decodeItem fuel) n rest with
          | error err => rw [h2] at h; simp at h
          | ok q =>
            obtain ⟨xs, rest2⟩ := q
            rw [h2] at h
            rw [decodePairs_extend ih n rest e xs rest2 h2]
            simp only [Except.ok.injEq, Prod.mk.injEq] at h ⊢
            obtain ⟨rfl, rfl⟩ := h
            exact ⟨rfl, rfl⟩

/-! ## More nesting budget never changes a decoded item -/

theorem decodeItems_mono {dec dec2 : List Byte → Except Error (Item × List Byte)}
    (hdec : ∀ bs res, dec bs = .ok res → dec2 bs = .ok res) :
    ∀ (n : Nat) (bs : List Byte) (res : List Item × List Byte),
      decodeItems dec n bs = .ok res → decodeItems dec2 n bs = .ok res := by
  intro n
  induction n with
  | zero => intro bs res h; simpa [decodeItems] using h
  | succ n ih =>
    intro bs res h
    unfold decodeItems at h ⊢
    cases h1 : dec bs with
    | error err => rw [h1] at h; simp at h
    | ok p =>
      obtain ⟨x, rest⟩ := p
      rw [h1] at h
      rw [hdec bs _ h1]
      dsimp only at h ⊢
      cases h2 : decodeItems dec n rest with
      | error err => rw [h2] at h; simp at h
      | ok q =>
        rw [h2] at h
        rw [ih rest q h2]
        exact h

theorem decodePairs_mono {dec dec2 : List Byte → Except Error (Item × List Byte)}
    (hdec : ∀ bs res, dec bs = .ok res → dec2 bs = .ok res) :
    ∀ (n : Nat) (bs : List Byte) (res : List (Item × Item) × List Byte),
      decodePairs dec n bs = .ok res → decodePairs dec2 n bs = .ok res := by
  intro n
  induction n with
  | zero => intro bs res h; simpa [decodePairs] using h
  | succ n ih =>
    intro bs res h
    unfold decodePairs at h ⊢
    cases h1 : dec bs with
    | error err => rw [h1] at h; simp at h
    | ok p =>
      obtain ⟨k, rest⟩ := p
      rw [h1] at h
      rw [hdec bs _ h1]
      dsimp only at h ⊢
      cases h2 : dec rest with
      | error err => rw [h2] at h; simp at h
      | ok q =>
        obtain ⟨v, rest2⟩ := q
        rw [h2] at h
        rw [hdec rest _ h2]
        dsimp only at h ⊢
        split at h
        · rename_i hk
          rw [if_pos hk]
          cases h3 : decodePairs dec n rest2 with
          | error err => rw [h3] at h; simp at h
          | ok q3 =>
            rw [h3] at h
            rw [ih rest2 q3 h3]
            exact h
        · simp at h

theorem decodeItem_fuel_succ : ∀ (fuel : Nat) (bs : List Byte) (res : Item × List Byte),
    decodeItem fuel bs = .ok res → decodeItem (fuel + 1) bs = .ok res := by
  intro fuel
  induction fuel with
  | zero =>
    intro bs res h
    cases bs <;> simp [decodeItem] at h
  | succ fuel ih =>
    intro bs res h
    cases bs with
    | nil => simp [decodeItem] at h
    | cons t bs =>
      simp only [decodeItem] at h ⊢
      split_ifs at h ⊢
      · exact h
      · exact h
      · exact h
      · exact h
      · cases h1 : readVarUint bs with
        | error err => rw [h1] at h; simp at h
        | ok p =>
          obtain ⟨n, rest⟩ := p
          rw [h1] at h
          dsimp only at h ⊢
          cases h2 : decodeItems (decodeItem fuel) n rest with
          | error err => rw [h2] at h; simp at h
          | ok q =>
            rw [h2] at h
            rw [decodeItems_mono ih n rest q h2]
            exact h
      · cases h1 : readVarUint bs with
        | error err => rw [h1] at h; simp at h
        | ok p =>
          obtain ⟨n, rest⟩ := p
          rw [h1] at h
          dsimp only at h ⊢
          cases h2 : decodeItems (decodeItem fuel) n rest with
          | error err => rw [h2] at h; simp at h
          | ok q =>
            rw [h2] at h
            rw [decodeItems_mono ih n rest q h2]
            exact h
      · cases h1 : readVarUint bs with
        | error err => rw [h1] at h; simp at h
        | ok p =>
          obtain ⟨n, rest⟩ := p
          rw [h1] at h
          dsimp only at h ⊢
          cases h2 : decodePairs (decodeItem fuel) n rest with
          | error err => rw [h2] at h; simp at h
          | ok q =>
            rw [h2] at h
            rw [decodePairs_mono ih n rest q h2]
            exact h

theorem decodeItem_fuel_le {f g : Nat} (hfg : f ≤ g) (bs : List Byte) (res : Item × List Byte)
    (h : decodeItem f bs = .ok res) : decodeItem g bs = .ok res := by
  induction hfg with
  | refl => exact h
  | step _ ih => exact decodeItem_fuel_succ _ bs res ih

/-- Truncated input: when the decoder consumes an input exactly, it fails on
every proper beginning of that input. -/
theorem decodeItem_truncated (bs p t : List Byte) (x : Item)
    (h : decodeItem bs.length bs = .ok (x, [])) (hp : bs = p ++ t) (ht : t ≠ []) :
    ∃ e, decodeItem p.length p = .error e := by
  cases hd : decodeItem p.length p with
  | error e => exact ⟨e, rfl⟩
  | ok res =>
    exfalso
    obtain ⟨y, r⟩ := res
    have h1 := decodeItem_extend p.length p t y r hd
    have hle : p.length ≤ bs.length := by rw [hp, List.length_append]; omega
    have h2 := decodeItem_fuel_le hle (p ++ t) _ h1
    rw [← hp, h] at h2
    simp only [Except.ok.injEq, Prod.mk.injEq] at h2
    have h3 := h2.2
    cases r <;> cases t <;> simp at h3 ht

end stackitem


/-! ## Encoding and decoding of the balance structs -/

namespace state

open stackitem io

variable {K : keys.Scheme}

theorem NEP17_Bytes_valid (s : NEP17BalanceState) (b : List Byte) (h : s.Bytes = .ok b) :
    validInteger s.Balance := by
  by_contra hv
  simp [NEP17BalanceState.Bytes, NEP17BalanceState.EncodeBinary, NEP17BalanceState.toStackItem,
    NewBigInteger, hv, bind, Except.bind] at h

theorem NEP17_toStackItem_eq (s : NEP17BalanceState) (hv : validInteger s.Balance) :
    s.toStackItem = .ok (.Struct [.BigInteger s.Balance]) := by
  simp [NEP17BalanceState.toStackItem, NewBigInteger, hv, bind, Except.bind, pure, Except.pure,
    NewStruct]

theorem NEP17_Bytes_eq (s : NEP17BalanceState) (hv : validInteger s.Balance) :
    s.Bytes = .ok (StructT :: (putVarUint 1 ++
      (IntegerT :: (putVarBytes (bigint.ToBytes s.Balance) ++ [])))) := by
  simp [NEP17BalanceState.Bytes, NEP17BalanceState.EncodeBinary, NEP17_toStackItem_eq s hv,
    bind, Except.bind, pure, Except.pure, EncodeBinaryStackItem,
    NewBufBinWriter, encodeItem, encodeItems, BinWriter.Bytes]

theorem decode_struct1 (fuel : Nat) (v : Int) (hv : validInteger v) (rest : List Byte) :
    decodeItem (fuel + 2) (StructT :: (putVarUint 1 ++
      (IntegerT :: (putVarBytes (bigint.ToBytes v) ++ rest))))
      = .ok (.Struct [.BigInteger v], rest) := by
  rw [decodeItem_struct, readVarUint_putVarUint 1 (by decide)]
  simp only [decodeItems, decodeItem_integer fuel v rest hv]

theorem NEP17_decode_Bytes (s : NEP17BalanceState) (b : List Byte) (h : s.Bytes = .ok b) :
    decodeItem b.length b = .ok (.Struct [.BigInteger s.Balance], []) := by
  have hv := NEP17_Bytes_valid s b h
  rw [NEP17_Bytes_eq s hv] at h
  simp only [Except.ok.injEq] at h
  subst h
  have h2 := decode_struct1 ((putVarBytes (bigint.ToBytes s.Balance)).length) s.Balance hv []
  have hlen : (StructT :: (putVarUint 1 ++ (IntegerT :: (putVarBytes (bigint.ToBytes s.Balance)
      ++ [])))).length = (putVarBytes (bigint.ToBytes s.Balance)).length + 3 := by
    simp [putVarUint_small 1 (by decide)]
  rw [hlen]
  exact decodeItem_fuel_le (by omega) _ _ h2

theorem NEP17FromBytes_of_decode (b : List Byte) (item : Item) (rest : List Byte) (hb : b ≠ [])
    (hd : decodeItem b.length b = .ok (item, rest)) :
    NEP17BalanceStateFromBytes b =
      (NEP17BalanceState.new.fromStackItem item).map (fun s => (some s, none)) := by
  have hl : b.length ≠ 0 := by simpa using hb
  simp only [NEP17BalanceStateFromBytes, hl, if_false, NEP17BalanceState.DecodeBinary,
    DecodeBinaryStackItem, NewBinReaderFromBuf, Option.isSome_none, hd, Bool.false_eq_true]
  cases NEP17BalanceState.new.fromStackItem item <;> rfl

theorem NEP17FromBytes_of_error (b : List Byte) (e : Error) (hb : b ≠ [])
    (hd : decodeItem b.length b = .error e) :
    NEP17BalanceStateFromBytes b = .ok (none, some e) := by
  have hl : b.length ≠ 0 := by simpa using hb
  simp only [NEP17BalanceStateFromBytes, hl, if_false, NEP17BalanceState.DecodeBinary,
    DecodeBinaryStackItem, NewBinReaderFromBuf, Option.isSome_none, hd, Bool.false_eq_true]
  rfl

theorem NEOFromBytes_of_decode (b : List Byte) (item : Item) (rest : List Byte) (hb : b ≠ [])
    (hd : decodeItem b.length b = .ok (item, rest)) :
    NEOBalanceStateFromBytes K b =
      ((NEOBalanceState.new K).fromStackItem item).map
        (fun p => if p.2.isSome then (none, p.2) else (some p.1, none)) := by
  have hl : b.length ≠ 0 := by simpa using hb
  simp only [NEOBalanceStateFromBytes, hl, if_false, NEOBalanceState.DecodeBinary,
    DecodeBinaryStackItem, NewBinReaderFromBuf, Option.isSome_none, hd, Bool.false_eq_true]
  cases h : (NEOBalanceState.new K).fromStackItem item with
  | error p => rfl
  | ok p =>
    obtain ⟨s, err⟩ := p
    cases err <;> rfl

theorem NEOFromBytes_of_error (b : List Byte) (e : Error) (hb : b ≠ [])
    (hd : decodeItem b.length b = .error e) :
    NEOBalanceStateFromBytes K b = .ok (none, some e) := by
  have hl : b.length ≠ 0 := by simpa using hb
  simp only [NEOBalanceStateFromBytes, hl, if_false, NEOBalanceState.DecodeBinary,
    DecodeBinaryStackItem, NewBinReaderFromBuf, Option.isSome_none, hd, Bool.false_eq_true]
  rfl

end state

namespace state

open stackitem io

variable {K : keys.Scheme}

/-- A uint32 height survives the conversions made on decoding. -/
theorem uint32_Int64 (h : Nat) (hh : h < 2 ^ 32) : uint32 (Int64 (h : Int)) = h := by
  simp only [uint32, Int64]
  have h1 : ¬ ((h : Int) < 0) := by omega
  simp only [h1, if_false, Int.natAbs_ofNat]
  norm_num at hh ⊢
  omega

theorem validInteger_height (h : Nat) (hh : h < 2 ^ 32) : validInteger (h : Int) := by
  show h < 2 ^ (MaxBigIntegerSizeBits - 1)
  have key : 2 ^ 32 ≤ 2 ^ (MaxBigIntegerSizeBits - 1) :=
    Nat.pow_le_pow_right (by decide) (by decide)
  exact Nat.lt_of_lt_of_le hh key

theorem NEO_toStackItem_eq (s : NEOBalanceState K) (hv : validInteger s.Balance)
    (hh : validInteger (s.BalanceHeight : Int)) :
    s.toStackItem = .ok (.Struct [.BigInteger s.Balance, .BigInteger s.BalanceHeight,
      match s.VoteTo with
      | some k => .ByteArray (K.Bytes k)
      | none => .Null]) := by
  simp only [NEOBalanceState.toStackItem, NEP17_toStackItem_eq _ hv, bind, Except.bind,
    assertStruct, NewBigInteger, hh, if_true, pure, Except.pure, NewByteArray]
  cases s.VoteTo
  · simp
  · simp

theorem NEO_Bytes_valid (s : NEOBalanceState K) (b : List Byte) (h : s.Bytes = .ok b) :
    validInteger s.Balance ∧ validInteger (s.BalanceHeight : Int) := by
  by_cases hv : validInteger s.Balance
  · refine ⟨hv, ?_⟩
    by_contra hh
    simp [NEOBalanceState.Bytes, NEOBalanceState.EncodeBinary, NEOBalanceState.toStackItem,
      NEP17_toStackItem_eq _ hv, assertStruct, NewBigInteger, hh, bind, Except.bind] at h
  · simp [NEOBalanceState.Bytes, NEOBalanceState.EncodeBinary, NEOBalanceState.toStackItem,
      NEP17BalanceState.toStackItem, NewBigInteger, hv, bind, Except.bind] at h

theorem NEO_Bytes_eq (s : NEOBalanceState K) (hv : validInteger s.Balance)
    (hh : validInteger (s.BalanceHeight : Int)) :
    s.Bytes = .ok (StructT :: (putVarUint 3 ++
      (IntegerT :: (putVarBytes (bigint.ToBytes s.Balance) ++
      (IntegerT :: (putVarBytes (bigint.ToBytes s.BalanceHeight) ++
      match s.VoteTo with
      | some k => ByteArrayT :: (putVarBytes (K.Bytes k) ++ [])
      | none => [AnyT])))))) := by
  simp only [NEOBalanceState.Bytes, NEOBalanceState.EncodeBinary, NEO_toStackItem_eq s hv hh,
    bind, Except.bind, pure, Except.pure, EncodeBinaryStackItem, NewBufBinWriter,
    Option.isSome_none, Bool.false_eq_true, if_false]
  cases s.VoteTo <;>
    simp [encodeItem, encodeItems, BinWriter.Bytes]

theorem decode_struct3 (fuel : Nat) (v h : Int) (hv : validInteger v) (hh : validInteger h)
    (third : Option (List Byte)) (hk : ∀ kb, third = some kb → kb.length ≤ 33)
    (rest : List Byte) :
    decodeItem (fuel + 2) (StructT :: (putVarUint 3 ++
      (IntegerT :: (putVarBytes (bigint.ToBytes v) ++
      (IntegerT :: (putVarBytes (bigint.ToBytes h) ++
      match third with
      | some kb => ByteArrayT :: (putVarBytes kb ++ rest)
      | none => AnyT :: rest))))))
      = .ok (.Struct [.BigInteger v, .BigInteger h,
          match third with
          | some kb => .ByteArray kb
          | none => .Null], rest) := by
  rw [decodeItem_struct, readVarUint_putVarUint 3 (by decide)]
  cases third with
  | none =>
    simp only [decodeItems, decodeItem_integer fuel _ _ hv, decodeItem_integer fuel _ _ hh,
      decodeItem_null]
  | some kb =>
    simp only [decodeItems, decodeItem_integer fuel _ _ hv, decodeItem_integer fuel _ _ hh,
      decodeItem_byteArray fuel kb rest (hk kb rfl)]

theorem NEO_decode_Bytes (s : NEOBalanceState K) (b : List Byte) (h : s.Bytes = .ok b) :
    decodeItem b.length b = .ok (.Struct [.BigInteger s.Balance, .BigInteger s.BalanceHeight,
      match s.VoteTo with
      | some k => .ByteArray (K.Bytes k)
      | none => .Null], []) := by
  obtain ⟨hv, hh⟩ := NEO_Bytes_valid s b h
  rw [NEO_Bytes_eq s hv hh] at h
  simp only [Except.ok.injEq] at h
  subst h
  have h2 := decode_struct3 ((putVarBytes (bigint.ToBytes s.Balance)).length) s.Balance
    s.BalanceHeight hv hh (s.VoteTo.map K.Bytes)
    (by
      intro kb hkb
      cases hvo : s.VoteTo with
      | none => rw [hvo] at hkb; simp at hkb
      | some k =>
        rw [hvo] at hkb
        simp only [Option.map_some', Option.some.injEq] at hkb
        rw [← hkb]; exact K.Bytes_length k) []
  have h3 : decodeItem ((putVarBytes (bigint.ToBytes s.Balance)).length + 2)
      (StructT :: (putVarUint 3 ++
      (IntegerT :: (putVarBytes (bigint.ToBytes s.Balance) ++
      (IntegerT :: (putVarBytes (bigint.ToBytes s.BalanceHeight) ++
      match s.VoteTo with
      | some k => ByteArrayT :: (putVarBytes (K.Bytes k) ++ [])
      | none => [AnyT]))))))
      = .ok (.Struct [.BigInteger s.Balance, .BigInteger s.BalanceHeight,
          match s.VoteTo with
          | some k => .ByteArray (K.Bytes k)
          | none => .Null], []) := by
    cases hvo : s.VoteTo with
    | none => rw [hvo] at h2; exact h2
    | some k => rw [hvo] at h2; exact h2
  refine decodeItem_fuel_le ?_ _ _ h3
  simp only [List.length_cons, List.length_append, putVarUint_small 3 (by decide)]
  omega

theorem NEO_fromStackItem_eq (s0 : NEOBalanceState K) (v : Int) (h : Int) (vote : Option K.PublicKey) :
    s0.fromStackItem (.Struct [.BigInteger v, .BigInteger h,
      match vote with
      | some k => .ByteArray (K.Bytes k)
      | none => .Null])
      = .ok ({ Balance := v, BalanceHeight := uint32 (Int64 h), VoteTo := vote }, none) := by
  cases vote with
  | none => rfl
  | some k =>
    simp only [NEOBalanceState.fromStackItem, assertItems, bind, Except.bind, index,
      List.get?, assertBigInt, Item.TryBytes, K.parse_Bytes k, pure, Except.pure]

end state


/-! ## The nesting budget taken from the input length is never exhausted -/

namespace io

theorem readB_length {bs : List Byte} {x : Byte} {r : List Byte}
    (h : readB bs = .ok (x, r)) : r.length < bs.length := by
  cases bs with
  | nil => simp [readB] at h
  | cons b t =>
    simp only [readB, Except.ok.injEq, Prod.mk.injEq] at h
    rw [← h.2]
    simp

theorem readBytes_length {n : Nat} {bs d r : List Byte}
    (h : readBytes n bs = .ok (d, r)) : r.length ≤ bs.length := by
  unfold readBytes at h
  split at h
  · simp only [Except.ok.injEq, Prod.mk.injEq] at h
    rw [← h.2, List.length_drop]
    omega
  · split at h <;> simp at h

theorem readBytes_ne_limit (n : Nat) (bs : List Byte) :
    readBytes n bs ≠ .error .nestingLimit := by
  unfold readBytes
  split
  · simp
  · split <;> simp

theorem readVarUint_length {bs : List Byte} {n : Nat} {r : List Byte}
    (h : readVarUint bs = .ok (n, r)) : r.length < bs.length := by
  unfold readVarUint at h
  cases hb : readB bs with
  | error err => rw [hb] at h; simp at h
  | ok p =>
    obtain ⟨b, rest⟩ := p
    rw [hb] at h
    have h1 := readB_length hb
    dsimp only at h
    generalize (if b = 0xfd then 2 else if b = 0xfe then 4 else if b = 0xff then 8 else 0 : Nat)
      = k at h
    by_cases hk : k = 0
    · rw [if_pos hk] at h
      simp only [Except.ok.injEq, Prod.mk.injEq] at h
      rw [← h.2]; exact h1
    · rw [if_neg hk] at h
      cases hd : readBytes k rest with
      | error err => rw [hd] at h; simp at h
      | ok q =>
        obtain ⟨d, rest2⟩ := q
        rw [hd] at h
        have h2 := readBytes_length hd
        simp only [Except.ok.injEq, Prod.mk.injEq] at h
        rw [← h.2]; omega

theorem readVarUint_ne_limit (bs : List Byte) : readVarUint bs ≠ .error .nestingLimit := by
  unfold readVarUint
  cases hb : readB bs with
  | error err =>
    cases bs with
    | nil => simp only [readB, Except.error.injEq] at hb; subst hb; simp
    | cons b t => simp [readB] at hb
  | ok p =>
    obtain ⟨b, rest⟩ := p
    dsimp only
    generalize (if b = 0xfd then 2 else if b = 0xfe then 4 else if b = 0xff then 8 else 0 : Nat)
      = k
    by_cases hk : k = 0
    · rw [if_pos hk]; simp
    · rw [if_neg hk]
      cases hd : readBytes k rest with
      | error err =>
        intro hc
        simp only [Except.error.injEq] at hc
        subst hc
        exact readBytes_ne_limit _ _ hd
      | ok q => simp

theorem readVarBytes_ne_limit (m : Nat) (bs : List Byte) :
    readVarBytes m bs ≠ .error .nestingLimit := by
  unfold readVarBytes
  split
  · rename_i e he
    intro hc
    simp only [Except.error.injEq] at hc
    subst hc
    exact readVarUint_ne_limit _ he
  · split
    · simp
    · exact readBytes_ne_limit _ _

theorem readVarBytes_length {m : Nat} {bs d r : List Byte}
    (h : readVarBytes m bs = .ok (d, r)) : r.length < bs.length := by
  unfold readVarBytes at h
  cases hn : readVarUint bs with
  | error err => rw [hn] at h; simp at h
  | ok p =>
    obtain ⟨n, rest⟩ := p
    rw [hn] at h
    have h1 := readVarUint_length hn
    dsimp only at h
    split at h
    · simp at h
    · have h2 := readBytes_length h
      omega

end io

namespace stackitem

open io

theorem decodeItems_length {dec : List Byte → Except Error (Item × List Byte)}
    (hdec : ∀ bs x r, dec bs = .ok (x, r) → r.length ≤ bs.length) :
    ∀ (n : Nat) (bs : List Byte) (xs : List Item) (r : List Byte),
      decodeItems dec n bs = .ok (xs, r) → r.length ≤ bs.length := by
  intro n
  induction n with
  | zero =>
    intro bs xs r h
    simp only [decodeItems, Except.ok.injEq, Prod.mk.injEq] at h
    rw [← h.2]
  | succ n ih =>
    intro bs xs r h
    unfold decodeItems at h
    cases h1 : dec bs with
    | error err => rw [h1] at h; simp at h
    | ok p =>
      obtain ⟨x, rest⟩ := p
      rw [h1] at h
      dsimp only at h
      cases h2 : decodeItems dec n rest with
      | error err => rw [h2] at h; simp at h
      | ok q =>
        obtain ⟨ys, rest2⟩ := q
        rw [h2] at h
        simp only [Except.ok.injEq, Prod.mk.injEq] at h
        have := hdec bs x rest h1
        have := ih rest ys rest2 h2
        rw [← h.2]; omega

theorem decodePairs_length {dec : List Byte → Except Error (Item × List Byte)}
    (hdec : ∀ bs x r, dec bs = .ok (x, r) → r.length ≤ bs.length) :
    ∀ (n : Nat) (bs : List Byte) (xs : List (Item × Item)) (r : List Byte),
      decodePairs dec n bs = .ok (xs, r) → r.length ≤ bs.length := by
  intro n
  induction n with
  | zero =>
    intro bs xs r h
    simp only [decodePairs, Except.ok.injEq, Prod.mk.injEq] at h
    rw [← h.2]
  | succ n ih =>
    intro bs xs r h
    unfold decodePairs at h
    cases h1 : dec bs with
    | error err => rw [h1] at h; simp at h
    | ok p =>
      obtain ⟨k, rest⟩ := p
      rw [h1] at h
      dsimp only at h
      cases h2 : dec rest with
      | error err => rw [h2] at h; simp at h
      | ok q =>
        obtain ⟨v, rest2⟩ := q
        rw [h2] at h
        dsimp only at h
        split at h
        · cases h3 : decodePairs dec n rest2 with
          | error err => rw [h3] at h; simp at h
          | ok q3 =>
            obtain ⟨kvs, rest3⟩ := q3
            rw [h3] at h
            simp only [Except.ok.injEq, Prod.mk.injEq] at h
            have := hdec bs k rest h1
            have := hdec rest v rest2 h2
            have := ih rest2 kvs rest3 h3
            rw [← h.2]; omega
        · simp at h

/-- A decoded item leaves strictly fewer bytes than it was given. -/
theorem decodeItem_length : ∀ (fuel : Nat) (bs : List Byte) (x : Item) (r : List Byte),
    decodeItem fuel bs = .ok (x, r) → r.length < bs.length := by
  intro fuel
  induction fuel with
  | zero =>
    intro bs x r h
    cases bs <;> simp [decodeItem] at h
  | succ fuel ih =>
    intro bs x r h
    cases bs with
    | nil => simp [decodeItem] at h
    | cons t bs =>
      have ih2 : ∀ bs x r, decodeItem fuel bs = .ok (x, r) → r.length ≤ bs.length :=
        fun bs x r h => Nat.le_of_lt (ih bs x r h)
      simp only [decodeItem] at h
      simp only [List.length_cons]
      split_ifs at h
      · simp only [Except.ok.injEq, Prod.mk.injEq] at h
        rw [← h.2]; omega
      · cases h1 : readB bs with
        | error err => rw [h1] at h; simp at h
        | ok p =>
          obtain ⟨b, rest⟩ := p
          rw [h1] at h
          have := readB_length h1
          simp only [Except.ok.injEq, Prod.mk.injEq] at h
          rw [← h.2]; omega
      · cases h1 : readVarBytes (MaxBigIntegerSizeBits / 8) bs with
        | error err => rw [h1] at h; simp at h
        | ok p =>
          obtain ⟨d, rest⟩ := p
          rw [h1] at h
          have := readVarBytes_length h1
          simp only [Except.ok.injEq, Prod.mk.injEq] at h
          rw [← h.2]; omega
      · cases h1 : readVarBytes MaxSize bs with
        | error err => rw [h1] at h; simp at h
        | ok p =>
          obtain ⟨d, rest⟩ := p
          rw [h1] at h
          have := readVarBytes_length h1
          simp only [Except.ok.injEq, Prod.mk.injEq] at h
          rw [← h.2]; omega
      · cases h1 : readVarUint bs with
        | error err => rw [h1] at h; simp at h
        | ok p =>
          obtain ⟨n, rest⟩ := p
          rw [h1] at h
          dsimp only at h
          cases h2 : decodeItems (decodeItem fuel) n rest with
          | error err => rw [h2] at h; simp at h
          | ok q =>
            obtain ⟨xs, rest2⟩ := q
            rw [h2] at h
            have := readVarUint_length h1
            have := decodeItems_length ih2 n rest xs rest2 h2
            simp only [Except.ok.injEq, Prod.mk.injEq] at h
            rw [← h.2]; omega
      · cases h1 : readVarUint bs with
        | error err => rw [h1] at h; simp at h
        | ok p =>
          obtain ⟨n, rest⟩ := p
          rw [h1] at h
          dsimp only at h
          cases h2 : decodeItems (decodeItem fuel) n rest with
          | error err => rw [h2] at h; simp at h
          | ok q =>
            obtain ⟨xs, rest2⟩ := q
            rw [h2] at h
            have := readVarUint_length h1
            have := decodeItems_length ih2 n rest xs rest2 h2
            simp only [Except.ok.injEq, Prod.mk.injEq] at h
            rw [← h.2]; omega
      · cases h1 : readVarUint bs with
        | error err => rw [h1] at h; simp at h
        | ok p =>
          obtain ⟨n, rest⟩ := p
          rw [h1] at h
          dsimp only at h
          cases h2 : decodePairs (decodeItem fuel) n rest with
          | error err => rw [h2] at h; simp at h
          | ok q =>
            obtain ⟨xs, rest2⟩ := q
            rw [h2] at h
            have := readVarUint_length h1
            have := decodePairs_length ih2 n rest xs rest2 h2
            simp only [Except.ok.injEq, Prod.mk.injEq] at h
            rw [← h.2]; omega

theorem decodeItems_ne_limit {dec : List Byte → Except Error (Item × List Byte)} (f : Nat)
    (hlen : ∀ bs x r, dec bs = .ok (x, r) → r.length ≤ bs.length)
    (hlim : ∀ bs, bs.length ≤ f → dec bs ≠ .error .nestingLimit) :
    ∀ (n : Nat) (bs : List Byte), bs.length ≤ f →
      decodeItems dec n bs ≠ .error .nestingLimit := by
  intro n
  induction n with
  | zero => intro bs _; simp [decodeItems]
  | succ n ih =>
    intro bs hbs
    unfold decodeItems
    cases h1 : dec bs with
    | error err =>
      intro hc
      simp only [Except.error.injEq] at hc
      subst hc
      exact hlim bs hbs h1
    | ok p =>
      obtain ⟨x, rest⟩ := p
      dsimp only
      have hr := hlen bs x rest h1
      cases h2 : decodeItems dec n rest with
      | error err =>
        intro hc
        simp only [Except.error.injEq] at hc
        subst hc
        exact ih rest (by omega) h2
      | ok q => simp

theorem decodePairs_ne_limit {dec : List Byte → Except Error (Item × List Byte)} (f : Nat)
    (hlen : ∀ bs x r, dec bs = .ok (x, r) → r.length ≤ bs.length)
    (hlim : ∀ bs, bs.length ≤ f → dec bs ≠ .error .nestingLimit) :
    ∀ (n : Nat) (bs : List Byte), bs.length ≤ f →
      decodePairs dec n bs ≠ .error .nestingLimit := by
  intro n
  induction n with
  | zero => intro bs _; simp [decodePairs]
  | succ n ih =>
    intro bs hbs
    unfold decodePairs
    cases h1 : dec bs with
    | error err =>
      intro hc
      simp only [Except.error.injEq] at hc
      subst hc
      exact hlim bs hbs h1
    | ok p =>
      obtain ⟨k, rest⟩ := p
      dsimp only
      have hr := hlen bs k rest h1
      cases h2 : dec rest with
      | error err =>
        intro hc
        simp only [Except.error.injEq] at hc
        subst hc
        exact hlim rest (by omega) h2
      | ok q =>
        obtain ⟨v, rest2⟩ := q
        dsimp only
        have hr2 := hlen rest v rest2 h2
        split
        · cases h3 : decodePairs dec n rest2 with
          | error err =>
            intro hc
            simp only [Except.error.injEq] at hc
            subst hc
            exact ih rest2 (by omega) h3
          | ok q3 => simp
        · simp

/-- The nesting budget is enough: with a budget of at least the length of the
input the decoder never stops for lack of budget, so `DecodeBinaryStackItem`
is the decoder of the tagging scheme without any bound on the depth. -/
theorem decodeItem_ne_limit : ∀ (fuel : Nat) (bs : List Byte), bs.length ≤ fuel →
    decodeItem fuel bs ≠ .error .nestingLimit := by
  intro fuel
  induction fuel with
  | zero =>
    intro bs hbs
    cases bs with
    | nil => simp [decodeItem]
    | cons t bs => simp at hbs
  | succ fuel ih =>
    intro bs hbs
    cases bs with
    | nil => simp [decodeItem]
    | cons t bs =>
      have hlen : ∀ bs x r, decodeItem fuel bs = .ok (x, r) → r.length ≤ bs.length :=
        fun bs x r h => Nat.le_of_lt (decodeItem_length fuel bs x r h)
      have hbs2 : bs.length ≤ fuel := by simpa using hbs
      simp only [decodeItem]
      split_ifs
      · simp
      · cases h1 : readB bs with
        | error err =>
          cases bs with
          | nil => simp only [readB, Except.error.injEq] at h1; subst h1; simp
          | cons b t => simp [readB] at h1
        | ok p => simp
      · cases h1 : readVarBytes (MaxBigIntegerSizeBits / 8) bs with
        | error err =>
          intro hc
          simp only [Except.error.injEq] at hc
          subst hc
          exact readVarBytes_ne_limit _ _ h1
        | ok p => simp
      · cases h1 : readVarBytes MaxSize bs with
        | error err =>
          intro hc
          simp only [Except.error.injEq] at hc
          subst hc
          exact readVarBytes_ne_limit _ _ h1
        | ok p => simp
      · cases h1 : readVarUint bs with
        | error err =>
          intro hc
          simp only [Except.error.injEq] at hc
          subst hc
          exact readVarUint_ne_limit _ h1
        | ok p =>
          obtain ⟨n, rest⟩ := p
          dsimp only
          have hr := readVarUint_length h1
          cases h2 : decodeItems (decodeItem fuel) n rest with
          | error err =>
            intro hc
            simp only [Except.error.injEq] at hc
            subst hc
            exact decodeItems_ne_limit fuel hlen ih n rest (by omega) h2
          | ok q => simp
      · cases h1 : readVarUint bs with
        | error err =>
          intro hc
          simp only [Except.error.injEq] at hc
          subst hc
          exact readVarUint_ne_limit _ h1
        | ok p =>
          obtain ⟨n, rest⟩ := p
          dsimp only
          have hr := readVarUint_length h1
          cases h2 : decodeItems (decodeItem fuel) n rest with
          | error err =>
            intro hc
            simp only [Except.error.injEq] at hc
            subst hc
            exact decodeItems_ne_limit fuel hlen ih n rest (by omega) h2
          | ok q => simp
      · cases h1 : readVarUint bs with
        | error err =>
          intro hc
          simp only [Except.error.injEq] at hc
          subst hc
          exact readVarUint_ne_limit _ h1
        | ok p =>
          obtain ⟨n, rest⟩ := p
          dsimp only
          have hr := readVarUint_length h1
          cases h2 : decodePairs (decodeItem fuel) n rest with
          | error err =>
            intro hc
            simp only [Except.error.injEq] at hc
            subst hc
            exact decodePairs_ne_limit fuel hlen ih n rest (by omega) h2
          | ok q => simp
      · simp

end stackitem

/-! ## Shapes accepted by the decoders -/

namespace state

open stackitem io

variable {K : keys.Scheme}

theorem decodeItem_unknownTag (t : Byte) (rest : List Byte) (ht : knownTag t = false) :
    decodeItem (t :: rest).length (t :: rest) = .error (.unknownType t) := by
  simp only [knownTag, Bool.or_eq_false_iff, decide_eq_false_iff_not] at ht
  obtain ⟨⟨⟨⟨⟨⟨h1, h2⟩, h3⟩, h4⟩, h5⟩, h6⟩, h7⟩ := ht
  simp only [List.length_cons, decodeItem, h1, h2, h3, h4, h5, h6, h7, if_false]


theorem decodeItem_ok_ne_nil (b : List Byte) (res : Item × List Byte)
    (h : decodeItem b.length b = .ok res) : b ≠ [] := by
  intro hb
  subst hb
  simp [decodeItem] at h


/-- A delegate that `fromStackItem` sets is the key that the key parser made of
the bytes of the third element of the item. -/
theorem NEO_fromStackItem_voteTo (s0 s : NEOBalanceState K) (item : Item) (k : K.PublicKey)
    (h : s0.fromStackItem item = .ok (s, none)) (hk : s.VoteTo = some k) :
    ∃ xs third kb, assertItems item = .ok xs ∧ index xs 2 = .ok third ∧
      third.TryBytes = .ok kb ∧ K.NewPublicKeyFromBytes kb = .ok k := by
  simp only [NEOBalanceState.fromStackItem, bind, Except.bind, pure, Except.pure] at h
  cases h1 : assertItems item with
  | error e => rw [h1] at h; simp at h
  | ok xs =>
    rw [h1] at h; dsimp only at h
    cases h2 : index xs 0 with
    | error e => rw [h2] at h; simp at h
    | ok x0 =>
      rw [h2] at h; dsimp only at h
      cases h3 : assertBigInt x0 with
      | error e => rw [h3] at h; simp at h
      | ok v =>
        rw [h3] at h; dsimp only at h
        cases h4 : index xs 1 with
        | error e => rw [h4] at h; simp at h
        | ok x1 =>
          rw [h4] at h; dsimp only at h
          cases h5 : assertBigInt x1 with
          | error e => rw [h5] at h; simp at h
          | ok hgt =>
            rw [h5] at h; dsimp only at h
            cases h6 : index xs 2 with
            | error e => rw [h6] at h; simp at h
            | ok x2 =>
              rw [h6] at h; dsimp only at h
              cases x2 with
              | Null =>
                simp only [Except.ok.injEq, Prod.mk.injEq, and_true] at h
                rw [← h] at hk
                simp at hk
              | Boolean b0 =>
                simp only [Item.TryBytes] at h
                cases h7 : K.NewPublicKeyFromBytes [if b0 = true then 1 else 0] with
                | error e => rw [h7] at h; simp at h
                | ok pub =>
                  rw [h7] at h
                  simp only [Except.ok.injEq, Prod.mk.injEq, and_true] at h
                  rw [← h] at hk
                  simp only [Option.some.injEq] at hk
                  exact ⟨xs, _, _, rfl, h6, rfl, hk ▸ h7⟩
              | BigInteger v0 =>
                simp only [Item.TryBytes] at h
                cases h7 : K.NewPublicKeyFromBytes (bigint.ToBytes v0) with
                | error e => rw [h7] at h; simp at h
                | ok pub =>
                  rw [h7] at h
                  simp only [Except.ok.injEq, Prod.mk.injEq, and_true] at h
                  rw [← h] at hk
                  simp only [Option.some.injEq] at hk
                  exact ⟨xs, _, _, rfl, h6, rfl, hk ▸ h7⟩
              | ByteArray d =>
                simp only [Item.TryBytes] at h
                cases h7 : K.NewPublicKeyFromBytes d with
                | error e => rw [h7] at h; simp at h
                | ok pub =>
                  rw [h7] at h
                  simp only [Except.ok.injEq, Prod.mk.injEq, and_true] at h
                  rw [← h] at hk
                  simp only [Option.some.injEq] at hk
                  exact ⟨xs, _, _, rfl, h6, rfl, hk ▸ h7⟩
              | Array ys => simp [Item.TryBytes] at h
              | Struct ys => simp [Item.TryBytes] at h
              | Map ys => simp [Item.TryBytes] at h
              | Interop => simp [Item.TryBytes] at h


theorem NEP17_fromStackItem_ok (s0 p : NEP17BalanceState) (item : Item)
    (h : s0.fromStackItem item = .ok p) : ∃ xs, item = .Struct (.BigInteger p.Balance :: xs) := by
  simp only [NEP17BalanceState.fromStackItem, bind, Except.bind, pure, Except.pure] at h
  cases item with
  | Struct ys =>
    cases ys with
    | nil => simp [assertStruct, index] at h
    | cons y ys =>
      cases y with
      | BigInteger v =>
        simp only [assertStruct, index, List.get?, assertBigInt, Except.ok.injEq] at h
        subst h
        exact ⟨ys, rfl⟩
      | _ => simp [assertStruct, index, assertBigInt] at h
  | _ => simp [assertStruct] at h

theorem NEO_fromStackItem_ok (s0 s : NEOBalanceState K) (item : Item) (err : Option Error)
    (h : s0.fromStackItem item = .ok (s, err)) :
    ∃ xs, item = .Struct (.BigInteger s.Balance :: xs) ∨
      item = .Array (.BigInteger s.Balance :: xs) := by
  simp only [NEOBalanceState.fromStackItem, bind, Except.bind, pure, Except.pure] at h
  have key : ∀ ys, assertItems item = .ok ys → ∃ xs, ys = .BigInteger s.Balance :: xs := by
    intro ys hys
    rw [hys] at h
    dsimp only at h
    cases ys with
    | nil => simp [index] at h
    | cons y ys =>
      refine ⟨ys, ?_⟩
      cases y with
      | BigInteger v =>
        simp only [index, List.get?, assertBigInt] at h
        have hbal : s.Balance = v := by
          repeat' split at h
          all_goals first
            | (simp only [Except.ok.injEq, Prod.mk.injEq] at h; rw [← h.1])
            | simp at h
        rw [hbal]
      | _ => simp [index, assertBigInt] at h
  cases item with
  | Struct ys =>
    obtain ⟨xs, hxs⟩ := key ys rfl
    exact ⟨xs, Or.inl (by rw [hxs])⟩
  | Array ys =>
    obtain ⟨xs, hxs⟩ := key ys rfl
    exact ⟨xs, Or.inr (by rw [hxs])⟩
  | _ => simp [assertItems] at h

/-! ## The claims about the balance states -/

/-- C1: round trip for the plain token balance. For every NEP17BalanceState
whose Balance is a valid stack-item integer, `Bytes` returns and
`NEP17BalanceStateFromBytes` applied to the bytes returns no error and a state
whose Balance equals the original Balance. -/
theorem NEP17_roundtrip (s : NEP17BalanceState) (hv : validInteger s.Balance) :
    ∃ b st, s.Bytes = .ok b ∧ NEP17BalanceStateFromBytes b = .ok (some st, none) ∧
      st.Balance = s.Balance := by
  have hb := NEP17_Bytes_eq s hv
  refine ⟨_, ⟨s.Balance⟩, hb, ?_, rfl⟩
  rw [NEP17FromBytes_of_decode _ _ [] (by simp) (NEP17_decode_Bytes s _ hb)]
  rfl

/-- Witness of C1 at the balance 100000000. -/
theorem NEP17_roundtrip_witness :
    validInteger (100000000 : Int) ∧
    ∃ b st, NEP17BalanceState.Bytes ⟨100000000⟩ = .ok b ∧
      NEP17BalanceStateFromBytes b = .ok (some st, none) ∧ st.Balance = 100000000 :=
  ⟨by decide, NEP17_roundtrip ⟨100000000⟩ (by decide)⟩

/-- C2: round trip for the governance token balance. For every NEOBalanceState
whose Balance is a valid stack-item integer, with a uint32 BalanceHeight and
with VoteTo absent or a valid key, `Bytes` returns and
`NEOBalanceStateFromBytes` applied to the bytes returns no error and the
original state (Balance, BalanceHeight and VoteTo). -/
theorem NEO_roundtrip (K : keys.Scheme) (s : NEOBalanceState K)
    (hv : validInteger s.Balance) (hh : s.BalanceHeight < 2 ^ 32) :
    ∃ b, s.Bytes = .ok b ∧ NEOBalanceStateFromBytes K b = .ok (some s, none) := by
  have hb := NEO_Bytes_eq s hv (validInteger_height _ hh)
  refine ⟨_, hb, ?_⟩
  rw [NEOFromBytes_of_decode _ _ [] (by simp) (NEO_decode_Bytes s _ hb), NEO_fromStackItem_eq,
    uint32_Int64 _ hh]
  rfl

/-- Witness of C2: balance 100000000, height 7, delegate the base point. -/
theorem NEO_roundtrip_witness :
    validInteger (100000000 : Int) ∧ (7 : Nat) < 2 ^ 32 ∧
    ∃ b, NEOBalanceState.Bytes (K := keys.P256) ⟨⟨100000000⟩, 7, some keys.basePoint⟩ = .ok b ∧
      NEOBalanceStateFromBytes keys.P256 b
        = .ok (some ⟨⟨100000000⟩, 7, some keys.basePoint⟩, none) :=
  ⟨by decide, by decide,
    NEO_roundtrip keys.P256 ⟨⟨100000000⟩, 7, some keys.basePoint⟩ (by decide) (by decide)⟩

/-- C3: decoding a zero-length byte sequence yields the zero value without
error: Balance 0 for the plain state; Balance 0, BalanceHeight 0 and no VoteTo
for the governance state. -/
theorem FromBytes_empty (K : keys.Scheme) :
    NEP17BalanceStateFromBytes [] = .ok (some { Balance := 0 }, none) ∧
    NEOBalanceStateFromBytes K []
      = .ok (some { Balance := 0, BalanceHeight := 0, VoteTo := none }, none) :=
  ⟨rfl, rfl⟩

/-- C4: decode fails with an error, not a panic. For every non-empty proper
beginning `p` of an encoding `enc` returned by `Bytes` (of a plain or of a
governance state), and for every non-empty input whose first byte is not a
known tag, both decoders return a nil state and a non-nil error. -/
theorem FromBytes_truncated_or_unknown_tag (K : keys.Scheme) (enc p t : List Byte) (tag : Byte)
    (rest : List Byte)
    (henc : (∃ s : NEP17BalanceState, s.Bytes = .ok enc) ∨
      (∃ s : NEOBalanceState K, s.Bytes = .ok enc))
    (hsplit : enc = p ++ t) (hp : p ≠ []) (ht : t ≠ []) (htag : knownTag tag = false) :
    (∃ e, NEP17BalanceStateFromBytes p = .ok (none, some e)) ∧
    (∃ e, NEOBalanceStateFromBytes K p = .ok (none, some e)) ∧
    NEP17BalanceStateFromBytes (tag :: rest) = .ok (none, some (.unknownType tag)) ∧
    NEOBalanceStateFromBytes K (tag :: rest) = .ok (none, some (.unknownType tag)) := by
  have hdec : ∃ x, decodeItem enc.length enc = .ok (x, []) := by
    rcases henc with ⟨s, hs⟩ | ⟨s, hs⟩
    · exact ⟨_, NEP17_decode_Bytes s enc hs⟩
    · exact ⟨_, NEO_decode_Bytes s enc hs⟩
  obtain ⟨x, hx⟩ := hdec
  obtain ⟨e, he⟩ := decodeItem_truncated enc p t x hx hsplit ht
  have hu := decodeItem_unknownTag tag rest htag
  exact ⟨⟨e, NEP17FromBytes_of_error p e hp he⟩, ⟨e, NEOFromBytes_of_error p e hp he⟩,
    NEP17FromBytes_of_error _ _ (by simp) hu, NEOFromBytes_of_error _ _ (by simp) hu⟩

/-- Witness of C4: the encoding of the balance 5 cut after three bytes, and
the unknown tag 0x77. -/
theorem FromBytes_truncated_or_unknown_tag_witness :
    ((∃ s : NEP17BalanceState, s.Bytes = .ok [0x41, 1, 0x21, 1, 5]) ∨
      (∃ s : NEOBalanceState keys.P256, s.Bytes = .ok [0x41, 1, 0x21, 1, 5])) ∧
    ([0x41, 1, 0x21, 1, 5] : List Byte) = [0x41, 1, 0x21] ++ [1, 5] ∧
    knownTag 0x77 = false ∧
    (∃ e, NEP17BalanceStateFromBytes [0x41, 1, 0x21] = .ok (none, some e)) ∧
    (∃ e, NEOBalanceStateFromBytes keys.P256 [0x41, 1, 0x21] = .ok (none, some e)) ∧
    NEP17BalanceStateFromBytes [0x77, 1] = .ok (none, some (.unknownType 0x77)) ∧
    NEOBalanceStateFromBytes keys.P256 [0x77, 1] = .ok (none, some (.unknownType 0x77)) :=
  ⟨Or.inl ⟨⟨5⟩, by decide⟩, rfl, by decide,
    FromBytes_truncated_or_unknown_tag keys.P256 [0x41, 1, 0x21, 1, 5] [0x41, 1, 0x21] [1, 5]
      0x77 [1] (Or.inl ⟨⟨5⟩, by decide⟩) rfl (by simp) (by simp) (by decide)⟩

/-- C5 (the code at the failing inputs): a well-formed item that is not a
balance struct makes the decoders panic instead of returning an error: an
Integer item, a Struct without fields, a Struct whose field is a ByteString, a
governance struct with two fields; and the governance decoder accepts an Array
of three fields without error. -/
theorem FromBytes_shape_mismatch :
    NEP17BalanceStateFromBytes [0x21, 1, 5] = .error .typeAssertion ∧
    NEP17BalanceStateFromBytes [0x41, 0] = .error .indexOutOfRange ∧
    NEP17BalanceStateFromBytes [0x41, 1, 0x28, 1, 5] = .error .typeAssertion ∧
    NEP17BalanceStateFromBytes [0x40, 1, 0x21, 1, 5] = .error .typeAssertion ∧
    NEOBalanceStateFromBytes keys.P256 [0x21, 1, 5] = .error .typeAssertion ∧
    NEOBalanceStateFromBytes keys.P256 [0x41, 2, 0x21, 1, 5, 0x21, 1, 7]
      = .error .indexOutOfRange ∧
    NEOBalanceStateFromBytes keys.P256 [0x41, 3, 0x21, 1, 5, 0x28, 1, 7, 0]
      = .error .typeAssertion ∧
    NEOBalanceStateFromBytes keys.P256 [0x40, 3, 0x21, 1, 5, 0x21, 1, 7, 0]
      = .ok (some { Balance := 5, BalanceHeight := 7, VoteTo := none }, none) :=
  ⟨rfl, rfl, rfl, rfl, rfl, rfl, rfl, rfl⟩

/-- C6 (counterexample): the key parser accepts more than the byte form of a
valid key. The encoded balance struct whose third item is the ByteString 00 is
decoded without error to a state whose VoteTo is the point at infinity, which
is no valid public key of P-256. The struct whose third item is the 65 bytes
of the uncompressed form of the base point is decoded without error too, and
these bytes are not the byte form `Bytes` of any key. -/
theorem NEO_parser_accepts_more :
    NEOBalanceStateFromBytes keys.P256 [0x41, 3, 0x21, 1, 5, 0x21, 1, 7, 0x28, 1, 0x00]
      = .ok (some ⟨⟨5⟩, 7, some ⟨keys.Point.infinity, rfl⟩⟩, none) ∧
    Item.ByteArray [0x00] ≠ Item.Null ∧
    keys.Point.onCurve keys.Point.infinity = false ∧
    NEOBalanceStateFromBytes keys.P256
        ([0x41, 3, 0x21, 1, 5, 0x21, 1, 7, 0x28, 65] ++ keys.basePoint.val.UncompressedBytes)
      = .ok (some ⟨⟨5⟩, 7, some keys.basePoint⟩, none) ∧
    (∀ k : keys.P256.PublicKey, keys.P256.Bytes k ≠ keys.basePoint.val.UncompressedBytes) := by
  refine ⟨by rfl, (fun hc => by cases hc), rfl, by rfl, ?_⟩
  intro k hk
  have hl := keys.P256.Bytes_length k
  rw [hk] at hl
  exact absurd hl (by decide)

/-- C6 (amended): for an encoded three-field balance struct whose third item is
not Null, the key parser decides. If the third item has no byte form, or the
key parser refuses its bytes, `NEOBalanceStateFromBytes` returns a nil state
and a non-nil error; if the key parser accepts its bytes, the decoder returns
no error and the state with the key that the parser returned. Whenever the
decoder returns a state with a VoteTo, for any input, the input decodes to an
item whose third element has a byte form that the key parser accepted, and
VoteTo is the key that the parser returned for it. -/
theorem NEO_invalid_key (K : keys.Scheme) (b : List Byte) (v h : Int) (third : Item)
    (rest : List Byte)
    (hd : decodeItem b.length b = .ok (.Struct [.BigInteger v, .BigInteger h, third], rest))
    (hnull : third ≠ .Null) :
    ((∀ kb, third.TryBytes = .ok kb → ∃ e, K.NewPublicKeyFromBytes kb = .error e) →
      ∃ e, NEOBalanceStateFromBytes K b = .ok (none, some e)) ∧
    (∀ kb k, third.TryBytes = .ok kb → K.NewPublicKeyFromBytes kb = .ok k →
      NEOBalanceStateFromBytes K b =
        .ok (some ⟨⟨v⟩, uint32 (Int64 h), some k⟩, none)) ∧
    (∀ (b2 : List Byte) (st : NEOBalanceState K) (k : K.PublicKey),
      NEOBalanceStateFromBytes K b2 = .ok (some st, none) → st.VoteTo = some k →
        ∃ item rest2 xs x2 kb, decodeItem b2.length b2 = .ok (item, rest2) ∧
          assertItems item = .ok xs ∧ index xs 2 = .ok x2 ∧ x2.TryBytes = .ok kb ∧
          K.NewPublicKeyFromBytes kb = .ok k) := by
  refine ⟨?_, ?_, ?_⟩
  · intro hkey
    rw [NEOFromBytes_of_decode b _ rest (decodeItem_ok_ne_nil b _ hd) hd]
    cases third with
    | Null => exact absurd rfl hnull
    | Boolean b0 =>
      obtain ⟨e, he⟩ := hkey _ rfl
      refine ⟨e, ?_⟩
      simp [NEOBalanceState.fromStackItem, bind, Except.bind, pure, Except.pure, assertItems,
        index, assertBigInt, Item.TryBytes, he, Except.map]
    | BigInteger v0 =>
      obtain ⟨e, he⟩ := hkey _ rfl
      refine ⟨e, ?_⟩
      simp [NEOBalanceState.fromStackItem, bind, Except.bind, pure, Except.pure, assertItems,
        index, assertBigInt, Item.TryBytes, he, Except.map]
    | ByteArray d =>
      obtain ⟨e, he⟩ := hkey _ rfl
      refine ⟨e, ?_⟩
      simp [NEOBalanceState.fromStackItem, bind, Except.bind, pure, Except.pure, assertItems,
        index, assertBigInt, Item.TryBytes, he, Except.map]
    | Array ys => exact ⟨.invalidConversion, rfl⟩
    | Struct ys => exact ⟨.invalidConversion, rfl⟩
    | Map ys => exact ⟨.invalidConversion, rfl⟩
    | Interop => exact ⟨.invalidConversion, rfl⟩
  · intro kb k hkb hk
    rw [NEOFromBytes_of_decode b _ rest (decodeItem_ok_ne_nil b _ hd) hd]
    cases third with
    | Null => exact absurd rfl hnull
    | Boolean b0 =>
      simp only [Item.TryBytes, Except.ok.injEq] at hkb
      subst hkb
      simp [NEOBalanceState.fromStackItem, bind, Except.bind, pure, Except.pure, assertItems,
        index, assertBigInt, Item.TryBytes, hk, Except.map, NEOBalanceState.new]
    | BigInteger v0 =>
      simp only [Item.TryBytes, Except.ok.injEq] at hkb
      subst hkb
      simp [NEOBalanceState.fromStackItem, bind, Except.bind, pure, Except.pure, assertItems,
        index, assertBigInt, Item.TryBytes, hk, Except.map, NEOBalanceState.new]
    | ByteArray d =>
      simp only [Item.TryBytes, Except.ok.injEq] at hkb
      subst hkb
      simp [NEOBalanceState.fromStackItem, bind, Except.bind, pure, Except.pure, assertItems,
        index, assertBigInt, Item.TryBytes, hk, Except.map, NEOBalanceState.new]
    | Array ys => simp [Item.TryBytes] at hkb
    | Struct ys => simp [Item.TryBytes] at hkb
    | Map ys => simp [Item.TryBytes] at hkb
    | Interop => simp [Item.TryBytes] at hkb
  · intro b2 st k hst hk
    by_cases hb2 : b2 = []
    · subst hb2
      simp only [NEOBalanceStateFromBytes, List.length_nil, if_true, pure, Except.pure,
        Except.ok.injEq, Prod.mk.injEq, Option.some.injEq, and_true] at hst
      rw [← hst] at hk
      simp [NEOBalanceState.new] at hk
    · cases hd2 : decodeItem b2.length b2 with
      | error e => rw [NEOFromBytes_of_error b2 e hb2 hd2] at hst; simp at hst
      | ok res =>
        obtain ⟨item, rest2⟩ := res
        rw [NEOFromBytes_of_decode b2 item rest2 hb2 hd2] at hst
        cases hf : (NEOBalanceState.new K).fromStackItem item with
        | error e => rw [hf] at hst; simp [Except.map] at hst
        | ok pr =>
          obtain ⟨s, err⟩ := pr
          rw [hf] at hst
          cases err with
          | some e => simp [Except.map] at hst
          | none =>
            simp only [Except.map, Option.isSome_none, Bool.false_eq_true, if_false,
              Except.ok.injEq, Prod.mk.injEq, Option.some.injEq, and_true] at hst
            subst hst
            obtain ⟨xs, x2, kb, h1, h2, h3, h4⟩ := NEO_fromStackItem_voteTo _ _ item k hf hk
            exact ⟨item, rest2, xs, x2, kb, rfl, h1, h2, h3, h4⟩

/-- Witness of C6: a struct whose third item is the ByteString 01 02 03, which
the key parser of P-256 refuses. -/
theorem NEO_invalid_key_witness :
    decodeItem ([0x41, 3, 0x21, 1, 5, 0x21, 1, 7, 0x28, 3, 1, 2, 3] : List Byte).length
        [0x41, 3, 0x21, 1, 5, 0x21, 1, 7, 0x28, 3, 1, 2, 3]
      = .ok (.Struct [.BigInteger 5, .BigInteger 7, .ByteArray [1, 2, 3]], []) ∧
    Item.ByteArray [1, 2, 3] ≠ Item.Null ∧
    (∀ kb, (Item.ByteArray [1, 2, 3]).TryBytes = .ok kb →
      ∃ e, keys.P256.NewPublicKeyFromBytes kb = .error e) ∧
    (∃ e, NEOBalanceStateFromBytes keys.P256
      [0x41, 3, 0x21, 1, 5, 0x21, 1, 7, 0x28, 3, 1, 2, 3] = .ok (none, some e)) :=
  have hkey : ∀ kb, (Item.ByteArray [1, 2, 3]).TryBytes = .ok kb →
      ∃ e, keys.P256.NewPublicKeyFromBytes kb = .error e := fun kb hkb => by
    simp only [Item.TryBytes, Except.ok.injEq] at hkb
    subst hkb
    exact ⟨.invalidKey, rfl⟩
  ⟨rfl, (fun hc => by cases hc), hkey,
    (NEO_invalid_key keys.P256 [0x41, 3, 0x21, 1, 5, 0x21, 1, 7, 0x28, 3, 1, 2, 3] 5 7
      (.ByteArray [1, 2, 3]) [] rfl (fun hc => by cases hc)).1 hkey⟩

/-- C7: absent optional field. `NEOBalanceState.toStackItem` puts the Null item
in the third position exactly when VoteTo is absent; `fromStackItem` given a
balance struct (two Integer items first) whose third item is Null sets VoteTo
to absent and returns no error, whatever VoteTo the receiver held before; and
on every struct whose third item is Null, whenever `fromStackItem` returns, it
returns no error and a state without VoteTo. -/
theorem NEO_null_delegate (K : keys.Scheme) (s s0 : NEOBalanceState K) (v h : Int)
    (more : List Item) (hv : validInteger s.Balance) (hh : s.BalanceHeight < 2 ^ 32) :
    (∃ x0 x1 x2, s.toStackItem = .ok (.Struct [x0, x1, x2]) ∧
      (x2 = .Null ↔ s.VoteTo = none)) ∧
    s0.fromStackItem (.Struct (.BigInteger v :: .BigInteger h :: .Null :: more))
      = .ok ({ Balance := v, BalanceHeight := uint32 (Int64 h), VoteTo := none }, none) ∧
    (∀ (x0 x1 : Item) (s1 : NEOBalanceState K) (err : Option Error),
      s0.fromStackItem (.Struct (x0 :: x1 :: .Null :: more)) = .ok (s1, err) →
        s1.VoteTo = none ∧ err = none) := by
  refine ⟨?_, rfl, ?_⟩
  · refine ⟨_, _, _, NEO_toStackItem_eq s hv (validInteger_height _ hh), ?_⟩
    cases s.VoteTo <;> simp
  · intro x0 x1 s1 err hret
    cases x0 <;> cases x1 <;>
      simp only [NEOBalanceState.fromStackItem, assertItems, index, List.get?, assertBigInt,
        bind, Except.bind, pure, Except.pure, Except.ok.injEq, Prod.mk.injEq,
        reduceCtorEq] at hret
    obtain ⟨rfl, rfl⟩ := hret
    exact ⟨rfl, rfl⟩

/-- Witness of C7: a state that votes for the base point is encoded with a
third item other than Null, and decoding a struct with Null over a receiver
that votes for the base point clears the vote. -/
theorem NEO_null_delegate_witness :
    validInteger (5 : Int) ∧ (7 : Nat) < 2 ^ 32 ∧
    (∃ x0 x1 x2,
        NEOBalanceState.toStackItem (K := keys.P256) ⟨⟨5⟩, 7, some keys.basePoint⟩
          = .ok (.Struct [x0, x1, x2]) ∧
        (x2 = .Null ↔ (some keys.basePoint : Option keys.P256.PublicKey) = none)) ∧
    NEOBalanceState.fromStackItem (K := keys.P256) ⟨⟨5⟩, 7, some keys.basePoint⟩
        (.Struct (.BigInteger 9 :: .BigInteger 3 :: .Null :: []))
      = .ok ({ Balance := 9, BalanceHeight := uint32 (Int64 3), VoteTo := none }, none) :=
  have h := NEO_null_delegate keys.P256 ⟨⟨5⟩, 7, some keys.basePoint⟩
    ⟨⟨5⟩, 7, some keys.basePoint⟩ 9 3 [] (by decide) (by decide)
  ⟨by decide, by decide, h.1, h.2.1⟩

/-- C8: absence of the delegate is structurally distinguishable. The bytes of
a state without VoteTo differ from the bytes of every state with a VoteTo, and
decoding the bytes of a state with a VoteTo gives a state with that VoteTo,
never an absent one. -/
theorem NEO_absent_distinguishable (K : keys.Scheme) (s1 s2 : NEOBalanceState K)
    (b1 b2 : List Byte) (k : K.PublicKey)
    (h1 : s1.Bytes = .ok b1) (h2 : s2.Bytes = .ok b2)
    (hn : s1.VoteTo = none) (hs : s2.VoteTo = some k) :
    b1 ≠ b2 ∧
    ∃ st, NEOBalanceStateFromBytes K b2 = .ok (some st, none) ∧ st.VoteTo = some k := by
  have d1 := NEO_decode_Bytes s1 b1 h1
  have d2 := NEO_decode_Bytes s2 b2 h2
  rw [hn] at d1
  rw [hs] at d2
  constructor
  · intro hb
    rw [hb, d2] at d1
    simp at d1
  · refine ⟨⟨⟨s2.Balance⟩, uint32 (Int64 s2.BalanceHeight), some k⟩, ?_, rfl⟩
    rw [NEOFromBytes_of_decode b2 _ [] (decodeItem_ok_ne_nil b2 _ d2) d2]
    have hf := NEO_fromStackItem_eq (NEOBalanceState.new K) s2.Balance s2.BalanceHeight (some k)
    dsimp only at hf
    rw [hf]
    rfl

/-- Witness of C8: two states that differ only in the delegate. -/
theorem NEO_absent_distinguishable_witness :
    ∃ b1 b2,
      NEOBalanceState.Bytes (K := keys.P256) ⟨⟨5⟩, 7, none⟩ = .ok b1 ∧
      NEOBalanceState.Bytes (K := keys.P256) ⟨⟨5⟩, 7, some keys.basePoint⟩ = .ok b2 ∧
      b1 ≠ b2 ∧
      ∃ st, NEOBalanceStateFromBytes keys.P256 b2 = .ok (some st, none) ∧
        st.VoteTo = some keys.basePoint :=
  ⟨_, _, rfl, rfl,
    NEO_absent_distinguishable keys.P256 ⟨⟨5⟩, 7, none⟩ ⟨⟨5⟩, 7, some keys.basePoint⟩ _ _
      keys.basePoint rfl rfl rfl rfl⟩

/-- C9: the domain structure is converted to a Struct item in declared field
order. The plain state becomes a Struct of exactly one item, Integer(Balance);
the governance state a Struct of exactly three items, Integer(Balance),
Integer(BalanceHeight), then VoteTo as ByteString(key bytes) or Null; and
`Bytes` returns the stack-item serialization of exactly that Struct. -/
theorem toStackItem_field_order (K : keys.Scheme) (p : NEP17BalanceState)
    (s : NEOBalanceState K) (hp : validInteger p.Balance) (hv : validInteger s.Balance)
    (hh : s.BalanceHeight < 2 ^ 32) :
    p.toStackItem = .ok (.Struct [.BigInteger p.Balance]) ∧
    (∃ b, encodeItem (.Struct [.BigInteger p.Balance]) = .ok b ∧ p.Bytes = .ok b) ∧
    s.toStackItem = .ok (.Struct [.BigInteger s.Balance, .BigInteger s.BalanceHeight,
      match s.VoteTo with
      | some k => .ByteArray (K.Bytes k)
      | none => .Null]) ∧
    (∃ b, encodeItem (.Struct [.BigInteger s.Balance, .BigInteger s.BalanceHeight,
        match s.VoteTo with
        | some k => .ByteArray (K.Bytes k)
        | none => .Null]) = .ok b ∧ s.Bytes = .ok b) := by
  have hh2 := validInteger_height _ hh
  refine ⟨NEP17_toStackItem_eq p hp, ⟨_, ?_, NEP17_Bytes_eq p hp⟩,
    NEO_toStackItem_eq s hv hh2, ⟨_, ?_, NEO_Bytes_eq s hv hh2⟩⟩
  · simp [encodeItem, encodeItems]
  · cases s.VoteTo <;> simp [encodeItem, encodeItems]

/-- Witness of C9: the balance 5, and the balance 5 at height 7 voting for the
base point. -/
theorem toStackItem_field_order_witness :
    validInteger (5 : Int) ∧ (7 : Nat) < 2 ^ 32 ∧
    NEP17BalanceState.toStackItem ⟨5⟩ = .ok (.Struct [.BigInteger 5]) ∧
    NEOBalanceState.toStackItem (K := keys.P256) ⟨⟨5⟩, 7, some keys.basePoint⟩
      = .ok (.Struct [.BigInteger 5, .BigInteger 7,
          .ByteArray (keys.P256.Bytes keys.basePoint)]) :=
  have h := toStackItem_field_order keys.P256 ⟨5⟩ ⟨⟨5⟩, 7, some keys.basePoint⟩
    (by decide) (by decide) (by decide)
  ⟨by decide, by decide, h.1, h.2.2.1⟩

/-- C10 (counterexample): the bytes 41 01 21 01 fb decode without error to the
balance -5, so a state returned without error can hold a negative Balance. -/
theorem FromBytes_negative_balance :
    ¬ (∀ (b : List Byte) (st : NEP17BalanceState),
        NEP17BalanceStateFromBytes b = .ok (some st, none) → 0 ≤ st.Balance) := by
  intro h
  have h5 := h [0x41, 1, 0x21, 1, 0xfb] ⟨-5⟩ (by decide)
  exact absurd h5 (by decide)

/-- C10 (amended): the Balance of a state returned without error is the
integer stored in the first field of the decoded item (0 for the empty input);
the decoders do not look at its sign. -/
theorem FromBytes_balance_is_stored (K : keys.Scheme) (b1 b2 : List Byte)
    (p : NEP17BalanceState) (s : NEOBalanceState K)
    (h1 : NEP17BalanceStateFromBytes b1 = .ok (some p, none))
    (h2 : NEOBalanceStateFromBytes K b2 = .ok (some s, none)) :
    ((b1 = [] ∧ p.Balance = 0) ∨
      ∃ xs rest, decodeItem b1.length b1 = .ok (.Struct (.BigInteger p.Balance :: xs), rest)) ∧
    ((b2 = [] ∧ s.Balance = 0) ∨
      ∃ xs rest, decodeItem b2.length b2 = .ok (.Struct (.BigInteger s.Balance :: xs), rest) ∨
        decodeItem b2.length b2 = .ok (.Array (.BigInteger s.Balance :: xs), rest)) := by
  constructor
  · by_cases hb : b1 = []
    · subst hb
      left
      simp only [NEP17BalanceStateFromBytes, List.length_nil, if_true, pure, Except.pure,
        Except.ok.injEq, Prod.mk.injEq, Option.some.injEq, and_true] at h1
      rw [← h1]
      exact ⟨rfl, rfl⟩
    · right
      cases hd : decodeItem b1.length b1 with
      | error e => rw [NEP17FromBytes_of_error b1 e hb hd] at h1; simp at h1
      | ok res =>
        obtain ⟨item, rest⟩ := res
        rw [NEP17FromBytes_of_decode b1 item rest hb hd] at h1
        cases hf : NEP17BalanceState.new.fromStackItem item with
        | error e => rw [hf] at h1; simp [Except.map] at h1
        | ok q =>
          rw [hf] at h1
          simp only [Except.map, Except.ok.injEq, Prod.mk.injEq, Option.some.injEq,
            and_true] at h1
          subst h1
          obtain ⟨xs, hxs⟩ := NEP17_fromStackItem_ok _ _ item hf
          exact ⟨xs, rest, by rw [hxs]⟩
  · by_cases hb : b2 = []
    · subst hb
      left
      simp only [NEOBalanceStateFromBytes, List.length_nil, if_true, pure, Except.pure,
        Except.ok.injEq, Prod.mk.injEq, Option.some.injEq, and_true] at h2
      rw [← h2]
      exact ⟨rfl, rfl⟩
    · right
      cases hd : decodeItem b2.length b2 with
      | error e => rw [NEOFromBytes_of_error b2 e hb hd] at h2; simp at h2
      | ok res =>
        obtain ⟨item, rest⟩ := res
        rw [NEOFromBytes_of_decode b2 item rest hb hd] at h2
        cases hf : (NEOBalanceState.new K).fromStackItem item with
        | error e => rw [hf] at h2; simp [Except.map] at h2
        | ok q =>
          obtain ⟨q1, err⟩ := q
          rw [hf] at h2
          cases err with
          | some e => simp [Except.map] at h2
          | none =>
            simp only [Except.map, Option.isSome_none, Bool.false_eq_true, if_false,
              Except.ok.injEq, Prod.mk.injEq, Option.some.injEq, and_true] at h2
            subst h2
            obtain ⟨xs, hxs⟩ := NEO_fromStackItem_ok _ _ item none hf
            refine ⟨xs, rest, ?_⟩
            rcases hxs with hxs | hxs
            · left; rw [hxs]
            · right; rw [hxs]

/-- Witness of C10 (amended): the bytes 41 01 21 01 fb give the balance -5, the
stored integer; the governance encoding of balance 5 at height 7 gives 5. -/
theorem FromBytes_balance_is_stored_witness :
    NEP17BalanceStateFromBytes [0x41, 1, 0x21, 1, 0xfb] = .ok (some ⟨-5⟩, none) ∧
    NEOBalanceStateFromBytes keys.P256 [0x41, 3, 0x21, 1, 5, 0x21, 1, 7, 0]
      = .ok (some ⟨⟨5⟩, 7, none⟩, none) ∧
    (∃ xs rest, decodeItem ([0x41, 1, 0x21, 1, 0xfb] : List Byte).length
      [0x41, 1, 0x21, 1, 0xfb] = .ok (.Struct (.BigInteger (-5) :: xs), rest)) :=
  have h := FromBytes_balance_is_stored keys.P256 [0x41, 1, 0x21, 1, 0xfb]
    [0x41, 3, 0x21, 1, 5, 0x21, 1, 7, 0] ⟨-5⟩ ⟨⟨5⟩, 7, none⟩ (by decide) (by rfl)
  ⟨by decide, by rfl, h.1.resolve_left (fun hc => by cases hc.1)⟩

end state


/-! ## The descents of the path evaluator -/

namespace jsonpath

theorem Slice.toList_append (s : Slice) (xs : List Value) :
    (s.append xs).toList = s.toList ++ xs := by
  cases s <;> cases xs <;> simp [Slice.append, Slice.toList]

theorem foldl_keys_toList (kvs : List (String × Value)) :
    ∀ (ks : List String) (acc : Slice),
      (ks.foldl (fun values k => values.append [mapIndex kvs k]) acc).toList
        = acc.toList ++ ks.map (mapIndex kvs) := by
  intro ks
  induction ks with
  | nil => intro acc; simp
  | cons k ks ih =>
    intro acc
    simp only [List.foldl_cons, ih, Slice.toList_append, List.map_cons, List.append_assoc,
      List.singleton_append]

theorem descent_fold_toList : ∀ (l : List Value) (acc : Slice),
    (l.foldl descentStep acc).toList = acc.toList ++ l.flatMap children := by
  intro l
  induction l with
  | nil => intro acc; simp
  | cons x l ih =>
    intro acc
    rw [List.foldl_cons, ih, List.flatMap_cons]
    cases x <;>
      simp [descentStep, children, Slice.toList_append, foldl_keys_toList, List.append_assoc]

/-- The wildcard step selects the children of the selected objects, in order,
and never fails. -/
theorem descent_eq (objs : Slice) :
    (descent objs).1.toList = objs.toList.flatMap children ∧ (descent objs).2 = true := by
  constructor
  · simp only [descent]
    rw [descent_fold_toList]
    simp [Slice.toList]
  · rfl

theorem foldl_names_toList (kvs : List (String × Value)) :
    ∀ (names : List String) (acc : Slice),
      (names.foldl (identStep kvs) acc).toList
        = acc.toList ++ names.filterMap (lookup kvs) := by
  intro names
  induction names with
  | nil => intro acc; simp
  | cons n names ih =>
    intro acc
    rw [List.foldl_cons, ih]
    cases h : lookup kvs n <;> simp [identStep, h, Slice.toList_append, List.filterMap_cons]

theorem descentIdent_fold_toList (names : List String) : ∀ (l : List Value) (acc : Slice),
    (l.foldl (descentIdentStep names) acc).toList
      = acc.toList ++ l.flatMap (fieldsOf names) := by
  intro l
  induction l with
  | nil => intro acc; simp
  | cons x l ih =>
    intro acc
    rw [List.foldl_cons, ih, List.flatMap_cons]
    cases x <;> simp [descentIdentStep, fieldsOf, foldl_names_toList, List.append_assoc]

/-- Field access selects, for each selected map in order, its values under the
names; it never fails. -/
theorem descentIdent_eq (objs : Slice) (names : List String) :
    (descentIdent objs names).1.toList = objs.toList.flatMap (fieldsOf names) ∧
      (descentIdent objs names).2 = true := by
  constructor
  · simp only [descentIdent]
    rw [descentIdent_fold_toList]
    simp [Slice.toList]
  · rfl

theorem indexLoop_nat (obj : List Value) : ∀ (idxs : List Nat) (acc : Slice),
    ∃ r, indexLoop obj (idxs.map (fun (i : Nat) => (i : Int))) acc = .ok r ∧
      r.toList = acc.toList ++ idxs.filterMap (fun i => obj.get? i) := by
  intro idxs
  induction idxs with
  | nil => intro acc; exact ⟨acc, rfl, by simp⟩
  | cons i idxs ih =>
    intro acc
    simp only [List.map_cons, indexLoop]
    by_cases hi : i < obj.length
    · have h1 : ((i : Int) < (obj.length : Int)) := by omega
      have h2 : ¬ ((i : Int) < 0) := by omega
      obtain ⟨v, hv⟩ : ∃ v, obj.get? i = some v := by
        rw [List.get?_eq_get hi]; exact ⟨_, rfl⟩
      simp only [h1, h2, if_true, if_false, Int.toNat_ofNat, hv]
      obtain ⟨r, hr, hl⟩ := ih (acc.append [v])
      refine ⟨r, hr, ?_⟩
      rw [hl, Slice.toList_append, List.filterMap_cons, hv]
      simp
    · have h1 : ¬ ((i : Int) < (obj.length : Int)) := by omega
      have hnone : obj.get? i = none := List.get?_eq_none.mpr (by omega)
      simp only [h1, if_false]
      obtain ⟨r, hr, hl⟩ := ih acc
      refine ⟨r, hr, ?_⟩
      rw [hl, List.filterMap_cons, hnone]

theorem descentIndexLoop_nat (idxs : List Nat) : ∀ (l : List Value) (acc : Slice),
    ∃ r, descentIndexLoop (idxs.map (fun (i : Nat) => (i : Int))) l acc = .ok r ∧
      r.toList = acc.toList ++ l.flatMap (elemsAt idxs) := by
  intro l
  induction l with
  | nil => intro acc; exact ⟨acc, rfl, by simp⟩
  | cons x l ih =>
    intro acc
    cases x with
    | array obj =>
      obtain ⟨r1, hr1, hl1⟩ := indexLoop_nat obj idxs acc
      obtain ⟨r, hr, hl⟩ := ih r1
      refine ⟨r, ?_, ?_⟩
      · simp only [descentIndexLoop, hr1, hr]
      · rw [hl, hl1, List.flatMap_cons]
        simp [elemsAt]
    | null | bool _ | number _ | string _ | object _ =>
      obtain ⟨r, hr, hl⟩ := ih acc
      refine ⟨r, ?_, ?_⟩
      · simp only [descentIndexLoop, hr]
      · rw [hl, List.flatMap_cons]
        simp [elemsAt]

/-- Index access with non-negative indices returns, and selects for each
selected array in order its elements at the indices. -/
theorem descentIndex_nat (objs : Slice) (idxs : List Nat) :
    ∃ r, descentIndex objs (idxs.map (fun (i : Nat) => (i : Int))) = .ok (r, true) ∧
      r.toList = objs.toList.flatMap (elemsAt idxs) := by
  obtain ⟨r, hr, hl⟩ := descentIndexLoop_nat idxs objs.toList Slice.nil
  refine ⟨r, ?_, ?_⟩
  · simp only [descentIndex, hr]
  · rw [hl]; simp [Slice.toList]

end jsonpath


namespace jsonpath

theorem subEnd_eq (e : Int) (n : Nat) :
    (if (if e ≤ 0 then e + n else e) > (n : Int) then (n : Int)
      else (if e ≤ 0 then e + n else e)) = sliceEnd e n := by
  unfold sliceEnd
  split <;> split <;> omega

theorem descentRangeLoop_ok (start end_ : Int) : ∀ (l : List Value) (acc : Slice),
    (∀ arr, Value.array arr ∈ l →
      0 ≤ sliceStart start arr.length ∧ sliceStart start arr.length ≤ sliceEnd end_ arr.length) →
    ∃ r, descentRangeLoop start end_ l acc = .ok (r, true) ∧
      r.toList = acc.toList ++ l.flatMap (sliceOf start end_) := by
  intro l
  induction l with
  | nil => intro acc _; exact ⟨acc, rfl, by simp⟩
  | cons x l ih =>
    intro acc hall
    have hall2 : ∀ arr, Value.array arr ∈ l →
        0 ≤ sliceStart start arr.length ∧
          sliceStart start arr.length ≤ sliceEnd end_ arr.length :=
      fun arr h => hall arr (List.mem_cons_of_mem _ h)
    cases x with
    | array arr =>
      obtain ⟨h0, h1⟩ := hall arr (List.mem_cons_self _ _)
      simp only [descentRangeLoop, subEnd_eq]
      have hs : (if start < 0 then start + (arr.length : Int) else start)
          = sliceStart start arr.length := rfl
      rw [hs]
      have hc : ¬ (sliceEnd end_ arr.length - sliceStart start arr.length < 0) := by omega
      have hn : ¬ (sliceStart start arr.length < 0) := by omega
      simp only [hc, hn, if_false]
      obtain ⟨r, hr, hl⟩ := ih (acc.append ((arr.drop (sliceStart start arr.length).toNat).take
        (sliceEnd end_ arr.length - sliceStart start arr.length).toNat)) hall2
      refine ⟨r, hr, ?_⟩
      rw [hl, Slice.toList_append, List.flatMap_cons]
      simp [sliceOf, List.append_assoc]
    | null | bool _ | number _ | string _ | object _ =>
      obtain ⟨r, hr, hl⟩ := ih acc hall2
      refine ⟨r, ?_, ?_⟩
      · simp only [descentRangeLoop, hr]
      · rw [hl, List.flatMap_cons]
        simp [sliceOf]

/-- A slice whose resolved bounds are in order on every selected array returns,
and selects for each selected array in order its elements between the bounds. -/
theorem descentRange_ok (objs : Slice) (start end_ : Int)
    (hall : ∀ arr, Value.array arr ∈ objs.toList →
      0 ≤ sliceStart start arr.length ∧ sliceStart start arr.length ≤ sliceEnd end_ arr.length) :
    ∃ r, descentRange objs start end_ = .ok (r, true) ∧
      r.toList = objs.toList.flatMap (sliceOf start end_) := by
  obtain ⟨r, hr, hl⟩ := descentRangeLoop_ok start end_ objs.toList Slice.nil hall
  exact ⟨r, hr, by rw [hl]; simp [Slice.toList]⟩

/-- When `descentRange` returns and some selected array has its resolved end
before its resolved start, it returns `nil, false`. -/
theorem descentRangeLoop_invalid (start end_ : Int) : ∀ (l : List Value) (acc : Slice)
    (res : Slice × Bool),
    (∃ arr, Value.array arr ∈ l ∧ sliceEnd end_ arr.length < sliceStart start arr.length) →
    descentRangeLoop start end_ l acc = .ok res → res = (Slice.nil, false) := by
  intro l
  induction l with
  | nil => intro acc res h; obtain ⟨arr, hm, _⟩ := h; simp at hm
  | cons x l ih =>
    intro acc res hex hres
    cases x with
    | array arr =>
      simp only [descentRangeLoop, subEnd_eq] at hres
      have hs : (if start < 0 then start + (arr.length : Int) else start)
          = sliceStart start arr.length := rfl
      rw [hs] at hres
      by_cases hc : sliceEnd end_ arr.length - sliceStart start arr.length < 0
      · simp only [hc, if_true, Except.ok.injEq] at hres
        exact hres.symm
      · simp only [hc, if_false] at hres
        by_cases hn : sliceStart start arr.length < 0
        · simp [hn] at hres
        · simp only [hn, if_false] at hres
          obtain ⟨a, hm, ha⟩ := hex
          rcases List.mem_cons.mp hm with heq | hm2
          · injection heq with heq
            subst heq
            omega
          · exact ih _ res ⟨a, hm2, ha⟩ hres
    | null | bool _ | number _ | string _ | object _ =>
      simp only [descentRangeLoop] at hres
      obtain ⟨a, hm, ha⟩ := hex
      rcases List.mem_cons.mp hm with heq | hm2
      · cases heq
      · exact ih _ res ⟨a, hm2, ha⟩ hres

/-! ## The tokens of a path -/

theorem get?_of_drop {s : List Char} {i : Nat} {c : Char} {rest : List Char}
    (h : s.drop i = c :: rest) : s.get? i = some c := by
  rw [List.get?_eq_getElem?, ← List.head?_drop, h]
  rfl

theorem drop_succ_of_drop {s : List Char} {i : Nat} {c : Char} {rest : List Char}
    (h : s.drop i = c :: rest) : s.drop (i + 1) = rest := by
  have h2 : s.drop (i + 1) = (s.drop i).drop 1 := by
    rw [List.drop_drop, Nat.add_comm]
  rw [h2, h]
  rfl

theorem drop_add_of_drop {s : List Char} {i : Nat} {a b : List Char}
    (h : s.drop i = a ++ b) : s.drop (i + a.length) = b := by
  have h2 : s.drop (i + a.length) = (s.drop i).drop a.length := by
    rw [List.drop_drop, Nat.add_comm]
  rw [h2, h, List.drop_left]

theorem substr_of_drop {s : List Char} {i : Nat} {a b : List Char}
    (h : s.drop i = a ++ b) : substr s i (i + a.length) = a := by
  unfold substr
  rw [h, Nat.add_sub_cancel_left, List.take_left]

end jsonpath


namespace jsonpath

theorem takeWhile_append_stop (f : Char → Bool) : ∀ (ds post : List Char),
    (∀ d ∈ ds, f d = true) → (∀ d, post.head? = some d → f d = false) →
    (ds ++ post).takeWhile f = ds := by
  intro ds
  induction ds with
  | nil =>
    intro post _ hpost
    cases post with
    | nil => rfl
    | cons d post =>
      have := hpost d rfl
      simp [List.takeWhile, this]
  | cons d ds ih =>
    intro post hds hpost
    have hd := hds d (List.mem_cons_self _ _)
    rw [List.cons_append, List.takeWhile_cons, hd]
    simp only [if_true]
    rw [ih post (fun x hx => hds x (List.mem_cons_of_mem _ hx)) hpost]

theorem nextToken_char (p : pathParser) (c : Char) (rest : List Char) (typ : pathTokenType)
    (h : p.s.drop p.i = c :: rest)
    (hc : (c, typ) ∈ [('$', pathTokenType.pathRoot), ('.', .pathDot), ('[', .pathLeftBracket),
      (']', .pathRightBracket), ('*', .pathAsterisk), (',', .pathComma), (':', .pathColon)]) :
    p.nextToken = .ok ((typ, [], true), { p with i := p.i + 1 }) := by
  simp only [pathParser.nextToken, get?_of_drop h]
  simp only [List.mem_cons, Prod.mk.injEq, List.mem_singleton, List.not_mem_nil, or_false] at hc
  rcases hc with ⟨rfl, rfl⟩ | ⟨rfl, rfl⟩ | ⟨rfl, rfl⟩ | ⟨rfl, rfl⟩ | ⟨rfl, rfl⟩ | ⟨rfl, rfl⟩ |
    ⟨rfl, rfl⟩ <;> simp

theorem digit_not_special (c : Char) (hc : c = '-' ∨ isDigit c = true) :
    c ≠ '$' ∧ c ≠ '.' ∧ c ≠ '[' ∧ c ≠ ']' ∧ c ≠ '*' ∧ c ≠ ',' ∧ c ≠ ':' ∧ c ≠ '\'' ∧
      isIdentStart c = false := by
  rcases hc with rfl | hd
  · decide
  · refine ⟨?_, ?_, ?_, ?_, ?_, ?_, ?_, ?_, ?_⟩
    · rintro rfl; revert hd; decide
    · rintro rfl; revert hd; decide
    · rintro rfl; revert hd; decide
    · rintro rfl; revert hd; decide
    · rintro rfl; revert hd; decide
    · rintro rfl; revert hd; decide
    · rintro rfl; revert hd; decide
    · rintro rfl; revert hd; decide
    · have h36 : '0'.toNat = 48 := rfl
      have h57 : '9'.toNat = 57 := rfl
      have ha : 'a'.toNat = 97 := rfl
      have hz : 'z'.toNat = 122 := rfl
      have hA : 'A'.toNat = 65 := rfl
      have hZ : 'Z'.toNat = 90 := rfl
      simp only [isDigit, h36, h57, Bool.and_eq_true, decide_eq_true_eq] at hd
      have hu : c ≠ '_' := by
        rintro rfl
        have : '_'.toNat = 95 := rfl
        omega
      simp only [isIdentStart, ha, hz, hA, hZ, hu, decide_False, Bool.false_or,
        Bool.or_eq_false_iff, Bool.and_eq_false_iff, decide_eq_false_iff_not]
      omega

theorem nextToken_number (p : pathParser) (c : Char) (ds post : List Char)
    (h : p.s.drop p.i = c :: (ds ++ post)) (hc : c = '-' ∨ isDigit c = true)
    (hds : ∀ d ∈ ds, isDigit d = true) (hpost : ∀ d, post.head? = some d → isDigit d = false) :
    p.nextToken = .ok ((.pathNumber, c :: ds, true), { p with i := p.i + (ds.length + 1) }) := by
  obtain ⟨h1, h2, h3, h4, h5, h6, h7, h8, h9⟩ := digit_not_special c hc
  have hor : (c = '-' || isDigit c) = true := by
    rcases hc with rfl | hd
    · rfl
    · simp [hd]
  have hsub : substr p.s p.i (p.i + 1 + ds.length) = c :: ds := by
    have := substr_of_drop (s := p.s) (i := p.i) (a := c :: ds) (b := post) (by simpa using h)
    simpa [Nat.add_assoc, Nat.add_comm 1] using this
  simp only [pathParser.nextToken, get?_of_drop h, h1, h2, h3, h4, h5, h6, h7, h8, h9, hor,
    if_false, if_true, Bool.false_eq_true, pathParser.parseNumber, drop_succ_of_drop h,
    takeWhile_append_stop isDigit ds post hds hpost, hsub]
  congr 3
  omega

end jsonpath


namespace jsonpath

theorem nextToken_string (p : pathParser) (body post : List Char)
    (h : p.s.drop p.i = '\'' :: (body ++ '\'' :: post)) (hbody : ∀ d ∈ body, d ≠ '\'') :
    p.nextToken = .ok ((.pathString, '\'' :: (body ++ ['\'']), true),
      { p with i := p.i + (body.length + 2) }) := by
  have htw : (body ++ '\'' :: post).takeWhile (fun c => c != '\'') = body :=
    takeWhile_append_stop _ body ('\'' :: post)
      (fun d hd => by simpa using hbody d hd)
      (fun d hd => by
        simp only [List.head?_cons, Option.some.injEq] at hd
        subst hd
        rfl)
  have hsub : substr p.s p.i (p.i + 1 + body.length + 1) = '\'' :: (body ++ ['\'']) := by
    have := substr_of_drop (s := p.s) (i := p.i) (a := '\'' :: (body ++ ['\''])) (b := post)
      (by simpa using h)
    simpa [Nat.add_assoc, Nat.add_comm 1] using this
  have hlt : body.length < (body ++ '\'' :: post).length := by simp
  have h1 : ('\'' : Char) ≠ '$' := by decide
  have h2 : ('\'' : Char) ≠ '.' := by decide
  have h3 : ('\'' : Char) ≠ '[' := by decide
  have h4 : ('\'' : Char) ≠ ']' := by decide
  have h5 : ('\'' : Char) ≠ '*' := by decide
  have h6 : ('\'' : Char) ≠ ',' := by decide
  have h7 : ('\'' : Char) ≠ ':' := by decide
  simp only [pathParser.nextToken, get?_of_drop h, h1, h2, h3, h4, h5, h6, h7, if_false,
    if_true, pathParser.parseString, drop_succ_of_drop h, htw, hlt, hsub]
  congr 3
  omega

theorem identStart_not_special (c : Char) (hc : isIdentStart c = true) :
    c ≠ '$' ∧ c ≠ '.' ∧ c ≠ '[' ∧ c ≠ ']' ∧ c ≠ '*' ∧ c ≠ ',' ∧ c ≠ ':' ∧ c ≠ '\'' := by
  refine ⟨?_, ?_, ?_, ?_, ?_, ?_, ?_, ?_⟩ <;> (rintro rfl; revert hc; decide)

theorem nextToken_ident (p : pathParser) (c : Char) (cs post : List Char)
    (h : p.s.drop p.i = c :: (cs ++ post)) (hc : isIdentStart c = true)
    (hcs : ∀ d ∈ cs, isIdentChar d = true)
    (hpost : ∀ d, post.head? = some d → isIdentChar d = false) :
    p.nextToken = .ok ((.pathIdentifier, c :: cs, true),
      { p with i := p.i + (cs.length + 1) }) := by
  obtain ⟨h1, h2, h3, h4, h5, h6, h7, h8⟩ := identStart_not_special c hc
  have hsub : substr p.s p.i (p.i + 1 + cs.length) = c :: cs := by
    have := substr_of_drop (s := p.s) (i := p.i) (a := c :: cs) (b := post) (by simpa using h)
    simpa [Nat.add_assoc, Nat.add_comm 1] using this
  simp only [pathParser.nextToken, get?_of_drop h, h1, h2, h3, h4, h5, h6, h7, h8, hc,
    if_false, if_true, pathParser.parseIdent, drop_succ_of_drop h,
    takeWhile_append_stop isIdentChar cs post hcs hpost, hsub]
  congr 3
  omega

/-- After a token of the given text has been read, the parser stands at what
follows it. -/
theorem drop_after (p : pathParser) (a b : List Char) (h : p.s.drop p.i = a ++ b) :
    ({ p with i := p.i + a.length } : pathParser).s.drop
      ({ p with i := p.i + a.length } : pathParser).i = b :=
  drop_add_of_drop h

end jsonpath


namespace jsonpath

theorem getLoop_false : ∀ (fuel : Nat) (p : pathParser) (objs r : Slice),
    getLoop fuel p objs = .ok (r, false) → r = Slice.nil := by
  intro fuel
  induction fuel with
  | zero =>
    intro p objs r h
    simp only [getLoop] at h
    split at h <;> simp at h
  | succ fuel ih =>
    intro p objs r h
    simp only [getLoop] at h
    split at h
    · split at h
      · simp at h
      · split at h
        · simp only [Except.ok.injEq, Prod.mk.injEq, and_true] at h
          exact h.symm
        · split at h
          · simp at h
          · split at h
            · simp only [Except.ok.injEq, Prod.mk.injEq, and_true] at h
              exact h.symm
            · exact ih _ _ _ h
    · simp at h

/-- C11: whenever `Get` returns, the flag tells whether the list is nil: with
`ok = true` the returned list is not nil (the empty list when nothing is
selected), with `ok = false` it is nil. -/
theorem Get_nil_iff_not_ok (path : String) (value : Value) (r : Slice) (ok : Bool)
    (h : Get path value = .ok (r, ok)) :
    (ok = true → r ≠ Slice.nil) ∧ (ok = false → r = Slice.nil) := by
  simp only [Get] at h
  split at h
  · simp at h
  · split at h
    · simp only [Except.ok.injEq, Prod.mk.injEq] at h
      obtain ⟨rfl, rfl⟩ := h
      simp
    · split at h
      · simp only [Except.ok.injEq, Prod.mk.injEq] at h
        obtain ⟨rfl, rfl⟩ := h
        simp
      · split at h
        · simp at h
        · rename_i objs hloop
          simp only [Except.ok.injEq, Prod.mk.injEq] at h
          obtain ⟨rfl, rfl⟩ := h
          have := getLoop_false _ _ _ _ hloop
          simp [this]
        · simp only [Except.ok.injEq, Prod.mk.injEq] at h
          obtain ⟨rfl, rfl⟩ := h
          simp
        · rename_i objs hne hloop
          simp only [Except.ok.injEq, Prod.mk.injEq] at h
          obtain ⟨rfl, rfl⟩ := h
          simp only [true_implies, Bool.true_eq_false, false_implies, and_true]
          intro hc
          exact hne hc

end jsonpath


namespace jsonpath

/-- The token at a character other than the root, the dot and the left
bracket: it is read without a fault and its kind is none of these three,
unless it is not a token at all (`ok = false`). -/
theorem nextToken_other (p : pathParser) (c : Char) (rest : List Char)
    (h : p.s.drop p.i = c :: rest) (h0 : c ≠ '$') (h1 : c ≠ '.') (h2 : c ≠ '[') :
    ∃ tok q, p.nextToken = .ok (tok, q) ∧
      (tok.2.2 = false ∨
        (tok.1 ≠ .pathRoot ∧ tok.1 ≠ .pathDot ∧ tok.1 ≠ .pathLeftBracket)) := by
  unfold pathParser.nextToken
  rw [get?_of_drop h]
  simp only [if_neg h0, if_neg h1, if_neg h2]
  by_cases h3 : c = ']'
  · rw [if_pos h3]; exact ⟨_, _, rfl, Or.inr ⟨by simp, by simp, by simp⟩⟩
  rw [if_neg h3]
  by_cases h4 : c = '*'
  · rw [if_pos h4]; exact ⟨_, _, rfl, Or.inr ⟨by simp, by simp, by simp⟩⟩
  rw [if_neg h4]
  by_cases h5 : c = ','
  · rw [if_pos h5]; exact ⟨_, _, rfl, Or.inr ⟨by simp, by simp, by simp⟩⟩
  rw [if_neg h5]
  by_cases h6 : c = ':'
  · rw [if_pos h6]; exact ⟨_, _, rfl, Or.inr ⟨by simp, by simp, by simp⟩⟩
  rw [if_neg h6]
  by_cases h7 : c = '\''
  · rw [if_pos h7]; exact ⟨_, _, rfl, Or.inr ⟨by simp, by simp, by simp⟩⟩
  rw [if_neg h7]
  by_cases h8 : isIdentStart c = true
  · rw [if_pos h8]; exact ⟨_, _, rfl, Or.inr ⟨by simp, by simp, by simp⟩⟩
  rw [if_neg h8]
  by_cases h9 : (c = '-' || isDigit c) = true
  · rw [if_pos h9]; exact ⟨_, _, rfl, Or.inr ⟨by simp, by simp, by simp⟩⟩
  rw [if_neg h9]
  exact ⟨_, _, rfl, Or.inl rfl⟩

theorem nextToken_not_segment (p : pathParser) (c : Char) (rest : List Char)
    (h : p.s.drop p.i = c :: rest) (hc1 : c ≠ '.') (hc2 : c ≠ '[') :
    ∃ tok q, p.nextToken = .ok (tok, q) ∧
      (tok.2.2 = false ∨ (tok.1 ≠ .pathDot ∧ tok.1 ≠ .pathLeftBracket)) := by
  by_cases h0 : c = '$'
  · subst h0
    exact ⟨_, _, nextToken_char p '$' rest .pathRoot h (by simp),
      Or.inr ⟨by simp, by simp⟩⟩
  · obtain ⟨tok, q, ht, hor⟩ := nextToken_other p c rest h h0 hc1 hc2
    exact ⟨tok, q, ht, hor.imp id (fun hh => ⟨hh.2.1, hh.2.2⟩)⟩

theorem nextToken_not_root (p : pathParser) (c : Char) (rest : List Char)
    (h : p.s.drop p.i = c :: rest) (hc : c ≠ '$') :
    ∃ tok q, p.nextToken = .ok (tok, q) ∧ (tok.2.2 = false ∨ tok.1 ≠ .pathRoot) := by
  by_cases h1 : c = '.'
  · subst h1
    exact ⟨_, _, nextToken_char p '.' rest .pathDot h (by simp), Or.inr (by simp)⟩
  by_cases h2 : c = '['
  · subst h2
    exact ⟨_, _, nextToken_char p '[' rest .pathLeftBracket h (by simp), Or.inr (by simp)⟩
  obtain ⟨tok, q, ht, hor⟩ := nextToken_other p c rest h hc h1 h2
  exact ⟨tok, q, ht, hor.imp id (fun hh => hh.1)⟩

theorem getLoop_not_segment (fuel : Nat) (p : pathParser) (objs : Slice) (c : Char)
    (rest : List Char) (h : p.s.drop p.i = c :: rest) (hc1 : c ≠ '.') (hc2 : c ≠ '[') :
    getLoop (fuel + 1) p objs = .ok (Slice.nil, false) := by
  have hlt : p.i < p.s.length := by
    by_contra hge
    rw [List.drop_eq_nil_of_le (by omega)] at h
    cases h
  obtain ⟨⟨typ, val, ok⟩, q, htok, hor⟩ := nextToken_not_segment p c rest h hc1 hc2
  simp only [getLoop, hlt, if_true, htok]
  cases ok
  · simp
  · rcases hor with h0 | ⟨h1, h2⟩
    · simp at h0
    · cases typ <;> simp at h1 h2 ⊢

/-- C12: `Get` rejects structurally invalid paths for every value. It returns
false when the path does not start with the root `$`, and the loop over the
segments returns false, at any position (after the root or after a completed
segment), when the next token is neither `.` nor `[`. -/
theorem Get_rejects_invalid_structure (value : Value) (c : Char) (rest : List Char)
    (fuel : Nat) (p : pathParser) (objs : Slice) (d : Char) (more : List Char)
    (hc : c ≠ '$') (h : p.s.drop p.i = d :: more) (hd1 : d ≠ '.') (hd2 : d ≠ '[') :
    Get (String.mk (c :: rest)) value = .ok (Slice.nil, false) ∧
    getLoop (fuel + 1) p objs = .ok (Slice.nil, false) ∧
    Get (String.mk ('$' :: d :: more)) value = .ok (Slice.nil, false) := by
  refine ⟨?_, getLoop_not_segment fuel p objs d more h hd1 hd2, ?_⟩
  · obtain ⟨⟨typ, val, ok⟩, q, htok, hor⟩ :=
      nextToken_not_root ⟨c :: rest, 0⟩ c rest rfl hc
    simp only [Get, htok]
    cases ok
    · simp
    · rcases hor with h0 | h1
      · simp at h0
      · simp at h1
        simp [h1]
  · have htok := nextToken_char ⟨'$' :: d :: more, 0⟩ '$' (d :: more) .pathRoot rfl (by simp)
    simp only [Get, htok]
    have hl := getLoop_not_segment (d :: more).length ⟨'$' :: d :: more, 0 + 1⟩
      (Slice.of [value]) d more rfl hd1 hd2
    simp only [List.length_cons] at hl ⊢
    simp [hl]

end jsonpath


namespace jsonpath

/-- A decimal literal outside the signed 32-bit range: a minus sign and digits
of value above 2^31, or digits of value at least 2^31. -/
theorem ParseInt_out_of_range (c : Char) (ds : List Char)
    (hds : ∀ d ∈ ds, isDigit d = true)
    (hbig : (c = '-' ∧ 2 ^ 31 < strconv.digitsValue ds) ∨
      (isDigit c = true ∧ 2 ^ 31 ≤ strconv.digitsValue (c :: ds))) :
    strconv.ParseInt (c :: ds) 32 = none := by
  rcases hbig with ⟨rfl, hv⟩ | ⟨hc, hv⟩
  · have hne : ds ≠ [] := by
      rintro rfl
      simp [strconv.digitsValue] at hv
    have hall : ds.all isDigit = true := List.all_eq_true.mpr hds
    have hv2 : 2147483648 < strconv.digitsValue ds := by
      simpa only [Nat.reducePow] using hv
    simp [strconv.ParseInt, hne, hall, hv2]
  · have hm : c ≠ '-' := by rintro rfl; revert hc; decide
    have hp : c ≠ '+' := by rintro rfl; revert hc; decide
    have hall : (c :: ds).all isDigit = true :=
      List.all_eq_true.mpr (fun d hd => by
        rcases List.mem_cons.mp hd with rfl | hd
        · exact hc
        · exact hds d hd)
    have hv2 : 2147483648 ≤ strconv.digitsValue (c :: ds) := by
      simpa only [Nat.reducePow] using hv
    simp [strconv.ParseInt, hm, hp, hall, hv2]

theorem head_not_digit (c : Char) (post : List Char) (hc : isDigit c = false) :
    ∀ d, (c :: post).head? = some d → isDigit d = false := by
  intro d hd
  simp only [List.head?_cons, Option.some.injEq] at hd
  subst hd
  exact hc

/-- The segment `[n]` with a number that `strconv.ParseInt` refuses fails. -/
theorem processLeftBracket_index_refused (p : pathParser) (objs : Slice) (c : Char)
    (ds post : List Char) (h : p.s.drop p.i = c :: (ds ++ ']' :: post))
    (hc : c = '-' ∨ isDigit c = true) (hds : ∀ d ∈ ds, isDigit d = true)
    (hparse : strconv.ParseInt (c :: ds) 32 = none) :
    ∃ q, p.processLeftBracket objs = .ok ((Slice.nil, false), q) := by
  have ht1 := nextToken_number p c ds (']' :: post) h hc hds (head_not_digit _ _ (by decide))
  have hd2 : ({ p with i := p.i + (ds.length + 1) } : pathParser).s.drop
      ({ p with i := p.i + (ds.length + 1) } : pathParser).i = ']' :: post :=
    drop_add_of_drop (a := c :: ds) (by simpa using h)
  have ht2 := nextToken_char _ ']' post .pathRightBracket hd2 (by simp)
  simp only [pathParser.processLeftBracket, ht1, ht2, hparse]
  exact ⟨_, rfl⟩

/-- The segment `[n:` with a start that `strconv.ParseInt` refuses fails. -/
theorem processLeftBracket_start_refused (p : pathParser) (objs : Slice) (c : Char)
    (ds post : List Char) (h : p.s.drop p.i = c :: (ds ++ ':' :: post))
    (hc : c = '-' ∨ isDigit c = true) (hds : ∀ d ∈ ds, isDigit d = true)
    (hparse : strconv.ParseInt (c :: ds) 32 = none) :
    ∃ q, p.processLeftBracket objs = .ok ((Slice.nil, false), q) := by
  have ht1 := nextToken_number p c ds (':' :: post) h hc hds (head_not_digit _ _ (by decide))
  have hd2 : ({ p with i := p.i + (ds.length + 1) } : pathParser).s.drop
      ({ p with i := p.i + (ds.length + 1) } : pathParser).i = ':' :: post :=
    drop_add_of_drop (a := c :: ds) (by simpa using h)
  have ht2 := nextToken_char _ ':' post .pathColon hd2 (by simp)
  simp only [pathParser.processLeftBracket, ht1, ht2, hparse]
  exact ⟨_, rfl⟩

/-- The segment `[:n]` with an end that `strconv.ParseInt` refuses fails. -/
theorem processLeftBracket_end_refused (p : pathParser) (objs : Slice) (c : Char)
    (ds post : List Char) (h : p.s.drop p.i = ':' :: c :: (ds ++ ']' :: post))
    (hc : c = '-' ∨ isDigit c = true) (hds : ∀ d ∈ ds, isDigit d = true)
    (hparse : strconv.ParseInt (c :: ds) 32 = none) :
    ∃ q, p.processLeftBracket objs = .ok ((Slice.nil, false), q) := by
  have ht0 := nextToken_char p ':' _ .pathColon h (by simp)
  have hd1 : ({ p with i := p.i + 1 } : pathParser).s.drop
      ({ p with i := p.i + 1 } : pathParser).i = c :: (ds ++ ']' :: post) :=
    drop_succ_of_drop h
  have ht1 := nextToken_number _ c ds (']' :: post) hd1 hc hds
    (head_not_digit _ _ (by decide))
  have hd2 : ({ p with i := p.i + 1 + (ds.length + 1) } : pathParser).s.drop
      ({ p with i := p.i + 1 + (ds.length + 1) } : pathParser).i = ']' :: post :=
    drop_add_of_drop (s := p.s) (i := p.i + 1) (a := c :: ds) (by simpa using hd1)
  have ht2 := nextToken_char _ ']' post .pathRightBracket hd2 (by simp)
  simp only [pathParser.processLeftBracket, ht0, pathParser.processSlice, ht1, ht2, hparse]
  exact ⟨_, rfl⟩

/-- The union `[1,n]` with a number that `strconv.ParseInt` refuses fails. -/
theorem processLeftBracket_union_refused (p : pathParser) (objs : Slice) (c : Char)
    (ds post : List Char) (h : p.s.drop p.i = '1' :: ',' :: c :: (ds ++ ']' :: post))
    (hc : c = '-' ∨ isDigit c = true) (hds : ∀ d ∈ ds, isDigit d = true)
    (hparse : strconv.ParseInt (c :: ds) 32 = none) :
    ∃ q, p.processLeftBracket objs = .ok ((Slice.nil, false), q) := by
  have ht0 := nextToken_number p '1' [] (',' :: c :: (ds ++ ']' :: post)) h
    (Or.inr (by decide)) (by simp) (head_not_digit _ _ (by decide))
  have hd1 : ({ p with i := p.i + 1 } : pathParser).s.drop
      ({ p with i := p.i + 1 } : pathParser).i = ',' :: c :: (ds ++ ']' :: post) :=
    drop_succ_of_drop h
  have ht1 := nextToken_char _ ',' _ .pathComma hd1 (by simp)
  have hd2 : ({ p with i := p.i + 1 + 1 } : pathParser).s.drop
      ({ p with i := p.i + 1 + 1 } : pathParser).i = c :: (ds ++ ']' :: post) :=
    drop_succ_of_drop hd1
  have ht2 := nextToken_number _ c ds (']' :: post) hd2 hc hds
    (head_not_digit _ _ (by decide))
  have hd3 : ({ p with i := p.i + 1 + 1 + (ds.length + 1) } : pathParser).s.drop
      ({ p with i := p.i + 1 + 1 + (ds.length + 1) } : pathParser).i = ']' :: post :=
    drop_add_of_drop (s := p.s) (i := p.i + 1 + 1) (a := c :: ds) (by simpa using hd2)
  have ht3 := nextToken_char _ ']' post .pathRightBracket hd3 (by simp)
  simp only [pathParser.processLeftBracket, ht0, List.length_nil, Nat.zero_add, ht1,
    pathParser.processUnion, unionLoop, ht2, ht3, parseIndices, hparse]
  have h1 : strconv.ParseInt ['1'] 32 = some 1 := by decide
  simp [parseIndices, hparse, h1]

theorem lt_length_of_drop {s : List Char} {i : Nat} {c : Char} {rest : List Char}
    (h : s.drop i = c :: rest) : i < s.length := by
  by_contra hge
  rw [List.drop_eq_nil_of_le (by omega)] at h
  cases h

/-- One turn of the loop of `Get` on a bracket segment that fails. -/
theorem getLoop_bracket_false (fuel : Nat) (p : pathParser) (objs r : Slice) (q : pathParser)
    (rest : List Char) (h : p.s.drop p.i = '[' :: rest)
    (hseg : ({ p with i := p.i + 1 } : pathParser).processLeftBracket objs =
      .ok ((r, false), q)) :
    getLoop (fuel + 1) p objs = .ok (Slice.nil, false) := by
  have htok := nextToken_char p '[' rest .pathLeftBracket h (by simp)
  simp [getLoop, lt_length_of_drop h, htok, hseg]

/-- One turn of the loop of `Get` on a bracket segment that succeeds. -/
theorem getLoop_bracket_true (fuel : Nat) (p : pathParser) (objs r : Slice) (q : pathParser)
    (rest : List Char) (h : p.s.drop p.i = '[' :: rest)
    (hseg : ({ p with i := p.i + 1 } : pathParser).processLeftBracket objs =
      .ok ((r, true), q)) :
    getLoop (fuel + 1) p objs = getLoop fuel q r := by
  have htok := nextToken_char p '[' rest .pathLeftBracket h (by simp)
  simp [getLoop, lt_length_of_drop h, htok, hseg]

/-- One turn of the loop of `Get` on a dot segment that fails. -/
theorem getLoop_dot_false (fuel : Nat) (p : pathParser) (objs r : Slice) (q : pathParser)
    (rest : List Char) (h : p.s.drop p.i = '.' :: rest)
    (hseg : ({ p with i := p.i + 1 } : pathParser).processDot objs = .ok ((r, false), q)) :
    getLoop (fuel + 1) p objs = .ok (Slice.nil, false) := by
  have htok := nextToken_char p '.' rest .pathDot h (by simp)
  simp [getLoop, lt_length_of_drop h, htok, hseg]

/-- One turn of the loop of `Get` on a dot segment that succeeds. -/
theorem getLoop_dot_true (fuel : Nat) (p : pathParser) (objs r : Slice) (q : pathParser)
    (rest : List Char) (h : p.s.drop p.i = '.' :: rest)
    (hseg : ({ p with i := p.i + 1 } : pathParser).processDot objs = .ok ((r, true), q)) :
    getLoop (fuel + 1) p objs = getLoop fuel q r := by
  have htok := nextToken_char p '.' rest .pathDot h (by simp)
  simp [getLoop, lt_length_of_drop h, htok, hseg]

/-- The loop of `Get` at the end of the path returns the selected objects. -/
theorem getLoop_end (fuel : Nat) (p : pathParser) (objs : Slice) (h : p.s.length ≤ p.i) :
    getLoop fuel p objs = .ok (objs, true) := by
  have hn : ¬ p.i < p.s.length := by omega
  cases fuel <;> simp [getLoop, hn]

/-- The result of `Get` on a path that starts with the root, from the result of
its loop: failure. -/
theorem Get_of_getLoop_false (rest : List Char) (value : Value) (r : Slice)
    (h : getLoop (rest.length + 1) ⟨'$' :: rest, 1⟩ (Slice.of [value]) = .ok (r, false)) :
    Get (String.mk ('$' :: rest)) value = .ok (r, false) := by
  have htok := nextToken_char ⟨'$' :: rest, 0⟩ '$' rest .pathRoot rfl (by simp)
  simp only [Get, htok]
  simp only [List.length_cons, Nat.zero_add] at h ⊢
  simp [h]

/-- The result of `Get` on a path that starts with the root, from the result of
its loop: success, with the nil list replaced by the empty list. -/
theorem Get_of_getLoop_true (rest : List Char) (value : Value) (r : Slice)
    (h : getLoop (rest.length + 1) ⟨'$' :: rest, 1⟩ (Slice.of [value]) = .ok (r, true)) :
    Get (String.mk ('$' :: rest)) value = .ok (Slice.of r.toList, true) := by
  have htok := nextToken_char ⟨'$' :: rest, 0⟩ '$' rest .pathRoot rfl (by simp)
  simp only [Get, htok]
  simp only [List.length_cons, Nat.zero_add] at h ⊢
  cases r <;> simp [h, Slice.toList]

/-- A bracket segment that fails right after the root makes `Get` return false. -/
theorem Get_bracket_false (rest : List Char) (value : Value)
    (h : ∃ q, (⟨'$' :: '[' :: rest, 2⟩ : pathParser).processLeftBracket (Slice.of [value]) =
      .ok ((Slice.nil, false), q)) :
    Get (String.mk ('$' :: '[' :: rest)) value = .ok (Slice.nil, false) := by
  obtain ⟨q, hq⟩ := h
  apply Get_of_getLoop_false
  exact getLoop_bracket_false _ ⟨'$' :: '[' :: rest, 1⟩ _ _ q rest rfl hq

/-- C13: numbers outside the signed 32-bit range are rejected wherever a number
may appear. For every decimal literal `c :: ds` whose value is below MinInt32 (a
minus sign and digits of value above 2^31) or above MaxInt32 (digits of value at
least 2^31) and every value, `Get` returns false on the paths `$[n]`, `$[n:]`,
`$[:n]` and `$[1,n]`. -/
theorem Get_rejects_numbers_out_of_range (value : Value) (c : Char) (ds : List Char)
    (hds : ∀ d ∈ ds, isDigit d = true)
    (hbig : (c = '-' ∧ 2 ^ 31 < strconv.digitsValue ds) ∨
      (isDigit c = true ∧ 2 ^ 31 ≤ strconv.digitsValue (c :: ds))) :
    Get (String.mk ('$' :: '[' :: c :: (ds ++ [']']))) value = .ok (Slice.nil, false) ∧
    Get (String.mk ('$' :: '[' :: c :: (ds ++ [':', ']']))) value = .ok (Slice.nil, false) ∧
    Get (String.mk ('$' :: '[' :: ':' :: c :: (ds ++ [']']))) value = .ok (Slice.nil, false) ∧
    Get (String.mk ('$' :: '[' :: '1' :: ',' :: c :: (ds ++ [']']))) value =
      .ok (Slice.nil, false) := by
  have hparse := ParseInt_out_of_range c ds hds hbig
  have hc : c = '-' ∨ isDigit c = true := hbig.imp (fun h => h.1) (fun h => h.1)
  refine ⟨?_, ?_, ?_, ?_⟩
  · exact Get_bracket_false _ value
      (processLeftBracket_index_refused ⟨_, 2⟩ _ c ds [] rfl hc hds hparse)
  · exact Get_bracket_false _ value
      (processLeftBracket_start_refused ⟨_, 2⟩ _ c ds [']'] rfl hc hds hparse)
  · exact Get_bracket_false _ value
      (processLeftBracket_end_refused ⟨_, 2⟩ _ c ds [] rfl hc hds hparse)
  · exact Get_bracket_false _ value
      (processLeftBracket_union_refused ⟨_, 2⟩ _ c ds [] rfl hc hds hparse)

theorem Get_rejects_numbers_out_of_range_witness :
    (∀ d ∈ ['1', '4', '7', '4', '8', '3', '6', '4', '8'], isDigit d = true) ∧
    (('2' = '-' ∧ 2 ^ 31 < strconv.digitsValue ['1', '4', '7', '4', '8', '3', '6', '4', '8']) ∨
      (isDigit '2' = true ∧
        2 ^ 31 ≤ strconv.digitsValue ('2' :: ['1', '4', '7', '4', '8', '3', '6', '4', '8']))) ∧
    (Get "$[2147483648]" (Value.array [Value.number 1]) = .ok (Slice.nil, false) ∧
    Get "$[2147483648:]" (Value.array [Value.number 1]) = .ok (Slice.nil, false) ∧
    Get "$[:2147483648]" (Value.array [Value.number 1]) = .ok (Slice.nil, false) ∧
    Get "$[1,2147483648]" (Value.array [Value.number 1]) = .ok (Slice.nil, false)) :=
  ⟨by decide, Or.inr (by decide),
    Get_rejects_numbers_out_of_range (Value.array [Value.number 1]) '2'
      ['1', '4', '7', '4', '8', '3', '6', '4', '8'] (by decide) (Or.inr (by decide))⟩

end jsonpath


namespace jsonpath

theorem Get_nil_iff_not_ok_witness :
    Get "$..sub.name" (Value.object [("name", Value.string "x")]) = .ok (Slice.of [], true) ∧
    ((true = true → Slice.of [] ≠ Slice.nil) ∧ (true = false → Slice.of [] = Slice.nil)) :=
  ⟨rfl, Get_nil_iff_not_ok "$..sub.name" (Value.object [("name", Value.string "x")])
    (Slice.of []) true rfl⟩

theorem Get_rejects_invalid_structure_witness :
    'a' ≠ '$' ∧
    (⟨['$', '.', 'a', '*', 'b'], 3⟩ : pathParser).s.drop
      (⟨['$', '.', 'a', '*', 'b'], 3⟩ : pathParser).i = '*' :: ['b'] ∧
    '*' ≠ '.' ∧ '*' ≠ '[' ∧
    (Get (String.mk ('a' :: ['.', 'b'])) Value.null = .ok (Slice.nil, false) ∧
    getLoop (0 + 1) ⟨['$', '.', 'a', '*', 'b'], 3⟩ (Slice.of []) = .ok (Slice.nil, false) ∧
    Get (String.mk ('$' :: '*' :: ['b'])) Value.null = .ok (Slice.nil, false)) :=
  ⟨by decide, rfl, by decide, by decide,
    Get_rejects_invalid_structure Value.null 'a' ['.', 'b'] 0
      ⟨['$', '.', 'a', '*', 'b'], 3⟩ (Slice.of []) '*' ['b'] (by decide) rfl (by decide)
      (by decide)⟩

/-- C14: on the slice `$[2:1]` of a three-element array `Get` returns false, and
whenever `descentRange` returns and some selected array has its resolved end
before its resolved start it returns `nil, false`; but it does not always
return: on `$[*][-3:1]` applied to `[[1,2],[1,2,3,4,5]]` the second selected
array has resolved end 1 before resolved start 2, and `Get` stops with the
run-time panic of the slice expression on the first array (resolved start -1)
instead of returning false. -/
theorem Get_invalid_slice_panics :
    Get "$[2:1]" (Value.array [Value.number 1, Value.number 2, Value.number 3]) =
      .ok (Slice.nil, false) ∧
    (∀ (objs : Slice) (start end_ : Int) (res : Slice × Bool),
      (∃ arr, Value.array arr ∈ objs.toList ∧
        sliceEnd end_ arr.length < sliceStart start arr.length) →
      descentRange objs start end_ = .ok res → res = (Slice.nil, false)) ∧
    sliceEnd 1 [Value.number 1, Value.number 2, Value.number 3, Value.number 4,
      Value.number 5].length < sliceStart (-3) [Value.number 1, Value.number 2,
      Value.number 3, Value.number 4, Value.number 5].length ∧
    Get "$[*][-3:1]" (Value.array [Value.array [Value.number 1, Value.number 2],
      Value.array [Value.number 1, Value.number 2, Value.number 3, Value.number 4,
        Value.number 5]]) = .error Fault.sliceBounds := by
  refine ⟨rfl, ?_, by decide, rfl⟩
  intro objs start end_ res hex hres
  exact descentRangeLoop_invalid start end_ objs.toList Slice.nil res hex hres

end jsonpath


namespace jsonpath

theorem numberText_cons {c : Char} {ds : List Char} (h : numberText (c :: ds) = true) :
    (c = '-' ∨ isDigit c = true) ∧ ∀ d ∈ ds, isDigit d = true := by
  simp only [numberText, Bool.and_eq_true, Bool.or_eq_true, decide_eq_true_eq,
    List.all_eq_true] at h
  exact h

/-- The tokenizer reads a number text as one number token when no digit
follows it. -/
theorem nextToken_numberText (p : pathParser) (t post : List Char)
    (h : p.s.drop p.i = t ++ post) (ht : numberText t = true)
    (hpost : ∀ d, post.head? = some d → isDigit d = false) :
    p.nextToken = .ok ((.pathNumber, t, true), { p with i := p.i + t.length }) := by
  cases t with
  | nil => simp [numberText] at ht
  | cons c ds =>
    obtain ⟨hc, hds⟩ := numberText_cons ht
    exact nextToken_number p c ds post h hc hds hpost

/-- `strconv.ParseInt` on digits of a value below 2^31. -/
theorem ParseInt_digits (c : Char) (ds : List Char) (hc : isDigit c = true)
    (hds : ∀ d ∈ ds, isDigit d = true) (h32 : strconv.digitsValue (c :: ds) < 2 ^ 31) :
    strconv.ParseInt (c :: ds) 32 = some (strconv.digitsValue (c :: ds) : Int) := by
  have hm : c ≠ '-' := by rintro rfl; revert hc; decide
  have hp : c ≠ '+' := by rintro rfl; revert hc; decide
  have hall : (c :: ds).all isDigit = true :=
    List.all_eq_true.mpr (fun d hd => by
      rcases List.mem_cons.mp hd with rfl | hd
      · exact hc
      · exact hds d hd)
  have hv2 : strconv.digitsValue (c :: ds) < 2147483648 := by
    simpa only [Nat.reducePow] using h32
  simp [strconv.ParseInt, hm, hp, hall, hv2]

/-- The segment `[n]` with a number that `strconv.ParseInt` accepts is the index
access `descentIndex`. -/
theorem processLeftBracket_index (p : pathParser) (objs : Slice) (t post : List Char)
    (index : Int) (r : Slice × Bool) (h : p.s.drop p.i = t ++ ']' :: post)
    (ht : numberText t = true) (hparse : strconv.ParseInt t 32 = some index)
    (hidx : descentIndex objs [index] = .ok r) :
    p.processLeftBracket objs = .ok (r, { p with i := p.i + (t.length + 1) }) := by
  have ht1 := nextToken_numberText p t (']' :: post) h ht (head_not_digit _ _ (by decide))
  have hd2 := drop_after p t (']' :: post) h
  have ht2 := nextToken_char _ ']' post .pathRightBracket hd2 (by simp)
  simp only [pathParser.processLeftBracket, ht1, ht2, hparse, hidx]
  rfl

/-- The end of a slice segment: `processSlice` on the text of the end bound and
the closing bracket is `descentRange`. -/
theorem processSlice_bound (p : pathParser) (objs : Slice) (start : Int)
    (eTxt post : List Char) (e : Int) (r : Slice × Bool)
    (h : p.s.drop p.i = eTxt ++ ']' :: post) (he : sliceBound eTxt = some e)
    (hr : descentRange objs start e = .ok r) :
    p.processSlice objs start = .ok (r, { p with i := p.i + (eTxt.length + 1) }) := by
  cases eTxt with
  | nil =>
    simp only [sliceBound, if_true, Option.some.injEq] at he
    subst he
    have ht1 := nextToken_char p ']' post .pathRightBracket h (by simp)
    simp only [pathParser.processSlice, ht1, hr]
    rfl
  | cons c ds =>
    have hne : (c :: ds) ≠ [] := by simp
    simp only [sliceBound, hne, if_false] at he
    have ht : numberText (c :: ds) = true := by
      by_contra hn
      simp [hn] at he
    simp only [ht, if_true] at he
    have ht1 := nextToken_numberText p (c :: ds) (']' :: post) h ht
      (head_not_digit _ _ (by decide))
    have hd2 := drop_after p (c :: ds) (']' :: post) h
    have ht2 := nextToken_char _ ']' post .pathRightBracket hd2 (by simp)
    simp only [pathParser.processSlice, ht1, ht2, he, hr]
    rfl

/-- The slice segment `[s:e]` with either bound possibly omitted is
`descentRange` on the numbers the bounds stand for. -/
theorem processLeftBracket_slice (p : pathParser) (objs : Slice) (sTxt eTxt post : List Char)
    (s e : Int) (r : Slice × Bool)
    (h : p.s.drop p.i = sTxt ++ ':' :: (eTxt ++ ']' :: post))
    (hs : sliceBound sTxt = some s) (he : sliceBound eTxt = some e)
    (hr : descentRange objs s e = .ok r) :
    p.processLeftBracket objs =
      .ok (r, { p with i := p.i + (sTxt.length + 1 + (eTxt.length + 1)) }) := by
  cases sTxt with
  | nil =>
    simp only [sliceBound, if_true, Option.some.injEq] at hs
    subst hs
    have ht1 := nextToken_char p ':' _ .pathColon h (by simp)
    have hd1 := drop_succ_of_drop h
    have hsl := processSlice_bound { p with i := p.i + 1 } objs 0 eTxt post e r hd1 he hr
    simp only [pathParser.processLeftBracket, ht1, hsl]
    simp [Nat.add_assoc]
  | cons c ds =>
    have hne : (c :: ds) ≠ [] := by simp
    simp only [sliceBound, hne, if_false] at hs
    have ht : numberText (c :: ds) = true := by
      by_contra hn
      simp [hn] at hs
    simp only [ht, if_true] at hs
    have ht1 := nextToken_numberText p (c :: ds) (':' :: (eTxt ++ ']' :: post)) h ht
      (head_not_digit _ _ (by decide))
    have hd2 := drop_after p (c :: ds) (':' :: (eTxt ++ ']' :: post)) h
    have ht2 := nextToken_char _ ':' _ .pathColon hd2 (by simp)
    have hd3 := drop_succ_of_drop hd2
    have hsl := processSlice_bound ⟨p.s, p.i + (c :: ds).length + 1⟩ objs s eTxt post e r
      hd3 he hr
    simp only [pathParser.processLeftBracket, ht1, ht2, hs, hsl]
    simp [Nat.add_assoc]

/-- A path of the root and one bracket segment that succeeds and ends the
path: `Get` returns the selection of the segment. -/
theorem Get_single_bracket (rest : List Char) (value : Value) (r : Slice) (q : pathParser)
    (h : (⟨'$' :: '[' :: rest, 2⟩ : pathParser).processLeftBracket (Slice.of [value]) =
      .ok ((r, true), q)) (hq : q.s.length ≤ q.i) :
    Get (String.mk ('$' :: '[' :: rest)) value = .ok (Slice.of r.toList, true) := by
  apply Get_of_getLoop_true
  rw [getLoop_bracket_true _ ⟨'$' :: '[' :: rest, 1⟩ _ r q rest rfl h]
  exact getLoop_end _ _ _ hq

/-- A path of the root and one dot segment that succeeds and ends the path:
`Get` returns the selection of the segment. -/
theorem Get_single_dot (rest : List Char) (value : Value) (r : Slice) (q : pathParser)
    (h : (⟨'$' :: '.' :: rest, 2⟩ : pathParser).processDot (Slice.of [value]) =
      .ok ((r, true), q)) (hq : q.s.length ≤ q.i) :
    Get (String.mk ('$' :: '.' :: rest)) value = .ok (Slice.of r.toList, true) := by
  apply Get_of_getLoop_true
  rw [getLoop_dot_true _ ⟨'$' :: '.' :: rest, 1⟩ _ r q rest rfl h]
  exact getLoop_end _ _ _ hq

theorem elemsAt_single (i : Nat) :
    (∀ (xs : List Value) (hlt : i < xs.length),
      elemsAt [i] (Value.array xs) = [xs.get ⟨i, hlt⟩]) ∧
    (∀ xs : List Value, xs.length ≤ i → elemsAt [i] (Value.array xs) = []) ∧
    (∀ v : Value, (∀ xs, v ≠ Value.array xs) → elemsAt [i] v = []) := by
  refine ⟨?_, ?_, ?_⟩
  · intro xs hlt
    simp [elemsAt, List.getElem?_eq_getElem hlt]
  · intro xs hle
    simp [elemsAt, List.getElem?_eq_none hle]
  · intro v hv
    cases v with
    | array xs => exact absurd rfl (hv xs)
    | _ => rfl

/-- C16: index access. For a segment `[i]` whose number is a literal of digits
`c :: ds` with value `i` below 2^31, `processLeftBracket` succeeds and selects
for the selected objects in order `elemsAt [i]`, and `Get` on the path `$[i]`
succeeds with that selection of the value; an array longer than `i`
contributes exactly its element at position `i`, a shorter array and a value
that is not an array contribute nothing. -/
theorem processLeftBracket_index_access (p : pathParser) (objs : Slice) (c : Char)
    (ds post : List Char) (i : Nat) (h : p.s.drop p.i = c :: (ds ++ ']' :: post))
    (hc : isDigit c = true) (hds : ∀ d ∈ ds, isDigit d = true)
    (hi : strconv.digitsValue (c :: ds) = i) (h32 : i < 2 ^ 31) :
    (∃ r, p.processLeftBracket objs =
        .ok ((r, true), { p with i := p.i + (ds.length + 2) }) ∧
      r.toList = objs.toList.flatMap (elemsAt [i])) ∧
    (∀ value, Get (String.mk ('$' :: '[' :: c :: (ds ++ [']']))) value =
      .ok (Slice.of (elemsAt [i] value), true)) ∧
    (∀ (xs : List Value) (hlt : i < xs.length),
      elemsAt [i] (Value.array xs) = [xs.get ⟨i, hlt⟩]) ∧
    (∀ xs : List Value, xs.length ≤ i → elemsAt [i] (Value.array xs) = []) ∧
    (∀ v : Value, (∀ xs, v ≠ Value.array xs) → elemsAt [i] v = []) := by
  have hparse : strconv.ParseInt (c :: ds) 32 = some (i : Int) := by
    rw [← hi]
    exact ParseInt_digits c ds hc hds (by rw [hi]; exact h32)
  have ht : numberText (c :: ds) = true := by
    simp only [numberText, Bool.and_eq_true, Bool.or_eq_true, decide_eq_true_eq,
      List.all_eq_true]
    exact ⟨Or.inr hc, hds⟩
  have hseg : ∀ (q : pathParser) (os : Slice) (post2 : List Char),
      q.s.drop q.i = c :: (ds ++ ']' :: post2) →
      ∃ r, q.processLeftBracket os = .ok ((r, true), { q with i := q.i + (ds.length + 2) }) ∧
        r.toList = os.toList.flatMap (elemsAt [i]) := by
    intro q os post2 hq
    obtain ⟨r, hr, hl⟩ := descentIndex_nat os [i]
    exact ⟨r, processLeftBracket_index q os (c :: ds) post2 (i : Int) (r, true) hq ht hparse hr,
      hl⟩
  refine ⟨hseg p objs post h, ?_, elemsAt_single i⟩
  intro value
  obtain ⟨r, hr, hl⟩ := hseg ⟨'$' :: '[' :: c :: (ds ++ [']']), 2⟩ (Slice.of [value]) [] rfl
  have hget := Get_single_bracket (c :: (ds ++ [']'])) value r _ hr
    (by simp only [List.length_cons, List.length_append, List.length_nil]; omega)
  rw [hget, hl]
  simp [Slice.toList]

theorem processLeftBracket_index_access_witness :
    (⟨['$', '.', 'a', '[', '1', '0', ']', '.', 'b'], 4⟩ : pathParser).s.drop 4 =
      '1' :: (['0'] ++ ']' :: ['.', 'b']) ∧
    isDigit '1' = true ∧ (∀ d ∈ ['0'], isDigit d = true) ∧
    strconv.digitsValue ('1' :: ['0']) = 10 ∧ 10 < 2 ^ 31 ∧
    (∃ r, (⟨['$', '.', 'a', '[', '1', '0', ']', '.', 'b'], 4⟩ : pathParser).processLeftBracket
        (Slice.of [Value.array [], Value.null]) =
        .ok ((r, true), ⟨['$', '.', 'a', '[', '1', '0', ']', '.', 'b'], 4 + (['0'].length + 2)⟩) ∧
      r.toList = (Slice.of [Value.array [], Value.null]).toList.flatMap (elemsAt [10])) :=
  ⟨rfl, by decide, by decide, by decide, by decide,
    (processLeftBracket_index_access ⟨['$', '.', 'a', '[', '1', '0', ']', '.', 'b'], 4⟩
      (Slice.of [Value.array [], Value.null]) '1' ['0'] ['.', 'b'] 10 rfl (by decide)
      (by decide) (by decide) (by decide)).1⟩

theorem sliceEnd_le (e : Int) (n : Nat) : sliceEnd e n ≤ n := by
  unfold sliceEnd
  split <;> omega

theorem sliceOf_positions (s e : Int) :
    (∀ arr : List Value, 0 ≤ sliceStart s arr.length →
      sliceStart s arr.length ≤ sliceEnd e arr.length →
      (sliceOf s e (Value.array arr)).length =
        (sliceEnd e arr.length - sliceStart s arr.length).toNat ∧
      ∀ k, k < (sliceEnd e arr.length - sliceStart s arr.length).toNat →
        (sliceOf s e (Value.array arr)).get? k =
          arr.get? ((sliceStart s arr.length).toNat + k)) ∧
    (∀ v : Value, (∀ arr, v ≠ Value.array arr) → sliceOf s e v = []) := by
  refine ⟨?_, ?_⟩
  · intro arr h0 hle
    have hen := sliceEnd_le e arr.length
    simp only [sliceOf]
    generalize sliceStart s arr.length = a at h0 hle ⊢
    generalize sliceEnd e arr.length = b at hle hen ⊢
    constructor
    · simp only [List.length_take, List.length_drop]
      omega
    · intro k hk
      simp only [List.get?_eq_getElem?, List.getElem?_take, hk, if_true, List.getElem?_drop]
  · intro v hv
    cases v with
    | array xs => exact absurd rfl (hv xs)
    | _ => rfl

/-- C15: slice semantics. For a segment `[s:e]` whose bounds are written by the
texts `sTxt` and `eTxt` (a number text, or empty for an omitted bound, which
stands for 0), when on every selected array the resolved start
(`s + n` if `s < 0`, else `s`) is not negative and not after the resolved end
(`e + n` if `e <= 0`, else `min e n`), `processLeftBracket` succeeds and selects
for the selected objects in order `sliceOf s e`, and `Get` on the path
`$[s:e]` succeeds with that selection of the value; an array contributes
exactly its elements at the positions from the resolved start up to the
resolved end, a value that is not an array contributes nothing. -/
theorem processLeftBracket_slice_semantics (p : pathParser) (objs : Slice)
    (sTxt eTxt post : List Char) (s e : Int)
    (h : p.s.drop p.i = sTxt ++ ':' :: (eTxt ++ ']' :: post))
    (hs : sliceBound sTxt = some s) (he : sliceBound eTxt = some e)
    (hall : ∀ arr, Value.array arr ∈ objs.toList →
      0 ≤ sliceStart s arr.length ∧ sliceStart s arr.length ≤ sliceEnd e arr.length) :
    (∃ r, p.processLeftBracket objs =
        .ok ((r, true), { p with i := p.i + (sTxt.length + 1 + (eTxt.length + 1)) }) ∧
      r.toList = objs.toList.flatMap (sliceOf s e)) ∧
    (∀ value, (∀ arr, value = Value.array arr →
        0 ≤ sliceStart s arr.length ∧ sliceStart s arr.length ≤ sliceEnd e arr.length) →
      Get (String.mk ('$' :: '[' :: (sTxt ++ ':' :: (eTxt ++ [']'])))) value =
        .ok (Slice.of (sliceOf s e value), true)) ∧
    (∀ arr : List Value, 0 ≤ sliceStart s arr.length →
      sliceStart s arr.length ≤ sliceEnd e arr.length →
      (sliceOf s e (Value.array arr)).length =
        (sliceEnd e arr.length - sliceStart s arr.length).toNat ∧
      ∀ k, k < (sliceEnd e arr.length - sliceStart s arr.length).toNat →
        (sliceOf s e (Value.array arr)).get? k =
          arr.get? ((sliceStart s arr.length).toNat + k)) ∧
    (∀ v : Value, (∀ arr, v ≠ Value.array arr) → sliceOf s e v = []) := by
  have hseg : ∀ (q : pathParser) (os : Slice) (post2 : List Char),
      q.s.drop q.i = sTxt ++ ':' :: (eTxt ++ ']' :: post2) →
      (∀ arr, Value.array arr ∈ os.toList →
        0 ≤ sliceStart s arr.length ∧ sliceStart s arr.length ≤ sliceEnd e arr.length) →
      ∃ r, q.processLeftBracket os =
          .ok ((r, true), { q with i := q.i + (sTxt.length + 1 + (eTxt.length + 1)) }) ∧
        r.toList = os.toList.flatMap (sliceOf s e) := by
    intro q os post2 hq hos
    obtain ⟨r, hr, hl⟩ := descentRange_ok os s e hos
    exact ⟨r, processLeftBracket_slice q os sTxt eTxt post2 s e (r, true) hq hs he hr, hl⟩
  refine ⟨hseg p objs post h hall, ?_, sliceOf_positions s e⟩
  intro value hv
  obtain ⟨r, hr, hl⟩ := hseg ⟨'$' :: '[' :: (sTxt ++ ':' :: (eTxt ++ [']'])), 2⟩
    (Slice.of [value]) [] rfl (by
      intro arr hm
      simp only [Slice.toList, List.mem_singleton] at hm
      exact hv arr hm.symm)
  have hget := Get_single_bracket (sTxt ++ ':' :: (eTxt ++ [']'])) value r _ hr
    (by simp only [List.length_cons, List.length_append, List.length_nil]; omega)
  rw [hget, hl]
  simp [Slice.toList]

theorem processLeftBracket_slice_semantics_witness :
    (⟨['$', '[', '-', '3', ':', '9', ']'], 2⟩ : pathParser).s.drop 2 =
      ['-', '3'] ++ ':' :: (['9'] ++ ']' :: []) ∧
    sliceBound ['-', '3'] = some (-3) ∧ sliceBound ['9'] = some 9 ∧
    (∃ r, (⟨['$', '[', '-', '3', ':', '9', ']'], 2⟩ : pathParser).processLeftBracket
        (Slice.of [Value.array [Value.number 0, Value.number 1, Value.number 2,
          Value.number 3]]) =
        .ok ((r, true), ⟨['$', '[', '-', '3', ':', '9', ']'],
          2 + (['-', '3'].length + 1 + (['9'].length + 1))⟩) ∧
      r.toList = (Slice.of [Value.array [Value.number 0, Value.number 1, Value.number 2,
          Value.number 3]]).toList.flatMap (sliceOf (-3) 9)) :=
  ⟨rfl, by decide, by decide,
    (processLeftBracket_slice_semantics ⟨['$', '[', '-', '3', ':', '9', ']'], 2⟩
      (Slice.of [Value.array [Value.number 0, Value.number 1, Value.number 2,
          Value.number 3]]) ['-', '3'] ['9'] [] (-3) 9 rfl (by decide) (by decide)
      (by
        intro arr hm
        simp only [Slice.toList, List.mem_singleton, Value.array.injEq] at hm
        subst hm
        decide)).1⟩

end jsonpath


namespace jsonpath

theorem lessChars_asymm : ∀ a b : List Char, lessChars a b = true → lessChars b a = false := by
  intro a
  induction a with
  | nil =>
    intro b _
    cases b <;> rfl
  | cons x as ih =>
    intro b h
    cases b with
    | nil => simp [lessChars] at h
    | cons y bs =>
      simp only [lessChars, Bool.or_eq_true, decide_eq_true_eq, Bool.and_eq_true] at h
      simp only [lessChars, Bool.or_eq_false_iff, decide_eq_false_iff_not, Bool.and_eq_false_iff]
      rcases h with h | ⟨h1, h2⟩
      · exact ⟨by omega, Or.inl (by omega)⟩
      · exact ⟨by omega, Or.inr (ih bs h2)⟩

theorem lessChars_cotrans : ∀ c a b : List Char, lessChars c a = true →
    lessChars b a = true ∨ lessChars c b = true := by
  intro c
  induction c with
  | nil =>
    intro a b h
    cases a with
    | nil => simp [lessChars] at h
    | cons x as =>
      cases b with
      | nil => left; rfl
      | cons y bs => right; rfl
  | cons z cs ih =>
    intro a b h
    cases a with
    | nil => simp [lessChars] at h
    | cons x as =>
      cases b with
      | nil => left; rfl
      | cons y bs =>
        simp only [lessChars, Bool.or_eq_true, decide_eq_true_eq, Bool.and_eq_true] at h ⊢
        rcases h with h | ⟨h1, h2⟩
        · by_cases hyx : y.toNat < x.toNat
          · exact Or.inl (Or.inl hyx)
          · exact Or.inr (Or.inl (by omega))
        · by_cases hyx : y.toNat < x.toNat
          · exact Or.inl (Or.inl hyx)
          · by_cases hzy : z.toNat < y.toNat
            · exact Or.inr (Or.inl hzy)
            · rcases ih as bs h2 with h3 | h3
              · exact Or.inl (Or.inr ⟨by omega, h3⟩)
              · exact Or.inr (Or.inr ⟨by omega, h3⟩)

theorem leString_total (a b : String) : leString a b ∨ leString b a := by
  unfold leString
  cases h : lessChars b.data a.data
  · exact Or.inl rfl
  · exact Or.inr (lessChars_asymm _ _ h)

theorem leString_trans (a b c : String) (h1 : leString a b) (h2 : leString b c) :
    leString a c := by
  unfold leString at *
  cases h : lessChars c.data a.data
  · rfl
  · rcases lessChars_cotrans _ _ b.data h with h3 | h3
    · rw [h1] at h3; cases h3
    · rw [h2] at h3; cases h3

/-- The keys `sort.Strings` returns are the given keys in ascending order. -/
theorem sortStrings_sorted (keys : List String) :
    (sortStrings keys).Pairwise leString ∧ (sortStrings keys).Perm keys :=
  ⟨@List.sorted_insertionSort _ leString _ ⟨leString_total⟩ ⟨leString_trans⟩ keys,
    List.perm_insertionSort leString keys⟩

theorem lookup_of_mem : ∀ (kvs : List (String × Value)) (k : String) (v : Value),
    (kvs.map Prod.fst).Nodup → (k, v) ∈ kvs → lookup kvs k = some v := by
  intro kvs
  induction kvs with
  | nil => intro k v _ h; cases h
  | cons kv kvs ih =>
    intro k v hnd hm
    obtain ⟨k0, v0⟩ := kv
    simp only [List.map_cons, List.nodup_cons, List.mem_map, Prod.exists, exists_and_right,
      exists_eq_right, not_exists] at hnd
    rcases List.mem_cons.mp hm with heq | hm
    · cases heq
      simp [lookup]
    · have hne : k0 ≠ k := by
        rintro rfl
        exact hnd.1 v hm
      simp only [lookup, hne, if_false]
      exact ih k v hnd.2 hm

/-- The values one level below a map with distinct keys are the values of its
entries, the entries taken in ascending order of their keys. -/
theorem children_object (kvs : List (String × Value)) (hnd : (kvs.map Prod.fst).Nodup) :
    ∃ sorted : List (String × Value), sorted.Perm kvs ∧
      (sorted.map Prod.fst).Pairwise leString ∧
      children (Value.object kvs) = sorted.map Prod.snd := by
  obtain ⟨hs, hp⟩ := sortStrings_sorted (kvs.map Prod.fst)
  refine ⟨(sortStrings (kvs.map Prod.fst)).map (fun k => (k, mapIndex kvs k)), ?_, ?_, ?_⟩
  · have h1 := hp.map (fun k => (k, mapIndex kvs k))
    refine h1.trans ?_
    rw [List.map_map]
    have : kvs.map ((fun k => (k, mapIndex kvs k)) ∘ Prod.fst) = kvs.map id := by
      apply List.map_congr_left
      rintro ⟨k, v⟩ hm
      simp only [Function.comp, id, mapIndex, lookup_of_mem kvs k v hnd hm]
    rw [this, List.map_id]
  · rw [List.map_map]
    have : (Prod.fst ∘ fun k => (k, mapIndex kvs k)) = id := rfl
    rw [this, List.map_id]
    exact hs
  · simp only [children, List.map_map]
    rfl

/-- A dot segment `.*` is the wildcard descent. -/
theorem processDot_asterisk (p : pathParser) (objs : Slice) (post : List Char)
    (h : p.s.drop p.i = '*' :: post) :
    p.processDot objs = .ok (descent objs, { p with i := p.i + 1 }) := by
  have ht := nextToken_char p '*' post .pathAsterisk h (by simp)
  simp only [pathParser.processDot, ht]
  rfl

/-- A bracket segment `[*]` is the wildcard descent. -/
theorem processLeftBracket_asterisk (p : pathParser) (objs : Slice) (post : List Char)
    (h : p.s.drop p.i = '*' :: ']' :: post) :
    p.processLeftBracket objs = .ok (descent objs, { p with i := p.i + 2 }) := by
  have ht := nextToken_char p '*' _ .pathAsterisk h (by simp)
  have hd := drop_succ_of_drop h
  have ht2 := nextToken_char ⟨p.s, p.i + 1⟩ ']' post .pathRightBracket hd (by simp)
  simp only [pathParser.processLeftBracket, ht, ht2]
  rfl

/-- C18: wildcard descent is deterministic and ordered. The segments `.*` and
`[*]` both return the result of `descent` with `ok = true` (so the step never
fails), which is the concatenation over the selected objects in order of their
`children`: the elements of an array in array order, the values of a map (with
distinct keys) in ascending order of their keys, nothing for a scalar. `Get`
gives the same result on `$.*` and `$[*]`. -/
theorem wildcard_descent_ordered (p1 p2 : pathParser) (objs : Slice) (post1 post2 : List Char)
    (h1 : p1.s.drop p1.i = '*' :: post1) (h2 : p2.s.drop p2.i = '*' :: ']' :: post2) :
    p1.processDot objs = .ok (descent objs, { p1 with i := p1.i + 1 }) ∧
    p2.processLeftBracket objs = .ok (descent objs, { p2 with i := p2.i + 2 }) ∧
    (descent objs).2 = true ∧
    (descent objs).1.toList = objs.toList.flatMap children ∧
    (∀ value, Get "$.*" value = .ok (Slice.of (children value), true) ∧
      Get "$[*]" value = .ok (Slice.of (children value), true)) ∧
    (∀ xs, children (Value.array xs) = xs) ∧
    (∀ kvs : List (String × Value), (kvs.map Prod.fst).Nodup →
      ∃ sorted : List (String × Value), sorted.Perm kvs ∧
        (sorted.map Prod.fst).Pairwise leString ∧
        children (Value.object kvs) = sorted.map Prod.snd) ∧
    (∀ v : Value, (∀ xs, v ≠ Value.array xs) → (∀ kvs, v ≠ Value.object kvs) →
      children v = []) := by
  refine ⟨processDot_asterisk p1 objs post1 h1, processLeftBracket_asterisk p2 objs post2 h2,
    (descent_eq objs).2, (descent_eq objs).1, ?_, fun _ => rfl, children_object, ?_⟩
  · intro value
    have hd : (descent (Slice.of [value])).1.toList = children value := by
      rw [(descent_eq _).1]
      simp [Slice.toList]
    constructor
    · have h := Get_single_dot ['*'] value (descent (Slice.of [value])).1 _
        (processDot_asterisk ⟨['$', '.', '*'], 2⟩ (Slice.of [value]) [] rfl) (by decide)
      rw [← hd]
      exact h
    · have h := Get_single_bracket ['*', ']'] value (descent (Slice.of [value])).1 _
        (processLeftBracket_asterisk ⟨['$', '[', '*', ']'], 2⟩ (Slice.of [value]) [] rfl)
        (by decide)
      rw [← hd]
      exact h
  · intro v hv1 hv2
    cases v with
    | array xs => exact absurd rfl (hv1 xs)
    | object kvs => exact absurd rfl (hv2 kvs)
    | _ => rfl

theorem wildcard_descent_ordered_witness :
    (⟨['$', '.', '*', '.', 'a'], 2⟩ : pathParser).s.drop 2 = '*' :: ['.', 'a'] ∧
    (⟨['$', '[', '*', ']'], 2⟩ : pathParser).s.drop 2 = '*' :: ']' :: [] ∧
    (⟨['$', '.', '*', '.', 'a'], 2⟩ : pathParser).processDot
      (Slice.of [Value.object [("b", Value.number 2), ("a", Value.number 1)]]) =
      .ok ((Slice.of [Value.number 1, Value.number 2], true), ⟨['$', '.', '*', '.', 'a'], 3⟩) ∧
    (⟨['$', '[', '*', ']'], 2⟩ : pathParser).processLeftBracket
      (Slice.of [Value.object [("b", Value.number 2), ("a", Value.number 1)]]) =
      .ok ((Slice.of [Value.number 1, Value.number 2], true), ⟨['$', '[', '*', ']'], 4⟩) :=
  ⟨rfl, rfl,
    (wildcard_descent_ordered ⟨['$', '.', '*', '.', 'a'], 2⟩ ⟨['$', '[', '*', ']'], 2⟩
      (Slice.of [Value.object [("b", Value.number 2), ("a", Value.number 1)]])
      ['.', 'a'] [] rfl rfl).1,
    (wildcard_descent_ordered ⟨['$', '.', '*', '.', 'a'], 2⟩ ⟨['$', '[', '*', ']'], 2⟩
      (Slice.of [Value.object [("b", Value.number 2), ("a", Value.number 1)]])
      ['.', 'a'] [] rfl rfl).2.1⟩

end jsonpath


namespace jsonpath

theorem identText_cons {c : Char} {cs : List Char} (h : identText (c :: cs) = true) :
    isIdentStart c = true ∧ ∀ d ∈ cs, isIdentChar d = true := by
  simp only [identText, Bool.and_eq_true, List.all_eq_true] at h
  exact h

/-- The tokenizer reads an identifier text as one identifier token when no
identifier character follows it. -/
theorem nextToken_identText (p : pathParser) (t post : List Char)
    (h : p.s.drop p.i = t ++ post) (ht : identText t = true)
    (hpost : ∀ d, post.head? = some d → isIdentChar d = false) :
    p.nextToken = .ok ((.pathIdentifier, t, true), { p with i := p.i + t.length }) := by
  cases t with
  | nil => simp [identText] at ht
  | cons c cs =>
    obtain ⟨hc, hcs⟩ := identText_cons ht
    exact nextToken_ident p c cs post h hc hcs hpost

theorem plainChar_iff (c : Char) :
    plainChar c = true ↔ c ≠ '\'' ∧ c ≠ '"' ∧ c ≠ '\\' ∧ 0x20 ≤ c.toNat := by
  simp [plainChar, and_assoc]

theorem dropWhile_of_head (f : Char → Bool) : ∀ l : List Char,
    (∀ d, l.head? = some d → f d = false) → l.dropWhile f = l := by
  intro l h
  cases l with
  | nil => rfl
  | cons d l => simp [List.dropWhile, h d rfl]

theorem Trim_quoted (body : List Char) (hb : ∀ c ∈ body, c ≠ '\'') :
    strings.Trim (quoted body) ['\''] = body := by
  have hf : ∀ c ∈ body, (['\''].contains c) = false := by
    intro c hc
    simp [hb c hc]
  cases body with
  | nil => decide
  | cons b bs =>
    have h1 : (quoted (b :: bs)).dropWhile (fun c => ['\''].contains c) =
        b :: bs ++ ['\''] := by
      show ('\'' :: (b :: bs ++ ['\''])).dropWhile (fun c => ['\''].contains c) = _
      rw [List.dropWhile_cons_of_pos (by decide)]
      exact dropWhile_of_head _ _ (fun d hd => by
        simp only [List.cons_append, List.head?_cons, Option.some.injEq] at hd
        subst hd
        exact hf _ (List.mem_cons_self _ _))
    have h2 : (b :: bs ++ ['\'']).reverse = '\'' :: (b :: bs).reverse := by simp
    have h3 : ('\'' :: (b :: bs).reverse).dropWhile (fun c => ['\''].contains c) =
        (b :: bs).reverse := by
      rw [List.dropWhile_cons_of_pos (by decide)]
      apply dropWhile_of_head
      intro d hd
      have hm : d ∈ (b :: bs).reverse := List.mem_of_mem_head? hd
      exact hf d (List.mem_reverse.mp hm)
    simp only [strings.Trim, h1, h2, h3, List.reverse_reverse]

/-- One character of a JSON string literal that is not a quote, a backslash or
a control character stands for itself. -/
theorem scanBody_plain_step (c : Char) (rest : List Char) (h2 : c ≠ '"')
    (hlt : ¬ c.toNat < 0x20) (h3 : c ≠ '\\') :
    json.scanBody (c :: rest) =
      match json.scanBody rest with
      | some (out, tl) => some (json.StrUnit.ch c :: out, tl)
      | none => none := by
  rcases rest with _ | ⟨e, _ | ⟨a, _ | ⟨b, _ | ⟨c2, _ | ⟨d, tail⟩⟩⟩⟩⟩
  all_goals
    show (if c = '"' then _ else if c.toNat < 0x20 then _ else if c = '\\' then _ else _) = _
    exact (if_neg h2).trans ((if_neg hlt).trans ((if_neg h3).trans rfl))

theorem scanBody_plain : ∀ body : List Char, (∀ c ∈ body, plainChar c = true) →
    json.scanBody (body ++ ['"']) = some (body.map json.StrUnit.ch, []) := by
  intro body
  induction body with
  | nil => intro _; rfl
  | cons c cs ih =>
    intro h
    obtain ⟨_, h2, h3, h4⟩ := (plainChar_iff c).mp (h c (List.mem_cons_self _ _))
    have hlt : ¬ c.toNat < 0x20 := by omega
    have ih2 := ih (fun d hd => h d (List.mem_cons_of_mem _ hd))
    simp only [List.cons_append, List.map_cons]
    rw [scanBody_plain_step c _ h2 hlt h3, ih2]

theorem combine_plain : ∀ body : List Char,
    json.combine none (body.map json.StrUnit.ch) = body := by
  intro body
  induction body with
  | nil => rfl
  | cons c cs ih => simp only [List.map_cons, json.combine, ih]

/-- A quoted key of plain characters is unquoted to the key itself. -/
theorem unquote_plain (body : List Char) (hb : ∀ c ∈ body, plainChar c = true) :
    json.UnmarshalString ('"' :: (strings.Trim (quoted body) ['\''] ++ ['"'])) =
      some (String.mk body) := by
  rw [Trim_quoted body (fun c hc => ((plainChar_iff c).mp (hb c hc)).1)]
  simp [json.UnmarshalString, scanBody_plain body hb, combine_plain]

theorem identChar_plain (c : Char) (h : isIdentChar c = true) : plainChar c = true := by
  rw [plainChar_iff]
  simp only [isIdentChar, isIdentStart, isDigit, Bool.or_eq_true, Bool.and_eq_true,
    decide_eq_true_eq] at h
  have e1 : '\''.toNat = 39 := rfl
  have e2 : '"'.toNat = 34 := rfl
  have e3 : '\\'.toNat = 92 := rfl
  have e4 : '_'.toNat = 95 := rfl
  have e5 : 'a'.toNat = 97 := rfl
  have e6 : 'z'.toNat = 122 := rfl
  have e7 : 'A'.toNat = 65 := rfl
  have e8 : 'Z'.toNat = 90 := rfl
  have e9 : '0'.toNat = 48 := rfl
  have e10 : '9'.toNat = 57 := rfl
  have hr : c.toNat = 95 ∨ (48 ≤ c.toNat ∧ c.toNat ≤ 122 ∧ c.toNat ≠ 92) := by
    rcases h with (((h | h) | h) | h)
    · left; rw [h]; exact e4
    · right; omega
    · right; omega
    · right; omega
  refine ⟨?_, ?_, ?_, ?_⟩
  · rintro rfl; omega
  · rintro rfl; omega
  · rintro rfl; omega
  · omega

theorem identText_plain (t : List Char) (ht : identText t = true) :
    ∀ c ∈ t, plainChar c = true := by
  cases t with
  | nil => simp [identText] at ht
  | cons c cs =>
    obtain ⟨hc, hcs⟩ := identText_cons ht
    intro d hd
    rcases List.mem_cons.mp hd with rfl | hd
    · exact identChar_plain _ (by simp [isIdentChar, hc])
    · exact identChar_plain _ (hcs d hd)

/-- A dot segment `.name` is the field access by that name. -/
theorem processDot_ident (p : pathParser) (objs : Slice) (t post : List Char)
    (h : p.s.drop p.i = t ++ post) (ht : identText t = true)
    (hpost : ∀ d, post.head? = some d → isIdentChar d = false) :
    p.processDot objs =
      .ok (descentIdent objs [String.mk t], { p with i := p.i + t.length }) := by
  have htok := nextToken_identText p t post h ht hpost
  simp only [pathParser.processDot, htok]
  rfl

/-- A bracket segment `['key']` with a key of plain characters is the field
access by that key. -/
theorem processLeftBracket_string (p : pathParser) (objs : Slice) (body post : List Char)
    (h : p.s.drop p.i = quoted body ++ ']' :: post) (hb : ∀ c ∈ body, plainChar c = true) :
    p.processLeftBracket objs =
      .ok (descentIdent objs [String.mk body], { p with i := p.i + (body.length + 3) }) := by
  have h0 : p.s.drop p.i = '\'' :: (body ++ '\'' :: (']' :: post)) := by
    simpa [quoted] using h
  have ht1 := nextToken_string p body (']' :: post) h0
    (fun c hc => ((plainChar_iff c).mp (hb c hc)).1)
  have hd2 : List.drop (p.i + (body.length + 2)) p.s = ']' :: post := by
    have := drop_add_of_drop (s := p.s) (i := p.i) (a := '\'' :: (body ++ ['\'']))
      (b := ']' :: post) (by simpa using h0)
    simpa [Nat.add_assoc] using this
  have ht2 := nextToken_char ⟨p.s, p.i + (body.length + 2)⟩ ']' post .pathRightBracket hd2
    (by simp)
  have hu := unquote_plain body hb
  simp only [quoted] at hu
  simp only [pathParser.processLeftBracket, ht1, ht2, hu]
  rfl

theorem fieldsOf_single (name : String) :
    (∀ kvs v, lookup kvs name = some v → fieldsOf [name] (Value.object kvs) = [v]) ∧
    (∀ kvs, lookup kvs name = none → fieldsOf [name] (Value.object kvs) = []) ∧
    (∀ v : Value, (∀ kvs, v ≠ Value.object kvs) → fieldsOf [name] v = []) := by
  refine ⟨?_, ?_, ?_⟩
  · intro kvs v h
    simp [fieldsOf, h]
  · intro kvs h
    simp [fieldsOf, h]
  · intro v hv
    cases v with
    | object kvs => exact absurd rfl (hv kvs)
    | _ => rfl

/-- C17: dot access and bracket-string access agree. For every identifier name
`n` and every list of selected objects, the segments `.n` and `['n']` both
return the result of `descentIdent` for the name `n` with `ok = true`, which
is the concatenation over the selected objects in order of `fieldsOf [n]`: the
value of a map under the key `n` when the key is present, nothing for a map
without the key and for a value that is not a map. `Get` gives the same
result on `$.n` and `$['n']`. -/
theorem dot_and_bracket_string_agree (p1 p2 : pathParser) (objs : Slice)
    (n post1 post2 : List Char) (hn : identText n = true)
    (h1 : p1.s.drop p1.i = n ++ post1)
    (hpost : ∀ d, post1.head? = some d → isIdentChar d = false)
    (h2 : p2.s.drop p2.i = quoted n ++ ']' :: post2) :
    p1.processDot objs =
      .ok (descentIdent objs [String.mk n], { p1 with i := p1.i + n.length }) ∧
    p2.processLeftBracket objs =
      .ok (descentIdent objs [String.mk n], { p2 with i := p2.i + (n.length + 3) }) ∧
    (descentIdent objs [String.mk n]).2 = true ∧
    (descentIdent objs [String.mk n]).1.toList =
      objs.toList.flatMap (fieldsOf [String.mk n]) ∧
    (∀ value,
      Get (String.mk ('$' :: '.' :: n)) value =
        .ok (Slice.of (fieldsOf [String.mk n] value), true) ∧
      Get (String.mk ('$' :: '[' :: (quoted n ++ [']']))) value =
        .ok (Slice.of (fieldsOf [String.mk n] value), true)) ∧
    (∀ kvs v, lookup kvs (String.mk n) = some v →
      fieldsOf [String.mk n] (Value.object kvs) = [v]) ∧
    (∀ kvs, lookup kvs (String.mk n) = none →
      fieldsOf [String.mk n] (Value.object kvs) = []) ∧
    (∀ v : Value, (∀ kvs, v ≠ Value.object kvs) → fieldsOf [String.mk n] v = []) := by
  have hplain := identText_plain n hn
  refine ⟨processDot_ident p1 objs n post1 h1 hn hpost,
    processLeftBracket_string p2 objs n post2 h2 hplain,
    (descentIdent_eq objs _).2, (descentIdent_eq objs _).1, ?_, fieldsOf_single _⟩
  intro value
  have hd : (descentIdent (Slice.of [value]) [String.mk n]).1.toList =
      fieldsOf [String.mk n] value := by
    rw [(descentIdent_eq _ _).1]
    simp [Slice.toList]
  constructor
  · have h := Get_single_dot n value (descentIdent (Slice.of [value]) [String.mk n]).1 _
      (processDot_ident ⟨'$' :: '.' :: n, 2⟩ (Slice.of [value]) n []
        (by simp) hn (by simp))
      (by simp only [List.length_cons]; omega)
    rw [← hd]
    exact h
  · have h := Get_single_bracket (quoted n ++ [']']) value
      (descentIdent (Slice.of [value]) [String.mk n]).1 _
      (processLeftBracket_string ⟨'$' :: '[' :: (quoted n ++ [']']), 2⟩ (Slice.of [value]) n []
        rfl hplain)
      (by simp only [quoted, List.length_cons, List.length_append, List.length_nil]; omega)
    rw [← hd]
    exact h

theorem dot_and_bracket_string_agree_witness :
    identText ['a', 'b'] = true ∧
    (⟨['$', '.', 'a', 'b', '.', 'c'], 2⟩ : pathParser).s.drop 2 = ['a', 'b'] ++ ['.', 'c'] ∧
    (∀ d, ['.', 'c'].head? = some d → isIdentChar d = false) ∧
    (⟨['$', '[', '\'', 'a', 'b', '\'', ']'], 2⟩ : pathParser).s.drop 2 =
      quoted ['a', 'b'] ++ ']' :: [] ∧
    (⟨['$', '.', 'a', 'b', '.', 'c'], 2⟩ : pathParser).processDot
      (Slice.of [Value.object [("ab", Value.number 7)], Value.array []]) =
      .ok ((Slice.of [Value.number 7], true), ⟨['$', '.', 'a', 'b', '.', 'c'], 4⟩) ∧
    (⟨['$', '[', '\'', 'a', 'b', '\'', ']'], 2⟩ : pathParser).processLeftBracket
      (Slice.of [Value.object [("ab", Value.number 7)], Value.array []]) =
      .ok ((Slice.of [Value.number 7], true), ⟨['$', '[', '\'', 'a', 'b', '\'', ']'], 7⟩) :=
  ⟨by decide, rfl, by decide, rfl,
    (dot_and_bracket_string_agree ⟨['$', '.', 'a', 'b', '.', 'c'], 2⟩
      ⟨['$', '[', '\'', 'a', 'b', '\'', ']'], 2⟩
      (Slice.of [Value.object [("ab", Value.number 7)], Value.array []])
      ['a', 'b'] ['.', 'c'] [] (by decide) rfl (by decide) rfl).1,
    (dot_and_bracket_string_agree ⟨['$', '.', 'a', 'b', '.', 'c'], 2⟩
      ⟨['$', '[', '\'', 'a', 'b', '\'', ']'], 2⟩
      (Slice.of [Value.object [("ab", Value.number 7)], Value.array []])
      ['a', 'b'] ['.', 'c'] [] (by decide) rfl (by decide) rfl).2.1⟩

end jsonpath


namespace jsonpath

theorem Value.height_pos (v : Value) : 1 ≤ v.height := by
  cases v <;> simp [Value.height]

theorem heightList_append (a b : List Value) :
    heightList (a ++ b) = max (heightList a) (heightList b) := by
  induction a with
  | nil => simp [heightList]
  | cons x a ih =>
    show heightList (x :: (a ++ b)) = _
    simp only [heightList, ih, Nat.max_assoc]

theorem heightList_eq_zero (l : List Value) (h : heightList l = 0) : l = [] := by
  cases l with
  | nil => rfl
  | cons x l =>
    have := Value.height_pos x
    simp only [heightList] at h
    omega

theorem heightList_le (n : Nat) : ∀ l : List Value, (∀ v ∈ l, v.height ≤ n) →
    heightList l ≤ n := by
  intro l
  induction l with
  | nil => intro _; simp [heightList]
  | cons x l ih =>
    intro h
    simp only [heightList, Nat.max_le]
    exact ⟨h x (List.mem_cons_self _ _), ih (fun v hv => h v (List.mem_cons_of_mem _ hv))⟩

theorem lookup_height : ∀ (kvs : List (String × Value)) (k : String) (v : Value),
    lookup kvs k = some v → v.height ≤ heightEntries kvs := by
  intro kvs
  induction kvs with
  | nil => intro k v h; simp [lookup] at h
  | cons kv kvs ih =>
    intro k v h
    obtain ⟨k0, v0⟩ := kv
    simp only [lookup] at h
    simp only [heightEntries]
    split at h
    · cases h; omega
    · have := ih k v h; omega

theorem lookup_isSome : ∀ (kvs : List (String × Value)) (k : String),
    k ∈ kvs.map Prod.fst → ∃ v, lookup kvs k = some v := by
  intro kvs
  induction kvs with
  | nil => intro k h; simp at h
  | cons kv kvs ih =>
    intro k h
    obtain ⟨k0, v0⟩ := kv
    simp only [lookup]
    by_cases hk : k0 = k
    · exact ⟨v0, by simp [hk]⟩
    · simp only [hk, if_false]
      apply ih
      simp only [List.map_cons, List.mem_cons] at h
      rcases h with h | h
      · exact absurd h.symm hk
      · exact h

/-- The values one level below a value are lower than the value. -/
theorem heightList_children (v : Value) : heightList (children v) < v.height := by
  cases v with
  | array xs => simp [children, Value.height]
  | object kvs =>
    simp only [children, Value.height]
    apply Nat.lt_succ_of_le
    apply heightList_le
    intro v hv
    obtain ⟨k, hk, rfl⟩ := List.mem_map.mp hv
    have hk2 : k ∈ kvs.map Prod.fst := ((sortStrings_sorted _).2.mem_iff).mp hk
    obtain ⟨w, hw⟩ := lookup_isSome kvs k hk2
    simp only [mapIndex, hw]
    exact lookup_height kvs k w hw
  | null => simp [children, Value.height, heightList]
  | bool b => simp [children, Value.height, heightList]
  | number n => simp [children, Value.height, heightList]
  | string s => simp [children, Value.height, heightList]

/-- One wildcard descent lowers the height of the selected objects. -/
theorem heightList_flatMap_children (n : Nat) : ∀ l : List Value, heightList l ≤ n + 1 →
    heightList (l.flatMap children) ≤ n := by
  intro l
  induction l with
  | nil => intro _; simp [heightList]
  | cons x l ih =>
    intro h
    simp only [heightList, Nat.max_le] at h
    simp only [List.flatMap_cons, heightList_append, Nat.max_le]
    have := heightList_children x
    exact ⟨by omega, ih h.2⟩

theorem level_nil : ∀ d, level d [] = [] := by
  intro d
  induction d with
  | zero => rfl
  | succ d ih => simpa [level] using ih

/-- Below the height of the selected objects there is nothing left. -/
theorem level_eq_nil : ∀ (d : Nat) (l : List Value), heightList l ≤ d → level d l = [] := by
  intro d
  induction d with
  | zero =>
    intro l h
    simp only [level]
    exact heightList_eq_zero l (by omega)
  | succ d ih =>
    intro l h
    simp only [level]
    exact ih _ (heightList_flatMap_children d l h)

theorem range_flatMap_stable (F : Nat → List Value) (H : Nat) (hF : ∀ d, H ≤ d → F d = []) :
    ∀ D, H ≤ D → (List.range D).flatMap F = (List.range H).flatMap F := by
  intro D hD
  induction D with
  | zero =>
    have : H = 0 := by omega
    subst this
    rfl
  | succ D ih =>
    by_cases hHD : H = D + 1
    · rw [hHD]
    · have hle : H ≤ D := by omega
      rw [List.range_succ, List.flatMap_append, ih hle]
      simp [hF D hle]

theorem Slice.len_pos_iff (s : Slice) : s.len > 0 ↔ s.toList ≠ [] := by
  simp [Slice.len, List.length_pos]

/-- The loop of `recursiveDescent` with enough iterations returns, and appends
the contributions of the levels in order. -/
theorem recursiveDescentLoop_levels (typ : pathTokenType) (val : String) :
    ∀ (fuel : Nat) (objs values : Slice), heightList objs.toList ≤ fuel →
    ∃ r, recursiveDescentLoop typ val fuel objs values = .ok r ∧
      r.toList = values.toList ++
        (List.range fuel).flatMap (levelPart typ val objs.toList) := by
  intro fuel
  induction fuel with
  | zero =>
    intro objs values h
    have he : objs.toList = [] := heightList_eq_zero _ (by omega)
    have hl : ¬ objs.len > 0 := by rw [Slice.len_pos_iff]; simp [he]
    exact ⟨values, by simp [recursiveDescentLoop, hl], by simp⟩
  | succ fuel ih =>
    intro objs values h
    by_cases hl : objs.len > 0
    · have hd := (descent_eq objs).1
      have hh : heightList (descent objs).1.toList ≤ fuel := by
        rw [hd]
        exact heightList_flatMap_children fuel _ h
      have hshift : ∀ d, levelPart typ val objs.toList (d + 1) =
          levelPart typ val (descent objs).1.toList d := by
        intro d
        simp only [levelPart, level, hd]
      have hrange : (List.range (fuel + 1)).flatMap (levelPart typ val objs.toList) =
          levelPart typ val objs.toList 0 ++
            (List.range fuel).flatMap (levelPart typ val (descent objs).1.toList) := by
        rw [List.range_succ_eq_map, List.flatMap_cons, List.flatMap_map]
        congr 1
        apply List.flatMap_congr
        intro d _
        exact hshift d
      by_cases ht : typ = .pathAsterisk
      · obtain ⟨r, hr, hrl⟩ := ih (descent objs).1 (values.append (descent objs).1.toList) hh
        refine ⟨r, ?_, ?_⟩
        · simp only [recursiveDescentLoop, hl, if_true, ht]
          rw [← hr, ht]
        · rw [hrl, hrange, Slice.toList_append, List.append_assoc]
          congr 2
          simp only [levelPart, ht, if_true, level, hd]
      · obtain ⟨r, hr, hrl⟩ := ih (descent objs).1
          (values.append (descentIdent objs [val]).1.toList) hh
        refine ⟨r, ?_, ?_⟩
        · simp only [recursiveDescentLoop, hl, if_true, ht, if_false]
          exact hr
        · rw [hrl, hrange, Slice.toList_append, List.append_assoc]
          congr 2
          simp only [levelPart, ht, if_false, level, (descentIdent_eq objs [val]).1]
    · have he : objs.toList = [] := by
        rw [Slice.len_pos_iff] at hl
        simpa using hl
      refine ⟨values, by simp [recursiveDescentLoop, hl], ?_⟩
      have : ∀ d, levelPart typ val objs.toList d = [] := by
        intro d
        simp only [levelPart, he, level_nil]
        split <;> simp
      simp [this]

/-- The recursive descent `..name` or `..*`, read after the first dot. -/
theorem processDot_recursive (p : pathParser) (objs : Slice) (typ : pathTokenType)
    (val : List Char) (q : pathParser)
    (h : p.s.drop p.i = '.' :: p.s.drop (p.i + 1))
    (htok : (⟨p.s, p.i + 1⟩ : pathParser).nextToken = .ok ((typ, val, true), q))
    (htyp : typ = .pathAsterisk ∨ typ = .pathIdentifier) :
    ∃ r, p.processDot objs = .ok ((r, true), q) ∧
      ∀ D, heightList objs.toList ≤ D →
        r.toList = (List.range D).flatMap (levelPart typ (String.mk val) objs.toList) := by
  have ht0 := nextToken_char p '.' _ .pathDot h (by simp)
  obtain ⟨r, hr, hrl⟩ := recursiveDescentLoop_levels typ (String.mk val)
    (heightList objs.toList) objs Slice.nil (Nat.le_refl _)
  have hcond : ¬ (typ ≠ .pathAsterisk ∧ typ ≠ .pathIdentifier) := by
    rcases htyp with h | h <;> simp [h]
  refine ⟨r, ?_, ?_⟩
  · simp only [pathParser.processDot, ht0]
    simp only [Bool.not_true, Bool.false_eq_true, if_false, pathParser.recursiveDescent, htok,
      hcond, hr]
  · intro D hD
    rw [hrl]
    show ([] : List Value) ++ _ = _
    rw [List.nil_append]
    symm
    apply range_flatMap_stable _ _ _ D hD
    intro d hd
    simp only [levelPart]
    split
    · exact level_eq_nil _ _ (by omega)
    · rw [level_eq_nil _ _ hd]
      rfl

/-- C19: recursive descent returns matches in breadth-first order. For `..n`
with an identifier name `n` the result is the concatenation, for depth
`d = 0, 1, 2, ...`, of the field access by `n` applied to the `d`-fold wildcard
descent `level d` of the selected objects; for `..*` it is the concatenation,
for `d = 1, 2, ...`, of the `d`-fold wildcard descent. The concatenation may
stop at any depth `D` not below the height of the selected objects, where
nothing is left. `Get` returns these selections on `$..n` and `$..*`. -/
theorem recursive_descent_breadth_first (p1 p2 : pathParser) (objs : Slice)
    (n post1 post2 : List Char) (hn : identText n = true)
    (h1 : p1.s.drop p1.i = '.' :: (n ++ post1))
    (hpost : ∀ d, post1.head? = some d → isIdentChar d = false)
    (h2 : p2.s.drop p2.i = '.' :: '*' :: post2) :
    (∃ r, p1.processDot objs = .ok ((r, true), { p1 with i := p1.i + (n.length + 1) }) ∧
      ∀ D, heightList objs.toList ≤ D →
        r.toList = (List.range D).flatMap
          (fun d => (level d objs.toList).flatMap (fieldsOf [String.mk n]))) ∧
    (∃ r, p2.processDot objs = .ok ((r, true), { p2 with i := p2.i + 2 }) ∧
      ∀ D, heightList objs.toList ≤ D →
        r.toList = (List.range D).flatMap (fun d => level (d + 1) objs.toList)) ∧
    (∀ (value : Value) (D : Nat), value.height ≤ D →
      Get (String.mk ('$' :: '.' :: '.' :: n)) value =
        .ok (Slice.of ((List.range D).flatMap
          (fun d => (level d [value]).flatMap (fieldsOf [String.mk n]))), true) ∧
      Get "$..*" value =
        .ok (Slice.of ((List.range D).flatMap (fun d => level (d + 1) [value])), true)) ∧
    (∀ d, heightList objs.toList ≤ d → level d objs.toList = []) := by
  have hident : ∀ (q : pathParser) (os : Slice) (post : List Char),
      q.s.drop q.i = '.' :: (n ++ post) → (∀ d, post.head? = some d → isIdentChar d = false) →
      ∃ r, q.processDot os = .ok ((r, true), { q with i := q.i + (n.length + 1) }) ∧
        ∀ D, heightList os.toList ≤ D →
          r.toList = (List.range D).flatMap
            (fun d => (level d os.toList).flatMap (fieldsOf [String.mk n])) := by
    intro q os post hq hp
    have hd := drop_succ_of_drop hq
    have htok := nextToken_identText ⟨q.s, q.i + 1⟩ n post hd hn hp
    obtain ⟨r, hr, hrl⟩ := processDot_recursive q os .pathIdentifier n _
      (by rw [hq, hd]) htok (Or.inr rfl)
    refine ⟨r, ?_, ?_⟩
    · rw [hr]
      simp [Nat.add_assoc, Nat.add_comm 1]
    · intro D hD
      rw [hrl D hD]
      apply List.flatMap_congr
      intro d _
      simp [levelPart]
  have hstar : ∀ (q : pathParser) (os : Slice) (post : List Char),
      q.s.drop q.i = '.' :: '*' :: post →
      ∃ r, q.processDot os = .ok ((r, true), { q with i := q.i + 2 }) ∧
        ∀ D, heightList os.toList ≤ D →
          r.toList = (List.range D).flatMap (fun d => level (d + 1) os.toList) := by
    intro q os post hq
    have hd := drop_succ_of_drop hq
    have htok := nextToken_char ⟨q.s, q.i + 1⟩ '*' post .pathAsterisk hd (by simp)
    obtain ⟨r, hr, hrl⟩ := processDot_recursive q os .pathAsterisk [] _
      (by rw [hq, hd]) htok (Or.inl rfl)
    refine ⟨r, hr, ?_⟩
    intro D hD
    rw [hrl D hD]
    apply List.flatMap_congr
    intro d _
    simp [levelPart]
  refine ⟨hident p1 objs post1 h1 hpost, hstar p2 objs post2 h2, ?_,
    fun d hd => level_eq_nil d _ hd⟩
  intro value D hD
  have hh : heightList (Slice.of [value]).toList ≤ D := by
    simp only [Slice.toList, heightList]
    omega
  constructor
  · obtain ⟨r, hr, hrl⟩ := hident ⟨'$' :: '.' :: '.' :: n, 2⟩ (Slice.of [value]) []
      (by simp) (by simp)
    have hget := Get_single_dot ('.' :: n) value r _ hr
      (by simp only [List.length_cons]; omega)
    rw [hget, hrl D hh]
    rfl
  · obtain ⟨r, hr, hrl⟩ := hstar ⟨['$', '.', '.', '*'], 2⟩ (Slice.of [value]) [] rfl
    have hget := Get_single_dot ['.', '*'] value r _ hr (by decide)
    have hrl2 := hrl D hh
    rw [hrl2] at hget
    exact hget

theorem recursive_descent_breadth_first_witness :
    identText ['a'] = true ∧
    (⟨['$', '.', '.', 'a', '[', '0', ']'], 2⟩ : pathParser).s.drop 2 =
      '.' :: (['a'] ++ ['[', '0', ']']) ∧
    (∀ d, ['[', '0', ']'].head? = some d → isIdentChar d = false) ∧
    (⟨['$', '.', '.', '*'], 2⟩ : pathParser).s.drop 2 = '.' :: '*' :: [] ∧
    (∃ r, (⟨['$', '.', '.', 'a', '[', '0', ']'], 2⟩ : pathParser).processDot
        (Slice.of [Value.object [("a", Value.number 1),
          ("b", Value.object [("a", Value.number 2)])]]) =
        .ok ((r, true), ⟨['$', '.', '.', 'a', '[', '0', ']'], 2 + (['a'].length + 1)⟩) ∧
      ∀ D, heightList (Slice.of [Value.object [("a", Value.number 1),
          ("b", Value.object [("a", Value.number 2)])]]).toList ≤ D →
        r.toList = (List.range D).flatMap
          (fun d => (level d (Slice.of [Value.object [("a", Value.number 1),
            ("b", Value.object [("a", Value.number 2)])]]).toList).flatMap
              (fieldsOf [String.mk ['a']]))) :=
  ⟨by decide, rfl, by decide, rfl,
    (recursive_descent_breadth_first ⟨['$', '.', '.', 'a', '[', '0', ']'], 2⟩
      ⟨['$', '.', '.', '*'], 2⟩
      (Slice.of [Value.object [("a", Value.number 1),
        ("b", Value.object [("a", Value.number 2)])]])
      ['a'] ['[', '0', ']'] [] (by decide) rfl (by decide) rfl).1⟩

end jsonpath


namespace jsonpath

theorem unionText_single (t : List Char) : unionText [t] = t := by
  simp [unionText, List.intercalate, List.intersperse]

theorem unionText_cons (t u : List Char) (us : List (List Char)) :
    unionText (t :: u :: us) = t ++ ',' :: unionText (u :: us) := by
  simp [unionText, List.intercalate, List.intersperse]

theorem length_unionText (t : List Char) : ∀ ts : List (List Char),
    ts.length ≤ (unionText (t :: ts)).length := by
  intro ts
  induction ts generalizing t with
  | nil => simp
  | cons u us ih =>
    rw [unionText_cons]
    have := ih u
    simp only [List.length_append, List.length_cons]
    omega

/-- The token loop of `processUnion` on items of the kind of the first item,
separated by commas and closed by a bracket: it returns all the items. -/
theorem unionLoop_items (firstTyp : pathTokenType) (good : List Char → Prop)
    (hgood : ∀ (p : pathParser) (t post : List Char), good t → p.s.drop p.i = t ++ post →
      (post.head? = some ',' ∨ post.head? = some ']') →
      p.nextToken = .ok ((firstTyp, t, true), { p with i := p.i + t.length })) :
    ∀ (ts : List (List Char)) (t : List Char) (fuel : Nat) (p : pathParser)
      (items : List (List Char)) (post : List Char),
      (∀ u ∈ t :: ts, good u) → p.s.drop p.i = unionText (t :: ts) ++ ']' :: post →
      ts.length < fuel →
      unionLoop firstTyp fuel p items =
        .ok (some (items ++ t :: ts),
          { p with i := p.i + ((unionText (t :: ts)).length + 1) }) := by
  intro ts
  induction ts with
  | nil =>
    intro t fuel p items post hg h hf
    rw [unionText_single] at h ⊢
    obtain ⟨fuel, rfl⟩ : ∃ f, fuel = f + 1 := ⟨fuel - 1, by omega⟩
    have ht1 := hgood p t (']' :: post) (hg t (List.mem_cons_self _ _)) h (Or.inr rfl)
    have hd2 := drop_after p t (']' :: post) h
    have ht2 := nextToken_char _ ']' post .pathRightBracket hd2 (by simp)
    simp only [unionLoop, ht1, ht2]
    simp [Nat.add_assoc]
  | cons u us ih =>
    intro t fuel p items post hg h hf
    rw [unionText_cons] at h ⊢
    obtain ⟨fuel, rfl⟩ : ∃ f, fuel = f + 1 := ⟨fuel - 1, by omega⟩
    have h' : p.s.drop p.i = t ++ (',' :: (unionText (u :: us) ++ ']' :: post)) := by
      simpa using h
    have ht1 := hgood p t _ (hg t (List.mem_cons_self _ _)) h' (Or.inl rfl)
    have hd2 := drop_after p t _ h'
    have ht2 := nextToken_char _ ',' _ .pathComma hd2 (by simp)
    have hd3 : (⟨p.s, p.i + t.length + 1⟩ : pathParser).s.drop
        (⟨p.s, p.i + t.length + 1⟩ : pathParser).i = unionText (u :: us) ++ ']' :: post :=
      drop_succ_of_drop hd2
    have hrec := ih u fuel ⟨p.s, p.i + t.length + 1⟩ (items ++ [t]) post
      (fun w hw => hg w (List.mem_cons_of_mem _ hw)) hd3
      (by simp only [List.length_cons] at hf; omega)
    simp only [unionLoop, ht1, ht2]
    simp only [Bool.not_true, Bool.false_eq_true, ne_eq, not_true_eq_false, or_self, if_false,
      reduceCtorEq, not_false_eq_true, if_true]
    rw [hrec]
    simp [Nat.add_assoc, Nat.add_comm, Nat.add_left_comm]

theorem parseIndices_nat : ∀ (texts : List (List Char)) (idxs : List Nat),
    List.Forall₂ (fun (t : List Char) (i : Nat) =>
        numberText t = true ∧ strconv.ParseInt t 32 = some (i : Int))
      texts idxs →
    parseIndices texts = some (idxs.map (fun (i : Nat) => (i : Int))) := by
  intro texts idxs h
  induction h with
  | nil => rfl
  | cons hd _ ih => simp only [parseIndices, hd.2, ih, List.map_cons]

theorem parseNames_plain : ∀ keys : List (List Char),
    (∀ k ∈ keys, ∀ c ∈ k, plainChar c = true) →
    parseNames (keys.map quoted) = some (keys.map String.mk) := by
  intro keys
  induction keys with
  | nil => intro _; rfl
  | cons k ks ih =>
    intro h
    have hu := unquote_plain k (h k (List.mem_cons_self _ _))
    have hr := ih (fun k2 hk2 => h k2 (List.mem_cons_of_mem _ hk2))
    simp only [List.map_cons, parseNames, hu, hr]

theorem numberText_of_forall2 : ∀ (texts : List (List Char)) (idxs : List Nat),
    List.Forall₂ (fun (t : List Char) (i : Nat) =>
        numberText t = true ∧ strconv.ParseInt t 32 = some (i : Int)) texts idxs →
    ∀ t ∈ texts, numberText t = true := by
  intro texts idxs h
  induction h with
  | nil => intro t ht; cases ht
  | cons hd _ ih =>
    intro t ht
    rcases List.mem_cons.mp ht with rfl | ht
    · exact hd.1
    · exact ih t ht

theorem fuel_of_drop (p : pathParser) (t : List Char) (ts : List (List Char))
    (rest : List Char) (h : p.s.drop p.i = unionText (t :: ts) ++ rest) :
    ts.length < p.s.length - p.i + 1 := by
  have h1 : (p.s.drop p.i).length = p.s.length - p.i := List.length_drop _ _
  rw [h, List.length_append] at h1
  have := length_unionText t ts
  omega

/-- The items read by the token loop of `processUnion` after the first item
and its comma, for a union of items of one kind. -/
theorem processUnion_items (firstTyp : pathTokenType) (good : List Char → Prop)
    (hgood : ∀ (p : pathParser) (t post : List Char), good t → p.s.drop p.i = t ++ post →
      (post.head? = some ',' ∨ post.head? = some ']') →
      p.nextToken = .ok ((firstTyp, t, true), { p with i := p.i + t.length }))
    (p : pathParser) (t0 t1 : List Char) (ts : List (List Char)) (post : List Char)
    (hg : ∀ u ∈ t0 :: t1 :: ts, good u)
    (h : p.s.drop p.i = unionText (t0 :: t1 :: ts) ++ ']' :: post) :
    p.nextToken = .ok ((firstTyp, t0, true), ⟨p.s, p.i + t0.length⟩) ∧
    (⟨p.s, p.i + t0.length⟩ : pathParser).nextToken =
      .ok ((.pathComma, [], true), ⟨p.s, p.i + t0.length + 1⟩) ∧
    unionLoop firstTyp (p.s.length - (p.i + t0.length + 1) + 1) ⟨p.s, p.i + t0.length + 1⟩ [t0] =
      .ok (some (t0 :: t1 :: ts),
        ⟨p.s, p.i + ((unionText (t0 :: t1 :: ts)).length + 1)⟩) := by
  rw [unionText_cons] at h
  have h' : p.s.drop p.i = t0 ++ (',' :: (unionText (t1 :: ts) ++ ']' :: post)) := by
    simpa using h
  have ht1 := hgood p t0 _ (hg t0 (List.mem_cons_self _ _)) h' (Or.inl rfl)
  have hd2 := drop_after p t0 _ h'
  have ht2 := nextToken_char _ ',' _ .pathComma hd2 (by simp)
  have hd3 : (⟨p.s, p.i + t0.length + 1⟩ : pathParser).s.drop
      (⟨p.s, p.i + t0.length + 1⟩ : pathParser).i = unionText (t1 :: ts) ++ ']' :: post :=
    drop_succ_of_drop hd2
  have hloop := unionLoop_items firstTyp good hgood ts t1
    (p.s.length - (p.i + t0.length + 1) + 1) ⟨p.s, p.i + t0.length + 1⟩ [t0] post
    (fun w hw => hg w (List.mem_cons_of_mem _ hw)) hd3
    (fuel_of_drop ⟨p.s, p.i + t0.length + 1⟩ t1 ts _ hd3)
  refine ⟨ht1, ht2, ?_⟩
  rw [hloop, unionText_cons]
  simp [Nat.add_assoc, Nat.add_comm, Nat.add_left_comm]

theorem nextToken_number_item (p : pathParser) (t post : List Char)
    (ht : numberText t = true) (h : p.s.drop p.i = t ++ post)
    (hpost : post.head? = some ',' ∨ post.head? = some ']') :
    p.nextToken = .ok ((.pathNumber, t, true), { p with i := p.i + t.length }) := by
  apply nextToken_numberText p t post h ht
  intro d hd
  rcases hpost with hp | hp <;> (rw [hp] at hd; cases hd; decide)

theorem nextToken_string_item (p : pathParser) (t post : List Char)
    (ht : ∃ body, t = quoted body ∧ ∀ c ∈ body, plainChar c = true)
    (h : p.s.drop p.i = t ++ post)
    (_hpost : post.head? = some ',' ∨ post.head? = some ']') :
    p.nextToken = .ok ((.pathString, t, true), { p with i := p.i + t.length }) := by
  obtain ⟨body, rfl, hb⟩ := ht
  have h0 : p.s.drop p.i = '\'' :: (body ++ '\'' :: post) := by
    simpa [quoted] using h
  have := nextToken_string p body post h0 (fun c hc => ((plainChar_iff c).mp (hb c hc)).1)
  rw [this]
  simp [quoted]

/-- A bracket segment with a union of two or more numbers is the index access
by the numbers in the listed order. -/
theorem processLeftBracket_union_numbers (p : pathParser) (objs : Slice)
    (texts : List (List Char)) (idxs : List Nat) (post : List Char)
    (hk : 2 ≤ texts.length)
    (hnum : List.Forall₂ (fun (t : List Char) (i : Nat) =>
        numberText t = true ∧ strconv.ParseInt t 32 = some (i : Int)) texts idxs)
    (h : p.s.drop p.i = unionText texts ++ ']' :: post) :
    ∃ r, p.processLeftBracket objs =
        .ok ((r, true), { p with i := p.i + ((unionText texts).length + 1) }) ∧
      r.toList = objs.toList.flatMap (elemsAt idxs) := by
  obtain ⟨t0, t1, ts, rfl⟩ : ∃ t0 t1 ts, texts = t0 :: t1 :: ts := by
    match texts, hk with
    | t0 :: t1 :: ts, _ => exact ⟨t0, t1, ts, rfl⟩
  obtain ⟨h1, h2, h3⟩ := processUnion_items .pathNumber (fun t => numberText t = true)
    nextToken_number_item p t0 t1 ts post (numberText_of_forall2 _ _ hnum) h
  obtain ⟨r, hr, hl⟩ := descentIndex_nat objs idxs
  refine ⟨r, ?_, hl⟩
  simp only [pathParser.processLeftBracket, h1, h2, pathParser.processUnion, h3,
    parseIndices_nat _ _ hnum, hr]
  rfl

/-- A bracket segment with a union of two or more strings of plain characters
is the field access by the strings in the listed order. -/
theorem processLeftBracket_union_strings (p : pathParser) (objs : Slice)
    (keys : List (List Char)) (post : List Char) (hk : 2 ≤ keys.length)
    (hplain : ∀ k ∈ keys, ∀ c ∈ k, plainChar c = true)
    (h : p.s.drop p.i = unionText (keys.map quoted) ++ ']' :: post) :
    p.processLeftBracket objs =
      .ok (descentIdent objs (keys.map String.mk),
        { p with i := p.i + ((unionText (keys.map quoted)).length + 1) }) := by
  obtain ⟨k0, k1, ks, rfl⟩ : ∃ k0 k1 ks, keys = k0 :: k1 :: ks := by
    match keys, hk with
    | k0 :: k1 :: ks, _ => exact ⟨k0, k1, ks, rfl⟩
  have hg : ∀ u ∈ quoted k0 :: quoted k1 :: ks.map quoted,
      ∃ body, u = quoted body ∧ ∀ c ∈ body, plainChar c = true := by
    intro u hu
    have hu2 : u ∈ (k0 :: k1 :: ks).map quoted := by simpa using hu
    obtain ⟨k, hk2, rfl⟩ := List.mem_map.mp hu2
    exact ⟨k, rfl, hplain k hk2⟩
  obtain ⟨h1, h2, h3⟩ := processUnion_items .pathString _ nextToken_string_item p
    (quoted k0) (quoted k1) (ks.map quoted) post hg (by simpa using h)
  have hn := parseNames_plain (k0 :: k1 :: ks) hplain
  simp only [List.map_cons] at hn ⊢
  simp only [pathParser.processLeftBracket, h1, h2, pathParser.processUnion, h3, hn]
  rfl

/-- C20: union order. A union of two or more numbers (number texts that
`strconv.ParseInt` maps to the indices `idxs`, not negative) selects for each
selected array in order its elements at the indices in the listed order, an
index at or beyond the length left out and a repeated index repeated; a union
of two or more strings of plain characters selects for each selected map in
order its values under the keys in the listed order, absent keys left out.
Values of the other kinds contribute nothing, and `Get` returns these
selections on the paths of the root and one such union. -/
theorem union_order (p1 p2 : pathParser) (objs : Slice) (texts : List (List Char))
    (idxs : List Nat) (keys : List (List Char)) (post1 post2 : List Char)
    (hk1 : 2 ≤ texts.length)
    (hnum : List.Forall₂ (fun (t : List Char) (i : Nat) =>
        numberText t = true ∧ strconv.ParseInt t 32 = some (i : Int)) texts idxs)
    (h1 : p1.s.drop p1.i = unionText texts ++ ']' :: post1)
    (hk2 : 2 ≤ keys.length) (hplain : ∀ k ∈ keys, ∀ c ∈ k, plainChar c = true)
    (h2 : p2.s.drop p2.i = unionText (keys.map quoted) ++ ']' :: post2) :
    (∃ r, p1.processLeftBracket objs =
        .ok ((r, true), { p1 with i := p1.i + ((unionText texts).length + 1) }) ∧
      r.toList = objs.toList.flatMap (elemsAt idxs)) ∧
    (∃ r, p2.processLeftBracket objs =
        .ok ((r, true), { p2 with i := p2.i + ((unionText (keys.map quoted)).length + 1) }) ∧
      r.toList = objs.toList.flatMap (fieldsOf (keys.map String.mk))) ∧
    (∀ value,
      Get (String.mk ('$' :: '[' :: (unionText texts ++ [']']))) value =
        .ok (Slice.of (elemsAt idxs value), true) ∧
      Get (String.mk ('$' :: '[' :: (unionText (keys.map quoted) ++ [']']))) value =
        .ok (Slice.of (fieldsOf (keys.map String.mk) value), true)) ∧
    (∀ xs : List Value, elemsAt idxs (Value.array xs) = idxs.filterMap (fun i => xs.get? i)) ∧
    (∀ v : Value, (∀ xs, v ≠ Value.array xs) → elemsAt idxs v = []) ∧
    (∀ kvs, fieldsOf (keys.map String.mk) (Value.object kvs) =
      (keys.map String.mk).filterMap (lookup kvs)) ∧
    (∀ v : Value, (∀ kvs, v ≠ Value.object kvs) → fieldsOf (keys.map String.mk) v = []) := by
  have hstr : ∀ (q : pathParser) (os : Slice) (post : List Char),
      q.s.drop q.i = unionText (keys.map quoted) ++ ']' :: post →
      ∃ r, q.processLeftBracket os =
          .ok ((r, true), { q with i := q.i + ((unionText (keys.map quoted)).length + 1) }) ∧
        r.toList = os.toList.flatMap (fieldsOf (keys.map String.mk)) := by
    intro q os post hq
    refine ⟨(descentIdent os (keys.map String.mk)).1, ?_, (descentIdent_eq os _).1⟩
    rw [processLeftBracket_union_strings q os keys post hk2 hplain hq]
    rfl
  refine ⟨processLeftBracket_union_numbers p1 objs texts idxs post1 hk1 hnum h1,
    hstr p2 objs post2 h2, ?_, fun _ => rfl, ?_, fun _ => rfl, ?_⟩
  · intro value
    constructor
    · obtain ⟨r, hr, hl⟩ := processLeftBracket_union_numbers
        ⟨'$' :: '[' :: (unionText texts ++ [']']), 2⟩ (Slice.of [value]) texts idxs [] hk1 hnum
        rfl
      have hget := Get_single_bracket (unionText texts ++ [']']) value r _ hr
        (by simp only [List.length_cons, List.length_append, List.length_nil]; omega)
      rw [hget, hl]
      simp [Slice.toList]
    · obtain ⟨r, hr, hl⟩ := hstr ⟨'$' :: '[' :: (unionText (keys.map quoted) ++ [']']), 2⟩
        (Slice.of [value]) [] rfl
      have hget := Get_single_bracket (unionText (keys.map quoted) ++ [']']) value r _ hr
        (by simp only [List.length_cons, List.length_append, List.length_nil]; omega)
      rw [hget, hl]
      simp [Slice.toList]
  · intro v hv
    cases v with
    | array xs => exact absurd rfl (hv xs)
    | _ => rfl
  · intro v hv
    cases v with
    | object kvs => exact absurd rfl (hv kvs)
    | _ => rfl

theorem union_order_witness :
    2 ≤ [['2'], ['0'], ['2']].length ∧
    (⟨['$', '[', '2', ',', '0', ',', '2', ']'], 2⟩ : pathParser).s.drop 2 =
      unionText [['2'], ['0'], ['2']] ++ ']' :: [] ∧
    2 ≤ [['b'], ['a']].length ∧
    (∀ k ∈ [['b'], ['a']], ∀ c ∈ k, plainChar c = true) ∧
    (⟨['$', '[', '\'', 'b', '\'', ',', '\'', 'a', '\'', ']', '.', 'x'], 2⟩
      : pathParser).s.drop 2 = unionText ([['b'], ['a']].map quoted) ++ ']' :: ['.', 'x'] ∧
    (∃ r, (⟨['$', '[', '2', ',', '0', ',', '2', ']'], 2⟩ : pathParser).processLeftBracket
        (Slice.of [Value.array [Value.number 5, Value.number 6, Value.number 7]]) =
        .ok ((r, true), ⟨['$', '[', '2', ',', '0', ',', '2', ']'],
          2 + ((unionText [['2'], ['0'], ['2']]).length + 1)⟩) ∧
      r.toList = (Slice.of [Value.array [Value.number 5, Value.number 6,
        Value.number 7]]).toList.flatMap (elemsAt [2, 0, 2])) :=
  ⟨by decide, rfl, by decide, by decide, rfl,
    (union_order ⟨['$', '[', '2', ',', '0', ',', '2', ']'], 2⟩
      ⟨['$', '[', '\'', 'b', '\'', ',', '\'', 'a', '\'', ']', '.', 'x'], 2⟩
      (Slice.of [Value.array [Value.number 5, Value.number 6, Value.number 7]])
      [['2'], ['0'], ['2']] [2, 0, 2] [['b'], ['a']] [] ['.', 'x'] (by decide)
      (List.Forall₂.cons ⟨by decide, by decide⟩
        (List.Forall₂.cons ⟨by decide, by decide⟩
          (List.Forall₂.cons ⟨by decide, by decide⟩ List.Forall₂.nil)))
      rfl (by decide) (by decide) rfl).1⟩

end jsonpath


namespace jsonpath

theorem parseString_progress (p : pathParser) :
    p.parseString.2.2 = true → 1 ≤ p.parseString.2.1 := by
  simp only [pathParser.parseString]
  split
  · intro _
    simp only []
    omega
  · intro h
    cases h

/-- The tokenizer either faults on reading past the end of the path, or returns
a token and a parser moved forward on the same path, by at least one character
when the token is good. -/
theorem nextToken_progress (p : pathParser) :
    p.nextToken = .error .indexOutOfRange ∨
    ∃ typ val ok n, p.nextToken = .ok ((typ, val, ok), ⟨p.s, p.i + n⟩) ∧
      (ok = true → 1 ≤ n) ∧ p.i < p.s.length := by
  rcases hget : p.s.get? p.i with _ | c
  · left
    unfold pathParser.nextToken
    rw [hget]
  · right
    have hlt : p.i < p.s.length := by
      by_contra hge
      rw [List.get?_eq_none.mpr (by omega)] at hget
      cases hget
    unfold pathParser.nextToken
    rw [hget]
    simp only []
    by_cases h0 : c = '$'
    · rw [if_pos h0]; exact ⟨_, _, true, 1, rfl, fun _ => Nat.le_refl _, hlt⟩
    rw [if_neg h0]
    by_cases h1 : c = '.'
    · rw [if_pos h1]; exact ⟨_, _, true, 1, rfl, fun _ => Nat.le_refl _, hlt⟩
    rw [if_neg h1]
    by_cases h2 : c = '['
    · rw [if_pos h2]; exact ⟨_, _, true, 1, rfl, fun _ => Nat.le_refl _, hlt⟩
    rw [if_neg h2]
    by_cases h3 : c = ']'
    · rw [if_pos h3]; exact ⟨_, _, true, 1, rfl, fun _ => Nat.le_refl _, hlt⟩
    rw [if_neg h3]
    by_cases h4 : c = '*'
    · rw [if_pos h4]; exact ⟨_, _, true, 1, rfl, fun _ => Nat.le_refl _, hlt⟩
    rw [if_neg h4]
    by_cases h5 : c = ','
    · rw [if_pos h5]; exact ⟨_, _, true, 1, rfl, fun _ => Nat.le_refl _, hlt⟩
    rw [if_neg h5]
    by_cases h6 : c = ':'
    · rw [if_pos h6]; exact ⟨_, _, true, 1, rfl, fun _ => Nat.le_refl _, hlt⟩
    rw [if_neg h6]
    by_cases h7 : c = '\''
    · rw [if_pos h7]
      exact ⟨_, _, p.parseString.2.2, p.parseString.2.1, rfl, parseString_progress p, hlt⟩
    rw [if_neg h7]
    by_cases h8 : isIdentStart c = true
    · rw [if_pos h8]
      exact ⟨_, _, true, p.parseIdent.2.1, rfl,
        (fun _ => by simp only [pathParser.parseIdent]; omega), hlt⟩
    rw [if_neg h8]
    by_cases h9 : (c = '-' || isDigit c) = true
    · rw [if_pos h9]
      exact ⟨_, _, true, p.parseNumber.2.1, rfl,
        (fun _ => by simp only [pathParser.parseNumber]; omega), hlt⟩
    rw [if_neg h9]
    exact ⟨.pathRoot, [], false, 0, rfl, (fun h => by cases h), hlt⟩

theorem Forward.ok {α : Type} (p q : pathParser) (res : α) (hs : q.s = p.s) (hi : p.i ≤ q.i) :
    Forward p (.ok (res, q)) := by
  refine ⟨by simp, ?_⟩
  intro res2 q2 h
  simp only [Except.ok.injEq, Prod.mk.injEq] at h
  obtain ⟨_, rfl⟩ := h
  exact ⟨hs, hi⟩

theorem Forward.error {α : Type} (p : pathParser) (e : Fault) (he : e ≠ .fuel) :
    Forward p (.error e : Run (α × pathParser)) := by
  refine ⟨by simpa using he, ?_⟩
  intro res q h
  cases h

theorem Forward.trans {α : Type} (p q : pathParser) (r : Run (α × pathParser))
    (hs : q.s = p.s) (hi : p.i ≤ q.i) (h : Forward q r) : Forward p r := by
  refine ⟨h.1, ?_⟩
  intro res q2 hr
  obtain ⟨h1, h2⟩ := h.2 res q2 hr
  exact ⟨h1.trans hs, Nat.le_trans hi h2⟩

theorem indexLoop_ne_fuel (obj : List Value) : ∀ (l : List Int) (acc : Slice),
    indexLoop obj l acc ≠ .error .fuel := by
  intro l
  induction l with
  | nil => intro acc; simp [indexLoop]
  | cons j l ih =>
    intro acc
    simp only [indexLoop]
    split
    · split
      · simp
      · split
        · exact ih _
        · simp
    · exact ih _

theorem descentIndexLoop_ne_fuel (indices : List Int) : ∀ (l : List Value) (acc : Slice),
    descentIndexLoop indices l acc ≠ .error .fuel := by
  intro l
  induction l with
  | nil => intro acc; simp [descentIndexLoop]
  | cons x l ih =>
    intro acc
    cases x with
    | array obj =>
      simp only [descentIndexLoop]
      split
      · exact ih _
      · rename_i e he
        intro h
        simp only [Except.error.injEq] at h
        subst h
        exact indexLoop_ne_fuel obj indices acc he
    | _ => simp only [descentIndexLoop]; exact ih _

theorem descentIndex_ne_fuel (objs : Slice) (indices : List Int) :
    descentIndex objs indices ≠ .error .fuel := by
  simp only [descentIndex]
  split
  · simp
  · rename_i e he
    intro h
    simp only [Except.error.injEq] at h
    subst h
    exact descentIndexLoop_ne_fuel indices _ _ he

theorem descentRangeLoop_ne_fuel (start end_ : Int) : ∀ (l : List Value) (acc : Slice),
    descentRangeLoop start end_ l acc ≠ .error .fuel := by
  intro l
  induction l with
  | nil => intro acc; simp [descentRangeLoop]
  | cons x l ih =>
    intro acc
    cases x with
    | array arr =>
      simp only [descentRangeLoop]
      split_ifs <;> first | exact ih _ | simp
    | _ => simp only [descentRangeLoop]; exact ih _

theorem descentRange_ne_fuel (objs : Slice) (start end_ : Int) :
    descentRange objs start end_ ≠ .error .fuel :=
  descentRangeLoop_ne_fuel start end_ _ _

end jsonpath


namespace jsonpath

theorem Forward.step {α : Type} (p : pathParser) (n : Nat) (r : Run (α × pathParser))
    (h : Forward ⟨p.s, p.i + n⟩ r) : Forward p r :=
  Forward.trans p ⟨p.s, p.i + n⟩ r rfl (Nat.le_add_right _ _) h

theorem Forward.here {α : Type} (p : pathParser) (res : α) : Forward p (.ok (res, p)) :=
  Forward.ok p p res rfl (Nat.le_refl _)

theorem forward_processSlice (p : pathParser) (objs : Slice) (start : Int) :
    Forward p (p.processSlice objs start) := by
  rcases nextToken_progress p with he | ⟨typ, val, ok, n, ht, _, _⟩
  · simp only [pathParser.processSlice, he]
    exact Forward.error _ _ (by simp)
  · simp only [pathParser.processSlice, ht]
    apply Forward.step p n
    cases ok
    · exact Forward.here _ _
    · cases typ
      case pathNumber =>
        simp only [Bool.not_true, Bool.false_eq_true, if_false]
        rcases nextToken_progress ⟨p.s, p.i + n⟩ with he2 | ⟨typ2, val2, ok2, n2, ht2, _, _⟩
        · simp only [he2]
          exact Forward.error _ _ (by simp)
        · simp only [ht2]
          apply Forward.step ⟨p.s, p.i + n⟩ n2
          split
          · exact Forward.here _ _
          · split
            · exact Forward.here _ _
            · split
              · exact Forward.here _ _
              · rename_i e he
                exact Forward.error _ _ (fun h => descentRange_ne_fuel _ _ _ (h ▸ he))
      case pathRightBracket =>
        simp only [Bool.not_true, Bool.false_eq_true, if_false]
        split
        · exact Forward.here _ _
        · rename_i e he
          exact Forward.error _ _ (fun h => descentRange_ne_fuel _ _ _ (h ▸ he))
      all_goals exact Forward.here _ _

theorem forward_unionLoop (firstTyp : pathTokenType) : ∀ (fuel : Nat) (p : pathParser)
    (items : List (List Char)), p.s.length - p.i < fuel →
    Forward p (unionLoop firstTyp fuel p items) := by
  intro fuel
  induction fuel with
  | zero => intro p items h; omega
  | succ fuel ih =>
    intro p items hf
    rcases nextToken_progress p with he | ⟨typ, val, ok, n, ht, hn, hlt⟩
    · simp only [unionLoop, he]
      exact Forward.error _ _ (by simp)
    · simp only [unionLoop, ht]
      apply Forward.step p n
      split
      · exact Forward.here _ _
      · rename_i hcond
        have hok : ok = true := by
          cases ok
          · simp at hcond
          · rfl
        have hn1 := hn hok
        rcases nextToken_progress ⟨p.s, p.i + n⟩ with he2 | ⟨typ2, val2, ok2, n2, ht2, _, _⟩
        · simp only [he2]
          exact Forward.error _ _ (by simp)
        · simp only [ht2]
          apply Forward.step ⟨p.s, p.i + n⟩ n2
          split
          · exact Forward.here _ _
          · split
            · exact Forward.here _ _
            · split
              · exact Forward.here _ _
              · apply ih
                show p.s.length - (p.i + n + n2) < fuel
                omega

theorem forward_processUnion (p : pathParser) (objs : Slice) (firstTyp : pathTokenType)
    (firstVal : List Char) : Forward p (p.processUnion objs firstTyp firstVal) := by
  have hF := forward_unionLoop firstTyp (p.s.length - p.i + 1) p [firstVal] (by omega)
  simp only [pathParser.processUnion]
  rcases hU : unionLoop firstTyp (p.s.length - p.i + 1) p [firstVal] with e | ⟨_ | items, q⟩
  · rw [hU] at hF
    exact Forward.error _ _ (fun h => hF.1 (by rw [h]))
  · rw [hU] at hF
    obtain ⟨hs, hi⟩ := hF.2 _ _ rfl
    exact Forward.ok _ _ _ hs hi
  · rw [hU] at hF
    obtain ⟨hs, hi⟩ := hF.2 _ _ rfl
    cases firstTyp
    case pathNumber =>
      simp only []
      split
      · exact Forward.ok _ _ _ hs hi
      · split
        · exact Forward.ok _ _ _ hs hi
        · rename_i e he
          exact Forward.error _ _ (fun h => descentIndex_ne_fuel _ _ (h ▸ he))
    case pathString =>
      simp only []
      split
      · exact Forward.ok _ _ _ hs hi
      · exact Forward.ok _ _ _ hs hi
    all_goals exact Forward.error _ _ (by simp)

theorem forward_recursiveDescent (p : pathParser) (objs : Slice) :
    Forward p (p.recursiveDescent objs) := by
  rcases nextToken_progress p with he | ⟨typ, val, ok, n, ht, _, _⟩
  · simp only [pathParser.recursiveDescent, he]
    exact Forward.error _ _ (by simp)
  · simp only [pathParser.recursiveDescent, ht]
    apply Forward.step p n
    split
    · exact Forward.here _ _
    · split
      · exact Forward.here _ _
      · obtain ⟨r, hr, _⟩ := recursiveDescentLoop_levels typ (String.mk val)
          (heightList objs.toList) objs Slice.nil (Nat.le_refl _)
        rw [hr]
        exact Forward.here _ _

theorem forward_processDot (p : pathParser) (objs : Slice) :
    Forward p (p.processDot objs) := by
  rcases nextToken_progress p with he | ⟨typ, val, ok, n, ht, _, _⟩
  · simp only [pathParser.processDot, he]
    exact Forward.error _ _ (by simp)
  · simp only [pathParser.processDot, ht]
    apply Forward.step p n
    cases ok
    · exact Forward.here _ _
    · cases typ
      case pathDot => exact forward_recursiveDescent _ _
      all_goals exact Forward.here _ _

theorem forward_processLeftBracket (p : pathParser) (objs : Slice) :
    Forward p (p.processLeftBracket objs) := by
  rcases nextToken_progress p with he | ⟨typ, val, ok, n, ht, _, _⟩
  · simp only [pathParser.processLeftBracket, he]
    exact Forward.error _ _ (by simp)
  · simp only [pathParser.processLeftBracket, ht]
    apply Forward.step p n
    cases ok
    · exact Forward.here _ _
    · cases typ
      case pathAsterisk =>
        simp only [Bool.not_true, Bool.false_eq_true, if_false]
        rcases nextToken_progress ⟨p.s, p.i + n⟩ with he2 | ⟨typ2, val2, ok2, n2, ht2, _, _⟩
        · simp only [he2]
          exact Forward.error _ _ (by simp)
        · simp only [ht2]
          apply Forward.step ⟨p.s, p.i + n⟩ n2
          split
          · exact Forward.here _ _
          · exact Forward.here _ _
      case pathColon => exact forward_processSlice _ _ _
      case pathNumber =>
        simp only [Bool.not_true, Bool.false_eq_true, if_false]
        rcases nextToken_progress ⟨p.s, p.i + n⟩ with he2 | ⟨typ2, val2, ok2, n2, ht2, _, _⟩
        · simp only [he2]
          exact Forward.error _ _ (by simp)
        · simp only [ht2]
          apply Forward.step ⟨p.s, p.i + n⟩ n2
          cases ok2
          · exact Forward.here _ _
          · cases typ2
            case pathColon =>
              simp only [Bool.not_true, Bool.false_eq_true, if_false]
              split
              · exact Forward.here _ _
              · exact forward_processSlice _ _ _
            case pathComma => exact forward_processUnion _ _ _ _
            case pathRightBracket =>
              simp only [Bool.not_true, Bool.false_eq_true, if_false]
              split
              · exact Forward.here _ _
              · split
                · exact Forward.here _ _
                · rename_i e he
                  exact Forward.error _ _ (fun h => descentIndex_ne_fuel _ _ (h ▸ he))
            all_goals exact Forward.here _ _
      case pathString =>
        simp only [Bool.not_true, Bool.false_eq_true, if_false]
        rcases nextToken_progress ⟨p.s, p.i + n⟩ with he2 | ⟨typ2, val2, ok2, n2, ht2, _, _⟩
        · simp only [he2]
          exact Forward.error _ _ (by simp)
        · simp only [ht2]
          apply Forward.step ⟨p.s, p.i + n⟩ n2
          cases ok2
          · exact Forward.here _ _
          · cases typ2
            case pathComma => exact forward_processUnion _ _ _ _
            case pathRightBracket =>
              simp only [Bool.not_true, Bool.false_eq_true, if_false]
              split
              · exact Forward.here _ _
              · exact Forward.here _ _
            all_goals exact Forward.here _ _
      all_goals exact Forward.here _ _

/-- The loop of `Get` stays within its bound: one turn for every character
left in the path. -/
theorem getLoop_ne_fuel : ∀ (fuel : Nat) (p : pathParser) (objs : Slice),
    p.s.length - p.i ≤ fuel → getLoop fuel p objs ≠ .error .fuel := by
  intro fuel
  induction fuel with
  | zero =>
    intro p objs h
    have hn : ¬ p.i < p.s.length := by omega
    simp [getLoop, hn]
  | succ fuel ih =>
    intro p objs hf
    simp only [getLoop]
    split
    · rename_i hlt
      rcases nextToken_progress p with he | ⟨typ, val, ok, n, ht, hn, _⟩
      · simp [he]
      · simp only [ht]
        cases ok
        · simp
        · have hn1 := hn rfl
          simp only [Bool.not_true, Bool.false_eq_true, if_false]
          have tail : ∀ step : Run ((Slice × Bool) × pathParser),
              Forward ⟨p.s, p.i + n⟩ step →
              (match step with
                | .error e => (.error e : Run (Slice × Bool))
                | .ok ((objs, ok), p) =>
                  if !ok then .ok (Slice.nil, false) else getLoop fuel p objs) ≠
                .error .fuel := by
            intro step hF
            rcases step with e | ⟨⟨objs2, ok2⟩, q⟩
            · intro h
              simp only [Except.error.injEq] at h
              exact hF.1 (by rw [h])
            · obtain ⟨hs, hi⟩ := hF.2 _ _ rfl
              cases ok2
              · simp
              · simp only [Bool.not_true, Bool.false_eq_true, if_false]
                have hs2 : q.s = p.s := hs
                have hi2 : p.i + n ≤ q.i := hi
                apply ih
                rw [hs2]
                omega
          cases typ
          case pathDot => exact tail _ (forward_processDot _ _)
          case pathLeftBracket => exact tail _ (forward_processLeftBracket _ _)
          all_goals simp
    · simp

/-- The embedding of `Get` never stops for want of iterations: the bounds of
its modelled loops are never reached. -/
theorem Get_ne_fuel (path : String) (value : Value) : Get path value ≠ .error .fuel := by
  rcases nextToken_progress ⟨path.data, 0⟩ with he | ⟨typ, val, ok, n, ht, _, _⟩
  · simp [Get, he]
  · simp only [Get, ht]
    split
    · simp
    · split
      · simp
      · have h := getLoop_ne_fuel path.data.length ⟨path.data, 0 + n⟩ (Slice.of [value])
          (by simp only []; omega)
        split
        · rename_i e he
          intro hc
          simp only [Except.error.injEq] at hc
          exact h (by rw [← hc]; exact he)
        · simp
        · simp
        · simp

end jsonpath


namespace jsonpath

/-- C29: the root path selects the value itself. For every value `v`,
`Get "$" v` returns `ok = true` and the one-element list `[v]`. -/
theorem Get_root (v : Value) : Get "$" v = .ok (Slice.of [v], true) := rfl

/-- C30: `Get` is not total on path strings. The tokenizer reads `p.s[p.i]`
without a test of the position, an index-out-of-range panic at the end of the
path. On the empty path, and on a path that ends in the middle of a segment
(`$.`, `$..`, `$[`, `$[1`, `$[1,`, `$[1:`), `Get` stops with that panic, for
every value, instead of returning `nil, false`.
An unfinished string is refused without a fault: `$['a` gives `nil, false`. -/
theorem Get_panics_at_end_of_path (v : Value) :
    (∀ p : pathParser, p.s.length ≤ p.i → p.nextToken = .error Fault.indexOutOfRange) ∧
    Get "" v = .error Fault.indexOutOfRange ∧
    Get "$." v = .error Fault.indexOutOfRange ∧
    Get "$.." v = .error Fault.indexOutOfRange ∧
    Get "$[" v = .error Fault.indexOutOfRange ∧
    Get "$[1" v = .error Fault.indexOutOfRange ∧
    Get "$[1," v = .error Fault.indexOutOfRange ∧
    Get "$[1:" v = .error Fault.indexOutOfRange ∧
    Get "$['a" v = .ok (Slice.nil, false) := by
  refine ⟨?_, rfl, rfl, rfl, rfl, rfl, rfl, rfl, rfl⟩
  intro p hp
  unfold pathParser.nextToken
  rw [List.get?_eq_none.mpr hp]

end jsonpath


namespace jsonpath

/-- The kind of a good token is decided by its first character: a number token
starts with a minus sign or a digit, a string token with a single quote, and
the comma and the right bracket are read from these characters only. -/
theorem nextToken_first (p : pathParser) (d : Char) (rest : List Char)
    (h : p.s.drop p.i = d :: rest) :
    ∃ typ val ok n, p.nextToken = .ok ((typ, val, ok), ⟨p.s, p.i + n⟩) ∧
      (ok = true → typ = .pathNumber → (d = '-' ∨ isDigit d = true)) ∧
      (ok = true → typ = .pathString → d = '\'') ∧
      (ok = true → typ = .pathComma → d = ',') ∧
      (ok = true → typ = .pathRightBracket → d = ']') := by
  unfold pathParser.nextToken
  rw [get?_of_drop h]
  simp only []
  by_cases h0 : d = '$'
  · rw [if_pos h0]; exact ⟨.pathRoot, [], true, 1, rfl, by simp, by simp, by simp, by simp⟩
  rw [if_neg h0]
  by_cases h1 : d = '.'
  · rw [if_pos h1]; exact ⟨.pathDot, [], true, 1, rfl, by simp, by simp, by simp, by simp⟩
  rw [if_neg h1]
  by_cases h2 : d = '['
  · rw [if_pos h2]
    exact ⟨.pathLeftBracket, [], true, 1, rfl, by simp, by simp, by simp, by simp⟩
  rw [if_neg h2]
  by_cases h3 : d = ']'
  · rw [if_pos h3]
    exact ⟨.pathRightBracket, [], true, 1, rfl, by simp, by simp, by simp, by simp [h3]⟩
  rw [if_neg h3]
  by_cases h4 : d = '*'
  · rw [if_pos h4]; exact ⟨.pathAsterisk, [], true, 1, rfl, by simp, by simp, by simp, by simp⟩
  rw [if_neg h4]
  by_cases h5 : d = ','
  · rw [if_pos h5]
    exact ⟨.pathComma, [], true, 1, rfl, by simp, by simp, by simp [h5], by simp⟩
  rw [if_neg h5]
  by_cases h6 : d = ':'
  · rw [if_pos h6]; exact ⟨.pathColon, [], true, 1, rfl, by simp, by simp, by simp, by simp⟩
  rw [if_neg h6]
  by_cases h7 : d = '\''
  · rw [if_pos h7]
    exact ⟨.pathString, p.parseString.1, p.parseString.2.2, p.parseString.2.1, rfl,
      by simp, by simp [h7], by simp, by simp⟩
  rw [if_neg h7]
  by_cases h8 : isIdentStart d = true
  · rw [if_pos h8]
    exact ⟨.pathIdentifier, p.parseIdent.1, p.parseIdent.2.2, p.parseIdent.2.1, rfl,
      by simp, by simp, by simp, by simp⟩
  rw [if_neg h8]
  by_cases h9 : (d = '-' || isDigit d) = true
  · rw [if_pos h9]
    refine ⟨.pathNumber, p.parseNumber.1, p.parseNumber.2.2, p.parseNumber.2.1, rfl,
      ?_, by simp, by simp, by simp⟩
    intro _ _
    simpa using h9
  rw [if_neg h9]
  exact ⟨.pathRoot, [], false, 0, rfl, by simp, by simp, by simp, by simp⟩

theorem unionText_comma (t : List Char) : ∀ ts : List (List Char),
    unionText (t :: ts) ++ [','] = (t :: ts).flatMap (fun u => u ++ [',']) := by
  intro ts
  induction ts generalizing t with
  | nil => simp [unionText_single]
  | cons u us ih =>
    rw [unionText_cons, List.flatMap_cons, ← ih u]
    simp

theorem unionText_append_single (t : List Char) : ∀ ts : List (List Char),
    unionText (ts ++ [t]) = ts.flatMap (fun u => u ++ [',']) ++ t := by
  intro ts
  induction ts with
  | nil => simp [unionText_single]
  | cons u us ih =>
    cases us with
    | nil => simp [unionText_cons, unionText_single]
    | cons v vs =>
      have : u :: v :: vs ++ [t] = u :: v :: (vs ++ [t]) := rfl
      rw [this, unionText_cons, List.flatMap_cons]
      have ih2 : unionText (v :: (vs ++ [t])) =
          (v :: vs).flatMap (fun u => u ++ [',']) ++ t := ih
      rw [ih2]
      simp

theorem length_le_flatMap_comma : ∀ ts : List (List Char),
    ts.length ≤ (ts.flatMap (fun u => u ++ [','])).length := by
  intro ts
  induction ts with
  | nil => simp
  | cons u us ih =>
    simp only [List.flatMap_cons, List.length_append, List.length_cons, List.length_nil]
    omega

/-- The token loop of `processUnion` over items of the kind of the first item,
each followed by a comma: one turn for each, the items collected. -/
theorem unionLoop_prefix (firstTyp : pathTokenType) (good : List Char → Prop)
    (stop : Char → Prop) (hcomma : stop ',')
    (hgood : ∀ (p : pathParser) (t post : List Char), good t → p.s.drop p.i = t ++ post →
      (∀ e, post.head? = some e → stop e) →
      p.nextToken = .ok ((firstTyp, t, true), { p with i := p.i + t.length })) :
    ∀ (ts : List (List Char)) (fuel : Nat) (p : pathParser) (items : List (List Char))
      (rest : List Char),
      (∀ u ∈ ts, good u) → p.s.drop p.i = ts.flatMap (fun u => u ++ [',']) ++ rest →
      unionLoop firstTyp (fuel + ts.length) p items =
        unionLoop firstTyp fuel
          ⟨p.s, p.i + (ts.flatMap (fun u => u ++ [','])).length⟩ (items ++ ts) := by
  intro ts
  induction ts with
  | nil => intro fuel p items rest _ _; simp
  | cons t ts ih =>
    intro fuel p items rest hg h
    have h' : p.s.drop p.i = t ++ (',' :: (ts.flatMap (fun u => u ++ [',']) ++ rest)) := by
      simpa using h
    have ht1 := hgood p t _ (hg t (List.mem_cons_self _ _)) h'
      (fun e he => by
        simp only [List.head?_cons, Option.some.injEq] at he
        subst he
        exact hcomma)
    have hd2 := drop_after p t _ h'
    have ht2 := nextToken_char _ ',' _ .pathComma hd2 (by simp)
    have hd3 : (⟨p.s, p.i + t.length + 1⟩ : pathParser).s.drop
        (⟨p.s, p.i + t.length + 1⟩ : pathParser).i =
        ts.flatMap (fun u => u ++ [',']) ++ rest :=
      drop_succ_of_drop hd2
    have hrec := ih fuel ⟨p.s, p.i + t.length + 1⟩ (items ++ [t]) rest
      (fun w hw => hg w (List.mem_cons_of_mem _ hw)) hd3
    have hfuel : fuel + (t :: ts).length = (fuel + ts.length) + 1 := by
      simp only [List.length_cons]; omega
    rw [hfuel]
    simp only [unionLoop, ht1, ht2]
    simp only [Bool.not_true, Bool.false_eq_true, ne_eq, not_true_eq_false, or_self, if_false,
      reduceCtorEq, not_false_eq_true, if_true]
    rw [hrec]
    simp [Nat.add_assoc, Nat.add_comm, Nat.add_left_comm]

/-- One turn of the token loop of `processUnion` on a token that is not of the
kind of the first item: the union is refused. -/
theorem unionLoop_bad_item (firstTyp : pathTokenType) (fuel : Nat) (p : pathParser)
    (items : List (List Char))
    (hbad : ∃ typ val ok q, p.nextToken = .ok ((typ, val, ok), q) ∧
      (ok = false ∨ typ ≠ firstTyp)) :
    ∃ q, unionLoop firstTyp (fuel + 1) p items = .ok (none, q) := by
  obtain ⟨typ, val, ok, q, ht, hor⟩ := hbad
  refine ⟨q, ?_⟩
  simp only [unionLoop, ht]
  rcases hor with h | h
  · simp [h]
  · simp [h]

/-- One turn of the token loop of `processUnion` on an item followed by a token
that is neither a comma nor the closing bracket: the union is refused. -/
theorem unionLoop_bad_separator (firstTyp : pathTokenType) (fuel : Nat) (p : pathParser)
    (items : List (List Char)) (t : List Char)
    (ht : p.nextToken = .ok ((firstTyp, t, true), ⟨p.s, p.i + t.length⟩))
    (hbad : ∃ typ val ok q, (⟨p.s, p.i + t.length⟩ : pathParser).nextToken =
        .ok ((typ, val, ok), q) ∧
      (ok = false ∨ (typ ≠ .pathRightBracket ∧ typ ≠ .pathComma))) :
    ∃ q, unionLoop firstTyp (fuel + 1) p items = .ok (none, q) := by
  obtain ⟨typ, val, ok, q, ht2, hor⟩ := hbad
  refine ⟨q, ?_⟩
  simp only [unionLoop, ht, ht2]
  rcases hor with h | ⟨h1, h2⟩
  · simp [h]
  · cases ok <;> simp [h1, h2]

/-- A bracket segment whose first item is followed by a comma is a union: when
the token loop of `processUnion` refuses it, the segment fails. -/
theorem processLeftBracket_union_none (K : pathTokenType)
    (hK : K = .pathNumber ∨ K = .pathString) (p : pathParser) (objs : Slice)
    (t0 : List Char) (p1 p2 q : pathParser)
    (ht0 : p.nextToken = .ok ((K, t0, true), p1))
    (hc : p1.nextToken = .ok ((.pathComma, [], true), p2))
    (hloop : unionLoop K (p2.s.length - p2.i + 1) p2 [t0] = .ok (none, q)) :
    p.processLeftBracket objs = .ok ((Slice.nil, false), q) := by
  rcases hK with rfl | rfl
  · simp only [pathParser.processLeftBracket, ht0, hc, pathParser.processUnion, hloop]
    rfl
  · simp only [pathParser.processLeftBracket, ht0, hc, pathParser.processUnion, hloop]
    rfl

theorem fuel_split (p : pathParser) (ts : List (List Char)) (rest : List Char)
    (h : p.s.drop p.i = ts.flatMap (fun u => u ++ [',']) ++ rest) :
    p.s.length - p.i + 1 =
      ((ts.flatMap (fun u => u ++ [','])).length - ts.length + rest.length + 1) + ts.length := by
  have h1 : (p.s.drop p.i).length = p.s.length - p.i := List.length_drop _ _
  rw [h, List.length_append] at h1
  have := length_le_flatMap_comma ts
  omega

/-- A union in which, after a comma, a token follows that is not of the kind of
the first item is refused. -/
theorem union_item_refused (K : pathTokenType) (hK : K = .pathNumber ∨ K = .pathString)
    (good : List Char → Prop) (stop : Char → Prop) (hcomma : stop ',')
    (hgood : ∀ (p : pathParser) (t post : List Char), good t → p.s.drop p.i = t ++ post →
      (∀ e, post.head? = some e → stop e) →
      p.nextToken = .ok ((K, t, true), { p with i := p.i + t.length }))
    (p : pathParser) (objs : Slice) (t0 : List Char) (ts : List (List Char))
    (d : Char) (rest : List Char) (hg : ∀ u ∈ t0 :: ts, good u)
    (h : p.s.drop p.i = (t0 :: ts).flatMap (fun u => u ++ [',']) ++ d :: rest)
    (hbad : ∀ q : pathParser, q.s.drop q.i = d :: rest →
      ∃ typ val ok q2, q.nextToken = .ok ((typ, val, ok), q2) ∧ (ok = false ∨ typ ≠ K)) :
    ∃ q, p.processLeftBracket objs = .ok ((Slice.nil, false), q) := by
  have h' : p.s.drop p.i =
      t0 ++ (',' :: (ts.flatMap (fun u => u ++ [',']) ++ d :: rest)) := by
    simpa using h
  have ht0 := hgood p t0 _ (hg t0 (List.mem_cons_self _ _)) h'
    (fun e he => by
      simp only [List.head?_cons, Option.some.injEq] at he
      subst he
      exact hcomma)
  have hd1 := drop_after p t0 _ h'
  have hc := nextToken_char _ ',' _ .pathComma hd1 (by simp)
  have hd2 : (⟨p.s, p.i + t0.length + 1⟩ : pathParser).s.drop
      (⟨p.s, p.i + t0.length + 1⟩ : pathParser).i =
      ts.flatMap (fun u => u ++ [',']) ++ d :: rest :=
    drop_succ_of_drop hd1
  have hpre := unionLoop_prefix K good stop hcomma hgood ts
    ((ts.flatMap (fun u => u ++ [','])).length - ts.length + (d :: rest).length + 1)
    ⟨p.s, p.i + t0.length + 1⟩ [t0] (d :: rest)
    (fun w hw => hg w (List.mem_cons_of_mem _ hw)) hd2
  have hd3 := drop_after ⟨p.s, p.i + t0.length + 1⟩ _ _ hd2
  obtain ⟨q, hq⟩ := unionLoop_bad_item K
    ((ts.flatMap (fun u => u ++ [','])).length - ts.length + (d :: rest).length)
    _ ([t0] ++ ts) (hbad _ hd3)
  refine ⟨q, processLeftBracket_union_none K hK p objs t0 _ _ q ht0 hc ?_⟩
  rw [fuel_split ⟨p.s, p.i + t0.length + 1⟩ ts (d :: rest) hd2, hpre]
  exact hq

/-- A union in which an item is followed by a token that is neither a comma nor
the closing bracket is refused. -/
theorem union_separator_refused (K : pathTokenType)
    (hK : K = .pathNumber ∨ K = .pathString)
    (good : List Char → Prop) (stop : Char → Prop) (hcomma : stop ',')
    (hgood : ∀ (p : pathParser) (t post : List Char), good t → p.s.drop p.i = t ++ post →
      (∀ e, post.head? = some e → stop e) →
      p.nextToken = .ok ((K, t, true), { p with i := p.i + t.length }))
    (p : pathParser) (objs : Slice) (t0 : List Char) (mid : List (List Char))
    (tl : List Char) (e : Char) (rest : List Char)
    (hg : ∀ u ∈ t0 :: (mid ++ [tl]), good u) (hstop : stop e)
    (h : p.s.drop p.i = (t0 :: mid).flatMap (fun u => u ++ [',']) ++ (tl ++ e :: rest))
    (hbad : ∀ q : pathParser, q.s.drop q.i = e :: rest →
      ∃ typ val ok q2, q.nextToken = .ok ((typ, val, ok), q2) ∧
        (ok = false ∨ (typ ≠ .pathRightBracket ∧ typ ≠ .pathComma))) :
    ∃ q, p.processLeftBracket objs = .ok ((Slice.nil, false), q) := by
  have h' : p.s.drop p.i =
      t0 ++ (',' :: (mid.flatMap (fun u => u ++ [',']) ++ (tl ++ e :: rest))) := by
    simpa using h
  have ht0 := hgood p t0 _ (hg t0 (List.mem_cons_self _ _)) h'
    (fun e he => by
      simp only [List.head?_cons, Option.some.injEq] at he
      subst he
      exact hcomma)
  have hd1 := drop_after p t0 _ h'
  have hc := nextToken_char _ ',' _ .pathComma hd1 (by simp)
  have hd2 : (⟨p.s, p.i + t0.length + 1⟩ : pathParser).s.drop
      (⟨p.s, p.i + t0.length + 1⟩ : pathParser).i =
      mid.flatMap (fun u => u ++ [',']) ++ (tl ++ e :: rest) :=
    drop_succ_of_drop hd1
  have hpre := unionLoop_prefix K good stop hcomma hgood mid
    ((mid.flatMap (fun u => u ++ [','])).length - mid.length + (tl ++ e :: rest).length + 1)
    ⟨p.s, p.i + t0.length + 1⟩ [t0] (tl ++ e :: rest)
    (fun w hw => hg w (List.mem_cons_of_mem _ (List.mem_append_left _ hw))) hd2
  have hd3 := drop_after ⟨p.s, p.i + t0.length + 1⟩ _ _ hd2
  have htl := hgood _ tl (e :: rest) (hg tl (by simp)) hd3
    (fun c hc => by
      simp only [List.head?_cons, Option.some.injEq] at hc
      subst hc
      exact hstop)
  have hd4 := drop_after _ tl (e :: rest) hd3
  obtain ⟨q, hq⟩ := unionLoop_bad_separator K
    ((mid.flatMap (fun u => u ++ [','])).length - mid.length + (tl ++ e :: rest).length)
    _ ([t0] ++ mid) tl htl (hbad _ hd4)
  refine ⟨q, processLeftBracket_union_none K hK p objs t0 _ _ q ht0 hc ?_⟩
  rw [fuel_split ⟨p.s, p.i + t0.length + 1⟩ mid (tl ++ e :: rest) hd2, hpre]
  exact hq

theorem nextToken_string_text (p : pathParser) (t post : List Char)
    (ht : ∃ body, t = quoted body ∧ ∀ c ∈ body, plainChar c = true)
    (h : p.s.drop p.i = t ++ post) (_hpost : ∀ e, post.head? = some e → True) :
    p.nextToken = .ok ((.pathString, t, true), { p with i := p.i + t.length }) := by
  obtain ⟨body, rfl, hb⟩ := ht
  have h0 : p.s.drop p.i = '\'' :: (body ++ '\'' :: post) := by
    simpa [quoted] using h
  have := nextToken_string p body post h0 (fun c hc => ((plainChar_iff c).mp (hb c hc)).1)
  rw [this]
  simp [quoted]

theorem nextToken_number_text (p : pathParser) (t post : List Char)
    (ht : numberText t = true) (h : p.s.drop p.i = t ++ post)
    (hpost : ∀ e, post.head? = some e → isDigit e = false) :
    p.nextToken = .ok ((.pathNumber, t, true), { p with i := p.i + t.length }) :=
  nextToken_numberText p t post h ht hpost

theorem not_number_token (d : Char) (rest : List Char) (h1 : d ≠ '-')
    (h2 : isDigit d = false) (q : pathParser) (hq : q.s.drop q.i = d :: rest) :
    ∃ typ val ok q2, q.nextToken = .ok ((typ, val, ok), q2) ∧
      (ok = false ∨ typ ≠ .pathNumber) := by
  obtain ⟨typ, val, ok, n, ht, hn, _, _, _⟩ := nextToken_first q d rest hq
  refine ⟨typ, val, ok, _, ht, ?_⟩
  cases ok
  · exact Or.inl rfl
  · right
    intro htyp
    rcases hn rfl htyp with h | h
    · exact h1 h
    · rw [h2] at h; cases h

theorem not_string_token (d : Char) (rest : List Char) (h1 : d ≠ '\'')
    (q : pathParser) (hq : q.s.drop q.i = d :: rest) :
    ∃ typ val ok q2, q.nextToken = .ok ((typ, val, ok), q2) ∧
      (ok = false ∨ typ ≠ .pathString) := by
  obtain ⟨typ, val, ok, n, ht, _, hs, _, _⟩ := nextToken_first q d rest hq
  refine ⟨typ, val, ok, _, ht, ?_⟩
  cases ok
  · exact Or.inl rfl
  · exact Or.inr (fun htyp => h1 (hs rfl htyp))

theorem not_separator_token (e : Char) (rest : List Char) (h1 : e ≠ ',') (h2 : e ≠ ']')
    (q : pathParser) (hq : q.s.drop q.i = e :: rest) :
    ∃ typ val ok q2, q.nextToken = .ok ((typ, val, ok), q2) ∧
      (ok = false ∨ (typ ≠ .pathRightBracket ∧ typ ≠ .pathComma)) := by
  obtain ⟨typ, val, ok, n, ht, _, _, hc, hr⟩ := nextToken_first q e rest hq
  refine ⟨typ, val, ok, _, ht, ?_⟩
  cases ok
  · exact Or.inl rfl
  · exact Or.inr ⟨fun htyp => h2 (hr rfl htyp), fun htyp => h1 (hc rfl htyp)⟩

theorem flatMap_comma_of_unionText (l : List (List Char)) (hl : l ≠ []) (x : List Char) :
    unionText l ++ ',' :: x = l.flatMap (fun u => u ++ [',']) ++ x := by
  cases l with
  | nil => exact absurd rfl hl
  | cons t ts =>
    rw [← unionText_comma t ts]
    simp

theorem split_last (l : List (List Char)) (hl : 2 ≤ l.length) :
    ∃ t0 mid tl, l = t0 :: (mid ++ [tl]) := by
  match l, hl with
  | t0 :: t1 :: ts, _ =>
    refine ⟨t0, (t1 :: ts).dropLast, (t1 :: ts).getLast (by simp), ?_⟩
    rw [List.dropLast_append_getLast]

theorem unionText_split (t0 : List Char) (mid : List (List Char)) (tl x : List Char) :
    unionText (t0 :: (mid ++ [tl])) ++ x =
      (t0 :: mid).flatMap (fun u => u ++ [',']) ++ (tl ++ x) := by
  have h : t0 :: (mid ++ [tl]) = (t0 :: mid) ++ [tl] := rfl
  rw [h, unionText_append_single]
  simp

/-- C21: a union must hold tokens of a single kind, separated by commas and
closed by a bracket. For every value, `Get` (and the loop of `Get` at any
position of a path) returns false on a bracket segment that starts with number
items and, after a comma, goes on with a character that does not start a
number; on one that starts with string items and, after a comma, goes on with
a character that does not start a string; and on one whose two or more items of
one kind are followed by a character that is neither a comma nor the closing
bracket. -/
theorem Get_rejects_bad_unions (value : Value) (nums keys : List (List Char))
    (hnums : nums ≠ [] ∧ ∀ t ∈ nums, numberText t = true)
    (hkeys : keys ≠ [] ∧ ∀ k ∈ keys, ∀ c ∈ k, plainChar c = true) :
    (∀ d rest, d ≠ '-' → isDigit d = false →
      (∀ fuel p objs, p.s.drop p.i = '[' :: (unionText nums ++ ',' :: d :: rest) →
        getLoop (fuel + 1) p objs = .ok (Slice.nil, false)) ∧
      Get (String.mk ('$' :: '[' :: (unionText nums ++ ',' :: d :: rest))) value =
        .ok (Slice.nil, false)) ∧
    (∀ d rest, d ≠ '\'' →
      (∀ fuel p objs,
        p.s.drop p.i = '[' :: (unionText (keys.map quoted) ++ ',' :: d :: rest) →
        getLoop (fuel + 1) p objs = .ok (Slice.nil, false)) ∧
      Get (String.mk ('$' :: '[' :: (unionText (keys.map quoted) ++ ',' :: d :: rest))) value =
        .ok (Slice.nil, false)) ∧
    (∀ e rest, 2 ≤ nums.length → e ≠ ',' → e ≠ ']' → isDigit e = false →
      (∀ fuel p objs, p.s.drop p.i = '[' :: (unionText nums ++ e :: rest) →
        getLoop (fuel + 1) p objs = .ok (Slice.nil, false)) ∧
      Get (String.mk ('$' :: '[' :: (unionText nums ++ e :: rest))) value =
        .ok (Slice.nil, false)) ∧
    (∀ e rest, 2 ≤ keys.length → e ≠ ',' → e ≠ ']' →
      (∀ fuel p objs, p.s.drop p.i = '[' :: (unionText (keys.map quoted) ++ e :: rest) →
        getLoop (fuel + 1) p objs = .ok (Slice.nil, false)) ∧
      Get (String.mk ('$' :: '[' :: (unionText (keys.map quoted) ++ e :: rest))) value =
        .ok (Slice.nil, false)) := by
  obtain ⟨hn0, hnum⟩ := hnums
  obtain ⟨hk0, hplain⟩ := hkeys
  have hq0 : keys.map quoted ≠ [] := by simpa using hk0
  have hstr : ∀ u ∈ keys.map quoted, ∃ body, u = quoted body ∧ ∀ c ∈ body, plainChar c = true := by
    intro u hu
    obtain ⟨k, hk, rfl⟩ := List.mem_map.mp hu
    exact ⟨k, rfl, hplain k hk⟩
  -- from a failing segment to the loop of `Get` and to `Get`
  have lift : ∀ text : List Char,
      (∀ (p : pathParser) (objs : Slice), p.s.drop p.i = text →
        ∃ q, p.processLeftBracket objs = .ok ((Slice.nil, false), q)) →
      (∀ fuel p objs, p.s.drop p.i = '[' :: text →
        getLoop (fuel + 1) p objs = .ok (Slice.nil, false)) ∧
      Get (String.mk ('$' :: '[' :: text)) value = .ok (Slice.nil, false) := by
    intro text hseg
    refine ⟨?_, Get_bracket_false text value (hseg ⟨_, 2⟩ _ rfl)⟩
    intro fuel p objs hp
    obtain ⟨q, hq⟩ := hseg ⟨p.s, p.i + 1⟩ objs (drop_succ_of_drop hp)
    exact getLoop_bracket_false fuel p objs _ q text hp hq
  refine ⟨?_, ?_, ?_, ?_⟩
  · intro d rest h1 h2
    apply lift
    intro p objs hp
    obtain ⟨t0, ts, rfl⟩ : ∃ t0 ts, nums = t0 :: ts := by
      cases nums with
      | nil => exact absurd rfl hn0
      | cons t0 ts => exact ⟨t0, ts, rfl⟩
    rw [flatMap_comma_of_unionText _ hn0] at hp
    exact union_item_refused .pathNumber (Or.inl rfl) (fun t => numberText t = true)
      (fun e => isDigit e = false) (by decide) nextToken_number_text p objs t0 ts d rest
      hnum hp (not_number_token d rest h1 h2)
  · intro d rest h1
    apply lift
    intro p objs hp
    obtain ⟨t0, ts, hts⟩ : ∃ t0 ts, keys.map quoted = t0 :: ts := by
      cases hm : keys.map quoted with
      | nil => exact absurd hm hq0
      | cons t0 ts => exact ⟨t0, ts, rfl⟩
    rw [flatMap_comma_of_unionText _ hq0, hts] at hp
    rw [hts] at hstr
    exact union_item_refused .pathString (Or.inr rfl) _ (fun _ => True) trivial
      nextToken_string_text p objs t0 ts d rest hstr hp (not_string_token d rest h1)
  · intro e rest h2 h3 h4 h5
    apply lift
    intro p objs hp
    obtain ⟨t0, mid, tl, rfl⟩ := split_last nums h2
    rw [unionText_split] at hp
    exact union_separator_refused .pathNumber (Or.inl rfl) (fun t => numberText t = true)
      (fun e => isDigit e = false) (by decide) nextToken_number_text p objs t0 mid tl e rest
      hnum h5 hp (not_separator_token e rest h3 h4)
  · intro e rest h2 h3 h4
    apply lift
    intro p objs hp
    obtain ⟨t0, mid, tl, hts⟩ := split_last (keys.map quoted) (by simpa using h2)
    rw [hts, unionText_split] at hp
    rw [hts] at hstr
    exact union_separator_refused .pathString (Or.inr rfl) _ (fun _ => True) trivial
      nextToken_string_text p objs t0 mid tl e rest hstr trivial hp
      (not_separator_token e rest h3 h4)

theorem Get_rejects_bad_unions_witness :
    ([['1'], ['1']] ≠ [] ∧ ∀ t ∈ [['1'], ['1']], numberText t = true) ∧
    ([['a']] ≠ [] ∧ ∀ k ∈ [['a']], ∀ c ∈ k, plainChar c = true) ∧
    Get "$[1,1,'a']" (Value.object []) = .ok (Slice.nil, false) ∧
    Get "$[1,1[]]" (Value.object []) = .ok (Slice.nil, false) :=
  ⟨⟨by decide, by decide⟩, ⟨by decide, by decide⟩,
    ((Get_rejects_bad_unions (Value.object []) [['1'], ['1']] [['a']]
      ⟨by decide, by decide⟩ ⟨by decide, by decide⟩).1 '\'' ['a', '\'', ']']
      (by decide) (by decide)).2,
    ((Get_rejects_bad_unions (Value.object []) [['1'], ['1']] [['a']]
      ⟨by decide, by decide⟩ ⟨by decide, by decide⟩).2.2.1 '[' [']', ']']
      (by decide) (by decide) (by decide) (by decide)).2⟩

end jsonpath


/-! ## The transaction attribute -/

namespace transaction

open io

/-- C22: no transaction-attribute usage is recognised. For every attribute
(every usage byte, every data) and every writer, `EncodeBinary` leaves the
writer with the error of an unknown usage, so encoding an attribute never
succeeds; on a writer without an error it has written the usage byte before,
and nothing else; on a writer that already carried an error it writes
nothing. -/
theorem EncodeBinary_never_succeeds (attr : Attribute) (bw : BinWriter) :
    (attr.EncodeBinary bw).Err = some (Error.attributeUsage attr.Usage) ∧
    (bw.Err = none → (attr.EncodeBinary bw).buf = bw.buf ++ [attr.Usage]) ∧
    (bw.Err ≠ none → (attr.EncodeBinary bw).buf = bw.buf) := by
  refine ⟨rfl, ?_, ?_⟩
  · intro h
    simp [Attribute.EncodeBinary, BinWriter.WriteB, h]
  · intro h
    have hs : bw.Err.isSome = true := by
      cases he : bw.Err with
      | none => exact absurd he h
      | some e => rfl
    simp [Attribute.EncodeBinary, BinWriter.WriteB, hs]

/-- C26: the attribute field is kept but carries no interpretation on decode.
On a reader without an error and with at least one byte left, `DecodeBinary`
sets `Usage` to the first byte, whatever its value, sets `Data` to a byte
sequence of length zero, consumes exactly that one byte and sets no error. -/
theorem DecodeBinary_reads_usage_only (attr : Attribute) (br : BinReader) (b : Byte)
    (rest : List Byte) (herr : br.Err = none) (hbuf : br.buf = b :: rest) :
    attr.DecodeBinary br = ({ Usage := b, Data := [] }, { buf := rest, Err := none }) := by
  obtain ⟨buf, err⟩ := br
  simp only at herr hbuf
  subst herr hbuf
  simp [Attribute.DecodeBinary, BinReader.ReadB, BinReader.ReadBytes, readBytes]

theorem DecodeBinary_reads_usage_only_witness :
    (⟨[255, 8], none⟩ : BinReader).Err = none ∧
    (⟨[255, 8], none⟩ : BinReader).buf = 255 :: [8] ∧
    Attribute.DecodeBinary ⟨3, [1, 2]⟩ ⟨[255, 8], none⟩ =
      ({ Usage := 255, Data := [] }, { buf := [8], Err := none }) :=
  ⟨rfl, rfl, DecodeBinary_reads_usage_only ⟨3, [1, 2]⟩ ⟨[255, 8], none⟩ 255 [8] rfl rfl⟩

end transaction


namespace base64

theorem dec_enc : ∀ n, n < 64 → dec (enc n) = some n := by decide

theorem enc_ne_pad : ∀ n, n < 64 → enc n ≠ '=' := by decide

theorem enc_no_break : ∀ n, n < 64 → (enc n != '\n' && enc n != '\r') = true := by decide

theorem byteOf_val (a : Byte) (n : Nat) (h : n = a.val) : byteOf n = a := by
  subst h
  apply Fin.ext
  simp only [byteOf]
  exact Nat.mod_eq_of_lt a.isLt

theorem filter_keep (c : Char) (l : List Char) (h : (c != '\n' && c != '\r') = true) :
    (c :: l).filter (fun c => c != '\n' && c != '\r') =
      c :: l.filter (fun c => c != '\n' && c != '\r') := by
  simp only [List.filter_cons, h, if_true]

/-- The text of an encoding holds no line break. -/
theorem EncodeToString_no_break : ∀ bs : List Byte,
    (EncodeToString bs).filter (fun c => c != '\n' && c != '\r') = EncodeToString bs := by
  intro bs
  induction bs using EncodeToString.induct with
  | case1 => rfl
  | case2 a =>
    have ha := a.isLt
    simp only [EncodeToString]
    rw [filter_keep _ _ (enc_no_break _ (by omega)),
      filter_keep _ _ (enc_no_break _ (by omega))]
    rfl
  | case3 a b =>
    have ha := a.isLt
    have hb := b.isLt
    simp only [EncodeToString]
    rw [filter_keep _ _ (enc_no_break _ (by omega)),
      filter_keep _ _ (enc_no_break _ (by omega)),
      filter_keep _ _ (enc_no_break _ (by omega))]
    rfl
  | case4 a b c rest ih =>
    have ha := a.isLt
    have hb := b.isLt
    have hc := c.isLt
    simp only [EncodeToString]
    rw [filter_keep _ _ (enc_no_break _ (by omega)),
      filter_keep _ _ (enc_no_break _ (by omega)),
      filter_keep _ _ (enc_no_break _ (by omega)),
      filter_keep _ _ (enc_no_break _ (by omega)), ih]

theorem decodeQuanta_pad2 (a b : Char) (x y : Nat) (ha : dec a = some x) (hb : dec b = some y) :
    decodeQuanta [a, b, '=', '='] = .ok [byteOf (x * 4 + y / 16)] := by
  simp [decodeQuanta, ha, hb]

theorem decodeQuanta_pad1 (a b c : Char) (x y z : Nat) (ha : dec a = some x)
    (hb : dec b = some y) (hc : dec c = some z) (hne : c ≠ '=') :
    decodeQuanta [a, b, c, '='] =
      .ok [byteOf (x * 4 + y / 16), byteOf (y % 16 * 16 + z / 4)] := by
  simp [decodeQuanta, ha, hb, hc, hne]

theorem decodeQuanta_full (a b c d : Char) (rest : List Char) (x y z w : Nat)
    (bs : List Byte) (ha : dec a = some x) (hb : dec b = some y) (hc : dec c = some z)
    (hd : dec d = some w) (hne : c ≠ '=') (hne2 : d ≠ '=')
    (hrest : decodeQuanta rest = .ok bs) :
    decodeQuanta (a :: b :: c :: d :: rest) =
      .ok (byteOf (x * 4 + y / 16) :: byteOf (y % 16 * 16 + z / 4) ::
        byteOf (z % 4 * 64 + w) :: bs) := by
  simp [decodeQuanta, ha, hb, hc, hd, hne, hne2, hrest]

/-- Decoding undoes encoding, on the groups of four characters. -/
theorem decodeQuanta_EncodeToString : ∀ bs : List Byte,
    decodeQuanta (EncodeToString bs) = .ok bs := by
  intro bs
  induction bs using EncodeToString.induct with
  | case1 => rfl
  | case2 a =>
    have ha := a.isLt
    simp only [EncodeToString]
    rw [decodeQuanta_pad2 _ _ _ _ (dec_enc _ (by omega)) (dec_enc _ (by omega)),
      byteOf_val a _ (by omega)]
  | case3 a b =>
    have ha := a.isLt
    have hb := b.isLt
    simp only [EncodeToString]
    rw [decodeQuanta_pad1 _ _ _ _ _ _ (dec_enc _ (by omega)) (dec_enc _ (by omega))
      (dec_enc _ (by omega)) (enc_ne_pad _ (by omega)),
      byteOf_val a _ (by omega), byteOf_val b _ (by omega)]
  | case4 a b c rest ih =>
    have ha := a.isLt
    have hb := b.isLt
    have hc := c.isLt
    simp only [EncodeToString]
    rw [decodeQuanta_full _ _ _ _ _ _ _ _ _ _ (dec_enc _ (by omega)) (dec_enc _ (by omega))
      (dec_enc _ (by omega)) (dec_enc _ (by omega)) (enc_ne_pad _ (by omega))
      (enc_ne_pad _ (by omega)) ih,
      byteOf_val a _ (by omega), byteOf_val b _ (by omega), byteOf_val c _ (by omega)]

/-- Base64 decoding undoes base64 encoding. -/
theorem DecodeString_EncodeToString (bs : List Byte) :
    DecodeString (EncodeToString bs) = .ok bs := by
  simp only [DecodeString, EncodeToString_no_break, decodeQuanta_EncodeToString]

end base64


namespace json

theorem plainJSON_iff (c : Char) :
    plainJSON c = true ↔ 0x20 ≤ c.toNat ∧ c.toNat < 0x7f ∧ c ≠ '"' ∧ c ≠ '\\' ∧
      c ≠ '<' ∧ c ≠ '>' ∧ c ≠ '&' := by
  simp [plainJSON, and_assoc]

theorem escapeChar_plain (c : Char) (h : plainJSON c = true) : escapeChar c = [c] := by
  obtain ⟨h1, h2, h3, h4, h5, h6, h7⟩ := (plainJSON_iff c).mp h
  have e1 : c ≠ '\n' := by rintro rfl; revert h1; decide
  have e2 : c ≠ '\r' := by rintro rfl; revert h1; decide
  have e3 : c ≠ '\t' := by rintro rfl; revert h1; decide
  have e4 : ¬ (c.toNat < 0x20 ∨ c = '<' ∨ c = '>' ∨ c = '&') := by
    rintro (h | h | h | h)
    · omega
    · exact h5 h
    · exact h6 h
    · exact h7 h
  have e5 : ¬ c.toNat = 0x2028 := by omega
  have e6 : ¬ c.toNat = 0x2029 := by omega
  unfold escapeChar
  rw [if_neg h3, if_neg h4, if_neg e1, if_neg e2, if_neg e3, if_neg e4, if_neg e5, if_neg e6]

theorem flatMap_escapeChar_plain : ∀ s : List Char, (∀ c ∈ s, plainJSON c = true) →
    s.flatMap escapeChar = s := by
  intro s
  induction s with
  | nil => intro _; rfl
  | cons c s ih =>
    intro h
    rw [List.flatMap_cons, escapeChar_plain c (h c (List.mem_cons_self _ _)),
      ih (fun d hd => h d (List.mem_cons_of_mem _ hd))]
    rfl

theorem scanBody_quote (rest : List Char) : scanBody ('"' :: rest) = some ([], rest) := by
  rcases rest with _ | ⟨e, _ | ⟨a, _ | ⟨b, _ | ⟨c2, _ | ⟨d, tail⟩⟩⟩⟩⟩ <;> rfl

/-- A string body of characters that need no escaping, up to its closing quote. -/
theorem scanBody_plainJSON : ∀ (body rest : List Char), (∀ c ∈ body, plainJSON c = true) →
    scanBody (body ++ '"' :: rest) = some (body.map StrUnit.ch, rest) := by
  intro body
  induction body with
  | nil => intro rest _; exact scanBody_quote rest
  | cons c cs ih =>
    intro rest h
    obtain ⟨h1, _, h3, h4, _, _, _⟩ := (plainJSON_iff c).mp (h c (List.mem_cons_self _ _))
    have hlt : ¬ c.toNat < 0x20 := by omega
    have ih2 := ih rest (fun d hd => h d (List.mem_cons_of_mem _ hd))
    simp only [List.cons_append, List.map_cons]
    rw [jsonpath.scanBody_plain_step c _ h3 hlt h4, ih2]

theorem afterBeginning_append (pre s : List Char) : afterBeginning pre (pre ++ s) = some s := by
  have h : pre.isPrefixOf (pre ++ s) = true :=
    List.isPrefixOf_iff_prefix.mpr (List.prefix_append pre s)
  simp [afterBeginning, h]

/-- The codec `textCodec` reads back what it writes when the strings need no
escaping. -/
theorem textCodec_RoundTrips : textCodec.RoundTrips := by
  intro v hv
  refine ⟨marshalAttr v, rfl, ?_⟩
  have hu : ∀ c ∈ v.Usage, plainJSON c = true :=
    fun c hc => hv c (List.mem_append_left _ hc)
  have hd : ∀ c ∈ v.Data, plainJSON c = true :=
    fun c hc => hv c (List.mem_append_right _ hc)
  have hm : marshalAttr v = "\x7b\"usage\":\"".data ++
      (v.Usage ++ '"' :: (",\"data\":\"".data ++ (v.Data ++ '"' :: ['\x7d']))) := by
    simp only [marshalAttr, quote, flatMap_escapeChar_plain _ hu, flatMap_escapeChar_plain _ hd]
    simp
  show unmarshalAttr (marshalAttr v) = .ok v
  rw [hm]
  unfold unmarshalAttr
  rw [afterBeginning_append]
  simp only []
  rw [scanBody_plainJSON _ _ hu]
  simp only []
  rw [afterBeginning_append]
  simp only []
  rw [scanBody_plainJSON _ _ hd]
  simp only [jsonpath.combine_plain, if_true]

end json


namespace base64

/-- A text without line breaks that decodes consists of groups of four
characters, each of the alphabet or the padding character. -/
theorem decodeQuanta_shape : ∀ (l : List Char) (bs : List Byte), decodeQuanta l = .ok bs →
    l.length % 4 = 0 ∧ ∀ c ∈ l, (dec c).isSome = true ∨ c = '=' := by
  intro l
  induction l using decodeQuanta.induct with
  | case1 => intro bs _; simp
  | case2 a b d rest x y hb ha hcond =>
    intro bs _
    obtain ⟨rfl, rfl⟩ := hcond
    refine ⟨by simp, ?_⟩
    intro c hc
    simp only [List.mem_cons, List.mem_singleton, List.not_mem_nil, or_false] at hc
    rcases hc with rfl | rfl | rfl | rfl
    · simp [ha]
    · simp [hb]
    · exact Or.inr rfl
    · exact Or.inr rfl
  | case3 a b d rest x y hb ha hcond =>
    intro bs h
    simp [decodeQuanta, ha, hb, hcond] at h
  | case4 a b c d rest x y hb ha hc hdc =>
    intro bs h
    simp [decodeQuanta, ha, hb, hc, hdc] at h
  | case5 a b c x y hb ha hc w hw =>
    intro bs _
    refine ⟨by simp, ?_⟩
    intro e he
    simp only [List.mem_cons, List.mem_singleton, List.not_mem_nil, or_false] at he
    rcases he with rfl | rfl | rfl | rfl
    · simp [ha]
    · simp [hb]
    · simp [hw]
    · exact Or.inr rfl
  | case6 a b c rest x y hb ha hc w hw hrest =>
    intro bs h
    simp [decodeQuanta, ha, hb, hc, hw, hrest] at h
  | case7 a b c d rest x y hb ha hc w hw hd hdd =>
    intro bs h
    simp [decodeQuanta, ha, hb, hc, hw, hd, hdd] at h
  | case8 a b c d rest x y hb ha hc w hw hd w2 hw2 err herr ih =>
    intro bs h
    simp [decodeQuanta, ha, hb, hc, hw, hd, hw2, herr] at h
  | case9 a b c d rest x y hb ha hc w hw hd w2 hw2 bs2 hbs ih =>
    intro bs _
    obtain ⟨h1, h2⟩ := ih bs2 hbs
    refine ⟨by simp only [List.length_cons]; omega, ?_⟩
    intro e he
    simp only [List.mem_cons] at he
    rcases he with rfl | rfl | rfl | rfl | he
    · simp [ha]
    · simp [hb]
    · simp [hw]
    · simp [hw2]
    · exact h2 e he
  | case10 a b c d rest hno =>
    intro bs h
    cases h1 : dec a with
    | none => simp [decodeQuanta, h1] at h
    | some x =>
      cases h2 : dec b with
      | none => simp [decodeQuanta, h1, h2] at h
      | some y => exact absurd trivial (fun _ => hno x y h1 h2)
  | case11 t h1 h2 =>
    intro bs h
    unfold decodeQuanta at h
    split at h
    · exact absurd rfl h1
    · rename_i a b c d rest
      exact absurd rfl (h2 a b c d rest)
    · cases h

/-- Texts that are not valid standard base64: `DecodeString` returns an error
on a text whose length without line breaks is not a multiple of four, and on a
text with a character that is neither of the alphabet, nor the padding
character, nor a line break. -/
theorem DecodeString_invalid (s : List Char)
    (h : (s.filter (fun c => c != '\n' && c != '\r')).length % 4 ≠ 0 ∨
      ∃ c ∈ s, (dec c).isSome = false ∧ c ≠ '=' ∧ c ≠ '\n' ∧ c ≠ '\r') :
    ∃ e, DecodeString s = .error e := by
  cases hd : DecodeString s with
  | error e => exact ⟨e, rfl⟩
  | ok bs =>
    exfalso
    obtain ⟨h1, h2⟩ := decodeQuanta_shape _ bs hd
    rcases h with h | ⟨c, hc, hdec, hne, hn, hr⟩
    · exact h h1
    · have hm : c ∈ s.filter (fun c => c != '\n' && c != '\r') := by
        rw [List.mem_filter]
        exact ⟨hc, by simp [hn, hr]⟩
      rcases h2 c hm with h3 | h3
      · rw [hdec] at h3; cases h3
      · exact hne h3

end base64

namespace base64

theorem enc_plain : ∀ n, n < 64 → json.plainJSON (enc n) = true := by decide

/-- The text of an encoding needs no escaping in a JSON string. -/
theorem EncodeToString_plain : ∀ (bs : List Byte), ∀ c ∈ EncodeToString bs,
    json.plainJSON c = true := by
  intro bs
  induction bs using EncodeToString.induct with
  | case1 => intro c hc; cases hc
  | case2 a =>
    have ha := a.isLt
    intro c hc
    simp only [EncodeToString, List.mem_cons, List.mem_singleton, List.not_mem_nil,
      or_false] at hc
    rcases hc with rfl | rfl | rfl | rfl
    · exact enc_plain _ (by omega)
    · exact enc_plain _ (by omega)
    · decide
    · decide
  | case3 a b =>
    have ha := a.isLt
    have hb := b.isLt
    intro c hc
    simp only [EncodeToString, List.mem_cons, List.mem_singleton, List.not_mem_nil,
      or_false] at hc
    rcases hc with rfl | rfl | rfl | rfl
    · exact enc_plain _ (by omega)
    · exact enc_plain _ (by omega)
    · exact enc_plain _ (by omega)
    · decide
  | case4 a b c rest ih =>
    have ha := a.isLt
    have hb := b.isLt
    have hc := c.isLt
    intro e he
    simp only [EncodeToString, List.mem_cons] at he
    rcases he with rfl | rfl | rfl | rfl | he
    · exact enc_plain _ (by omega)
    · exact enc_plain _ (by omega)
    · exact enc_plain _ (by omega)
    · exact enc_plain _ (by omega)
    · exact ih e he

end base64

namespace transaction

/-- What `UnmarshalJSON` does with a JSON text that `Marshal` wrote for a
usage string that needs no escaping and the encoding of some bytes: no error,
`Data` set to the bytes, the rest of the receiver as it was. -/
theorem UnmarshalJSON_of_Marshal (J : json.Codec) (hJ : J.RoundTrips) (attr : Attribute)
    (usage : List Char) (bs : List Byte) (hu : ∀ c ∈ usage, json.plainJSON c = true) :
    ∃ text, J.Marshal { Usage := usage, Data := base64.EncodeToString bs } = .ok text ∧
      attr.UnmarshalJSON J text = ({ attr with Data := bs }, none) := by
  obtain ⟨text, hm, hun⟩ := hJ { Usage := usage, Data := base64.EncodeToString bs }
    (fun c hc => by
      rcases List.mem_append.mp hc with h | h
      · exact hu c h
      · exact base64.EncodeToString_plain bs c h)
  refine ⟨text, hm, ?_⟩
  simp only [Attribute.UnmarshalJSON, hun, base64.DecodeString_EncodeToString]

/-- C27: the JSON form of an attribute ignores `Usage`. `MarshalJSON` hands
`json.Marshal` an empty `usage` string for every attribute, so two attributes
with equal `Data` and different `Usage` marshal to the same JSON;
`UnmarshalJSON` leaves the receiver's `Usage` unchanged on every input, and on
a JSON text written for any `usage` string (one that needs no escaping) it
returns no error and only sets `Data`. -/
theorem JSON_ignores_Usage (J : json.Codec) (hJ : J.RoundTrips) (a b attr : Attribute) :
    a.MarshalJSON J = J.Marshal { Usage := [], Data := base64.EncodeToString a.Data } ∧
    (a.Data = b.Data → a.MarshalJSON J = b.MarshalJSON J) ∧
    (∀ data, (attr.UnmarshalJSON J data).1.Usage = attr.Usage) ∧
    (∀ usage : List Char, (∀ c ∈ usage, json.plainJSON c = true) →
      ∃ text, J.Marshal { Usage := usage, Data := base64.EncodeToString a.Data } = .ok text ∧
        attr.UnmarshalJSON J text = ({ attr with Data := a.Data }, none)) := by
  refine ⟨rfl, ?_, ?_, ?_⟩
  · intro h
    simp only [Attribute.MarshalJSON, h]
  · intro data
    simp only [Attribute.UnmarshalJSON]
    split
    · rfl
    · split <;> rfl
  · intro usage hu
    exact UnmarshalJSON_of_Marshal J hJ attr usage a.Data hu

theorem JSON_ignores_Usage_witness :
    json.textCodec.RoundTrips ∧
    Attribute.MarshalJSON json.textCodec ⟨7, [1, 2]⟩ =
      .ok "\x7b\"usage\":\"\",\"data\":\"AQI=\"\x7d".data ∧
    (([1, 2] : List Byte) = [1, 2] →
      Attribute.MarshalJSON json.textCodec ⟨7, [1, 2]⟩ =
        Attribute.MarshalJSON json.textCodec ⟨200, [1, 2]⟩) ∧
    (Attribute.UnmarshalJSON json.textCodec ⟨9, [5]⟩
      "\x7b\"usage\":\"zz\",\"data\":\"AQI=\"\x7d".data).1.Usage = 9 :=
  ⟨json.textCodec_RoundTrips, by decide,
    (JSON_ignores_Usage json.textCodec json.textCodec_RoundTrips ⟨7, [1, 2]⟩ ⟨200, [1, 2]⟩
      ⟨9, [5]⟩).2.1,
    (JSON_ignores_Usage json.textCodec json.textCodec_RoundTrips ⟨7, [1, 2]⟩ ⟨200, [1, 2]⟩
      ⟨9, [5]⟩).2.2.1 _⟩

/-- C28: JSON round trip of the attribute payload. For every attribute `a`,
`MarshalJSON` returns a JSON text and `UnmarshalJSON` applied to it returns no
error and sets `Data` to `a.Data` (base64 decoding undoes base64 encoding).
When the `data` string of the input is not valid standard base64, that is,
when `DecodeString` refuses it (as it does a text whose length without line
breaks is not a multiple of four, or one with a character outside the alphabet,
the padding and the line breaks), `UnmarshalJSON` returns the error and leaves
the receiver unchanged. -/
theorem JSON_roundtrip_Data (J : json.Codec) (hJ : J.RoundTrips) (a attr : Attribute) :
    (∃ text, a.MarshalJSON J = .ok text ∧
      attr.UnmarshalJSON J text = ({ attr with Data := a.Data }, none)) ∧
    (∀ data aj e, J.Unmarshal data = .ok aj → base64.DecodeString aj.Data = .error e →
      attr.UnmarshalJSON J data = (attr, some e)) ∧
    (∀ data aj, J.Unmarshal data = .ok aj →
      ((aj.Data.filter (fun c => c != '\n' && c != '\r')).length % 4 ≠ 0 ∨
        ∃ c ∈ aj.Data, (base64.dec c).isSome = false ∧ c ≠ '=' ∧ c ≠ '\n' ∧ c ≠ '\r') →
      ∃ e, attr.UnmarshalJSON J data = (attr, some e)) := by
  refine ⟨UnmarshalJSON_of_Marshal J hJ attr [] a.Data (fun c hc => by cases hc), ?_, ?_⟩
  · intro data aj e h1 h2
    simp only [Attribute.UnmarshalJSON, h1, h2]
  · intro data aj h1 hbad
    obtain ⟨e, he⟩ := base64.DecodeString_invalid aj.Data hbad
    exact ⟨e, by simp only [Attribute.UnmarshalJSON, h1, he]⟩

theorem JSON_roundtrip_Data_witness :
    json.textCodec.RoundTrips ∧
    (∃ text, Attribute.MarshalJSON json.textCodec ⟨7, [1, 2, 255, 0]⟩ = .ok text ∧
      Attribute.UnmarshalJSON json.textCodec ⟨9, [5]⟩ text =
        ({ (⟨9, [5]⟩ : Attribute) with Data := [1, 2, 255, 0] }, none)) ∧
    Attribute.UnmarshalJSON json.textCodec ⟨9, [5]⟩
      "\x7b\"usage\":\"\",\"data\":\"AQI\"\x7d".data = (⟨9, [5]⟩, some Error.base64CorruptInput) :=
  ⟨json.textCodec_RoundTrips,
    (JSON_roundtrip_Data json.textCodec json.textCodec_RoundTrips ⟨7, [1, 2, 255, 0]⟩
      ⟨9, [5]⟩).1,
    by decide⟩

end transaction


/-! ## Native contracts: the direct call (pkg/core/native_contract_test.go) -/

namespace native

open stackitem interop core

/-- A dispatch from a frame that is not the frame of the contract fails. -/
theorem Dispatch_wrong_hash {W : Type} (ctx : Context) (vm : VM) (w : W) (c : Contract W)
    (methodName : List Byte) (args : List Item) (h : vm.scriptHash ≠ c.Hash) :
    ∃ e, (Dispatch ctx vm w c methodName args).result = .error e := by
  unfold Dispatch
  cases c.Methods.find? (fun m => m.Name = methodName && m.Parameters = args.length) with
  | none => exact ⟨_, rfl⟩
  | some m =>
    simp only []
    rw [if_pos h]
    exact ⟨_, rfl⟩

/-- The call of a named contract fails as the dispatch to it does. -/
theorem Call_of_error {W : Type} (ic : Interop W) (c : Contract W) (name operation : List Byte)
    (args rest : List Item) (e : CallError)
    (hstack : ic.vm.estack = .ByteArray name :: .ByteArray operation :: .Array args :: rest)
    (hc : ic.Natives.find? (fun c => c.Name = name) = some c)
    (hd : (Dispatch ic.ctx { ic.vm with estack := rest } ic.world c operation args).result
      = .error e) :
    Call ic = .error e := by
  unfold Call
  rw [hstack]
  simp only [Item.TryBytes, hc, hd]

/-- The call of a named contract pushes what the dispatch to it returns. -/
theorem Call_of_ok {W : Type} (ic : Interop W) (c : Contract W) (name operation : List Byte)
    (args rest : List Item) (r : Option Item) (vm : VM) (w : W)
    (hstack : ic.vm.estack = .ByteArray name :: .ByteArray operation :: .Array args :: rest)
    (hc : ic.Natives.find? (fun c => c.Name = name) = some c)
    (hd : (Dispatch ic.ctx { ic.vm with estack := rest } ic.world c operation args).result
      = .ok (r, vm, w)) :
    Call ic = .ok { ic with vm := { vm with estack := pushResult r vm.estack }, world := w } := by
  unfold Call
  rw [hstack]
  simp only [Item.TryBytes, hc, hd]

/-- The call of a named contract from a frame that is not its own fails,
whatever is below the name on the stack. -/
theorem Call_wrong_hash {W : Type} (ic : Interop W) (c : Contract W) (name : Item)
    (n : List Byte) (rest : List Item) (hstack : ic.vm.estack = name :: rest)
    (hname : name.TryBytes = .ok n)
    (hc : ic.Natives.find? (fun c => c.Name = n) = some c)
    (hhash : ic.vm.scriptHash ≠ c.Hash) :
    ∃ e, Call ic = .error e := by
  unfold Call
  rw [hstack]
  rcases rest with _ | ⟨operation, _ | ⟨args, rest⟩⟩
  · exact ⟨_, rfl⟩
  · exact ⟨_, rfl⟩
  · simp only []
    split
    · rename_i n2 op2 args2 h2 h3
      rw [hname] at h2
      cases h2
      rw [hc]
      simp only []
      obtain ⟨e, he⟩ := Dispatch_wrong_hash ic.ctx { ic.vm with estack := rest } ic.world c
        op2 args2 hhash
      rw [he]
      exact ⟨_, rfl⟩
    · exact ⟨_, rfl⟩

/-- The method `sum` of the test contract is found by its name and two
arguments. -/
theorem find_sum (hash : Uint160) (x y : Item) :
    (newTestNative hash).Methods.find?
        (fun m => m.Name = bytesOf "sum" && m.Parameters = [x, y].length)
      = some ⟨bytesOf "sum", 2, false, testNative.sum, testSumPrice, NoneFlag⟩ := by
  rfl

/-- The dispatch of `sum` on two integers from the frame of the test contract. -/
theorem Dispatch_sum (ctx : Context) (vm : VM) (w : testNative) (hash : Uint160) (a b : Int)
    (hhash : vm.scriptHash = hash) :
    (Dispatch ctx vm w (newTestNative hash) (bytesOf "sum") [.BigInteger a, .BigInteger b]).result
      = if vm.gasLeft < testSumPrice then .error .GasExhausted
        else if validInteger (a + b) then
          .ok (some (.BigInteger (a + b)),
            { vm with gasConsumed := vm.gasConsumed + testSumPrice }, w)
        else .error (.HandlerFault .integerTooBig) := by
  unfold Dispatch
  rw [find_sum]
  simp only []
  rw [if_neg (fun h => h hhash)]
  rw [if_neg (by simp [CallFlags.Has, NoneFlag])]
  by_cases hgas : vm.gasLeft < testSumPrice
  · rw [if_pos hgas, if_pos hgas]
  · rw [if_neg hgas, if_neg hgas]
    by_cases hv : validInteger (a + b)
    · rw [if_pos hv]
      simp [testNative.sum, Item.TryInteger, NewBigInteger, hv]
    · rw [if_neg hv]
      simp [testNative.sum, Item.TryInteger, NewBigInteger, hv]

/-- C23: native contracts cannot be called directly. `native.Call` returns an
error whenever the hash of the current script is not the hash of the contract
named on the top of the stack, whatever is below the name (method and
arguments). When the hashes match and the method is `sum` of the test contract
with two integer arguments, the call succeeds, the remaining gas covering the
price of `sum` and the sum being an integer of the fixed width: it pushes
exactly one item, the sum of the arguments, in place of the three items it
popped, and charges the price. -/
theorem Call_direct_refused :
    (∀ (W : Type) (ic : Interop W) (c : Contract W) (name : Item) (n : List Byte)
        (rest : List Item),
        ic.vm.estack = name :: rest → name.TryBytes = .ok n →
        ic.Natives.find? (fun c => c.Name = n) = some c →
        ic.vm.scriptHash ≠ c.Hash → ∃ e, Call ic = .error e) ∧
    (∀ (ic : Interop testNative) (hash : Uint160) (a b : Int) (rest : List Item),
        ic.Natives.find? (fun c => c.Name = bytesOf "Test.Native.Sum")
          = some (newTestNative hash) →
        ic.vm.scriptHash = hash →
        ic.vm.estack = .ByteArray (bytesOf "Test.Native.Sum") :: .ByteArray (bytesOf "sum")
          :: .Array [.BigInteger a, .BigInteger b] :: rest →
        testSumPrice ≤ ic.vm.gasLeft → validInteger (a + b) →
          Call ic = .ok { ic with vm := {
            ic.vm with estack := .BigInteger (a + b) :: rest,
                       gasConsumed := ic.vm.gasConsumed + testSumPrice } }) := by
  refine ⟨fun W ic c name n rest hstack hname hc hhash =>
    Call_wrong_hash ic c name n rest hstack hname hc hhash, ?_⟩
  intro ic hash a b rest hc hhash hstack hgas hv
  have hd := Dispatch_sum ic.ctx { ic.vm with estack := rest } ic.world hash a b hhash
  have hgl : VM.gasLeft { ic.vm with estack := rest } = ic.vm.gasLeft := rfl
  rw [hgl, if_neg (Nat.not_lt.mpr hgas), if_pos hv] at hd
  exact Call_of_ok ic _ _ _ _ rest _ _ _ hstack hc hd

/-- C23 (witness): the two calls of the test: from a script with hash 1, 2, 3
the call of `sum` on 14 and 28 fails; from the script of the contract it
leaves 42 on the stack. -/
theorem Call_direct_refused_witness :
    (∃ e, Call (W := testNative)
      { ctx := ⟨.Application, none⟩,
        vm := ⟨[1, 2, 3], AllFlags, [.ByteArray (bytesOf "Test.Native.Sum"),
          .ByteArray (bytesOf "sum"), .Array [.BigInteger 14, .BigInteger 28]], 0, 5000000⟩,
        Natives := [newTestNative [9]], world := ⟨[]⟩ } = .error e) ∧
    Call (W := testNative)
      { ctx := ⟨.Application, none⟩,
        vm := ⟨[9], AllFlags, [.ByteArray (bytesOf "Test.Native.Sum"),
          .ByteArray (bytesOf "sum"), .Array [.BigInteger 14, .BigInteger 28]], 0, 5000000⟩,
        Natives := [newTestNative [9]], world := ⟨[]⟩ }
      = .ok {
        ctx := ⟨.Application, none⟩,
        vm := ⟨[9], AllFlags, [.BigInteger 42], 1000000, 5000000⟩,
        Natives := [newTestNative [9]], world := ⟨[]⟩ } :=
  ⟨Call_direct_refused.1 testNative
      { ctx := ⟨.Application, none⟩,
        vm := ⟨[1, 2, 3], AllFlags, [.ByteArray (bytesOf "Test.Native.Sum"),
          .ByteArray (bytesOf "sum"), .Array [.BigInteger 14, .BigInteger 28]], 0, 5000000⟩,
        Natives := [newTestNative [9]], world := ⟨[]⟩ }
      (newTestNative [9]) _ (bytesOf "Test.Native.Sum") _ rfl rfl rfl (by decide),
    (Call_direct_refused.2
      { ctx := ⟨.Application, none⟩,
        vm := ⟨[9], AllFlags, [.ByteArray (bytesOf "Test.Native.Sum"),
          .ByteArray (bytesOf "sum"), .Array [.BigInteger 14, .BigInteger 28]], 0, 5000000⟩,
        Natives := [newTestNative [9]], world := ⟨[]⟩ }
      [9] 14 28 [] rfl rfl rfl (by decide) (by decide))⟩

end native


/-! ## Native contracts: the gas boundary of dispatch -/

namespace core

open stackitem interop

/-- A dispatch whose price the remaining gas does not cover fails before the
price is charged and before the handler runs. -/
theorem Dispatch_gas_short {W : Type} (ctx : Context) (vm : VM) (w : W) (c : Contract W)
    (method : List Byte) (args : List Item) (m : MethodAndPrice W)
    (hm : c.Methods.find? (fun m => m.Name = method && m.Parameters = args.length) = some m)
    (hgas : vm.gasLeft < m.Price) :
    (∃ e, (native.Dispatch ctx vm w c method args).result = .error e) ∧
      Stage.Priced ∉ (native.Dispatch ctx vm w c method args).stages ∧
      Stage.Executing ∉ (native.Dispatch ctx vm w c method args).stages := by
  unfold native.Dispatch
  rw [hm]
  simp only []
  by_cases h1 : vm.scriptHash ≠ c.Hash
  · rw [if_pos h1]
    exact ⟨⟨_, rfl⟩, by simp, by simp⟩
  · rw [if_neg h1]
    by_cases h2 : ¬ (vm.callFlags.Has m.RequiredFlags ∧ ctx.Trigger.permits.Has m.RequiredFlags)
    · rw [if_pos h2]
      exact ⟨⟨_, rfl⟩, by simp, by simp⟩
    · rw [if_neg h2, if_pos hgas]
      exact ⟨⟨_, rfl⟩, by simp, by simp⟩

/-- A dispatch from the frame of the contract, with the flags that the method
requires and the gas for its price, runs the handler and returns its value. -/
theorem Dispatch_gas_enough {W : Type} (ctx : Context) (vm : VM) (w w2 : W) (c : Contract W)
    (method : List Byte) (args : List Item) (m : MethodAndPrice W) (r : Item)
    (hm : c.Methods.find? (fun m => m.Name = method && m.Parameters = args.length) = some m)
    (hhash : vm.scriptHash = c.Hash)
    (hflags : vm.callFlags.Has m.RequiredFlags ∧ ctx.Trigger.permits.Has m.RequiredFlags)
    (hgas : m.Price ≤ vm.gasLeft) (hrun : m.Func ctx w args = .ok (r, w2)) :
    native.Dispatch ctx vm w c method args =
      ⟨[.Resolved, .PermissionChecked, .Priced, .Executing, .Succeeded],
        .ok (if m.Void then none else some r,
          { vm with gasConsumed := vm.gasConsumed + m.Price }, w2)⟩ := by
  unfold native.Dispatch
  rw [hm]
  simp only []
  rw [if_neg (fun h => h hhash), if_neg (fun h => h hflags), if_neg (Nat.not_lt.mpr hgas), hrun]

/-- C24: the gas boundary of native dispatch. For a call, through the
contract-call syscall, of a method that a registered native contract exposes:
if the fixed price of the method exceeds the gas that remains (by one unit or
more), the execution ends in Fault with no stack result, the state is left as it
was and the dispatch stops before the price is charged and the handler runs;
if the price is at most the remaining gas (the flags that the method requires
being held, and the handler returning a value for a method that is not void),
the execution ends in Halt with exactly one stack result, the value that the
handler returned, after the dispatch went through all its states. -/
theorem invoke_gas_boundary {W : Type} (ic : Interop W) (target : Uint160) (method : List Byte)
    (args : List Item) (c : Contract W) (m : MethodAndPrice W)
    (hc : ic.Natives.find? (fun c => c.Hash = target) = some c)
    (hm : c.Methods.find? (fun m => m.Name = method && m.Parameters = args.length) = some m) :
    (ic.vm.gasLeft < m.Price →
      (invoke ic target method args).VMState = .Fault ∧
      (invoke ic target method args).Stack = [] ∧
      (invoke ic target method args).world = ic.world ∧
      Stage.Priced ∉ (contract.Call ic target method args).stages ∧
      Stage.Executing ∉ (contract.Call ic target method args).stages) ∧
    (m.Price ≤ ic.vm.gasLeft → ic.vm.estack = [] →
      (ic.vm.callFlags.Has m.RequiredFlags ∧ ic.ctx.Trigger.permits.Has m.RequiredFlags) →
      m.Void = false →
      ∀ (r : Item) (w2 : W), m.Func ic.ctx ic.world args = .ok (r, w2) →
        (invoke ic target method args).VMState = .Halt ∧
        (invoke ic target method args).Stack = [r] ∧
        (invoke ic target method args).world = w2 ∧
        (contract.Call ic target method args).stages
          = [.Resolved, .PermissionChecked, .Priced, .Executing, .Succeeded]) := by
  constructor
  · intro hgas
    obtain ⟨⟨e, he⟩, hp, hx⟩ := Dispatch_gas_short ic.ctx { ic.vm with scriptHash := c.Hash }
      ic.world c method args m hm hgas
    have hcall : contract.Call ic target method args
        = ⟨(native.Dispatch ic.ctx { ic.vm with scriptHash := c.Hash } ic.world c method
            args).stages, .error e⟩ := by
      unfold contract.Call
      rw [hc]
      simp only [he]
    unfold invoke
    rw [hcall]
    exact ⟨rfl, rfl, rfl, hp, hx⟩
  · intro hgas hstack hflags hvoid r w2 hrun
    have hd := Dispatch_gas_enough ic.ctx { ic.vm with scriptHash := c.Hash } ic.world w2 c
      method args m r hm rfl hflags hgas hrun
    have hcall : contract.Call ic target method args
        = ⟨[.Resolved, .PermissionChecked, .Priced, .Executing, .Succeeded],
            .ok (some r, ⟨ic.vm.scriptHash, ic.vm.callFlags, [r],
              ic.vm.gasConsumed + m.Price, ic.vm.GasLimit⟩, w2)⟩ := by
      unfold contract.Call
      rw [hc]
      simp only []
      rw [hd]
      simp [hvoid, native.pushResult, hstack]
    unfold invoke
    rw [hcall]
    exact ⟨rfl, rfl, rfl, rfl⟩

/-- C24 (witness): the method `sum` of the test contract, priced 1000000, on 14
and 28: with 999999 units of gas remaining the execution Faults with no stack
result, with 1000000 it Halts with the single result 42. -/
theorem invoke_gas_boundary_witness :
    ((invoke (W := testNative)
        ⟨⟨.Application, none⟩, ⟨[7], AllFlags, [], 0, 999999⟩, [newTestNative [9]], ⟨[]⟩⟩
        [9] (bytesOf "sum") [.BigInteger 14, .BigInteger 28]).VMState = .Fault ∧
      (invoke (W := testNative)
        ⟨⟨.Application, none⟩, ⟨[7], AllFlags, [], 0, 999999⟩, [newTestNative [9]], ⟨[]⟩⟩
        [9] (bytesOf "sum") [.BigInteger 14, .BigInteger 28]).Stack = []) ∧
    ((invoke (W := testNative)
        ⟨⟨.Application, none⟩, ⟨[7], AllFlags, [], 0, 1000000⟩, [newTestNative [9]], ⟨[]⟩⟩
        [9] (bytesOf "sum") [.BigInteger 14, .BigInteger 28]).VMState = .Halt ∧
      (invoke (W := testNative)
        ⟨⟨.Application, none⟩, ⟨[7], AllFlags, [], 0, 1000000⟩, [newTestNative [9]], ⟨[]⟩⟩
        [9] (bytesOf "sum") [.BigInteger 14, .BigInteger 28]).Stack = [.BigInteger 42]) :=
  ⟨(fun h => ⟨h.1, h.2.1⟩) ((invoke_gas_boundary (W := testNative)
      ⟨⟨.Application, none⟩, ⟨[7], AllFlags, [], 0, 999999⟩, [newTestNative [9]], ⟨[]⟩⟩
      [9] (bytesOf "sum") [.BigInteger 14, .BigInteger 28] (newTestNative [9])
      ⟨bytesOf "sum", 2, false, testNative.sum, testSumPrice, NoneFlag⟩ rfl rfl).1
      (by decide)),
    (fun h => ⟨h.1, h.2.1⟩) ((invoke_gas_boundary (W := testNative)
      ⟨⟨.Application, none⟩, ⟨[7], AllFlags, [], 0, 1000000⟩, [newTestNative [9]], ⟨[]⟩⟩
      [9] (bytesOf "sum") [.BigInteger 14, .BigInteger 28] (newTestNative [9])
      ⟨bytesOf "sum", 2, false, testNative.sum, testSumPrice, NoneFlag⟩ rfl rfl).2
      (by decide) rfl (by decide) rfl (.BigInteger 42) ⟨[]⟩ rfl)⟩

end core


/-! ## Native contracts: the block hooks -/

namespace core

open stackitem interop

/-- The log of the hooks of one more contract starts with the hook of the
first. -/
theorem hookCalls_succ (post : Bool) (ctx : Context) (i n : Nat) :
    hookCalls post ctx i (n + 1) = ⟨i, post, ctx⟩ :: hookCalls post ctx (i + 1) n := by
  unfold hookCalls
  rw [List.range_succ_eq_map, List.map_cons, List.map_map]
  refine congrArg₂ _ rfl (List.map_congr_left (fun k _ => ?_))
  show HookCall.mk (i + (k + 1)) post ctx = HookCall.mk (i + 1 + k) post ctx
  rw [Nat.add_assoc, Nat.add_comm 1 k]

/-- A pass over recording OnPersist hooks acts on the state as the pass over
the hooks themselves and logs one invocation for each contract, in
registration order. -/
theorem runHooks_recorded_OnPersist {W : Type} (ctx : Context) (cs : List (Contract W)) :
    ∀ (i : Nat) (w w2 : W) (log : List HookCall),
      runHooks (fun c => c.OnPersist) ctx cs w = .ok w2 →
      runHooks (fun c => c.OnPersist) ctx (recordContracts i cs) (w, log)
        = .ok (w2, log ++ hookCalls false ctx i cs.length) := by
  induction cs with
  | nil =>
    intro i w w2 log h
    cases h
    simp [runHooks, recordContracts, hookCalls]
  | cons c cs ih =>
    intro i w w2 log h
    unfold runHooks at h
    cases hc : c.OnPersist ctx w [] with
    | error p => rw [hc] at h; cases h
    | ok rw2 =>
      rw [hc] at h
      have hstep : runHooks (fun c => c.OnPersist) ctx (recordContracts i (c :: cs)) (w, log)
          = runHooks (fun c => c.OnPersist) ctx (recordContracts (i + 1) cs)
              (rw2.2, log ++ [⟨i, false, ctx⟩]) := by
        simp [runHooks, recordContracts, recordContract, recordHook, hc]
      rw [hstep, ih (i + 1) rw2.2 w2 _ h, List.length_cons, hookCalls_succ]
      simp

/-- A pass over recording PostPersist hooks acts on the state as the pass over
the hooks themselves and logs one invocation for each contract, in
registration order. -/
theorem runHooks_recorded_PostPersist {W : Type} (ctx : Context) (cs : List (Contract W)) :
    ∀ (i : Nat) (w w2 : W) (log : List HookCall),
      runHooks (fun c => c.PostPersist) ctx cs w = .ok w2 →
      runHooks (fun c => c.PostPersist) ctx (recordContracts i cs) (w, log)
        = .ok (w2, log ++ hookCalls true ctx i cs.length) := by
  induction cs with
  | nil =>
    intro i w w2 log h
    cases h
    simp [runHooks, recordContracts, hookCalls]
  | cons c cs ih =>
    intro i w w2 log h
    unfold runHooks at h
    cases hc : c.PostPersist ctx w [] with
    | error p => rw [hc] at h; cases h
    | ok rw2 =>
      rw [hc] at h
      have hstep : runHooks (fun c => c.PostPersist) ctx (recordContracts i (c :: cs)) (w, log)
          = runHooks (fun c => c.PostPersist) ctx (recordContracts (i + 1) cs)
              (rw2.2, log ++ [⟨i, true, ctx⟩]) := by
        simp [runHooks, recordContracts, recordContract, recordHook, hc]
      rw [hstep, ih (i + 1) rw2.2 w2 _ h, List.length_cons, hookCalls_succ]
      simp

/-- The hooks of a block, recording: the log holds the OnPersist hooks of all
contracts in registration order and then their PostPersist hooks. -/
theorem persistHooks_recorded {W : Type} (cs : List (Contract W)) (b : Block) (w w2 : W)
    (h : persistHooks cs b w = .ok w2) :
    persistHooks (recordContracts 0 cs) b (w, [])
      = .ok (w2, hookCalls false ⟨.OnPersist, some b⟩ 0 cs.length
          ++ hookCalls true ⟨.PostPersist, some b⟩ 0 cs.length) := by
  unfold persistHooks at h
  cases h1 : runHooks (fun c => c.OnPersist) ⟨.OnPersist, some b⟩ cs w with
  | error p => rw [h1] at h; cases h
  | ok w1 =>
    rw [h1] at h
    unfold persistHooks
    rw [runHooks_recorded_OnPersist _ cs 0 w w1 [] h1]
    simp only []
    rw [runHooks_recorded_PostPersist _ cs 0 w1 w2 _ h]
    rfl

/-- C25: the block lifecycle hooks. For every block that the chain persists,
the chain with recording hooks persists it too, with the same effect on the
state, and its log shows every invocation: the OnPersist hook of each
registered native contract exactly once, in registration order, under trigger
OnPersist and with the context bound to that block, and only after all of
them the PostPersist hook of each contract, again in registration order, under
trigger PostPersist with the same block. The index of the block that the hooks
see is the height of the chain once the block is persisted. -/
theorem AddBlock_hooks_in_order {W : Type} (bc bc2 : Blockchain W) (b : Block)
    (h : bc.AddBlock b = .ok (some bc2)) :
    ∃ bc3, bc.recorded.AddBlock b = .ok (some bc3) ∧
      bc3.world = (bc2.world,
        hookCalls false ⟨.OnPersist, some b⟩ 0 bc.contracts.length
          ++ hookCalls true ⟨.PostPersist, some b⟩ 0 bc.contracts.length) ∧
      bc3.blockHeight = bc2.blockHeight ∧ b.Index = bc2.blockHeight := by
  unfold Blockchain.AddBlock at h
  by_cases hi : b.Index ≠ bc.blockHeight + 1
  · rw [if_pos hi] at h
    cases h
  · rw [if_neg hi] at h
    cases hp : persistHooks bc.contracts b bc.world with
    | error p => rw [hp] at h; cases h
    | ok w2 =>
      rw [hp] at h
      cases h
      have hr := persistHooks_recorded bc.contracts b bc.world w2 hp
      refine ⟨⟨b.Index, recordContracts 0 bc.contracts, (w2, _)⟩, ?_, rfl, rfl, rfl⟩
      unfold Blockchain.AddBlock Blockchain.recorded
      simp only []
      rw [if_neg hi, hr]

/-- C25 (witness): a chain at height 4 with two test contracts registered
persists block 5: the first OnPersist hook sends the index 5 to the channel,
and the log shows the OnPersist hooks of contracts 0 and 1 followed by their
PostPersist hooks, all bound to block 5. -/
theorem AddBlock_hooks_in_order_witness :
    ∃ bc3, (((Blockchain.mk 4 [] (⟨[]⟩ : testNative)).registerNative
        (newTestNative [9])).registerNative (newTestNative [8])).recorded.AddBlock ⟨5⟩
          = .ok (some bc3) ∧
      bc3.world = (⟨[5]⟩,
        [⟨0, false, ⟨.OnPersist, some ⟨5⟩⟩⟩, ⟨1, false, ⟨.OnPersist, some ⟨5⟩⟩⟩]
          ++ [⟨0, true, ⟨.PostPersist, some ⟨5⟩⟩⟩, ⟨1, true, ⟨.PostPersist, some ⟨5⟩⟩⟩]) ∧
      bc3.blockHeight = 5 ∧ 5 = 5 :=
  AddBlock_hooks_in_order
    (((Blockchain.mk 4 [] (⟨[]⟩ : testNative)).registerNative
      (newTestNative [9])).registerNative (newTestNative [8]))
    ⟨5, [newTestNative [9], newTestNative [8]], ⟨[5]⟩⟩ ⟨5⟩ rfl

end core


/-! ## JSONPath: negative indices and slice bounds -/

namespace jsonpath

/-- The index expression of `descentIndex` on a negative index: the test
`j < len(obj)` lets it through and `obj[j]` panics. -/
theorem indexLoop_negative (obj : List Value) (j : Int) (indices : List Int) (values : Slice)
    (hj : j < 0) : indexLoop obj (j :: indices) values = .error .indexOutOfRange := by
  have h1 : j < (obj.length : Int) := by omega
  simp only [indexLoop, h1, hj, if_true]

/-- Index access on selected objects the first of which is an array, with a
negative first index. -/
theorem descentIndex_negative (arr : List Value) (rest : List Value) (j : Int)
    (indices : List Int) (hj : j < 0) :
    descentIndex (Slice.of (.array arr :: rest)) (j :: indices) = .error .indexOutOfRange := by
  simp only [descentIndex, Slice.toList, descentIndexLoop, indexLoop_negative arr j indices _ hj]

/-- The slice expression of `descentRange` on one array, by the resolved
bounds. -/
theorem descentRange_single (arr : List Value) (start end_ : Int) :
    descentRange (Slice.of [.array arr]) start end_ =
      if sliceEnd end_ arr.length < sliceStart start arr.length then .ok (Slice.nil, false)
      else if sliceStart start arr.length < 0 then .error .sliceBounds
      else .ok (Slice.nil.append ((arr.drop (sliceStart start arr.length).toNat).take
        (sliceEnd end_ arr.length - sliceStart start arr.length).toNat), true) := by
  have hs : (if start < 0 then start + (arr.length : Int) else start)
      = sliceStart start arr.length := rfl
  simp only [descentRange, Slice.toList, descentRangeLoop, subEnd_eq, hs, sub_neg]

/-- The resolved end of a slice is at most the length of the array. -/
theorem sliceEnd_le_length (e : Int) (n : Nat) : sliceEnd e n ≤ n := by
  unfold sliceEnd
  split <;> omega

/-- C31: index access does read outside an array. For indices that are not
negative `descentIndex` returns and reads the positions below the length only,
skipping the others; but a negative index passes the only test, `j < len(obj)`,
and the index expression panics: on selected objects the first of which is an
array (of any length) and indices the first of which is negative `descentIndex`
does not return, and `Get` stops with the panic on `$[-1]` and on `$[0,-2]`. -/
theorem descentIndex_negative_panics :
    (∀ (objs : Slice) (idxs : List Nat),
      ∃ r, descentIndex objs (idxs.map (fun (i : Nat) => (i : Int))) = .ok (r, true) ∧
        r.toList = objs.toList.flatMap (elemsAt idxs)) ∧
    (∀ (arr rest : List Value) (j : Int) (indices : List Int), j < 0 →
      descentIndex (Slice.of (.array arr :: rest)) (j :: indices) = .error .indexOutOfRange) ∧
    Get "$[-1]" (Value.array [Value.number 1, Value.number 2, Value.number 3])
      = .error Fault.indexOutOfRange ∧
    Get "$[0,-2]" (Value.array [Value.number 1, Value.number 2, Value.number 3])
      = .error Fault.indexOutOfRange :=
  ⟨descentIndex_nat, descentIndex_negative, rfl, rfl⟩

/-- C32: slicing does read outside an array. On one array of length `n`, with
resolved bounds `start'` and `end'`, `descentRange` returns false when
`end' < start'`, and when it returns true the bounds satisfy
`0 ≤ start' ≤ end' ≤ n`; but when `start' < 0` and `start' ≤ end'`, as for a
negative start whose magnitude exceeds `n`, it does not return: the slice
expression panics. `Get` stops with that panic on `$[-10:]` and on `$[-10:-9]`
applied to a four-element array. -/
theorem descentRange_negative_start_panics (arr : List Value) (start end_ : Int) :
    (sliceEnd end_ arr.length < sliceStart start arr.length →
      descentRange (Slice.of [.array arr]) start end_ = .ok (Slice.nil, false)) ∧
    (∀ r, descentRange (Slice.of [.array arr]) start end_ = .ok (r, true) →
      0 ≤ sliceStart start arr.length ∧
      sliceStart start arr.length ≤ sliceEnd end_ arr.length ∧
      sliceEnd end_ arr.length ≤ arr.length) ∧
    (sliceStart start arr.length < 0 →
      sliceStart start arr.length ≤ sliceEnd end_ arr.length →
      descentRange (Slice.of [.array arr]) start end_ = .error .sliceBounds) ∧
    (start + arr.length < 0 → end_ ≤ 0 → start ≤ end_ →
      descentRange (Slice.of [.array arr]) start end_ = .error .sliceBounds) ∧
    Get "$[-10:]" (Value.array [Value.number 1, Value.number 2, Value.number 3,
      Value.number 4]) = .error Fault.sliceBounds ∧
    Get "$[-10:-9]" (Value.array [Value.number 1, Value.number 2, Value.number 3,
      Value.number 4]) = .error Fault.sliceBounds := by
  refine ⟨?_, ?_, ?_, ?_, rfl, rfl⟩
  · intro h
    rw [descentRange_single, if_pos h]
  · intro r h
    rw [descentRange_single] at h
    by_cases h1 : sliceEnd end_ arr.length < sliceStart start arr.length
    · rw [if_pos h1] at h
      cases h
    · rw [if_neg h1] at h
      by_cases h2 : sliceStart start arr.length < 0
      · rw [if_pos h2] at h
        cases h
      · exact ⟨by omega, by omega, sliceEnd_le_length _ _⟩
  · intro h1 h2
    rw [descentRange_single, if_neg (by omega), if_pos h1]
  · intro h1 h2 h3
    have hs : sliceStart start arr.length = start + arr.length := by
      unfold sliceStart
      rw [if_pos (by omega)]
    have he : sliceEnd end_ arr.length = end_ + arr.length := by
      unfold sliceEnd
      rw [if_pos h2]
    rw [descentRange_single, if_neg (by omega), if_pos (by omega)]

end jsonpath


/-! ## Balance states: the plain decoder on governance encodings, and the height -/

namespace state

open stackitem io

variable {K : keys.Scheme}

/-- An integer of the signed 64-bit range is a valid stack-item integer. -/
theorem validInteger_of_int64 (h : Int) (h1 : -(2 ^ 63 : Int) ≤ h) (h2 : h < 2 ^ 63) :
    validInteger h := by
  rw [bigint.validInteger_iff]
  have hp : (2 ^ 63 : Int) ≤ 128 * 256 ^ 31 := by norm_num
  constructor <;> omega

/-- On an integer of the signed 64-bit range `Int64` is the integer itself. -/
theorem Int64_of_int64 (h : Int) (h1 : -(2 ^ 63 : Int) ≤ h) (h2 : h < 2 ^ 63) :
    Int64 h = h := by
  simp only [Int64]
  split <;> omega

/-- The bytes of a three-field balance struct, and what the item decoder reads
from them. -/
theorem decode_balance_struct (v h : Int) (vote : Option K.PublicKey) (hv : validInteger v)
    (hh : validInteger h) :
    ∃ b, encodeItem (.Struct [.BigInteger v, .BigInteger h,
        match vote with
        | some k => .ByteArray (K.Bytes k)
        | none => .Null]) = .ok b ∧ b ≠ [] ∧
      decodeItem b.length b = .ok (.Struct [.BigInteger v, .BigInteger h,
        match vote with
        | some k => .ByteArray (K.Bytes k)
        | none => .Null], []) := by
  have h2 := decode_struct3 ((putVarBytes (bigint.ToBytes v)).length) v h hv hh
    (vote.map K.Bytes)
    (by
      intro kb hkb
      cases vote with
      | none => simp at hkb
      | some k =>
        simp only [Option.map_some', Option.some.injEq] at hkb
        rw [← hkb]; exact K.Bytes_length k) []
  cases vote with
  | none =>
    refine ⟨StructT :: (putVarUint 3 ++ (IntegerT :: (putVarBytes (bigint.ToBytes v) ++
      (IntegerT :: (putVarBytes (bigint.ToBytes h) ++ [AnyT]))))), ?_, by simp, ?_⟩
    · simp [encodeItem, encodeItems]
    · refine decodeItem_fuel_le ?_ _ _ h2
      simp only [List.length_cons, List.length_append, putVarUint_small 3 (by decide)]
      omega
  | some k =>
    refine ⟨StructT :: (putVarUint 3 ++ (IntegerT :: (putVarBytes (bigint.ToBytes v) ++
      (IntegerT :: (putVarBytes (bigint.ToBytes h) ++
        (ByteArrayT :: (putVarBytes (K.Bytes k) ++ []))))))), ?_, by simp, ?_⟩
    · simp [encodeItem, encodeItems]
    · refine decodeItem_fuel_le ?_ _ _ h2
      simp only [List.length_cons, List.length_append, putVarUint_small 3 (by decide)]
      omega

/-- C34: the plain balance decoder reads governance-token encodings. For every
NEOBalanceState `s` whose Balance is a valid stack-item integer (the
BalanceHeight being a uint32), `Bytes` returns, and whenever `s.Bytes()`
returns, `NEP17BalanceStateFromBytes` applied to the bytes returns no error and
the state whose Balance is `s.Balance`: it reads the first field of the struct
only. -/
theorem NEP17FromBytes_of_NEO_Bytes (K : keys.Scheme) (s : NEOBalanceState K)
    (hv : validInteger s.Balance) (hh : s.BalanceHeight < 2 ^ 32) :
    (∃ b, s.Bytes = .ok b) ∧
    ∀ b, s.Bytes = .ok b →
      NEP17BalanceStateFromBytes b = .ok (some { Balance := s.Balance }, none) := by
  refine ⟨⟨_, NEO_Bytes_eq s hv (validInteger_height _ hh)⟩, ?_⟩
  intro b hb
  have hne : b ≠ [] := by
    rw [NEO_Bytes_eq s hv (validInteger_height _ hh)] at hb
    simp only [Except.ok.injEq] at hb
    rw [← hb]
    simp
  rw [NEP17FromBytes_of_decode b _ [] hne (NEO_decode_Bytes s b hb)]
  rfl

/-- C34 (witness): the governance state with balance 100000000, height 7 and the
base point as delegate. -/
theorem NEP17FromBytes_of_NEO_Bytes_witness :
    validInteger (100000000 : Int) ∧ (7 : Nat) < 2 ^ 32 ∧
    (∃ b, NEOBalanceState.Bytes (K := keys.P256) ⟨⟨100000000⟩, 7, some keys.basePoint⟩
      = .ok b) ∧
    ∀ b, NEOBalanceState.Bytes (K := keys.P256) ⟨⟨100000000⟩, 7, some keys.basePoint⟩
        = .ok b →
      NEP17BalanceStateFromBytes b = .ok (some { Balance := 100000000 }, none) :=
  ⟨by decide, by decide,
    NEP17FromBytes_of_NEO_Bytes keys.P256 ⟨⟨100000000⟩, 7, some keys.basePoint⟩
      (by decide) (by decide)⟩

/-- C35: the balance height is reduced modulo 2^32 on decode. For the encoding
of every three-field balance struct whose first item is a valid integer `v`,
whose second item is an integer `h` of the signed 64-bit range and whose third
item is Null or the bytes of a valid key, `NEOBalanceStateFromBytes` returns no
error and the state with Balance `v`, that delegate and BalanceHeight
`h mod 2^32`: a stored height outside `0 .. 2^32-1` is accepted and changed. -/
theorem NEOFromBytes_height_mod (K : keys.Scheme) (v h : Int) (vote : Option K.PublicKey)
    (hv : validInteger v) (h1 : -(2 ^ 63 : Int) ≤ h) (h2 : h < 2 ^ 63) :
    ∃ b, encodeItem (.Struct [.BigInteger v, .BigInteger h,
        match vote with
        | some k => .ByteArray (K.Bytes k)
        | none => .Null]) = .ok b ∧
      NEOBalanceStateFromBytes K b =
        .ok (some { Balance := v, BalanceHeight := (h % 2 ^ 32).toNat, VoteTo := vote },
          none) := by
  obtain ⟨b, hb, hne, hd⟩ := decode_balance_struct v h vote hv (validInteger_of_int64 h h1 h2)
  refine ⟨b, hb, ?_⟩
  rw [NEOFromBytes_of_decode b _ [] hne hd]
  refine (congrArg (Except.map _)
    (NEO_fromStackItem_eq (NEOBalanceState.new K) v h vote)).trans ?_
  rw [Int64_of_int64 h h1 h2]
  rfl

/-- C35 (witness): the stored heights -1 and 2^32 + 5 are read as 2^32 - 1 and
5. -/
theorem NEOFromBytes_height_mod_witness :
    (∃ b, encodeItem (.Struct [.BigInteger 10, .BigInteger (-1), .Null]) = .ok b ∧
      NEOBalanceStateFromBytes keys.P256 b =
        .ok (some { Balance := 10, BalanceHeight := 4294967295, VoteTo := none }, none)) ∧
    (∃ b, encodeItem (.Struct [.BigInteger 10, .BigInteger 4294967301, .Null]) = .ok b ∧
      NEOBalanceStateFromBytes keys.P256 b =
        .ok (some { Balance := 10, BalanceHeight := 5, VoteTo := none }, none)) :=
  ⟨NEOFromBytes_height_mod keys.P256 10 (-1) none (by decide) (by decide) (by decide),
    NEOFromBytes_height_mod keys.P256 10 4294967301 none (by decide) (by decide) (by decide)⟩

end state


/-! ## JSONPath: termination of the recursive descent -/

namespace jsonpath

mutual
theorem Value.height_eq_depth : ∀ v : Value, v.height = v.depth + 1
  | .array xs => by
    simp only [Value.height, Value.depth, heightList_eq_depthBelow xs]
  | .object kvs => by
    simp only [Value.height, Value.depth, heightEntries_eq_depthBelow kvs]
  | .null => rfl
  | .bool _ => rfl
  | .number _ => rfl
  | .string _ => rfl
theorem heightList_eq_depthBelow : ∀ l : List Value, heightList l = depthBelow l
  | [] => rfl
  | x :: xs => by
    simp only [heightList, depthBelow, Value.height_eq_depth x, heightList_eq_depthBelow xs]
theorem heightEntries_eq_depthBelow : ∀ l : List (String × Value),
    heightEntries l = depthBelowEntries l
  | [] => rfl
  | (_, v) :: kvs => by
    simp only [heightEntries, depthBelowEntries, Value.height_eq_depth v,
      heightEntries_eq_depthBelow kvs]
end

/-- A value of a list is at most as high as the list. -/
theorem height_le_heightList : ∀ (l : List Value) (v : Value), v ∈ l → v.height ≤ heightList l := by
  intro l
  induction l with
  | nil => intro v hv; cases hv
  | cons x l ih =>
    intro v hv
    simp only [heightList]
    rcases List.mem_cons.mp hv with h | h
    · rw [h]; exact Nat.le_max_left _ _
    · exact Nat.le_trans (ih v h) (Nat.le_max_right _ _)

/-- Selected objects of depth at most `D` are at most `D + 1` high. -/
theorem heightList_le_of_depth (l : List Value) (D : Nat) (hD : ∀ v ∈ l, v.depth ≤ D) :
    heightList l ≤ D + 1 :=
  heightList_le (D + 1) l (fun v hv => by
    rw [Value.height_eq_depth]
    exact Nat.succ_le_succ (hD v hv))

/-- A value of depth 0, a scalar or an empty array or map, has no children. -/
theorem children_of_depth_zero (v : Value) (h : v.depth = 0) : children v = [] := by
  have hh : heightList (children v) < v.height := heightList_children v
  rw [Value.height_eq_depth, h] at hh
  exact heightList_eq_zero _ (by omega)

/-- One more iteration than needed does not change the result of the loop of
`recursiveDescent`. -/
theorem recursiveDescentLoop_succ (typ : pathTokenType) (val : String) :
    ∀ (fuel : Nat) (objs values r : Slice),
      recursiveDescentLoop typ val fuel objs values = .ok r →
      recursiveDescentLoop typ val (fuel + 1) objs values = .ok r := by
  intro fuel
  induction fuel with
  | zero =>
    intro objs values r h
    by_cases hl : objs.len > 0
    · simp [recursiveDescentLoop, hl] at h
    · simp only [recursiveDescentLoop, hl, if_false] at h ⊢
      exact h
  | succ fuel ih =>
    intro objs values r h
    by_cases hl : objs.len > 0
    · by_cases ht : typ = .pathAsterisk
      · subst ht
        simp only [recursiveDescentLoop, hl, if_true] at h
        have h2 := ih _ _ _ h
        simp only [recursiveDescentLoop, hl, if_true] at h2 ⊢
        exact h2
      · simp only [recursiveDescentLoop, hl, ht, if_true, if_false] at h
        have h2 := ih _ _ _ h
        simp only [recursiveDescentLoop, hl, ht, if_true, if_false] at h2 ⊢
        exact h2
    · simp only [recursiveDescentLoop, hl, if_false] at h ⊢
      exact h

/-- More iterations than needed do not change the result of the loop. -/
theorem recursiveDescentLoop_le (typ : pathTokenType) (val : String) (objs values r : Slice)
    (f g : Nat) (hfg : f ≤ g) (h : recursiveDescentLoop typ val f objs values = .ok r) :
    recursiveDescentLoop typ val g objs values = .ok r := by
  induction hfg with
  | refl => exact h
  | step _ ih => exact recursiveDescentLoop_succ typ val _ objs values r ih

/-- C33: recursive descent terminates. For selected objects of depth at most
`D` (a scalar, an empty array and an empty map have depth 0), the loop of
`recursiveDescent` stops after at most `D + 1` iterations: bounded by `D + 1`
iterations, or by any larger number, it returns, with the same result. The
reason is that a wildcard descent replaces the objects by their children,
which are less deep (of depth at most `D - 1`, none at all for `D = 0`: a
value of depth 0 has no children). No iteration is made on an empty list of
objects, and `recursiveDescent` itself, which runs the loop, never stops at
the bound of the modelled loop. -/
theorem recursiveDescent_terminates (typ : pathTokenType) (val : String) (objs values : Slice)
    (D : Nat) (hD : ∀ v ∈ objs.toList, v.depth ≤ D) :
    (∃ r, recursiveDescentLoop typ val (D + 1) objs values = .ok r ∧
      ∀ fuel, D + 1 ≤ fuel → recursiveDescentLoop typ val fuel objs values = .ok r) ∧
    (descent objs).1.toList = objs.toList.flatMap children ∧
    (∀ v ∈ (descent objs).1.toList, v.depth + 1 ≤ D) ∧
    (∀ v : Value, v.depth = 0 → children v = []) ∧
    (objs.toList = [] → recursiveDescentLoop typ val 0 objs values = .ok values) ∧
    (∀ p : pathParser, p.recursiveDescent objs ≠ .error .fuel) := by
  have hh := heightList_le_of_depth objs.toList D hD
  obtain ⟨r, hr, _⟩ := recursiveDescentLoop_levels typ val (D + 1) objs values hh
  refine ⟨⟨r, hr, fun fuel hf => recursiveDescentLoop_le typ val objs values r _ _ hf hr⟩,
    (descent_eq objs).1, ?_, children_of_depth_zero, ?_, fun p => (forward_recursiveDescent p objs).1⟩
  · intro v hv
    rw [(descent_eq objs).1] at hv
    have h1 := heightList_flatMap_children D objs.toList hh
    have h2 := height_le_heightList _ v hv
    rw [Value.height_eq_depth] at h2
    omega
  · intro he
    have hl : ¬ objs.len > 0 := by rw [Slice.len_pos_iff]; simp [he]
    simp [recursiveDescentLoop, hl]

/-- C33 (witness): an array of the array `[1]` and a map with one number has
depth 2; the loop of the
descent `..*` on it stops within three iterations and returns the values of
the two levels below it. -/
theorem recursiveDescent_terminates_witness :
    (∀ v ∈ (Slice.of [Value.array [Value.array [Value.number 1],
        Value.object [("a", Value.number 2)]]]).toList, v.depth ≤ 2) ∧
    ∃ r, recursiveDescentLoop .pathAsterisk "" 3
        (Slice.of [Value.array [Value.array [Value.number 1],
          Value.object [("a", Value.number 2)]]]) Slice.nil = .ok r ∧
      ∀ fuel, 3 ≤ fuel → recursiveDescentLoop .pathAsterisk "" fuel
        (Slice.of [Value.array [Value.array [Value.number 1],
          Value.object [("a", Value.number 2)]]]) Slice.nil = .ok r :=
  ⟨by simp [Slice.toList, Value.depth, depthBelow, depthBelowEntries],
    (recursiveDescent_terminates .pathAsterisk ""
      (Slice.of [Value.array [Value.array [Value.number 1],
        Value.object [("a", Value.number 2)]]]) Slice.nil 2
      (by simp [Slice.toList, Value.depth, depthBelow, depthBelowEntries])).1⟩

end jsonpath


/-! ## The code generator: operators and jumps (pkg/vm/compiler/codegen.go) -/

namespace compiler

open token

/-- A token that `convertToken` supports makes it write exactly one opcode. -/
theorem convertToken_one_opcode (c c2 : codegen) (tok : Token)
    (h : c.convertToken tok = .ok c2) : ∃ op, c2.prog = c.prog ++ [op] ∧ c2.l = c.l := by
  cases tok <;> simp only [codegen.convertToken] at h <;> cases h <;> exact ⟨_, rfl, rfl⟩

/-- Two opcodes written to the same program give the same program only if they
are the same opcode. -/
theorem emitOpcode_inj (c : codegen) (a b : vm.Opcode)
    (h : (.ok (emitOpcode c a) : Go codegen) = .ok (emitOpcode c b)) : a = b := by
  simp only [emitOpcode, Except.ok.injEq, codegen.mk.injEq, and_true] at h
  simpa using List.append_cancel_left h

/-- C36: `convertToken` writes exactly one opcode for each token that it
supports, and different opcodes for `<`, `<=`, `>`, `>=` and `==`; but `!=` is
compiled to the opcode of `==`, `Onumequal`, which is not the opcode of the
inequality of numbers: the claim fails for the pair `==`, `!=`. -/
theorem convertToken_NEQ_as_EQL (c : codegen) :
    (∀ (tok : Token) (c2 : codegen), c.convertToken tok = .ok c2 →
      ∃ op, c2.prog = c.prog ++ [op] ∧ c2.l = c.l) ∧
    (∀ t1 ∈ [Token.LSS, Token.LEQ, Token.GTR, Token.GEQ, Token.EQL],
      ∀ t2 ∈ [Token.LSS, Token.LEQ, Token.GTR, Token.GEQ, Token.EQL],
        t1 ≠ t2 → c.convertToken t1 ≠ c.convertToken t2) ∧
    c.convertToken Token.NEQ = .ok (emitOpcode c vm.Onumequal) ∧
    c.convertToken Token.NEQ = c.convertToken Token.EQL ∧
    vm.Onumequal ≠ vm.Onumnotequal := by
  refine ⟨fun tok c2 h => convertToken_one_opcode c c2 tok h, ?_, rfl, rfl, by decide⟩
  intro t1 h1 t2 h2 hne heq
  simp only [List.mem_cons, List.mem_singleton, List.not_mem_nil, or_false] at h1 h2
  rcases h1 with rfl | rfl | rfl | rfl | rfl <;> rcases h2 with rfl | rfl | rfl | rfl | rfl <;>
    first
    | exact hne rfl
    | exact absurd (emitOpcode_inj c _ _ heq) (by decide)

end compiler


namespace compiler

/-- The first step of the loop of `writeJumps` on a jump whose operand is the
number of labels: the test `int(index) > len(c.l)` lets it through and
`c.l[index]` panics. -/
theorem writeJumpsLoop_index_at_length (l : List Int) (k : Nat) (op b0 b1 : Byte)
    (rest : List Byte) (hop : op = vm.Ojmpifnot ∨ op = vm.Ojmpif ∨ op = vm.Ocall)
    (hidx : binary.Uint16 b0 b1 = l.length) :
    writeJumpsLoop l (k + 1) 0 (op :: b0 :: b1 :: rest) = .error .indexOutOfRange := by
  have hnone : l.get? l.length = none := List.get?_eq_none.mpr (Nat.le_refl _)
  simp only [writeJumpsLoop, List.get?, hop, if_true, hidx, gt_iff_lt, Nat.lt_irrefl,
    if_false, hnone]

/-- The first step of the loop of `writeJumps` on a jump that is the last byte
of the array of the buffer, or the last but one: the slice expression panics. -/
theorem writeJumpsLoop_short (l : List Int) (k : Nat) (op : Byte) (rest : List Byte)
    (hop : op = vm.Ojmpifnot ∨ op = vm.Ojmpif ∨ op = vm.Ocall) (hrest : rest.length < 2) :
    writeJumpsLoop l (k + 1) 0 (op :: rest) = .error .sliceBounds := by
  rcases rest with _ | ⟨b0, _ | ⟨b1, rest⟩⟩
  · simp only [writeJumpsLoop, List.get?, hop, if_true]
  · simp only [writeJumpsLoop, List.get?, hop, if_true]
  · simp at hrest
    omega

/-- C37: jump resolution does not stay in bounds. `writeJumps` tests
`int(index) > len(c.l)` before it reads `c.l[index]`: on a program that starts
with a jump or call whose 2-byte operand is the number of labels, it panics
with an index out of range, whatever follows in the buffer; so it does on the
three bytes of a jump to label 0 with an empty label table. With an operand
above the number of labels the instruction is left unchanged, and with one
below it the offset is written. The 2-byte operand is read without a test
against the length of the buffer: a jump opcode in the last byte makes the
slice expression panic when the array of the buffer ends there, and makes
`writeJumps` read, and write, two bytes beyond the buffer when the capacity
allows. -/
theorem writeJumps_out_of_bounds :
    (∀ (op b0 b1 : Byte) (rest spare : List Byte) (l : List Int),
      (op = vm.Ojmpifnot ∨ op = vm.Ojmpif ∨ op = vm.Ocall) →
      binary.Uint16 b0 b1 = l.length →
      codegen.writeJumps ⟨op :: b0 :: b1 :: rest, l⟩ spare = .error .indexOutOfRange) ∧
    codegen.writeJumps ⟨[vm.Ojmpif, 0, 0], []⟩ [] = .error .indexOutOfRange ∧
    codegen.writeJumps ⟨[vm.Ojmpif, 1, 0], []⟩ [] = .ok (⟨[vm.Ojmpif, 1, 0], []⟩, []) ∧
    codegen.writeJumps ⟨[vm.Ojmpif, 0, 0, 0x61], [4]⟩ []
      = .ok (⟨[vm.Ojmpif, 4, 0, 0x61], [4]⟩, []) ∧
    (∀ (op : Byte) (l : List Int), (op = vm.Ojmpifnot ∨ op = vm.Ojmpif ∨ op = vm.Ocall) →
      codegen.writeJumps ⟨[op], l⟩ [] = .error .sliceBounds ∧
      codegen.writeJumps ⟨[op], l⟩ [0] = .error .sliceBounds) ∧
    codegen.writeJumps ⟨[0x61, vm.Ocall], [9]⟩ [0, 0]
      = .ok (⟨[0x61, vm.Ocall], [9]⟩, [8, 0]) := by
  refine ⟨?_, by decide, by decide, by decide, ?_, by decide⟩
  · intro op b0 b1 rest spare l hop hidx
    have h := writeJumpsLoop_index_at_length l (rest.length + 2) op b0 b1 (rest ++ spare)
      hop hidx
    simp only [codegen.writeJumps, List.length_cons, List.cons_append]
    rw [h]
  · intro op l hop
    constructor
    · have h := writeJumpsLoop_short l 0 op [] hop (by decide)
      simp only [codegen.writeJumps, List.length_cons, List.length_nil, List.cons_append,
        List.nil_append, List.append_nil]
      rw [h]
    · have h := writeJumpsLoop_short l 0 op [0] hop (by decide)
      simp only [codegen.writeJumps, List.length_cons, List.length_nil, List.cons_append,
        List.nil_append]
      rw [h]

end compiler

end NeoGo
